import Mathlib

/-!
Static allocation planner (lotus/core/framework/allocation_planner.cc)

A shallow embedding of `PlannerImpl` and of the data it reads and writes.

* C++ exceptions (`LOTUS_ENFORCE`, `std::vector::at`, a null dereference) and
  failing `Status` results are the two constructors of `PlanError`; every
  planner function runs in `Except PlanError`.
* `std::vector` is `List`; `v.at(n)` is `v[n]?` with `none` raising.
* `MLValueIndex`, `NodeIndex` are `Nat`; `usecount` is `Int` (it is decremented
  without a guard in the source).
* A `NodeArg*` is identified with the name of the `NodeArg` it points to: the
  graph owns one `NodeArg` per name, so pointer comparison of existing args is
  comparison of names.
-/

namespace Lotus

abbrev MLValueIndex := Nat
abbrev MLValueName := String
abbrev NodeIndex := Nat

/-- Outcome of a planner call that does not produce a plan. -/
inductive PlanError where
  | status (msg : String)
  | thrown
deriving DecidableEq, Repr

inductive AllocKind where
  | kAllocate
  | kReuse
  | kPreExisting
  | kAllocateStatically
  | kAllocateOutput
deriving DecidableEq, Repr

inductive MemType where
  | kMemTypeCPUInput
  | kMemTypeCPUOutput
  | kMemTypeDefault
deriving DecidableEq, Repr

/-- Allocator descriptor `{name, device id, memory type}`. -/
structure AllocatorInfo where
  name : String
  id : Int
  mem_type : MemType
deriving DecidableEq, Repr

/-- The constant `CPU` naming the CPU allocator. -/
def CPU : String := "Cpu"

instance : Inhabited AllocatorInfo := ⟨⟨CPU, 0, MemType.kMemTypeDefault⟩⟩

/-- One axis of a `TensorShapeProto`: a known extent, a symbolic parameter, or neither. -/
inductive Dimension where
  | dim_value (v : Int)
  | dim_param (p : String)
  | unset
deriving DecidableEq, Repr

def Dimension.has_dim_value : Dimension → Bool
  | .dim_value _ => true
  | _ => false

def Dimension.has_dim_param : Dimension → Bool
  | .dim_param _ => true
  | _ => false

abbrev TensorShapeProto := List Dimension

/-- Type descriptor of a value. A tensor type carries its element type and the byte size
that the type system reports for that element type (the table itself is outside the planner). -/
inductive DataType where
  | tensor (elem_type : Nat) (elem_size : Nat)
  | non_tensor (tag : Nat)
deriving DecidableEq, Repr

structure NodeArg where
  Name : MLValueName
  Exists : Bool
  Type_ : DataType
  Shape : Option TensorShapeProto
deriving DecidableEq, Repr

structure Node where
  Index : NodeIndex
  OpType : String
  Name : String
  InputDefs : List NodeArg
  OutputDefs : List NodeArg
  ExecutionProviderType : String
deriving DecidableEq, Repr

/-- Kernel metadata read by the planner. The two memory-type maps are association lists
(`find` is `List.lookup`). -/
structure KernelDef where
  Alias : List (Int × Int)
  MayInplace : List (Int × Int)
  InputMemoryType : List (Nat × MemType)
  OutputMemoryType : List (Nat × MemType)
  ExecQueueId : Int
deriving DecidableEq, Repr

/-- The graph as the planner sees it. -/
structure Graph where
  Nodes : List Node
  NodesInTopologicalOrder : Except String (List NodeIndex)
  source_node_index : NodeIndex
  sink_node_index : NodeIndex
  Inputs : List NodeArg
  Outputs : List NodeArg
  AllInitializedTensors : List MLValueName
  NodeArgs : List NodeArg

def Graph.GetNode (g : Graph) (i : NodeIndex) : Option Node :=
  g.Nodes.find? (fun n => n.Index == i)

def Graph.IsSourceNode (g : Graph) (i : NodeIndex) : Bool := i == g.source_node_index

def Graph.IsSinkNode (g : Graph) (i : NodeIndex) : Bool := i == g.sink_node_index

def Graph.FindNodeArg (g : Graph) (name : MLValueName) : Option NodeArg :=
  g.NodeArgs.find? (fun a => a.Name == name)

/-- The name of the fixed CPU execution provider. -/
def kCpuExecutionProvider : String := "CPUExecutionProvider"

structure SessionState where
  Graph : Option Graph
  GetMLValueIdx : MLValueName → Option MLValueIndex
  GetMaxMLValueIdx : Int
  GetKernelDef : NodeIndex → Option KernelDef
  GetAllocatorInfo : NodeIndex → MemType → AllocatorInfo
  GetExecutionProvider : String → Option (MemType → AllocatorInfo)

structure ISequentialPlannerContext where
  GetShape : NodeArg → Option TensorShapeProto

/-- Per-value allocation decision. A default-constructed entry is `kAllocate` with the
default (CPU) allocator descriptor standing for the unset location. -/
structure AllocPlanPerValue where
  alloc_kind : AllocKind := AllocKind.kAllocate
  value_type : Option DataType := none
  location : AllocatorInfo := default
  reused_buffer : MLValueIndex := 0
  create_fence : Bool := false
deriving DecidableEq, Repr

/-- One scheduled node; the default range `[1, 0]` is empty. -/
structure NodeExecutionPlan where
  node_index : NodeIndex
  free_from_index : Int := 1
  free_to_index : Int := 0
deriving DecidableEq, Repr

structure SequentialExecutionPlan where
  allocation_plan : List AllocPlanPerValue
  execution_plan : List NodeExecutionPlan
  to_be_freed : List MLValueIndex
deriving DecidableEq, Repr

structure MLValueInfo where
  p_def_site : Option NodeArg := none
  usecount : Int := 0
  reused_buffer_index : MLValueIndex := 0
deriving DecidableEq, Repr

structure FreeBufferInfo where
  ml_value : MLValueIndex
  deallocate_point : Nat
deriving DecidableEq, Repr

/-- The mutable members of `PlannerImpl`. -/
structure PlannerImpl where
  ml_value_info_ : List MLValueInfo
  freelist_ : List FreeBufferInfo
  plan_ : SequentialExecutionPlan
deriving DecidableEq, Repr

abbrev M := Except PlanError

/-- `Index(name)`: the ml-value index of a name; an unknown name raises. -/
def Index (ss : SessionState) (name : MLValueName) : M MLValueIndex :=
  match ss.GetMLValueIdx name with
  | some i => .ok i
  | none => .error PlanError.thrown

/-- `ml_value_info_.at(n)`. -/
def PlannerImpl.info (p : PlannerImpl) (n : MLValueIndex) : M MLValueInfo :=
  match p.ml_value_info_[n]? with
  | some i => .ok i
  | none => .error PlanError.thrown

/-- Assignment through a reference obtained from `ml_value_info_.at(n)`. -/
def PlannerImpl.modifyInfo (p : PlannerImpl) (n : MLValueIndex) (f : MLValueInfo → MLValueInfo) :
    M PlannerImpl :=
  match p.ml_value_info_[n]? with
  | some i => .ok { p with ml_value_info_ := p.ml_value_info_.set n (f i) }
  | none => .error PlanError.thrown

def PlannerImpl.UseCount (p : PlannerImpl) (n : MLValueIndex) : M Int :=
  (p.info n).map (fun i => i.usecount)

def PlannerImpl.Buffer (p : PlannerImpl) (n : MLValueIndex) : M MLValueIndex :=
  (p.info n).map (fun i => i.reused_buffer_index)

/-- `AllocPlan(n)`: `plan_->allocation_plan.at(n)`. -/
def PlannerImpl.AllocPlan (p : PlannerImpl) (n : MLValueIndex) : M AllocPlanPerValue :=
  match p.plan_.allocation_plan[n]? with
  | some a => .ok a
  | none => .error PlanError.thrown

/-- Assignment through the reference returned by `AllocPlan(n)`. -/
def PlannerImpl.modifyAllocPlan (p : PlannerImpl) (n : MLValueIndex)
    (f : AllocPlanPerValue → AllocPlanPerValue) : M PlannerImpl :=
  match p.plan_.allocation_plan[n]? with
  | some a =>
    .ok { p with plan_ := { p.plan_ with allocation_plan := p.plan_.allocation_plan.set n (f a) } }
  | none => .error PlanError.thrown

/-- Initialize state for a given ml-value at its definition site. -/
def ProcessDef (p : PlannerImpl) (id : MLValueIndex) (p_def_site : Option NodeArg) :
    M PlannerImpl :=
  p.modifyInfo id (fun _ => { usecount := 0, reused_buffer_index := id, p_def_site := p_def_site })

def Reuse (p : PlannerImpl) (reused reused_for : MLValueIndex) : M PlannerImpl := do
  if reused = reused_for then throw PlanError.thrown
  let original ← p.Buffer reused
  let p ← p.modifyInfo reused_for (fun i => { i with reused_buffer_index := original })
  let c ← p.UseCount reused_for
  let p ← p.modifyInfo original (fun i => { i with usecount := i.usecount + c })
  p.modifyAllocPlan reused_for
    (fun a => { a with alloc_kind := AllocKind.kReuse, reused_buffer := original })

/-- Loop body of `SameShape`: the two `continue` tests on one axis. -/
def SameDim (val1 val2 : Dimension) : Bool :=
  if val1.has_dim_value && val2.has_dim_value &&
      (match val1, val2 with
        | .dim_value a, .dim_value b => a == b
        | _, _ => false) then true
  else if val1.has_dim_param && val2.has_dim_param &&
      (match val1, val2 with
        | .dim_param a, .dim_param b => a == b
        | _, _ => false) then true
  else false

/-- The axis loop of `SameShape`, run once the ranks are known to agree. -/
def SameShapeLoop : TensorShapeProto → TensorShapeProto → Bool
  | val1 :: rest1, val2 :: rest2 => if SameDim val1 val2 then SameShapeLoop rest1 rest2 else false
  | _, _ => true

def SameShape (shape1 shape2 : TensorShapeProto) : Bool :=
  let rank1 := shape1.length
  if shape2.length != rank1 then false else SameShapeLoop shape1 shape2

/-- Given a tensor-type, return the size of an element of the tensor; a type that is not a
tensor type fails the `LOTUS_ENFORCE`. -/
def GetElementSize (tensor_type : DataType) : M Nat :=
  match tensor_type with
  | .tensor _ elem_size => .ok elem_size
  | .non_tensor _ => .error PlanError.thrown

/-- The four-argument `SameSize`. -/
def SameSizeShapes (shape1 : TensorShapeProto) (ptype1 : DataType)
    (shape2 : TensorShapeProto) (ptype2 : DataType) : M Bool := do
  let size1 ← GetElementSize ptype1
  let size2 ← GetElementSize ptype2
  pure (size1 == size2 && SameShape shape1 shape2)

/-- The two-argument `SameSize` on node args. -/
def SameSize (ctx : ISequentialPlannerContext) (arg1 arg2 : NodeArg) : M Bool :=
  if !arg1.Exists || !arg2.Exists then pure false
  else
    match ctx.GetShape arg1, ctx.GetShape arg2 with
    | some shape1, some shape2 => SameSizeShapes shape1 arg1.Type_ shape2 arg2.Type_
    | _, _ => pure false

def IsNonTensor (nodearg : NodeArg) : Bool :=
  match nodearg.Type_ with
  | .tensor _ _ => false
  | .non_tensor _ => true

/-- First loop of `FindReusableInput`: the alias pairs. -/
def FindAliasInput (ss : SessionState) (input_args : List NodeArg) (output_arg_num : Nat) :
    List (Int × Int) → M (Option MLValueIndex)
  | [] => pure none
  | pair :: rest =>
    if pair.2 = (output_arg_num : Int) ∧ 0 ≤ pair.1 ∧ pair.1 < (input_args.length : Int) then
      match input_args[pair.1.toNat]? with
      | some p_input_arg =>
        if p_input_arg.Exists then do
          let i ← Index ss p_input_arg.Name
          pure (some i)
        else FindAliasInput ss input_args output_arg_num rest
      | none => FindAliasInput ss input_args output_arg_num rest
    else FindAliasInput ss input_args output_arg_num rest

/-- Second loop of `FindReusableInput`: the may-inplace pairs. -/
def FindInplaceInput (ss : SessionState) (ctx : ISequentialPlannerContext) (p : PlannerImpl)
    (input_args : List NodeArg) (p_output_arg : NodeArg) (output_arg_num : Nat) :
    List (Int × Int) → M (Option MLValueIndex)
  | [] => pure none
  | pair :: rest =>
    if pair.2 = (output_arg_num : Int) ∧ 0 ≤ pair.1 ∧ pair.1 < (input_args.length : Int) then
      match input_args[pair.1.toNat]? with
      | some p_input_arg =>
        if p_input_arg.Exists then do
          let input_arg_index ← Index ss p_input_arg.Name
          let original ← p.Buffer input_arg_index
          let count ← p.UseCount original
          if count = 1 then do
            let same ← SameSize ctx p_input_arg p_output_arg
            if same then pure (some input_arg_index)
            else FindInplaceInput ss ctx p input_args p_output_arg output_arg_num rest
          else FindInplaceInput ss ctx p input_args p_output_arg output_arg_num rest
        else FindInplaceInput ss ctx p input_args p_output_arg output_arg_num rest
      | none => FindInplaceInput ss ctx p input_args p_output_arg output_arg_num rest
    else FindInplaceInput ss ctx p input_args p_output_arg output_arg_num rest

/-- Find if there exists some input tensor that we can use in-place for output_arg. -/
def FindReusableInput (ss : SessionState) (ctx : ISequentialPlannerContext) (p : PlannerImpl)
    (node : Node) (output_arg_num : Nat) : M (Option MLValueIndex) :=
  match node.OutputDefs[output_arg_num]?, ss.GetKernelDef node.Index with
  | some p_output_arg, some p_opkernelDef => do
    match ← FindAliasInput ss node.InputDefs output_arg_num p_opkernelDef.Alias with
    | some reusable_input => pure (some reusable_input)
    | none =>
      FindInplaceInput ss ctx p node.InputDefs p_output_arg output_arg_num p_opkernelDef.MayInplace
  | _, _ => .error PlanError.thrown

/-- The freelist walk of `FindReusableTensor`; on a match it yields the matching ml-value and
the freelist with that one entry erased. -/
def FindInFreelist (ss : SessionState) (ctx : ISequentialPlannerContext) (p : PlannerImpl)
    (p_required_buffer_shape : TensorShapeProto) (required_buffer_type : DataType)
    (required_allocator_info : AllocatorInfo) :
    List FreeBufferInfo → M (Option (MLValueIndex × List FreeBufferInfo))
  | [] => pure none
  | it :: rest => do
    let reusable := it.ml_value
    let info ← p.info reusable
    match info.p_def_site with
    | none => throw PlanError.thrown
    | some p_node_arg =>
      let idx ← Index ss p_node_arg.Name
      let available ← p.AllocPlan idx
      let skip : M (Option (MLValueIndex × List FreeBufferInfo)) := do
        match ← FindInFreelist ss ctx p p_required_buffer_shape required_buffer_type
            required_allocator_info rest with
        | some (r, l) => pure (some (r, it :: l))
        | none => pure none
      if available.location ≠ required_allocator_info then skip
      else
        match ctx.GetShape p_node_arg with
        | none => skip
        | some p_available_buffer_shape => do
          let same ← SameSizeShapes p_available_buffer_shape p_node_arg.Type_
            p_required_buffer_shape required_buffer_type
          if same then pure (some (reusable, rest)) else skip

/-- Find if freelist contains a buffer of the same size as output_arg. -/
def FindReusableTensor (ss : SessionState) (ctx : ISequentialPlannerContext) (p : PlannerImpl)
    (output_arg : NodeArg) : M (Option MLValueIndex × PlannerImpl) :=
  match ctx.GetShape output_arg with
  | none => pure (none, p)
  | some p_required_buffer_shape => do
    let idx ← Index ss output_arg.Name
    let required ← p.AllocPlan idx
    match ← FindInFreelist ss ctx p p_required_buffer_shape output_arg.Type_ required.location
        p.freelist_ with
    | some (reusable, l) => pure (some reusable, { p with freelist_ := l })
    | none => pure (none, p)

/-- `std::vector::resize` with value-initialised new elements. -/
def resize {α : Type} (l : List α) (n : Nat) (d : α) : List α :=
  l.take n ++ List.replicate (n - l.length) d

def Initialize (p : PlannerImpl) (num_ml_values : Nat) : PlannerImpl :=
  { p with
    ml_value_info_ := resize p.ml_value_info_ num_ml_values {}
    plan_ :=
      { p.plan_ with
        execution_plan := []
        allocation_plan := resize [] num_ml_values {} } }

/-- `UseCount(n)++`. -/
def PlannerImpl.incUseCount (p : PlannerImpl) (n : MLValueIndex) : M PlannerImpl :=
  p.modifyInfo n (fun i => { i with usecount := i.usecount + 1 })

/-- First loop of `ComputeUseCounts`: the graph inputs. -/
def UseCountsGraphInputs (ss : SessionState) : List NodeArg → PlannerImpl → M PlannerImpl
  | [], p => pure p
  | graph_input :: rest, p => do
    let index ← Index ss graph_input.Name
    let p ← ProcessDef p index (some graph_input)
    let p ← p.incUseCount index
    UseCountsGraphInputs ss rest p

/-- Second loop of `ComputeUseCounts`: the initializers. -/
def UseCountsInitializers (ss : SessionState) (graph : Graph) :
    List MLValueName → PlannerImpl → M PlannerImpl
  | [], p => pure p
  | initializer_name :: rest, p => do
    let index ← Index ss initializer_name
    let p ← ProcessDef p index (graph.FindNodeArg initializer_name)
    let index2 ← Index ss initializer_name
    let p ← p.incUseCount index2
    UseCountsInitializers ss graph rest p

/-- The loop over a node's input defs inside `ComputeUseCounts`. -/
def UseCountsNodeInputs (ss : SessionState) : List NodeArg → PlannerImpl → M PlannerImpl
  | [], p => pure p
  | node_input :: rest, p =>
    if node_input.Exists then do
      let index ← Index ss node_input.Name
      let p ← p.incUseCount index
      UseCountsNodeInputs ss rest p
    else UseCountsNodeInputs ss rest p

/-- The location assignment for the output at position `i` of a node, inside the output loop
of `ComputeUseCounts`. -/
def AssignOutputLocation (ss : SessionState) (node_index : NodeIndex)
    (default_allocator_info : AllocatorInfo) (mem_type_allocated_args : List (Nat × MemType))
    (i : Nat) (index : MLValueIndex) (p : PlannerImpl) : M PlannerImpl :=
  if default_allocator_info.name ≠ CPU then
    match mem_type_allocated_args.lookup i with
    | none => p.modifyAllocPlan index (fun a => { a with location := default_allocator_info })
    | some mem_type =>
      p.modifyAllocPlan index
        (fun a => { a with location := ss.GetAllocatorInfo node_index mem_type })
  else pure p

/-- The loop over a node's output defs inside `ComputeUseCounts`; `i` is the position. -/
def UseCountsNodeOutputs (ss : SessionState) (node_index : NodeIndex)
    (default_allocator_info : AllocatorInfo) (mem_type_allocated_args : List (Nat × MemType)) :
    List NodeArg → Nat → PlannerImpl → M PlannerImpl
  | [], _, p => pure p
  | node_output :: rest, i, p =>
    if node_output.Exists then do
      let index ← Index ss node_output.Name
      let p ← ProcessDef p index (some node_output)
      let p ← AssignOutputLocation ss node_index default_allocator_info mem_type_allocated_args
        i index p
      UseCountsNodeOutputs ss node_index default_allocator_info mem_type_allocated_args rest
        (i + 1) p
    else
      UseCountsNodeOutputs ss node_index default_allocator_info mem_type_allocated_args rest
        (i + 1) p

/-- Modelled from the spec: `Node::ForEachDef` is declared outside the planner source; it visits
every def (input and output) incident to the node, the missing ones skipped. -/
def Node.ForEachDef (node : Node) : List NodeArg :=
  (node.InputDefs ++ node.OutputDefs).filter (fun a => a.Exists)

/-- The fence lambda applied to each def of a node. -/
def MarkCreateFence (ss : SessionState) : List NodeArg → PlannerImpl → M PlannerImpl
  | [], p => pure p
  | arg :: rest, p => do
    let index ← Index ss arg.Name
    let p ← p.modifyAllocPlan index (fun a => { a with create_fence := true })
    MarkCreateFence ss rest p

/-- If sync is needed, mark allocation plan as create_fence=true. -/
def MarkCreateFenceIfQueued (ss : SessionState) (p_kernelDef : KernelDef) (pnode : Node)
    (p : PlannerImpl) : M PlannerImpl :=
  if p_kernelDef.ExecQueueId ≠ 0 then MarkCreateFence ss pnode.ForEachDef p else pure p

/-- The text of the status returned for a node without kernel definition. -/
def MissingKernelMessage (node : Node) : String :=
  "No suitable kernel definition found for op " ++ node.OpType ++
    (if node.Name ≠ "" then " (node " ++ node.Name ++ ")" else "")

/-- Third loop of `ComputeUseCounts`: the scheduled nodes. -/
def UseCountsSteps (ss : SessionState) (graph : Graph) :
    List NodeExecutionPlan → PlannerImpl → M PlannerImpl
  | [], p => pure p
  | step :: rest, p =>
    match graph.GetNode step.node_index with
    | none => throw PlanError.thrown
    | some pnode => do
      let p ← UseCountsNodeInputs ss pnode.InputDefs p
      match ss.GetKernelDef step.node_index with
      | none => throw (PlanError.status (MissingKernelMessage pnode))
      | some p_kernelDef =>
        let default_allocator_info := ss.GetAllocatorInfo step.node_index MemType.kMemTypeDefault
        let p ← UseCountsNodeOutputs ss step.node_index default_allocator_info
          p_kernelDef.OutputMemoryType pnode.OutputDefs 0 p
        let p ← MarkCreateFenceIfQueued ss p_kernelDef pnode p
        UseCountsSteps ss graph rest p

/-- Last loop of `ComputeUseCounts`: the graph outputs. -/
def UseCountsGraphOutputs (ss : SessionState) : List NodeArg → PlannerImpl → M PlannerImpl
  | [], p => pure p
  | graph_output :: rest, p => do
    let index ← Index ss graph_output.Name
    let p ← p.incUseCount index
    UseCountsGraphOutputs ss rest p

def ComputeUseCounts (ss : SessionState) (graph : Graph) (p : PlannerImpl) : M PlannerImpl := do
  let p ← UseCountsGraphInputs ss graph.Inputs p
  let p ← UseCountsInitializers ss graph graph.AllInitializedTensors p
  let p ← UseCountsSteps ss graph p.plan_.execution_plan p
  UseCountsGraphOutputs ss graph.Outputs p

/-- Modelled from the spec: `MemTypeOnCpuExplicitly` is declared outside the planner source; an
input is on CPU explicitly when the kernel's input memory type table marks it as CPU memory. -/
def MemTypeOnCpuExplicitly (mem_type_map : List (Nat × MemType)) (index : Nat) : Bool :=
  match mem_type_map.lookup index with
  | some MemType.kMemTypeCPUInput => true
  | some MemType.kMemTypeCPUOutput => true
  | _ => false

/-- The location that the lambda of `GeneratePlanForWeights` assigns to a weight read at input
position `index` by a node with provider `p_provider` and kernel `p_opkernelDef`: the default
allocator of the CPU execution provider when the kernel wants that input on CPU explicitly,
and the default allocator of the node's own provider otherwise. -/
def WeightLocation (ss : SessionState) (p_provider : MemType → AllocatorInfo)
    (p_opkernelDef : KernelDef) (index : Nat) : M AllocatorInfo :=
  if MemTypeOnCpuExplicitly p_opkernelDef.InputMemoryType index then
    match ss.GetExecutionProvider kCpuExecutionProvider with
    | some cpu_provider => pure (cpu_provider MemType.kMemTypeDefault)
    | none => throw PlanError.thrown
  else pure (p_provider MemType.kMemTypeDefault)

/-- The lambda of `GeneratePlanForWeights`, run over the input defs of one node; `index` is the
position of the def. `Node::ForEachWithIndex` (outside the planner source) skips missing defs. -/
def PlanWeightsOfNode (ss : SessionState) (graph : Graph) (node : Node) :
    List NodeArg → Nat → PlannerImpl → M PlannerImpl
  | [], _, p => pure p
  | def_ :: rest, index, p =>
    if !def_.Exists || !graph.AllInitializedTensors.contains def_.Name then
      PlanWeightsOfNode ss graph node rest (index + 1) p
    else do
      let wt_index ← Index ss def_.Name
      match ss.GetExecutionProvider node.ExecutionProviderType, ss.GetKernelDef node.Index with
      | some p_provider, some p_opkernelDef =>
        let location ← WeightLocation ss p_provider p_opkernelDef index
        let p ← p.modifyAllocPlan wt_index
          (fun a => { a with alloc_kind := AllocKind.kAllocateStatically, location := location })
        PlanWeightsOfNode ss graph node rest (index + 1) p
      | _, _ => throw PlanError.thrown

/-- The loop of `GeneratePlanForWeights` over `graph.Nodes()`. -/
def PlanWeightsOfNodes (ss : SessionState) (graph : Graph) :
    List Node → PlannerImpl → M PlannerImpl
  | [], p => pure p
  | node :: rest, p => do
    let p ← PlanWeightsOfNode ss graph node node.InputDefs 0 p
    PlanWeightsOfNodes ss graph rest p

def GeneratePlanForWeights (ss : SessionState) (graph : Graph) (p : PlannerImpl) : M PlannerImpl :=
  PlanWeightsOfNodes ss graph graph.Nodes p

/-- First loop of `ComputeReusePlan`: graph inputs are owned by the caller. -/
def ReusePlanGraphInputs (ss : SessionState) : List NodeArg → PlannerImpl → M PlannerImpl
  | [], p => pure p
  | graph_input :: rest, p => do
    let input_index ← Index ss graph_input.Name
    let p ← p.modifyAllocPlan input_index
      (fun a => { a with alloc_kind := AllocKind.kPreExisting,
                         value_type := some graph_input.Type_ })
    ReusePlanGraphInputs ss rest p

/-- `freelist_.push_front(FreeBufferInfo(original, program_counter))`. -/
def PlannerImpl.push_front (p : PlannerImpl) (original : MLValueIndex) (program_counter : Nat) :
    PlannerImpl :=
  { p with freelist_ := ⟨original, program_counter⟩ :: p.freelist_ }

/-- The allocation decision for one existing output `node_output` of `pnode`. -/
def ReusePlanOutput (ss : SessionState) (ctx : ISequentialPlannerContext) (graph : Graph)
    (pnode : Node) (node_output : NodeArg) (output_arg_num : Nat) (p : PlannerImpl) :
    M PlannerImpl := do
  let current ← Index ss node_output.Name
  let p ← p.modifyAllocPlan current (fun a => { a with value_type := some node_output.Type_ })
  if graph.Outputs.any (fun g => g.Name == node_output.Name) then
    p.modifyAllocPlan current (fun a => { a with alloc_kind := AllocKind.kAllocateOutput })
  else if IsNonTensor node_output then
    p.modifyAllocPlan current (fun a => { a with alloc_kind := AllocKind.kAllocate })
  else
    match ← FindReusableInput ss ctx p pnode output_arg_num with
    | some reused => Reuse p reused current
    | none =>
      match ← FindReusableTensor ss ctx p node_output with
      | (some reused, p) => Reuse p reused current
      | (none, p) =>
        p.modifyAllocPlan current (fun a => { a with alloc_kind := AllocKind.kAllocate })

/-- The first loop over the output defs of `pnode`; `output_arg_num` advances only on
existing outputs. -/
def ReusePlanOutputs (ss : SessionState) (ctx : ISequentialPlannerContext) (graph : Graph)
    (pnode : Node) : List NodeArg → Nat → PlannerImpl → M PlannerImpl
  | [], _, p => pure p
  | node_output :: rest, output_arg_num, p =>
    if !node_output.Exists then ReusePlanOutputs ss ctx graph pnode rest output_arg_num p
    else do
      let p ← ReusePlanOutput ss ctx graph pnode node_output output_arg_num p
      ReusePlanOutputs ss ctx graph pnode rest (output_arg_num + 1) p

/-- Determine if inputs of the node can be freed. -/
def FreeInputs (ss : SessionState) (program_counter : Nat) :
    List NodeArg → PlannerImpl → M PlannerImpl
  | [], p => pure p
  | node_input :: rest, p =>
    if node_input.Exists then do
      let index ← Index ss node_input.Name
      let original ← p.Buffer index
      let p ← p.modifyInfo original (fun i => { i with usecount := i.usecount - 1 })
      let count ← p.UseCount original
      let p := if count = 0 then p.push_front original program_counter else p
      FreeInputs ss program_counter rest p
    else FreeInputs ss program_counter rest p

/-- Determine if any outputs of the node are unused and can be freed. -/
def FreeUnusedOutputs (ss : SessionState) (program_counter : Nat) :
    List NodeArg → PlannerImpl → M PlannerImpl
  | [], p => pure p
  | node_output :: rest, p =>
    if node_output.Exists then do
      let index ← Index ss node_output.Name
      let original ← p.Buffer index
      let count ← p.UseCount original
      let p := if count = 0 then p.push_front original program_counter else p
      FreeUnusedOutputs ss program_counter rest p
    else FreeUnusedOutputs ss program_counter rest p

/-- One iteration of the program-counter loop of `ComputeReusePlan`. -/
def ReusePlanStep (ss : SessionState) (ctx : ISequentialPlannerContext) (graph : Graph)
    (step : NodeExecutionPlan) (program_counter : Nat) (p : PlannerImpl) : M PlannerImpl :=
  match graph.GetNode step.node_index with
  | none => throw PlanError.thrown
  | some pnode => do
    let p ← ReusePlanOutputs ss ctx graph pnode pnode.OutputDefs 0 p
    let p ← FreeInputs ss program_counter pnode.InputDefs p
    FreeUnusedOutputs ss program_counter pnode.OutputDefs p

/-- The program-counter loop of `ComputeReusePlan`. -/
def ReusePlanSteps (ss : SessionState) (ctx : ISequentialPlannerContext) (graph : Graph) :
    List NodeExecutionPlan → Nat → PlannerImpl → M PlannerImpl
  | [], _, p => pure p
  | step :: rest, program_counter, p => do
    let p ← ReusePlanStep ss ctx graph step program_counter p
    ReusePlanSteps ss ctx graph rest (program_counter + 1) p

def ComputeReusePlan (ss : SessionState) (ctx : ISequentialPlannerContext) (graph : Graph)
    (p : PlannerImpl) : M PlannerImpl := do
  let p ← ReusePlanGraphInputs ss graph.Inputs p
  let p ← GeneratePlanForWeights ss graph p
  ReusePlanSteps ss ctx graph p.plan_.execution_plan 0 p

/-- `plan->execution_plan[n].free_from_index = v` (unchecked subscript). -/
def set_free_from_index (plan : SequentialExecutionPlan) (n : Nat) (v : Int) :
    SequentialExecutionPlan :=
  { plan with execution_plan := plan.execution_plan.modify (fun e => { e with free_from_index := v }) n }

/-- `plan->execution_plan[n].free_to_index = v` (unchecked subscript). -/
def set_free_to_index (plan : SequentialExecutionPlan) (n : Nat) (v : Int) :
    SequentialExecutionPlan :=
  { plan with execution_plan := plan.execution_plan.modify (fun e => { e with free_to_index := v }) n }

/-- The loop of `GenerateDeallocationPlan` over the freelist read from back to front;
`prev_dealloc_point` is `none` for the initial `-1`. -/
def DeallocationLoop : List FreeBufferInfo → Option Nat → Nat → SequentialExecutionPlan →
    Option Nat × Nat × SequentialExecutionPlan
  | [], prev_dealloc_point, current, plan => (prev_dealloc_point, current, plan)
  | it :: rest, prev_dealloc_point, current, plan =>
    let plan := { plan with to_be_freed := plan.to_be_freed ++ [it.ml_value] }
    if some it.deallocate_point ≠ prev_dealloc_point then
      let plan :=
        match prev_dealloc_point with
        | some prev => set_free_to_index plan prev ((current : Int) - 1)
        | none => plan
      let plan := set_free_from_index plan it.deallocate_point current
      DeallocationLoop rest (some it.deallocate_point) (current + 1) plan
    else DeallocationLoop rest prev_dealloc_point (current + 1) plan

/-- Convert information in a freelist (about which ml-value becomes free when) into a
deallocation plan in the format required in an ExecutionPlan. -/
def GenerateDeallocationPlan (freelist : List FreeBufferInfo) (plan : SequentialExecutionPlan) :
    SequentialExecutionPlan :=
  match DeallocationLoop freelist.reverse none 0 plan with
  | (some prev, current, plan) => set_free_to_index plan prev ((current : Int) - 1)
  | (none, _, plan) => plan

/-- The execution order: the topological order without source and sink node. -/
def ScheduledNodes (graph : Graph) (p_graph_nodes : List NodeIndex) : List NodeExecutionPlan :=
  (p_graph_nodes.filter (fun n => !(graph.IsSourceNode n || graph.IsSinkNode n))).map
    (fun n => { node_index := n })

/-- `PlannerImpl::CreatePlan`, returning the whole planner object after the last phase.
`num_ml_values` is an `int` that `Initialize(size_t, size_t)` takes as a size: a negative
count becomes a size no vector can have, and `resize` throws. -/
def CreatePlanImpl (ss : SessionState) (ctx : ISequentialPlannerContext)
    (plan : SequentialExecutionPlan) : M PlannerImpl :=
  match ss.Graph with
  | none => throw PlanError.thrown
  | some p_graph =>
    match p_graph.NodesInTopologicalOrder with
    | .error msg => throw (PlanError.status msg)
    | .ok p_graph_nodes =>
      if ss.GetMaxMLValueIdx + 1 < 0 then throw PlanError.thrown
      else do
        let num_ml_values := (ss.GetMaxMLValueIdx + 1).toNat
        let p := Initialize { ml_value_info_ := [], freelist_ := [], plan_ := plan } num_ml_values
        let p : PlannerImpl :=
          { p with
            plan_ := { p.plan_ with execution_plan := ScheduledNodes p_graph p_graph_nodes } }
        let p ← ComputeUseCounts ss p_graph p
        let p ← ComputeReusePlan ss ctx p_graph p
        pure { p with plan_ := GenerateDeallocationPlan p.freelist_ p.plan_ }

/-- `SequentialPlanner::CreatePlan`: the plan object after the call, or the failure. -/
def CreatePlan (ss : SessionState) (ctx : ISequentialPlannerContext)
    (plan : SequentialExecutionPlan) : M SequentialExecutionPlan :=
  (CreatePlanImpl ss ctx plan).map (fun p => p.plan_)

/-! ## Reading the planner state and the input

Total accessors used to state properties of a planner state, and the well-formedness of a
planner input (what a resolved graph guarantees). -/

/-- Use count of value `v` (0 outside the table). -/
def cnt (p : PlannerImpl) (v : MLValueIndex) : Int :=
  match p.ml_value_info_[v]? with
  | some i => i.usecount
  | none => 0

/-- The `reused_buffer_index` of value `v` (`v` itself outside the table). -/
def buf (p : PlannerImpl) (v : MLValueIndex) : MLValueIndex :=
  match p.ml_value_info_[v]? with
  | some i => i.reused_buffer_index
  | none => v

/-- The def-site recorded for value `v`. -/
def defsite (p : PlannerImpl) (v : MLValueIndex) : Option NodeArg :=
  match p.ml_value_info_[v]? with
  | some i => i.p_def_site
  | none => none

/-- The allocation-plan entry of value `v` (a default entry outside the table). -/
def entry (plan : SequentialExecutionPlan) (v : MLValueIndex) : AllocPlanPerValue :=
  match plan.allocation_plan[v]? with
  | some a => a
  | none => {}

/-- ml-value indices of the graph inputs. -/
def InputIndices (ss : SessionState) (graph : Graph) : List MLValueIndex :=
  graph.Inputs.filterMap (fun a => ss.GetMLValueIdx a.Name)

/-- ml-value indices of the initializers. -/
def InitializerIndices (ss : SessionState) (graph : Graph) : List MLValueIndex :=
  graph.AllInitializedTensors.filterMap ss.GetMLValueIdx

/-- ml-value indices of the graph outputs. -/
def OutputIndices (ss : SessionState) (graph : Graph) : List MLValueIndex :=
  graph.Outputs.filterMap (fun a => ss.GetMLValueIdx a.Name)

/-- ml-value indices of the existing defs of a def list, in order. -/
def ArgIndices (ss : SessionState) (args : List NodeArg) : List MLValueIndex :=
  (args.filter (fun a => a.Exists)).filterMap (fun a => ss.GetMLValueIdx a.Name)

/-- Values read by a node: its existing input defs. -/
def Node.Reads (ss : SessionState) (n : Node) : List MLValueIndex := ArgIndices ss n.InputDefs

/-- Values produced by a node: its existing output defs. -/
def Node.Writes (ss : SessionState) (n : Node) : List MLValueIndex := ArgIndices ss n.OutputDefs

/-- The nodes of an execution plan, in execution order. -/
def StepNodes (graph : Graph) (steps : List NodeExecutionPlan) : List Node :=
  steps.filterMap (fun s => graph.GetNode s.node_index)

/-- The nodes scheduled by `CreatePlan`, in execution order. -/
def Graph.Scheduled (graph : Graph) : List Node :=
  match graph.NodesInTopologicalOrder with
  | .ok order => StepNodes graph (ScheduledNodes graph order)
  | .error _ => []

/-- All values produced by a list of nodes. -/
def AllWrites (ss : SessionState) (nodes : List Node) : List MLValueIndex :=
  nodes.flatMap (fun n => n.Writes ss)

/-- All reads of a list of nodes, in execution order and with multiplicity. -/
def AllReads (ss : SessionState) (nodes : List Node) : List MLValueIndex :=
  nodes.flatMap (fun n => n.Reads ss)

/-- The execution order is a valid topological order in which each value is produced at most
once: every value a node reads is already defined, and the values it produces are new and
pairwise different. `defined` lists the values defined before the first node. -/
def ValidOrder (ss : SessionState) : List MLValueIndex → List Node → Prop
  | _, [] => True
  | defined, n :: rest =>
    (∀ x ∈ n.Reads ss, x ∈ defined) ∧ (n.Writes ss).Nodup ∧ (∀ o ∈ n.Writes ss, o ∉ defined) ∧
      ValidOrder ss (n.Writes ss ++ defined) rest

instance ValidOrder.decide (ss : SessionState) :
    (defined : List MLValueIndex) → (nodes : List Node) → Decidable (ValidOrder ss defined nodes)
  | _, [] => isTrue trivial
  | defined, n :: rest =>
    have := ValidOrder.decide ss (n.Writes ss ++ defined) rest
    inferInstanceAs (Decidable ((∀ x ∈ n.Reads ss, x ∈ defined) ∧ (n.Writes ss).Nodup ∧
      (∀ o ∈ n.Writes ss, o ∉ defined) ∧ ValidOrder ss (n.Writes ss ++ defined) rest))

/-- Values defined before the first node runs: graph inputs and initializers. -/
def InitiallyDefined (ss : SessionState) (graph : Graph) : List MLValueIndex :=
  InputIndices ss graph ++ InitializerIndices ss graph

/-- A graph output is recognised by name; different names of a graph output and of a value
produced by a node denote different values. -/
def OutputNamesDistinct (ss : SessionState) (graph : Graph) : Prop :=
  ∀ n ∈ graph.Scheduled, ∀ o ∈ n.OutputDefs, ∀ g ∈ graph.Outputs,
    (ss.GetMLValueIdx o.Name).isSome → ss.GetMLValueIdx g.Name = ss.GetMLValueIdx o.Name →
      g.Name = o.Name

instance (ss : SessionState) (graph : Graph) : Decidable (OutputNamesDistinct ss graph) := by
  unfold OutputNamesDistinct; infer_instance

/-- Well-formed planner input: a graph is bound, its execution order is a valid topological
order with each value produced at most once (graph inputs and initializers count as produced
before the first node), and every graph output is a defined value. -/
def WellFormed (ss : SessionState) : Prop :=
  match ss.Graph with
  | none => False
  | some graph =>
    ValidOrder ss (InitiallyDefined ss graph) graph.Scheduled ∧
    (∀ g ∈ OutputIndices ss graph,
      g ∈ InitiallyDefined ss graph ∨ g ∈ AllWrites ss graph.Scheduled) ∧
    OutputNamesDistinct ss graph

instance (ss : SessionState) : Decidable (WellFormed ss) := by
  unfold WellFormed
  cases ss.Graph <;> infer_instance


/-! ## Concrete planner inputs -/

/-- A float tensor type (element size 4). -/
def tFloat : DataType := DataType.tensor 1 4

/-- An existing float tensor def of shape `[2]`. -/
def arg (name : String) : NodeArg := ⟨name, true, tFloat, some [Dimension.dim_value 2]⟩

/-- A kernel definition without alias, in-place or memory-type declarations. -/
def plainKernel : KernelDef := ⟨[], [], [], [], 0⟩

/-- A kernel definition declaring the mandatory alias (0, 0), as Reshape does. -/
def aliasKernel : KernelDef := ⟨[(0, 0)], [], [], [], 0⟩

def cpuInfo : AllocatorInfo := ⟨CPU, 0, MemType.kMemTypeDefault⟩

/-- The name to index map that numbers the given names in order. -/
def indexOfName (names : List String) (name : String) : Option MLValueIndex :=
  if names.indexOf name < names.length then some (names.indexOf name) else none

/-- The shape provider that reads the shape recorded in the def. -/
def shapeContext : ISequentialPlannerContext := ⟨fun a => a.Shape⟩

/-- A freshly constructed plan object. -/
def freshPlan : SequentialExecutionPlan := ⟨[], [], []⟩

/-- Graph with an unused aliasing output: `A -> Abs -> X -> Reshape -> Z` (Z is read by nobody),
`A -> Abs -> C -> Abs -> Y`, with graph input `A` and graph output `Y`. -/
def deadAliasGraph : Graph :=
  { Nodes := [⟨0, "_Source", "", [], [], ""⟩,
              ⟨1, "Abs", "n1", [arg "A"], [arg "X"], kCpuExecutionProvider⟩,
              ⟨2, "Reshape", "n2", [arg "X"], [arg "Z"], kCpuExecutionProvider⟩,
              ⟨3, "Abs", "n3", [arg "A"], [arg "C"], kCpuExecutionProvider⟩,
              ⟨4, "Abs", "n4", [arg "C"], [arg "Y"], kCpuExecutionProvider⟩,
              ⟨5, "_Sink", "", [], [], ""⟩]
    NodesInTopologicalOrder := .ok [0, 1, 2, 3, 4, 5]
    source_node_index := 0
    sink_node_index := 5
    Inputs := [arg "A"]
    Outputs := [arg "Y"]
    AllInitializedTensors := []
    NodeArgs := [arg "A", arg "X", arg "Z", arg "C", arg "Y"] }

/-- Session state for `deadAliasGraph`: values `A, X, Z, C, Y` are numbered 0 to 4, node 2
has the aliasing kernel, everything runs on the CPU provider. -/
def deadAliasSession : SessionState :=
  { Graph := some deadAliasGraph
    GetMLValueIdx := indexOfName ["A", "X", "Z", "C", "Y"]
    GetMaxMLValueIdx := 4
    GetKernelDef := fun n =>
      if n = 2 then some aliasKernel else if n = 0 ∨ n = 5 then none else some plainKernel
    GetAllocatorInfo := fun _ _ => cpuInfo
    GetExecutionProvider := fun s =>
      if s = kCpuExecutionProvider then some (fun _ => cpuInfo) else none }

/-- A kernel definition declaring the optional in-place pair (0, 0), as the unary element-wise
activations do. -/
def inplaceKernel : KernelDef := ⟨[], [(0, 0)], [], [], 0⟩

/-- The chain `X -> Relu -> R1 -> Sigmoid -> R2 -> Tanh -> Y` with graph input `X` and graph
output `Y`; all values are float tensors of shape `[2]`. -/
def reluChainGraph : Graph :=
  { Nodes := [⟨0, "_Source", "", [], [], ""⟩,
              ⟨1, "Relu", "relu", [arg "X"], [arg "R1"], kCpuExecutionProvider⟩,
              ⟨2, "Sigmoid", "sigmoid", [arg "R1"], [arg "R2"], kCpuExecutionProvider⟩,
              ⟨3, "Tanh", "tanh", [arg "R2"], [arg "Y"], kCpuExecutionProvider⟩,
              ⟨4, "_Sink", "", [], [], ""⟩]
    NodesInTopologicalOrder := .ok [0, 1, 2, 3, 4]
    source_node_index := 0
    sink_node_index := 4
    Inputs := [arg "X"]
    Outputs := [arg "Y"]
    AllInitializedTensors := []
    NodeArgs := [arg "X", arg "R1", arg "R2", arg "Y"] }

/-- Session state for `reluChainGraph`: values `X, R1, R2, Y` are numbered 0 to 3 and every
kernel may work in place. -/
def reluChainSession : SessionState :=
  { Graph := some reluChainGraph
    GetMLValueIdx := indexOfName ["X", "R1", "R2", "Y"]
    GetMaxMLValueIdx := 3
    GetKernelDef := fun n => if n = 0 ∨ n = 4 then none else some inplaceKernel
    GetAllocatorInfo := fun _ _ => cpuInfo
    GetExecutionProvider := fun s =>
      if s = kCpuExecutionProvider then some (fun _ => cpuInfo) else none }

/-- An allocation-plan entry of a float tensor on the default (CPU) location. -/
def floatEntry (kind : AllocKind) (reused_buffer : MLValueIndex) : AllocPlanPerValue :=
  { alloc_kind := kind, value_type := some tFloat, reused_buffer := reused_buffer }

/-- The plan `CreatePlan` produces for `reluChainSession`: `R1` is allocated, `R2` reuses it in
place, and `R1` is freed after the last step. -/
def reluChainPlan : SequentialExecutionPlan :=
  { allocation_plan := [floatEntry AllocKind.kPreExisting 0, floatEntry AllocKind.kAllocate 0,
      floatEntry AllocKind.kReuse 1, floatEntry AllocKind.kAllocateOutput 0]
    execution_plan := [⟨1, 1, 0⟩, ⟨2, 1, 0⟩, ⟨3, 0, 0⟩]
    to_be_freed := [1] }

/-- The planner object after `CreatePlan` on `reluChainSession`. -/
def reluChainFinal : PlannerImpl :=
  { ml_value_info_ := [⟨some (arg "X"), 1, 0⟩, ⟨some (arg "R1"), 0, 1⟩, ⟨some (arg "R2"), 1, 1⟩,
      ⟨some (arg "Y"), 1, 3⟩]
    freelist_ := [⟨1, 2⟩]
    plan_ := reluChainPlan }

/-- The plan `CreatePlan` produces for `deadAliasSession`: value 1 (`X`) is listed twice in
`to_be_freed`, for step 1 and for step 3. -/
def deadAliasPlan : SequentialExecutionPlan :=
  { allocation_plan := [floatEntry AllocKind.kPreExisting 0, floatEntry AllocKind.kAllocate 0,
      floatEntry AllocKind.kReuse 1, floatEntry AllocKind.kReuse 1,
      floatEntry AllocKind.kAllocateOutput 0]
    execution_plan := [⟨1, 1, 0⟩, ⟨2, 0, 0⟩, ⟨3, 1, 0⟩, ⟨4, 1, 1⟩]
    to_be_freed := [1, 1] }

/-- The planner object after `CreatePlan` on `deadAliasSession`. -/
def deadAliasFinal : PlannerImpl :=
  { ml_value_info_ := [⟨some (arg "A"), 1, 0⟩, ⟨some (arg "X"), 0, 1⟩, ⟨some (arg "Z"), 0, 1⟩,
      ⟨some (arg "C"), 1, 1⟩, ⟨some (arg "Y"), 1, 4⟩]
    freelist_ := [⟨1, 3⟩, ⟨1, 1⟩]
    plan_ := deadAliasPlan }

/-- Graph `X -> Reshape -> Z -> Abs -> Y` whose Reshape aliases the graph input `X`. -/
def aliasInputGraph : Graph :=
  { Nodes := [⟨0, "_Source", "", [], [], ""⟩,
              ⟨1, "Reshape", "reshape", [arg "X"], [arg "Z"], kCpuExecutionProvider⟩,
              ⟨2, "Abs", "abs", [arg "Z"], [arg "Y"], kCpuExecutionProvider⟩,
              ⟨3, "_Sink", "", [], [], ""⟩]
    NodesInTopologicalOrder := .ok [0, 1, 2, 3]
    source_node_index := 0
    sink_node_index := 3
    Inputs := [arg "X"]
    Outputs := [arg "Y"]
    AllInitializedTensors := []
    NodeArgs := [arg "X", arg "Z", arg "Y"] }

/-- Session state for `aliasInputGraph`: values `X, Z, Y` are numbered 0 to 2 and node 1 has
the aliasing kernel. -/
def aliasInputSession : SessionState :=
  { Graph := some aliasInputGraph
    GetMLValueIdx := indexOfName ["X", "Z", "Y"]
    GetMaxMLValueIdx := 2
    GetKernelDef := fun n =>
      if n = 1 then some aliasKernel else if n = 2 then some plainKernel else none
    GetAllocatorInfo := fun _ _ => cpuInfo
    GetExecutionProvider := fun s =>
      if s = kCpuExecutionProvider then some (fun _ => cpuInfo) else none }

/-- The plan `CreatePlan` produces for `aliasInputSession`: `Z` reuses the buffer of the graph
input `X`. -/
def aliasInputPlan : SequentialExecutionPlan :=
  { allocation_plan := [floatEntry AllocKind.kPreExisting 0, floatEntry AllocKind.kReuse 0,
      floatEntry AllocKind.kAllocateOutput 0]
    execution_plan := [⟨1, 1, 0⟩, ⟨2, 1, 0⟩]
    to_be_freed := [] }

/-- Graph `Add(X, W) -> Y` in which `W` is listed both as graph input and as initializer. -/
def weightInputGraph : Graph :=
  { Nodes := [⟨0, "_Source", "", [], [], ""⟩,
              ⟨1, "Add", "add", [arg "X", arg "W"], [arg "Y"], kCpuExecutionProvider⟩,
              ⟨2, "_Sink", "", [], [], ""⟩]
    NodesInTopologicalOrder := .ok [0, 1, 2]
    source_node_index := 0
    sink_node_index := 2
    Inputs := [arg "X", arg "W"]
    Outputs := [arg "Y"]
    AllInitializedTensors := ["W"]
    NodeArgs := [arg "X", arg "W", arg "Y"] }

/-- Session state for `weightInputGraph`: values `X, W, Y` are numbered 0 to 2. -/
def weightInputSession : SessionState :=
  { Graph := some weightInputGraph
    GetMLValueIdx := indexOfName ["X", "W", "Y"]
    GetMaxMLValueIdx := 2
    GetKernelDef := fun n => if n = 1 then some plainKernel else none
    GetAllocatorInfo := fun _ _ => cpuInfo
    GetExecutionProvider := fun s =>
      if s = kCpuExecutionProvider then some (fun _ => cpuInfo) else none }

/-- The plan `CreatePlan` produces for `weightInputSession`: `W` is planned as a weight. -/
def weightInputPlan : SequentialExecutionPlan :=
  { allocation_plan := [floatEntry AllocKind.kPreExisting 0,
      floatEntry AllocKind.kAllocateStatically 0, floatEntry AllocKind.kAllocateOutput 0]
    execution_plan := [⟨1, 1, 0⟩]
    to_be_freed := [] }

/-- The Sigmoid node of `reluChainGraph`. -/
def sigmoidNode : Node :=
  ⟨2, "Sigmoid", "sigmoid", [arg "R1"], [arg "R2"], kCpuExecutionProvider⟩

/-- The planner state of `reluChainSession` when the Sigmoid step starts: the Relu step has
allocated `R1` and consumed one use of `X`. -/
def reluChainMid : PlannerImpl :=
  { ml_value_info_ := [⟨some (arg "X"), 1, 0⟩, ⟨some (arg "R1"), 1, 1⟩, ⟨some (arg "R2"), 1, 2⟩,
      ⟨some (arg "Y"), 1, 3⟩]
    freelist_ := []
    plan_ :=
      { allocation_plan := [floatEntry AllocKind.kPreExisting 0, floatEntry AllocKind.kAllocate 0,
          {}, {}]
        execution_plan := [⟨1, 1, 0⟩, ⟨2, 1, 0⟩, ⟨3, 1, 0⟩]
        to_be_freed := [] } }

/-- The chain `A -> Abs -> M -> Abs -> N -> Abs -> Q -> Abs -> Y` of kernels without alias or
in-place declarations, with graph input `A` and graph output `Y`. -/
def freelistGraph : Graph :=
  { Nodes := [⟨0, "_Source", "", [], [], ""⟩,
              ⟨1, "Abs", "n1", [arg "A"], [arg "M"], kCpuExecutionProvider⟩,
              ⟨2, "Abs", "n2", [arg "M"], [arg "N"], kCpuExecutionProvider⟩,
              ⟨3, "Abs", "n3", [arg "N"], [arg "Q"], kCpuExecutionProvider⟩,
              ⟨4, "Abs", "n4", [arg "Q"], [arg "Y"], kCpuExecutionProvider⟩,
              ⟨5, "_Sink", "", [], [], ""⟩]
    NodesInTopologicalOrder := .ok [0, 1, 2, 3, 4, 5]
    source_node_index := 0
    sink_node_index := 5
    Inputs := [arg "A"]
    Outputs := [arg "Y"]
    AllInitializedTensors := []
    NodeArgs := [arg "A", arg "M", arg "N", arg "Q", arg "Y"] }

/-- Session state for `freelistGraph`: values `A, M, N, Q, Y` are numbered 0 to 4. -/
def freelistSession : SessionState :=
  { Graph := some freelistGraph
    GetMLValueIdx := indexOfName ["A", "M", "N", "Q", "Y"]
    GetMaxMLValueIdx := 4
    GetKernelDef := fun n => if n = 0 ∨ n = 5 then none else some plainKernel
    GetAllocatorInfo := fun _ _ => cpuInfo
    GetExecutionProvider := fun s =>
      if s = kCpuExecutionProvider then some (fun _ => cpuInfo) else none }

/-- The plan `CreatePlan` produces for `freelistSession`: `Q` takes the freed buffer of `M`. -/
def freelistPlan : SequentialExecutionPlan :=
  { allocation_plan := [floatEntry AllocKind.kPreExisting 0, floatEntry AllocKind.kAllocate 0,
      floatEntry AllocKind.kAllocate 0, floatEntry AllocKind.kReuse 1,
      floatEntry AllocKind.kAllocateOutput 0]
    execution_plan := [⟨1, 1, 0⟩, ⟨2, 1, 0⟩, ⟨3, 0, 0⟩, ⟨4, 1, 1⟩]
    to_be_freed := [2, 1] }

def cudaInfo : AllocatorInfo := ⟨"Cuda", 0, MemType.kMemTypeDefault⟩

def cudaPinnedInfo : AllocatorInfo := ⟨"CudaPinned", 0, MemType.kMemTypeCPUOutput⟩

def kCudaExecutionProvider : String := "CUDAExecutionProvider"

/-- A kernel definition whose output 0 is placed in CPU-accessible memory. -/
def cpuOutputKernel : KernelDef := ⟨[], [], [], [(0, MemType.kMemTypeCPUOutput)], 0⟩

/-- Graph `A -> Shape -> X -> Reshape -> Z -> Abs -> Y` on the CUDA provider. -/
def pinnedAliasGraph : Graph :=
  { Nodes := [⟨0, "_Source", "", [], [], ""⟩,
              ⟨1, "Shape", "shape", [arg "A"], [arg "X"], kCudaExecutionProvider⟩,
              ⟨2, "Reshape", "reshape", [arg "X"], [arg "Z"], kCudaExecutionProvider⟩,
              ⟨3, "Abs", "abs", [arg "Z"], [arg "Y"], kCudaExecutionProvider⟩,
              ⟨4, "_Sink", "", [], [], ""⟩]
    NodesInTopologicalOrder := .ok [0, 1, 2, 3, 4]
    source_node_index := 0
    sink_node_index := 4
    Inputs := [arg "A"]
    Outputs := [arg "Y"]
    AllInitializedTensors := []
    NodeArgs := [arg "A", arg "X", arg "Z", arg "Y"] }

/-- Session state for `pinnedAliasGraph`: values `A, X, Z, Y` are numbered 0 to 3; the default
allocator of every node is the CUDA allocator, node 1 puts its output in pinned memory, and
node 2 has the aliasing kernel. -/
def pinnedAliasSession : SessionState :=
  { Graph := some pinnedAliasGraph
    GetMLValueIdx := indexOfName ["A", "X", "Z", "Y"]
    GetMaxMLValueIdx := 3
    GetKernelDef := fun n =>
      if n = 1 then some cpuOutputKernel else if n = 2 then some aliasKernel
      else if n = 3 then some plainKernel else none
    GetAllocatorInfo := fun _ mem_type =>
      match mem_type with
      | MemType.kMemTypeDefault => cudaInfo
      | _ => cudaPinnedInfo
    GetExecutionProvider := fun s =>
      if s = kCpuExecutionProvider then some (fun _ => cpuInfo)
      else if s = kCudaExecutionProvider then some (fun _ => cudaInfo) else none }

/-- Graph `X -> Reshape -> Y` whose aliasing output is the graph output. -/
def aliasOutputGraph : Graph :=
  { Nodes := [⟨0, "_Source", "", [], [], ""⟩,
              ⟨1, "Reshape", "reshape", [arg "X"], [arg "Y"], kCpuExecutionProvider⟩,
              ⟨2, "_Sink", "", [], [], ""⟩]
    NodesInTopologicalOrder := .ok [0, 1, 2]
    source_node_index := 0
    sink_node_index := 2
    Inputs := [arg "X"]
    Outputs := [arg "Y"]
    AllInitializedTensors := []
    NodeArgs := [arg "X", arg "Y"] }

/-- Session state for `aliasOutputGraph`: values `X, Y` are numbered 0 and 1 and node 1 has
the aliasing kernel. -/
def aliasOutputSession : SessionState :=
  { Graph := some aliasOutputGraph
    GetMLValueIdx := indexOfName ["X", "Y"]
    GetMaxMLValueIdx := 1
    GetKernelDef := fun n => if n = 1 then some aliasKernel else none
    GetAllocatorInfo := fun _ _ => cpuInfo
    GetExecutionProvider := fun s =>
      if s = kCpuExecutionProvider then some (fun _ => cpuInfo) else none }

/-- The plan `CreatePlan` produces for `aliasOutputSession`. -/
def aliasOutputPlan : SequentialExecutionPlan :=
  { allocation_plan := [floatEntry AllocKind.kPreExisting 0,
      floatEntry AllocKind.kAllocateOutput 0]
    execution_plan := [⟨1, 1, 0⟩]
    to_be_freed := [] }

/-- The planner object after `CreatePlan` on `aliasInputSession`. -/
def aliasInputFinal : PlannerImpl :=
  { ml_value_info_ := [⟨some (arg "X"), 1, 0⟩, ⟨some (arg "Z"), 1, 0⟩, ⟨some (arg "Y"), 1, 2⟩]
    freelist_ := []
    plan_ := aliasInputPlan }

/-! ## Invariants of the planner passes -/

/-- Values that carry a phantom use: graph inputs and initializers (each once), and the graph
outputs (once per occurrence in the output list). -/
def Pinned (ss : SessionState) (graph : Graph) : List MLValueIndex :=
  (InitiallyDefined ss graph).dedup ++ OutputIndices ss graph

/-- What `ComputeUseCounts` leaves alone: allocation kinds, donors and value types, the
freelist, the schedule and `to_be_freed`; use counts stay non-negative. -/
structure UseCountsFrame (p p' : PlannerImpl) : Prop where
  alloc_kind : ∀ v, (entry p'.plan_ v).alloc_kind = (entry p.plan_ v).alloc_kind
  reused_buffer : ∀ v, (entry p'.plan_ v).reused_buffer = (entry p.plan_ v).reused_buffer
  freelist : p'.freelist_ = p.freelist_
  execution_plan : p'.plan_.execution_plan = p.plan_.execution_plan
  to_be_freed : p'.plan_.to_be_freed = p.plan_.to_be_freed
  nonneg : (∀ v, 0 ≤ cnt p v) → ∀ v, 0 ≤ cnt p' v

/-- What the passes of `ComputeReusePlan` leave alone: locations and fences, def-sites, the
schedule and `to_be_freed`. -/
structure ReuseFrame (p p' : PlannerImpl) : Prop where
  location : ∀ v, (entry p'.plan_ v).location = (entry p.plan_ v).location
  create_fence : ∀ v, (entry p'.plan_ v).create_fence = (entry p.plan_ v).create_fence
  defsite : ∀ v, defsite p' v = defsite p v
  execution_plan : p'.plan_.execution_plan = p.plan_.execution_plan
  to_be_freed : p'.plan_.to_be_freed = p.plan_.to_be_freed

/-- The allocation kinds that mark a value as owned by the caller or by the session. -/
def AllocKind.Owned (k : AllocKind) : Prop :=
  k = AllocKind.kPreExisting ∨ k = AllocKind.kAllocateStatically ∨ k = AllocKind.kAllocateOutput

instance (k : AllocKind) : Decidable k.Owned := by unfold AllocKind.Owned; infer_instance

/-- Invariant of the reuse pass. `F` lists the reads still to be processed (in order, with
multiplicity), `Fut` the values still to be produced, `D` the values already defined, and `P`
the pinned values. -/
structure RInv (P : List MLValueIndex) (p : PlannerImpl) (F Fut D : List MLValueIndex) : Prop where
  count : ∀ r, (((F ++ P).countP (fun x => decide (buf p x = r)) : Nat) : Int) ≤ cnt p r
  pinned : ∀ v ∈ P, buf p v = v
  fut_self : ∀ c ∈ Fut, buf p c = c
  fut_unref : ∀ x ∈ D, buf p x ∉ Fut
  fut_nodup : Fut.Nodup
  disj : ∀ x ∈ D, x ∉ Fut
  idem : ∀ x ∈ D, buf p (buf p x) = buf p x
  free : ∀ e ∈ p.freelist_, e.ml_value ∉ Fut ∧ buf p e.ml_value = e.ml_value ∧ e.ml_value ∉ P
  reuse : ∀ v, (entry p.plan_ v).alloc_kind = AllocKind.kReuse →
    (entry p.plan_ v).reused_buffer = buf p v ∧ buf p v ≠ v ∧ buf p (buf p v) = buf p v ∧
      buf p v ∉ Fut
  owned : ∀ v, (entry p.plan_ v).alloc_kind.Owned → v ∈ P

/-- Every recorded def-site names the value it is recorded for. -/
def DefSitesOK (ss : SessionState) (p : PlannerImpl) : Prop :=
  ∀ v a, defsite p v = some a → ss.GetMLValueIdx a.Name = some v

/-- Indices of the defs in a list that the weight pass plans: existing defs named by an
initializer. -/
def WeightIndicesOf (ss : SessionState) (graph : Graph) (defs : List NodeArg) :
    List MLValueIndex :=
  (defs.filter (fun d => d.Exists && graph.AllInitializedTensors.contains d.Name)).filterMap
    (fun d => ss.GetMLValueIdx d.Name)

/-- The initializers the weight pass plans: those read by some node of the graph. -/
def PlannedWeights (ss : SessionState) (graph : Graph) : List MLValueIndex :=
  graph.Nodes.flatMap (fun n => WeightIndicesOf ss graph n.InputDefs)

/-- The five ways in which `ComputeReusePlan` settles one existing output `node_output` of
`pnode` with value index `current`, leading from planner state `p` to `p'`. -/
inductive OutputDecision (ss : SessionState) (ctx : ISequentialPlannerContext) (graph : Graph)
    (pnode : Node) (node_output : NodeArg) (output_arg_num : Nat) (current : MLValueIndex)
    (p p' : PlannerImpl) : Prop where
  | graph_output (p1 : PlannerImpl)
      (h1 : p.modifyAllocPlan current
        (fun a => { a with value_type := some node_output.Type_ }) = .ok p1)
      (hgo : graph.Outputs.any (fun g => g.Name == node_output.Name) = true)
      (h2 : p1.modifyAllocPlan current
        (fun a => { a with alloc_kind := AllocKind.kAllocateOutput }) = .ok p')
  | non_tensor (p1 : PlannerImpl)
      (h1 : p.modifyAllocPlan current
        (fun a => { a with value_type := some node_output.Type_ }) = .ok p1)
      (hgo : ¬ graph.Outputs.any (fun g => g.Name == node_output.Name) = true)
      (hnt : IsNonTensor node_output = true)
      (h2 : p1.modifyAllocPlan current
        (fun a => { a with alloc_kind := AllocKind.kAllocate }) = .ok p')
  | reuse_input (p1 : PlannerImpl) (reused : MLValueIndex)
      (h1 : p.modifyAllocPlan current
        (fun a => { a with value_type := some node_output.Type_ }) = .ok p1)
      (hgo : ¬ graph.Outputs.any (fun g => g.Name == node_output.Name) = true)
      (hnt : ¬ IsNonTensor node_output = true)
      (hfi : FindReusableInput ss ctx p1 pnode output_arg_num = .ok (some reused))
      (h2 : Reuse p1 reused current = .ok p')
  | reuse_free (p1 p2 : PlannerImpl) (reused : MLValueIndex)
      (h1 : p.modifyAllocPlan current
        (fun a => { a with value_type := some node_output.Type_ }) = .ok p1)
      (hgo : ¬ graph.Outputs.any (fun g => g.Name == node_output.Name) = true)
      (hnt : ¬ IsNonTensor node_output = true)
      (hfi : FindReusableInput ss ctx p1 pnode output_arg_num = .ok none)
      (hft : FindReusableTensor ss ctx p1 node_output = .ok (some reused, p2))
      (h2 : Reuse p2 reused current = .ok p')
  | allocate (p1 p2 : PlannerImpl)
      (h1 : p.modifyAllocPlan current
        (fun a => { a with value_type := some node_output.Type_ }) = .ok p1)
      (hgo : ¬ graph.Outputs.any (fun g => g.Name == node_output.Name) = true)
      (hnt : ¬ IsNonTensor node_output = true)
      (hfi : FindReusableInput ss ctx p1 pnode output_arg_num = .ok none)
      (hft : FindReusableTensor ss ctx p1 node_output = .ok (none, p2))
      (h2 : p2.modifyAllocPlan current
        (fun a => { a with alloc_kind := AllocKind.kAllocate }) = .ok p')

/-- The by-name test for graph outputs agrees with the pinned values on the outputs of a node
list: an output found among the graph outputs is pinned, any other output is not. -/
def PinnedByName (ss : SessionState) (graph : Graph) (P : List MLValueIndex)
    (outs : List NodeArg) : Prop :=
  ∀ o ∈ outs, o.Exists = true → ∀ c, ss.GetMLValueIdx o.Name = some c →
    (graph.Outputs.any (fun g => g.Name == o.Name) = true → c ∈ P) ∧
    (¬ graph.Outputs.any (fun g => g.Name == o.Name) = true → c ∉ P)

/-- Value `v` is read by the node at step `s` although the root buffer of `v` is listed in
`to_be_freed` within the free range of an earlier step `t`. -/
def FreedBeforeUse (ss : SessionState) (graph : Graph) (p : PlannerImpl)
    (v : MLValueIndex) (t s : Nat) : Prop :=
  t < s ∧
  (∃ step node, p.plan_.execution_plan[s]? = some step ∧
    graph.GetNode step.node_index = some node ∧ v ∈ node.Reads ss) ∧
  (∃ (step : NodeExecutionPlan) (j : Nat), p.plan_.execution_plan[t]? = some step ∧
    step.free_from_index ≤ (j : Int) ∧ (j : Int) ≤ step.free_to_index ∧
    p.plan_.to_be_freed[j]? = some (buf p v))

/-- The number `output_arg_num` that the output loop of `ComputeReusePlan` passes to
`FindReusableInput` for the output def that follows the defs `pre`: the count of existing
defs among `pre`. -/
def OutputArgNum (pre : List NodeArg) : Nat := (pre.filter (fun a => a.Exists)).length

/-- How the existing output `o` (value `c`) of `pnode`, planned with output number `j`, ends up
in planner state `pf`. `Fut` lists values that are produced later; the donor is none of them. -/
inductive Outcome (ss : SessionState) (ctx : ISequentialPlannerContext) (graph : Graph)
    (pnode : Node) (o : NodeArg) (j : Nat) (c : MLValueIndex) (Fut : List MLValueIndex)
    (pf : PlannerImpl) : Prop where
  | graph_output
      (hgo : graph.Outputs.any (fun g => g.Name == o.Name) = true)
      (hk : (entry pf.plan_ c).alloc_kind = AllocKind.kAllocateOutput)
  | non_tensor
      (hgo : ¬ graph.Outputs.any (fun g => g.Name == o.Name) = true)
      (hnt : IsNonTensor o = true)
      (hk : (entry pf.plan_ c).alloc_kind = AllocKind.kAllocate)
  | reuse_input (pa : PlannerImpl) (reused : MLValueIndex)
      (hgo : ¬ graph.Outputs.any (fun g => g.Name == o.Name) = true)
      (hnt : ¬ IsNonTensor o = true)
      (hfi : FindReusableInput ss ctx pa pnode j = .ok (some reused))
      (hfut : reused ∉ Fut)
      (hk : (entry pf.plan_ c).alloc_kind = AllocKind.kReuse)
      (hr : (entry pf.plan_ c).reused_buffer = buf pf reused)
  | reuse_free (pa pb : PlannerImpl) (reused : MLValueIndex)
      (hgo : ¬ graph.Outputs.any (fun g => g.Name == o.Name) = true)
      (hnt : ¬ IsNonTensor o = true)
      (hfi : FindReusableInput ss ctx pa pnode j = .ok none)
      (hft : FindReusableTensor ss ctx pa o = .ok (some reused, pb))
      (hfut : reused ∉ Fut)
      (hk : (entry pf.plan_ c).alloc_kind = AllocKind.kReuse)
      (hr : (entry pf.plan_ c).reused_buffer = reused)
      (hloc : (entry pf.plan_ c).location = (entry pf.plan_ reused).location)
  | allocate (pa pb : PlannerImpl)
      (hgo : ¬ graph.Outputs.any (fun g => g.Name == o.Name) = true)
      (hnt : ¬ IsNonTensor o = true)
      (hfi : FindReusableInput ss ctx pa pnode j = .ok none)
      (hft : FindReusableTensor ss ctx pa o = .ok (none, pb))
      (hk : (entry pf.plan_ c).alloc_kind = AllocKind.kAllocate)

/-! ## The deallocation plan and its consumer -/

/-- The closed index range `[free_from, free_to]` of `to_be_freed`, as a list; empty when
`free_from > free_to`. -/
def FreeRange (to_be_freed : List MLValueIndex) (free_from free_to : Int) : List MLValueIndex :=
  (to_be_freed.drop free_from.toNat).take (free_to - free_from + 1).toNat

/-- The ml-values of the freelist entries with deallocation point `s`, oldest entry first (the
freelist is read from back to front). -/
def FreedAt (freelist : List FreeBufferInfo) (s : Nat) : List MLValueIndex :=
  (freelist.reverse.filter (fun e => e.deallocate_point = s)).map (fun e => e.ml_value)

/-- The statement after the loop of `GenerateDeallocationPlan`, applied to the loop's final
`prev_dealloc_point`, `current` and plan: close the range of the last deallocation point. -/
def CloseLastRange : Option Nat × Nat × SequentialExecutionPlan → SequentialExecutionPlan
  | (some prev, current, plan) => set_free_to_index plan prev ((current : Int) - 1)
  | (none, _, plan) => plan

/-- The freelist holds its entries newest first: deallocation points do not increase from the
front to the back, and all lie before program counter `pc`. -/
def FreelistOrdered (freelist : List FreeBufferInfo) (pc : Nat) : Prop :=
  freelist.Pairwise (fun a b => b.deallocate_point ≤ a.deallocate_point) ∧
    ∀ e ∈ freelist, e.deallocate_point < pc

/-- The loop of `SequentialExecutor::ReleaseNodeMLValues`,
`for (i = free_from_index; i <= free_to_index; ++i)`, with loop variable `i` and `n` iterations
to go. `ReleaseMLValue` is the operation of the execution frame (declared outside the sources
at hand); a subscript outside `to_be_freed` is raised as an error. -/
def ReleaseLoop {Frame : Type} (ReleaseMLValue : MLValueIndex → Frame → Frame)
    (to_be_freed : List MLValueIndex) (free_to_index : Int) : Nat → Int → Frame → M Frame
  | 0, _, root_frame_ => pure root_frame_
  | n + 1, i, root_frame_ =>
    if i ≤ free_to_index then
      if i < 0 then throw PlanError.thrown
      else
        match to_be_freed[i.toNat]? with
        | none => throw PlanError.thrown
        | some mlvalue_idx =>
          ReleaseLoop ReleaseMLValue to_be_freed free_to_index n (i + 1)
            (ReleaseMLValue mlvalue_idx root_frame_)
    else pure root_frame_

/-- `SequentialExecutor::ReleaseNodeMLValues`: the frame after the ml-values of one step have
been released. The loop runs `free_to_index - free_from_index + 1` times when that is
positive and not at all otherwise. -/
def ReleaseNodeMLValues {Frame : Type} (ReleaseMLValue : MLValueIndex → Frame → Frame)
    (p_seq_exec_plan : SequentialExecutionPlan) (node_exec_plan : NodeExecutionPlan)
    (root_frame_ : Frame) : M Frame :=
  ReleaseLoop ReleaseMLValue p_seq_exec_plan.to_be_freed node_exec_plan.free_to_index
    (node_exec_plan.free_to_index - node_exec_plan.free_from_index + 1).toNat
    node_exec_plan.free_from_index root_frame_

/-! ## The status of `CreatePlan` together with the plan object

`CreatePlan` writes into the plan object of its caller. The functions below return the status
together with the object as it is when the status is returned; exceptions stay errors. -/

/-- `Common::Status`: success, or failure with a message. -/
inductive Status where
  | OK
  | FAIL (msg : String)
deriving DecidableEq, Repr

/-- Third loop of `ComputeUseCounts`, returning the planner object also when the loop leaves
with the failure status for a missing kernel definition. -/
def UseCountsStepsStatus (ss : SessionState) (graph : Graph) :
    List NodeExecutionPlan → PlannerImpl → M (Status × PlannerImpl)
  | [], p => pure (Status.OK, p)
  | step :: rest, p =>
    match graph.GetNode step.node_index with
    | none => throw PlanError.thrown
    | some pnode => do
      let p ← UseCountsNodeInputs ss pnode.InputDefs p
      match ss.GetKernelDef step.node_index with
      | none => pure (Status.FAIL (MissingKernelMessage pnode), p)
      | some p_kernelDef =>
        let default_allocator_info := ss.GetAllocatorInfo step.node_index MemType.kMemTypeDefault
        let p ← UseCountsNodeOutputs ss step.node_index default_allocator_info
          p_kernelDef.OutputMemoryType pnode.OutputDefs 0 p
        let p ← MarkCreateFenceIfQueued ss p_kernelDef pnode p
        UseCountsStepsStatus ss graph rest p

/-- The part of `ComputeUseCounts` after its third loop. -/
def UseCountsFinish (ss : SessionState) (graph : Graph) :
    Status × PlannerImpl → M (Status × PlannerImpl)
  | (Status.OK, p) => do
    let p ← UseCountsGraphOutputs ss graph.Outputs p
    pure (Status.OK, p)
  | (Status.FAIL msg, p) => pure (Status.FAIL msg, p)

/-- `ComputeUseCounts` with its status and the planner object at the return. -/
def ComputeUseCountsStatus (ss : SessionState) (graph : Graph) (p : PlannerImpl) :
    M (Status × PlannerImpl) := do
  let p ← UseCountsGraphInputs ss graph.Inputs p
  let p ← UseCountsInitializers ss graph graph.AllInitializedTensors p
  let r ← UseCountsStepsStatus ss graph p.plan_.execution_plan p
  UseCountsFinish ss graph r

/-- The part of `CreatePlan` after `LOTUS_RETURN_IF_ERROR(ComputeUseCounts(...))`. -/
def CreatePlanFinish (ss : SessionState) (ctx : ISequentialPlannerContext) (graph : Graph) :
    Status × PlannerImpl → M (Status × SequentialExecutionPlan)
  | (Status.OK, p) => do
    let p ← ComputeReusePlan ss ctx graph p
    pure (Status.OK, GenerateDeallocationPlan p.freelist_ p.plan_)
  | (Status.FAIL msg, p) => pure (Status.FAIL msg, p.plan_)

/-- `SequentialPlanner::CreatePlan` with the status it returns and the plan object of the
caller as it is at the return. A negative `num_ml_values` makes `resize` in `Initialize`
throw. -/
def CreatePlanStatus (ss : SessionState) (ctx : ISequentialPlannerContext)
    (plan : SequentialExecutionPlan) : M (Status × SequentialExecutionPlan) :=
  match ss.Graph with
  | none => throw PlanError.thrown
  | some p_graph =>
    match p_graph.NodesInTopologicalOrder with
    | .error msg => pure (Status.FAIL msg, plan)
    | .ok p_graph_nodes =>
      if ss.GetMaxMLValueIdx + 1 < 0 then throw PlanError.thrown
      else do
        let num_ml_values := (ss.GetMaxMLValueIdx + 1).toNat
        let p := Initialize { ml_value_info_ := [], freelist_ := [], plan_ := plan } num_ml_values
        let p : PlannerImpl :=
          { p with
            plan_ := { p.plan_ with execution_plan := ScheduledNodes p_graph p_graph_nodes } }
        let r ← ComputeUseCountsStatus ss p_graph p
        CreatePlanFinish ss ctx p_graph r

/-- What the caller of a status-returning function gets: the result on success, the status
message on failure. -/
def StatusResult {α : Type} : M (Status × α) → M α
  | .ok (Status.OK, a) => .ok a
  | .ok (Status.FAIL msg, _) => .error (PlanError.status msg)
  | .error e => .error e

/-- A planner call that never ends in a failure status (it succeeds or throws). -/
def NoStatus {α : Type} (x : M α) : Prop := ∀ msg, x ≠ .error (PlanError.status msg)

/-! ## Resolvable names -/

/-- The name has an ml-value index, and the index is within `0 .. GetMaxMLValueIdx`. -/
def Resolvable (ss : SessionState) (name : MLValueName) : Prop :=
  match ss.GetMLValueIdx name with
  | some i => (i : Int) ≤ ss.GetMaxMLValueIdx
  | none => False

instance (ss : SessionState) (name : MLValueName) : Decidable (Resolvable ss name) := by
  unfold Resolvable
  cases ss.GetMLValueIdx name <;> infer_instance

/-- Every step names a node of the graph, and every value name the planner looks up is
resolvable: the graph inputs, initializers and graph outputs, and the existing defs of the
scheduled nodes. -/
def NamesResolvable (ss : SessionState) (graph : Graph) (steps : List NodeExecutionPlan) :
    Prop :=
  (∀ s ∈ steps, (graph.GetNode s.node_index).isSome) ∧
  (∀ a ∈ graph.Inputs, Resolvable ss a.Name) ∧
  (∀ w ∈ graph.AllInitializedTensors, Resolvable ss w) ∧
  (∀ n ∈ StepNodes graph steps, ∀ a ∈ n.InputDefs ++ n.OutputDefs, a.Exists = true →
    Resolvable ss a.Name) ∧
  (∀ a ∈ graph.Outputs, Resolvable ss a.Name)

instance (ss : SessionState) (graph : Graph) (steps : List NodeExecutionPlan) :
    Decidable (NamesResolvable ss graph steps) := by
  unfold NamesResolvable; infer_instance

/-- Both tables of the planner have `n` entries. -/
def Sized (p : PlannerImpl) (n : Nat) : Prop :=
  p.ml_value_info_.length = n ∧ p.plan_.allocation_plan.length = n

/-! ## Further concrete planner inputs -/

/-- Graph `X -> Relu -> Y` whose graph input `X` is also listed as a graph output. -/
def passThroughGraph : Graph :=
  { Nodes := [⟨0, "_Source", "", [], [], ""⟩,
              ⟨1, "Relu", "relu", [arg "X"], [arg "Y"], kCpuExecutionProvider⟩,
              ⟨2, "_Sink", "", [], [], ""⟩]
    NodesInTopologicalOrder := .ok [0, 1, 2]
    source_node_index := 0
    sink_node_index := 2
    Inputs := [arg "X"]
    Outputs := [arg "Y", arg "X"]
    AllInitializedTensors := []
    NodeArgs := [arg "X", arg "Y"] }

/-- Session state for `passThroughGraph`: values `X, Y` are numbered 0 and 1. -/
def passThroughSession : SessionState :=
  { Graph := some passThroughGraph
    GetMLValueIdx := indexOfName ["X", "Y"]
    GetMaxMLValueIdx := 1
    GetKernelDef := fun n => if n = 1 then some inplaceKernel else none
    GetAllocatorInfo := fun _ _ => cpuInfo
    GetExecutionProvider := fun s =>
      if s = kCpuExecutionProvider then some (fun _ => cpuInfo) else none }

/-- Graph `A -> Abs -> M`, `A -> Abs -> N`, `(M, N) -> Add -> Y` with graph input `A` and graph
output `Y`: the last step is the last reader of both `M` and `N`. -/
def twoFreedGraph : Graph :=
  { Nodes := [⟨0, "_Source", "", [], [], ""⟩,
              ⟨1, "Abs", "n1", [arg "A"], [arg "M"], kCpuExecutionProvider⟩,
              ⟨2, "Abs", "n2", [arg "A"], [arg "N"], kCpuExecutionProvider⟩,
              ⟨3, "Add", "n3", [arg "M", arg "N"], [arg "Y"], kCpuExecutionProvider⟩,
              ⟨4, "_Sink", "", [], [], ""⟩]
    NodesInTopologicalOrder := .ok [0, 1, 2, 3, 4]
    source_node_index := 0
    sink_node_index := 4
    Inputs := [arg "A"]
    Outputs := [arg "Y"]
    AllInitializedTensors := []
    NodeArgs := [arg "A", arg "M", arg "N", arg "Y"] }

/-- Session state for `twoFreedGraph`: values `A, M, N, Y` are numbered 0 to 3. -/
def twoFreedSession : SessionState :=
  { Graph := some twoFreedGraph
    GetMLValueIdx := indexOfName ["A", "M", "N", "Y"]
    GetMaxMLValueIdx := 3
    GetKernelDef := fun n => if n = 0 ∨ n = 4 then none else some plainKernel
    GetAllocatorInfo := fun _ _ => cpuInfo
    GetExecutionProvider := fun s =>
      if s = kCpuExecutionProvider then some (fun _ => cpuInfo) else none }

/-- The session `reluChainSession` without a kernel definition for the Sigmoid node (node 2). -/
def missingKernelSession : SessionState :=
  { reluChainSession with
    GetKernelDef := fun n => if n = 2 then none else reluChainSession.GetKernelDef n }

/-- The plan `CreatePlan` produces for `passThroughSession`. -/
def passThroughPlan : SequentialExecutionPlan :=
  { allocation_plan := [floatEntry AllocKind.kPreExisting 0, floatEntry AllocKind.kAllocateOutput 0]
    execution_plan := [⟨1, 1, 0⟩]
    to_be_freed := [] }

/-- The planner state of `twoFreedSession` in the last step (program counter 2), after the
output `Y` has been planned and before the inputs `M` and `N` are released. -/
def twoFreedMid : PlannerImpl :=
  { ml_value_info_ := [⟨some (arg "A"), 1, 0⟩, ⟨some (arg "M"), 1, 1⟩, ⟨some (arg "N"), 1, 2⟩,
      ⟨some (arg "Y"), 1, 3⟩]
    freelist_ := []
    plan_ :=
      { allocation_plan := [floatEntry AllocKind.kPreExisting 0, floatEntry AllocKind.kAllocate 0,
          floatEntry AllocKind.kAllocate 0, floatEntry AllocKind.kAllocateOutput 0]
        execution_plan := [⟨1, 1, 0⟩, ⟨2, 1, 0⟩, ⟨3, 1, 0⟩]
        to_be_freed := [] } }

/-- The state `twoFreedMid` after the input `M` has been released. -/
def twoFreedMid1 : PlannerImpl :=
  { twoFreedMid with
    ml_value_info_ := [⟨some (arg "A"), 1, 0⟩, ⟨some (arg "M"), 0, 1⟩, ⟨some (arg "N"), 1, 2⟩,
      ⟨some (arg "Y"), 1, 3⟩]
    freelist_ := [⟨1, 2⟩] }

/-- The state `twoFreedMid1` after the input `N` has been released as well. -/
def twoFreedMid2 : PlannerImpl :=
  { twoFreedMid with
    ml_value_info_ := [⟨some (arg "A"), 1, 0⟩, ⟨some (arg "M"), 0, 1⟩, ⟨some (arg "N"), 0, 2⟩,
      ⟨some (arg "Y"), 1, 3⟩]
    freelist_ := [⟨2, 2⟩, ⟨1, 2⟩] }

/-- The planner object after `CreatePlan` on `twoFreedSession`: both `M` (value 1) and `N`
(value 2) are freed by step 2. -/
def twoFreedFinal : PlannerImpl :=
  { twoFreedMid2 with
    plan_ :=
      { twoFreedMid.plan_ with
        execution_plan := [⟨1, 1, 0⟩, ⟨2, 1, 0⟩, ⟨3, 0, 1⟩]
        to_be_freed := [1, 2] } }

/-- The plan object after `CreatePlan` has failed on `missingKernelSession`, started on
`freshPlan`. -/
def missingKernelPlan : SequentialExecutionPlan :=
  { allocation_plan := [{}, {}, {}, {}]
    execution_plan := [⟨1, 1, 0⟩, ⟨2, 1, 0⟩, ⟨3, 1, 0⟩]
    to_be_freed := [] }

/-- The plan after `CreatePlan` has run on `reluChainSession` a second time, into the plan
object `reluChainPlan` that the first run produced. -/
def reluChainRerun : SequentialExecutionPlan :=
  { reluChainPlan with to_be_freed := [1, 1] }

/-! ## Shapes, the freelist search and the weight pass: statements -/

/-- Two axes agree: both carry a known integer value and the values are equal, or both carry
a symbolic parameter and the parameters are equal. -/
def AxesAgree (d1 d2 : Dimension) : Prop :=
  (∃ a, d1 = Dimension.dim_value a ∧ d2 = Dimension.dim_value a) ∨
  (∃ q, d1 = Dimension.dim_param q ∧ d2 = Dimension.dim_param q)

/-- Two shapes agree: same rank, and the axes agree at every position. -/
def ShapesAgree (shape1 shape2 : TensorShapeProto) : Prop :=
  shape1.length = shape2.length ∧
    ∀ (i : Nat) (d1 d2 : Dimension), shape1[i]? = some d1 → shape2[i]? = some d2 →
      AxesAgree d1 d2

/-- Freelist entry `e` suits the output `output_arg` of known shape `required_shape`: the
def-site of its ml-value has the location of the output, a known shape, and that shape and
type have the same size as those of the output. -/
def FitsOutput (ss : SessionState) (ctx : ISequentialPlannerContext) (p : PlannerImpl)
    (output_arg : NodeArg) (required_shape : TensorShapeProto) (e : FreeBufferInfo) : Prop :=
  ∃ (a : NodeArg) (i c : MLValueIndex) (shape : TensorShapeProto),
    defsite p e.ml_value = some a ∧ ss.GetMLValueIdx a.Name = some i ∧
    ss.GetMLValueIdx output_arg.Name = some c ∧
    (entry p.plan_ i).location = (entry p.plan_ c).location ∧
    ctx.GetShape a = some shape ∧
    SameSizeShapes shape a.Type_ required_shape output_arg.Type_ = .ok true

/-- What a call of `FindReusableTensor` relies on: the output is a tensor with an entry in the
allocation plan, and every freelist entry has a recorded def-site with an entry in the
allocation plan that is a tensor whenever its shape is known. -/
def FreelistReadable (ss : SessionState) (ctx : ISequentialPlannerContext) (p : PlannerImpl)
    (output_arg : NodeArg) : Prop :=
  (∃ c, ss.GetMLValueIdx output_arg.Name = some c ∧ c < p.plan_.allocation_plan.length) ∧
  (∃ t z, output_arg.Type_ = DataType.tensor t z) ∧
  ∀ e ∈ p.freelist_, ∃ a i, defsite p e.ml_value = some a ∧
    ss.GetMLValueIdx a.Name = some i ∧ i < p.plan_.allocation_plan.length ∧
    ((ctx.GetShape a).isSome → ∃ t z, a.Type_ = DataType.tensor t z)

/-- The input def `d` at position `dpre.length` of node `n` is the last place in graph node
order where a node reads the weight `w`: `d` exists and names an initializer with index `w`,
and neither the later input defs of `n` nor the later nodes read `w` as a weight. -/
def LastWeightUse (ss : SessionState) (graph : Graph) (npre : List Node) (n : Node)
    (npost : List Node) (dpre : List NodeArg) (d : NodeArg) (dpost : List NodeArg)
    (w : MLValueIndex) : Prop :=
  graph.Nodes = npre ++ n :: npost ∧ n.InputDefs = dpre ++ d :: dpost ∧ d.Exists = true ∧
  graph.AllInitializedTensors.contains d.Name = true ∧ ss.GetMLValueIdx d.Name = some w ∧
  w ∉ WeightIndicesOf ss graph dpost ∧
  w ∉ npost.flatMap (fun m => WeightIndicesOf ss graph m.InputDefs)

instance (ss : SessionState) (graph : Graph) (npre : List Node) (n : Node)
    (npost : List Node) (dpre : List NodeArg) (d : NodeArg) (dpost : List NodeArg)
    (w : MLValueIndex) : Decidable (LastWeightUse ss graph npre n npost dpre d dpost w) := by
  unfold LastWeightUse; infer_instance

/-- The occurrence of def `d` in node `n` (after the nodes `npre` and the input defs `dpre`)
is the first consuming occurrence of initializer `w` in graph node order: `d` exists, names an
initializer and has index `w`, and neither the earlier nodes nor the earlier input defs of `n`
read `w` as a weight. -/
def FirstWeightUse (ss : SessionState) (graph : Graph) (npre : List Node) (n : Node)
    (npost : List Node) (dpre : List NodeArg) (d : NodeArg) (dpost : List NodeArg)
    (w : MLValueIndex) : Prop :=
  graph.Nodes = npre ++ n :: npost ∧ n.InputDefs = dpre ++ d :: dpost ∧ d.Exists = true ∧
  graph.AllInitializedTensors.contains d.Name = true ∧ ss.GetMLValueIdx d.Name = some w ∧
  w ∉ WeightIndicesOf ss graph dpre ∧
  w ∉ npre.flatMap (fun m => WeightIndicesOf ss graph m.InputDefs)

instance (ss : SessionState) (graph : Graph) (npre : List Node) (n : Node)
    (npost : List Node) (dpre : List NodeArg) (d : NodeArg) (dpost : List NodeArg)
    (w : MLValueIndex) : Decidable (FirstWeightUse ss graph npre n npost dpre d dpost w) := by
  unfold FirstWeightUse; infer_instance

/-- Value `v` is an existing input or output def of a scheduled node whose kernel runs on a
non-zero execution queue. -/
def FencedBy (ss : SessionState) (graph : Graph) (steps : List NodeExecutionPlan)
    (v : MLValueIndex) : Prop :=
  ∃ s ∈ steps, ∃ n k, graph.GetNode s.node_index = some n ∧
    ss.GetKernelDef s.node_index = some k ∧ k.ExecQueueId ≠ 0 ∧
    ∃ a ∈ n.InputDefs ++ n.OutputDefs, a.Exists = true ∧ ss.GetMLValueIdx a.Name = some v

/-- The location that the output loop of `ComputeUseCounts` leaves for the output at position
`i` of the node with index `node_index` and kernel `k`, when the entry held `unset` before. -/
def OutputLocation (ss : SessionState) (node_index : NodeIndex) (k : KernelDef) (i : Nat)
    (unset : AllocatorInfo) : AllocatorInfo :=
  if (ss.GetAllocatorInfo node_index MemType.kMemTypeDefault).name = CPU then unset
  else
    match k.OutputMemoryType.lookup i with
    | some mem_type => ss.GetAllocatorInfo node_index mem_type
    | none => ss.GetAllocatorInfo node_index MemType.kMemTypeDefault

/-- The use count of value `v` after `ComputeUseCounts` in the words of the specification: the
occurrences of `v` as an existing input of the scheduled nodes, plus one if `v` is a graph
input, plus one if `v` is an initializer, plus one for each occurrence of `v` among the graph
outputs. -/
def SpecUseCount (ss : SessionState) (graph : Graph) (steps : List NodeExecutionPlan)
    (v : MLValueIndex) : Int :=
  ((AllReads ss (StepNodes graph steps)).count v : Nat) +
    (if v ∈ InputIndices ss graph then 1 else 0) +
    (if v ∈ InitializerIndices ss graph then 1 else 0) +
    ((OutputIndices ss graph).count v : Nat)

/-! ## Concrete planner inputs for types, weights, fences and locations -/

/-- An existing def of a non-tensor (map) type; its shape is unknown. -/
def mapArg (name : String) : NodeArg := ⟨name, true, DataType.non_tensor 0, none⟩

/-- A kernel definition declaring both the alias pair (0, 0) and the in-place pair (0, 0). -/
def aliasInplaceKernel : KernelDef := ⟨[(0, 0)], [(0, 0)], [], [], 0⟩

/-- Graph `A -> Abs -> X -> ZipMap -> S -> Cast -> Y` whose value `S` is a map. -/
def mapGraph : Graph :=
  { Nodes := [⟨0, "_Source", "", [], [], ""⟩,
              ⟨1, "Abs", "abs", [arg "A"], [arg "X"], kCpuExecutionProvider⟩,
              ⟨2, "ZipMap", "zipmap", [arg "X"], [mapArg "S"], kCpuExecutionProvider⟩,
              ⟨3, "Cast", "cast", [mapArg "S"], [arg "Y"], kCpuExecutionProvider⟩,
              ⟨4, "_Sink", "", [], [], ""⟩]
    NodesInTopologicalOrder := .ok [0, 1, 2, 3, 4]
    source_node_index := 0
    sink_node_index := 4
    Inputs := [arg "A"]
    Outputs := [arg "Y"]
    AllInitializedTensors := []
    NodeArgs := [arg "A", arg "X", mapArg "S", arg "Y"] }

/-- Session state for `mapGraph`: values `A, X, S, Y` are numbered 0 to 3 and the kernel of
node 2 declares an alias and an in-place pair for its output. -/
def mapSession : SessionState :=
  { Graph := some mapGraph
    GetMLValueIdx := indexOfName ["A", "X", "S", "Y"]
    GetMaxMLValueIdx := 3
    GetKernelDef := fun n =>
      if n = 2 then some aliasInplaceKernel else if n = 0 ∨ n = 4 then none else some plainKernel
    GetAllocatorInfo := fun _ _ => cpuInfo
    GetExecutionProvider := fun s =>
      if s = kCpuExecutionProvider then some (fun _ => cpuInfo) else none }

/-- Graph `Add(X, W) -> M`, `Mul(M, W) -> Y` with initializer `W`; the first node runs on the
CPU provider and the second on the CUDA provider. -/
def sharedWeightGraph : Graph :=
  { Nodes := [⟨0, "_Source", "", [], [], ""⟩,
              ⟨1, "Add", "add", [arg "X", arg "W"], [arg "M"], kCpuExecutionProvider⟩,
              ⟨2, "Mul", "mul", [arg "M", arg "W"], [arg "Y"], kCudaExecutionProvider⟩,
              ⟨3, "_Sink", "", [], [], ""⟩]
    NodesInTopologicalOrder := .ok [0, 1, 2, 3]
    source_node_index := 0
    sink_node_index := 3
    Inputs := [arg "X"]
    Outputs := [arg "Y"]
    AllInitializedTensors := ["W"]
    NodeArgs := [arg "X", arg "W", arg "M", arg "Y"] }

/-- Session state for `sharedWeightGraph`: values `X, W, M, Y` are numbered 0 to 3. -/
def sharedWeightSession : SessionState :=
  { Graph := some sharedWeightGraph
    GetMLValueIdx := indexOfName ["X", "W", "M", "Y"]
    GetMaxMLValueIdx := 3
    GetKernelDef := fun n => if n = 1 ∨ n = 2 then some plainKernel else none
    GetAllocatorInfo := fun n _ => if n = 2 then cudaInfo else cpuInfo
    GetExecutionProvider := fun s =>
      if s = kCpuExecutionProvider then some (fun _ => cpuInfo)
      else if s = kCudaExecutionProvider then some (fun _ => cudaInfo) else none }

/-- A kernel definition that wants its input 1 in CPU memory. -/
def cpuInputKernel : KernelDef := ⟨[], [], [(1, MemType.kMemTypeCPUInput)], [], 0⟩

/-- The session `sharedWeightSession` in which the kernel of the CUDA node wants input 1 (the
weight) on CPU explicitly. -/
def cpuWeightSession : SessionState :=
  { sharedWeightSession with
    GetKernelDef := fun n =>
      if n = 1 then some plainKernel else if n = 2 then some cpuInputKernel else none }

/-- A kernel definition that runs on execution queue 2. -/
def queuedKernel : KernelDef := ⟨[], [], [], [], 2⟩

/-- Graph `Add(A, B) -> C`, `Abs(C) -> Y`; the Add kernel runs on execution queue 2. -/
def fenceGraph : Graph :=
  { Nodes := [⟨0, "_Source", "", [], [], ""⟩,
              ⟨1, "Add", "add", [arg "A", arg "B"], [arg "C"], kCpuExecutionProvider⟩,
              ⟨2, "Abs", "abs", [arg "C"], [arg "Y"], kCpuExecutionProvider⟩,
              ⟨3, "_Sink", "", [], [], ""⟩]
    NodesInTopologicalOrder := .ok [0, 1, 2, 3]
    source_node_index := 0
    sink_node_index := 3
    Inputs := [arg "A", arg "B"]
    Outputs := [arg "Y"]
    AllInitializedTensors := []
    NodeArgs := [arg "A", arg "B", arg "C", arg "Y"] }

/-- Session state for `fenceGraph`: values `A, B, C, Y` are numbered 0 to 3. -/
def fenceSession : SessionState :=
  { Graph := some fenceGraph
    GetMLValueIdx := indexOfName ["A", "B", "C", "Y"]
    GetMaxMLValueIdx := 3
    GetKernelDef := fun n =>
      if n = 1 then some queuedKernel else if n = 2 then some plainKernel else none
    GetAllocatorInfo := fun _ _ => cpuInfo
    GetExecutionProvider := fun s =>
      if s = kCpuExecutionProvider then some (fun _ => cpuInfo) else none }

/-- Graph `X -> Shape -> Y` on a node whose default allocator is the CPU allocator although
its kernel declares a memory type for output 0. -/
def cpuOverrideSession : SessionState :=
  { aliasOutputSession with
    GetKernelDef := fun n => if n = 1 then some cpuOutputKernel else none
    GetAllocatorInfo := fun _ mem_type =>
      match mem_type with
      | MemType.kMemTypeDefault => cpuInfo
      | _ => cudaPinnedInfo }

/-- The planner object of `weightInputSession` on entry to `ComputeUseCounts`. -/
def weightInputStart : PlannerImpl :=
  { ml_value_info_ := [{}, {}, {}]
    freelist_ := []
    plan_ := { allocation_plan := [{}, {}, {}], execution_plan := [⟨1, 1, 0⟩], to_be_freed := [] } }

/-- The planner object of `weightInputSession` after `ComputeUseCounts`: the use count of `W`
(value 1), a graph input and initializer read once, is 2. -/
def weightInputCounted : PlannerImpl :=
  { weightInputStart with
    ml_value_info_ := [⟨some (arg "X"), 2, 0⟩, ⟨some (arg "W"), 2, 1⟩, ⟨some (arg "Y"), 1, 2⟩] }

/-- The plan `CreatePlan` produces for `mapSession`: the map `S` (value 2) is allocated. -/
def mapPlan : SequentialExecutionPlan :=
  { allocation_plan := [floatEntry AllocKind.kPreExisting 0, floatEntry AllocKind.kAllocate 0,
      { alloc_kind := AllocKind.kAllocate, value_type := some (DataType.non_tensor 0) },
      floatEntry AllocKind.kAllocateOutput 0]
    execution_plan := [⟨1, 1, 0⟩, ⟨2, 0, 0⟩, ⟨3, 1, 1⟩]
    to_be_freed := [1, 2] }

/-- The plan `CreatePlan` produces for `sharedWeightSession`: the weight `W` (value 1) is
placed on the CUDA allocator, as the second of its two readers wants it. -/
def sharedWeightPlan : SequentialExecutionPlan :=
  { allocation_plan := [floatEntry AllocKind.kPreExisting 0,
      { alloc_kind := AllocKind.kAllocateStatically, location := cudaInfo },
      floatEntry AllocKind.kAllocate 0,
      { floatEntry AllocKind.kAllocateOutput 0 with location := cudaInfo }]
    execution_plan := [⟨1, 1, 0⟩, ⟨2, 0, 0⟩]
    to_be_freed := [2] }

/-- The planner object after `CreatePlan` on `sharedWeightSession`. -/
def sharedWeightFinal : PlannerImpl :=
  { ml_value_info_ := [⟨some (arg "X"), 1, 0⟩, ⟨some (arg "W"), 1, 1⟩, ⟨some (arg "M"), 0, 2⟩,
      ⟨some (arg "Y"), 1, 3⟩]
    freelist_ := [⟨2, 1⟩]
    plan_ := sharedWeightPlan }

/-- The plan `CreatePlan` produces for `cpuWeightSession`: the weight `W` is placed on the CPU
allocator. -/
def cpuWeightPlan : SequentialExecutionPlan :=
  { sharedWeightPlan with
    allocation_plan := [floatEntry AllocKind.kPreExisting 0,
      { alloc_kind := AllocKind.kAllocateStatically, location := cpuInfo },
      floatEntry AllocKind.kAllocate 0,
      { floatEntry AllocKind.kAllocateOutput 0 with location := cudaInfo }] }

/-- The plan `CreatePlan` produces for `fenceSession`: the three defs of the Add node carry a
fence. -/
def fencePlan : SequentialExecutionPlan :=
  { allocation_plan := [{ floatEntry AllocKind.kPreExisting 0 with create_fence := true },
      { floatEntry AllocKind.kPreExisting 0 with create_fence := true },
      { floatEntry AllocKind.kAllocate 0 with create_fence := true },
      floatEntry AllocKind.kAllocateOutput 0]
    execution_plan := [⟨1, 1, 0⟩, ⟨2, 0, 0⟩]
    to_be_freed := [2] }

/-- The planner object of `pinnedAliasSession` on entry to `ComputeUseCounts`. -/
def pinnedAliasStart : PlannerImpl :=
  { ml_value_info_ := [{}, {}, {}, {}]
    freelist_ := []
    plan_ := { allocation_plan := [{}, {}, {}, {}], execution_plan := [⟨1, 1, 0⟩, ⟨2, 1, 0⟩, ⟨3, 1, 0⟩],
               to_be_freed := [] } }

/-- The planner object of `pinnedAliasSession` after `ComputeUseCounts`: `X` (value 1) is located
in pinned memory, `Z` and `Y` on the CUDA allocator. -/
def pinnedAliasCounted : PlannerImpl :=
  { pinnedAliasStart with
    ml_value_info_ := [⟨some (arg "A"), 2, 0⟩, ⟨some (arg "X"), 1, 1⟩, ⟨some (arg "Z"), 1, 2⟩,
      ⟨some (arg "Y"), 1, 3⟩]
    plan_ := { pinnedAliasStart.plan_ with
      allocation_plan := [{}, { location := cudaPinnedInfo }, { location := cudaInfo },
        { location := cudaInfo }] } }

/-- The planner object of `sharedWeightSession` (and of `cpuWeightSession`) on entry to
`GeneratePlanForWeights`. -/
def sharedWeightStart : PlannerImpl :=
  { ml_value_info_ := [⟨some (arg "X"), 2, 0⟩, ⟨some (arg "W"), 3, 1⟩, ⟨some (arg "M"), 1, 2⟩,
      ⟨some (arg "Y"), 1, 3⟩]
    freelist_ := []
    plan_ := { allocation_plan := [floatEntry AllocKind.kPreExisting 0, {}, {},
                 { location := cudaInfo }]
               execution_plan := [⟨1, 1, 0⟩, ⟨2, 1, 0⟩]
               to_be_freed := [] } }

/-- The planner object of `sharedWeightSession` after `GeneratePlanForWeights`. -/
def sharedWeightPlaced : PlannerImpl :=
  { sharedWeightStart with
    plan_ := { sharedWeightStart.plan_ with
      allocation_plan := [floatEntry AllocKind.kPreExisting 0,
        { alloc_kind := AllocKind.kAllocateStatically, location := cudaInfo }, {},
        { location := cudaInfo }] } }

/-- The planner object of `cpuWeightSession` after `GeneratePlanForWeights`. -/
def cpuWeightPlaced : PlannerImpl :=
  { sharedWeightStart with
    plan_ := { sharedWeightStart.plan_ with
      allocation_plan := [floatEntry AllocKind.kPreExisting 0,
        { alloc_kind := AllocKind.kAllocateStatically, location := cpuInfo }, {},
        { location := cudaInfo }] } }

/-! ## Broadcasting element-wise operators (lotus/core/providers/cpu/math/element_wise_ops.cc)

`FindShapeSubsetAxis`, `VerifyShapeSubsetAxis` and `Broadcast`. A `TensorShape` is the list of
its dimensions and a tensor is its shape with its elements in storage order. Loop variables
that never go below zero are `Nat`; the pitches are `Int`. No wrap-around of `int` is
modelled: the properties below concern tensors with fewer than 2^31 elements. -/

/-- What a kernel helper raises: `LOTUS_THROW` or `LOTUS_ENFORCE` with a message, or a subscript
outside a vector (undefined in the source, an error here). -/
inductive OpError where
  | thrown (msg : String)
  | subscript
deriving DecidableEq, Repr

/-- `TensorShape`: the dimensions of a tensor. -/
abbrev TensorShape := List Int

/-- `shape[i]`, the unchecked subscript of `TensorShape`. -/
def Dim (shape : TensorShape) (i : Int) : Except OpError Int :=
  if i < 0 then throw OpError.subscript
  else
    match shape[i.toNat]? with
    | some d => pure d
    | none => throw OpError.subscript

/-- Modelled from the spec: `TensorShape::Size` is declared outside the sources at hand; it is
the number of elements, the product of the dimensions. -/
def TensorShape.Size (shape : TensorShape) : Int := shape.foldl (fun a d => a * d) 1

/-- A tensor: its shape and its elements in storage order. -/
structure Tensor (T : Type) where
  shape : TensorShape
  data : List T
deriving Repr

/-- Inner loop of `FindShapeSubsetAxis`,
`for (; j < findCount; j++) if (shape[i + j] != find[j]) break;`, with loop variable `j` and
`n = findCount - j` iterations to go: the value of `j` after the loop. -/
def MatchLoop (shape find : TensorShape) (i : Nat) : Nat → Nat → Except OpError Nat
  | 0, j => pure j
  | n + 1, j => do
    let a ← Dim shape ((i : Int) + (j : Int))
    let b ← Dim find (j : Int)
    if a ≠ b then pure j else MatchLoop shape find i n (j + 1)

/-- Outer loop of `FindShapeSubsetAxis`, `for (int i = ...; i > 0; i--)`, from the value of the
loop variable given as last argument. -/
def FindShapeSubsetAxisLoop (shape find : TensorShape) : Nat → Except OpError Int
  | 0 => throw (OpError.thrown "Tensors have no common shape subset")
  | i + 1 => do
    let j ← MatchLoop shape find (i + 1) find.length 0
    if j = find.length then pure ((i + 1 : Nat) : Int)
    else FindShapeSubsetAxisLoop shape find i

/-- `FindShapeSubsetAxis(shape, find)`; the loop starts at
`int(shape.NumDimensions()) - findCount` and does not run when that is not positive. -/
def FindShapeSubsetAxis (shape find : TensorShape) : Except OpError Int :=
  FindShapeSubsetAxisLoop shape find ((shape.length : Int) - (find.length : Int)).toNat

/-- The loop of `VerifyShapeSubsetAxis` with loop variable `i` and `n` iterations to go. -/
def VerifyLoop (shape find : TensorShape) (axis : Int) : Nat → Nat → Except OpError Unit
  | 0, _ => pure ()
  | n + 1, i => do
    let a ← Dim shape (axis + (i : Int))
    let b ← Dim find (i : Int)
    if a ≠ b then throw (OpError.thrown "Axis attribute doesn't refer to a valid subset")
    else VerifyLoop shape find axis n (i + 1)

/-- `VerifyShapeSubsetAxis(shape, find, axis)`. -/
def VerifyShapeSubsetAxis (shape find : TensorShape) (axis : Int) : Except OpError Unit :=
  if 0 ≤ axis ∧ axis < (shape.length : Int) then VerifyLoop shape find axis find.length 0
  else throw (OpError.thrown "Axis attribute out of range")

/-- `for (int i = 0; i < axis; i++) incrementPitch *= input1.shape()[i];` with loop variable
`i` and `n` iterations to go. -/
def IncrementPitchLoop (shape : TensorShape) : Nat → Nat → Int → Except OpError Int
  | 0, _, incrementPitch => pure incrementPitch
  | n + 1, i, incrementPitch => do
    let d ← Dim shape (i : Int)
    IncrementPitchLoop shape n (i + 1) (incrementPitch * d)

/-- The loop of `Broadcast` that does the operation, with loop variable `i` and `n` iterations
to go; `output_data` holds the elements written so far. -/
def BroadcastLoop {T : Type} (op : T → T → T) (input1_data input2_data : List T)
    (incrementPitch resetPitch : Int) : Nat → Nat → Nat → Int → List T → Except OpError (List T)
  | 0, _, _, _, output_data => pure output_data
  | n + 1, i, input2_index, incrementCount, output_data =>
    match input1_data[i]?, input2_data[input2_index]? with
    | some a, some b =>
      let output_data := output_data ++ [op a b]
      let incrementCount := incrementCount + 1
      if incrementCount = incrementPitch then
        let input2_index := input2_index + 1
        if (input2_index : Int) = resetPitch then
          BroadcastLoop op input1_data input2_data incrementPitch resetPitch n (i + 1) 0 0
            output_data
        else
          BroadcastLoop op input1_data input2_data incrementPitch resetPitch n (i + 1)
            input2_index 0 output_data
      else
        BroadcastLoop op input1_data input2_data incrementPitch resetPitch n (i + 1)
          input2_index incrementCount output_data
    | _, _ => throw OpError.subscript

/-- `Broadcast(input1, input2, output, axis, op)`: the elements written to `output`. -/
def Broadcast {T : Type} (input1 input2 output : Tensor T) (axis : Int) (op : T → T → T) :
    Except OpError (List T) := do
  let axis ←
    if axis = -1 then FindShapeSubsetAxis input1.shape input2.shape
    else do
      VerifyShapeSubsetAxis input1.shape input2.shape axis
      pure axis
  let incrementPitch ← IncrementPitchLoop input1.shape axis.toNat 0 1
  let resetPitch := input2.shape.Size
  let outputSize := output.shape.Size
  BroadcastLoop op input1.data input2.data incrementPitch resetPitch outputSize.toNat 0 0 0 []

/-! ### The pairing of elements in the words of the specification -/

/-- Row-major coordinates `(c_0, .., c_{n-1})` of the flat index `i` in a tensor of shape
`shape`. -/
def SpecCoordinates : TensorShape → Int → List Int
  | [], _ => []
  | d :: rest, i => (i / TensorShape.Size rest) % d :: SpecCoordinates rest i

/-- Row-major flat index of the coordinates `coords` in a tensor of shape `shape`. -/
def SpecFlatIndex : TensorShape → List Int → Int
  | _ :: rest, c :: coords => c * TensorShape.Size rest + SpecFlatIndex rest coords
  | _, _ => 0

/-- The index in `input2` that the specification pairs with flat index `i` of `input1`: the
row-major index of the coordinates of `i` on the matched axes `axis .. axis + k - 1`. -/
def SpecPairedIndex (shape1 shape2 : TensorShape) (axis : Nat) (i : Nat) : Nat :=
  (SpecFlatIndex shape2 (((SpecCoordinates shape1 (i : Int)).drop axis).take shape2.length)).toNat

/-- The output of a broadcast in the words of the specification:
`output[i] = op(input1[i], input2[j])` with `j` the paired index of `i`. -/
def SpecBroadcast {T : Type} (op : T → T → T) (input1 input2 : Tensor T) (axis : Nat) :
    List (Option T) :=
  (List.range input1.data.length).map (fun i =>
    match input1.data[i]?, input2.data[SpecPairedIndex input1.shape input2.shape axis i]? with
    | some a, some b => some (op a b)
    | _, _ => none)

/-- Axis `i` is a place where `find` matches a contiguous run of the dimensions of `shape`. -/
def MatchesAt (shape find : TensorShape) (i : Nat) : Prop :=
  i + find.length ≤ shape.length ∧ ∀ j, j < find.length → find[j]? = shape[i + j]?

instance (shape find : TensorShape) (i : Nat) : Decidable (MatchesAt shape find i) := by
  unfold MatchesAt; infer_instance

/-! ### Concrete tensors -/

/-- A tensor of shape `[2][3]`. -/
def rowsTensor : Tensor Int := ⟨[2, 3], [10, 20, 30, 40, 50, 60]⟩

/-- A tensor of shape `[3]`, to be broadcast along the rows of `rowsTensor`. -/
def rowTensor : Tensor Int := ⟨[3], [1, 2, 3]⟩

/-! ## Concrete planner inputs for output positions -/

/-- A def that does not exist (an optional output that the node leaves out). -/
def missingArg : NodeArg := ⟨"", false, tFloat, none⟩

/-- A kernel definition declaring that output 1 is an alias of input 0. -/
def secondOutputAliasKernel : KernelDef := ⟨[(0, 1)], [], [], [], 0⟩

/-- The node of `skippedOutputGraph` that leaves out its output 0 and produces `Z` as
output 1. -/
def skippedOutputNode : Node :=
  ⟨1, "Op", "op", [arg "X"], [missingArg, arg "Z"], kCpuExecutionProvider⟩

/-- Graph `X -> Op -> (-, Z) -> Abs -> Y`: the first node leaves out its output 0. -/
def skippedOutputGraph : Graph :=
  { Nodes := [⟨0, "_Source", "", [], [], ""⟩,
              skippedOutputNode,
              ⟨2, "Abs", "abs", [arg "Z"], [arg "Y"], kCpuExecutionProvider⟩,
              ⟨3, "_Sink", "", [], [], ""⟩]
    NodesInTopologicalOrder := .ok [0, 1, 2, 3]
    source_node_index := 0
    sink_node_index := 3
    Inputs := [arg "X"]
    Outputs := [arg "Y"]
    AllInitializedTensors := []
    NodeArgs := [arg "X", arg "Z", arg "Y"] }

/-- Session state for `skippedOutputGraph`: values `X, Z, Y` are numbered 0 to 2, and the
kernel of node 1 declares its output 1 an alias of its input 0. -/
def skippedOutputSession : SessionState :=
  { Graph := some skippedOutputGraph
    GetMLValueIdx := indexOfName ["X", "Z", "Y"]
    GetMaxMLValueIdx := 2
    GetKernelDef := fun n =>
      if n = 1 then some secondOutputAliasKernel else if n = 2 then some plainKernel else none
    GetAllocatorInfo := fun _ _ => cpuInfo
    GetExecutionProvider := fun s =>
      if s = kCpuExecutionProvider then some (fun _ => cpuInfo) else none }

/-- The plan `CreatePlan` produces for `skippedOutputSession`: `Z` (value 1) is allocated
afresh. -/
def skippedOutputPlan : SequentialExecutionPlan :=
  { allocation_plan := [floatEntry AllocKind.kPreExisting 0, floatEntry AllocKind.kAllocate 0,
      floatEntry AllocKind.kAllocateOutput 0]
    execution_plan := [⟨1, 1, 0⟩, ⟨2, 0, 0⟩]
    to_be_freed := [1] }

/-- The planner state of `freelistSession` at the start of step 2 (node `n3`, which reads `N`
and produces `Q`): `M` (value 1) is on the freelist, freed by step 1. -/
def freelistStep2 : PlannerImpl :=
  { ml_value_info_ := [⟨some (arg "A"), 1, 0⟩, ⟨some (arg "M"), 0, 1⟩, ⟨some (arg "N"), 1, 2⟩,
      ⟨some (arg "Q"), 1, 3⟩, ⟨some (arg "Y"), 1, 4⟩]
    freelist_ := [⟨1, 1⟩]
    plan_ :=
      { allocation_plan := [floatEntry AllocKind.kPreExisting 0, floatEntry AllocKind.kAllocate 0,
          floatEntry AllocKind.kAllocate 0, {}, {}]
        execution_plan := [⟨1, 1, 0⟩, ⟨2, 1, 0⟩, ⟨3, 1, 0⟩, ⟨4, 1, 0⟩]
        to_be_freed := [] } }

/-- The state `freelistStep2` after the type of the output `Q` (value 3) has been recorded. -/
def freelistStep2Typed : PlannerImpl :=
  { freelistStep2 with
    plan_ :=
      { freelistStep2.plan_ with
        allocation_plan := [floatEntry AllocKind.kPreExisting 0, floatEntry AllocKind.kAllocate 0,
          floatEntry AllocKind.kAllocate 0, floatEntry AllocKind.kAllocate 0, {}] } }

/-- The planner state of `freelistSession` after the program-counter loop, before the
deallocation plan is generated. -/
def freelistEnd : PlannerImpl :=
  { ml_value_info_ := [⟨some (arg "A"), 1, 0⟩, ⟨some (arg "M"), 0, 1⟩, ⟨some (arg "N"), 0, 2⟩,
      ⟨some (arg "Q"), 1, 1⟩, ⟨some (arg "Y"), 1, 4⟩]
    freelist_ := [⟨1, 3⟩, ⟨2, 2⟩]
    plan_ :=
      { freelistPlan with
        execution_plan := [⟨1, 1, 0⟩, ⟨2, 1, 0⟩, ⟨3, 1, 0⟩, ⟨4, 1, 0⟩]
        to_be_freed := [] } }

/-- The planner object after `CreatePlan` on `freelistSession`. -/
def freelistFinal : PlannerImpl := { freelistEnd with plan_ := freelistPlan }

/-! ### Scenario A for every element type and shape -/

/-- A def of scenario A: an existing def of type `t` and shape `shape`. -/
def chainArg (t : DataType) (shape : TensorShapeProto) (name : String) : NodeArg :=
  ⟨name, true, t, some shape⟩

/-- Scenario A: the chain `X -> Relu -> R1 -> Sigmoid -> R2 -> Tanh -> Y` with graph input `X`
and graph output `Y`, all values of type `t` and shape `shape`. -/
def chainGraph (t : DataType) (shape : TensorShapeProto) : Graph :=
  { Nodes := [⟨0, "_Source", "", [], [], ""⟩,
              ⟨1, "Relu", "relu", [chainArg t shape "X"], [chainArg t shape "R1"],
                kCpuExecutionProvider⟩,
              ⟨2, "Sigmoid", "sigmoid", [chainArg t shape "R1"], [chainArg t shape "R2"],
                kCpuExecutionProvider⟩,
              ⟨3, "Tanh", "tanh", [chainArg t shape "R2"], [chainArg t shape "Y"],
                kCpuExecutionProvider⟩,
              ⟨4, "_Sink", "", [], [], ""⟩]
    NodesInTopologicalOrder := .ok [0, 1, 2, 3, 4]
    source_node_index := 0
    sink_node_index := 4
    Inputs := [chainArg t shape "X"]
    Outputs := [chainArg t shape "Y"]
    AllInitializedTensors := []
    NodeArgs := [chainArg t shape "X", chainArg t shape "R1", chainArg t shape "R2",
      chainArg t shape "Y"] }

/-- Session state for `chainGraph`: values `X, R1, R2, Y` are numbered 0 to 3 and every
kernel declares the in-place pair (0, 0). -/
def chainSession (t : DataType) (shape : TensorShapeProto) : SessionState :=
  { Graph := some (chainGraph t shape)
    GetMLValueIdx := indexOfName ["X", "R1", "R2", "Y"]
    GetMaxMLValueIdx := 3
    GetKernelDef := fun n => if n = 0 ∨ n = 4 then none else some inplaceKernel
    GetAllocatorInfo := fun _ _ => cpuInfo
    GetExecutionProvider := fun s =>
      if s = kCpuExecutionProvider then some (fun _ => cpuInfo) else none }

/-- The plan of scenario A for values of type `t`. -/
def chainPlan (t : DataType) : SequentialExecutionPlan :=
  { allocation_plan := [⟨AllocKind.kPreExisting, some t, default, 0, false⟩,
      ⟨AllocKind.kAllocate, some t, default, 0, false⟩,
      ⟨AllocKind.kReuse, some t, default, 1, false⟩,
      ⟨AllocKind.kAllocateOutput, some t, default, 0, false⟩]
    execution_plan := [⟨1, 1, 0⟩, ⟨2, 1, 0⟩, ⟨3, 0, 0⟩]
    to_be_freed := [1] }

/-- The planner state of scenario A at the start of step 1 (Sigmoid). -/
def chainStep1 (t : DataType) (shape : TensorShapeProto) : PlannerImpl :=
  { ml_value_info_ := [⟨some (chainArg t shape "X"), 1, 0⟩, ⟨some (chainArg t shape "R1"), 1, 1⟩,
      ⟨some (chainArg t shape "R2"), 1, 2⟩, ⟨some (chainArg t shape "Y"), 1, 3⟩]
    freelist_ := []
    plan_ :=
      { allocation_plan := [⟨AllocKind.kPreExisting, some t, default, 0, false⟩,
          ⟨AllocKind.kAllocate, some t, default, 0, false⟩, {}, {}]
        execution_plan := [⟨1, 1, 0⟩, ⟨2, 1, 0⟩, ⟨3, 1, 0⟩]
        to_be_freed := [] } }


/-- The planner object of scenario A on entry to `ComputeUseCounts`. -/
def chainStart (t : DataType) (shape : TensorShapeProto) : PlannerImpl :=
  { ml_value_info_ := [{}, {}, {}, {}]
    freelist_ := []
    plan_ :=
      { allocation_plan := [{}, {}, {}, {}]
        execution_plan := ScheduledNodes (chainGraph t shape) [0, 1, 2, 3, 4]
        to_be_freed := [] } }

/-- Scenario A after `ComputeUseCounts`: `X` has the use count 2. -/
def chainCounted (t : DataType) (shape : TensorShapeProto) : PlannerImpl :=
  { ml_value_info_ := [⟨some (chainArg t shape "X"), 2, 0⟩, ⟨some (chainArg t shape "R1"), 1, 1⟩,
      ⟨some (chainArg t shape "R2"), 1, 2⟩, ⟨some (chainArg t shape "Y"), 1, 3⟩]
    freelist_ := []
    plan_ :=
      { allocation_plan := [{}, {}, {}, {}]
        execution_plan := [⟨1, 1, 0⟩, ⟨2, 1, 0⟩, ⟨3, 1, 0⟩]
        to_be_freed := [] } }

/-- Scenario A on entry to the program-counter loop. -/
def chainEntry (t : DataType) (shape : TensorShapeProto) : PlannerImpl :=
  { chainCounted t shape with
    plan_ :=
      { allocation_plan := [⟨AllocKind.kPreExisting, some t, default, 0, false⟩, {}, {}, {}]
        execution_plan := [⟨1, 1, 0⟩, ⟨2, 1, 0⟩, ⟨3, 1, 0⟩]
        to_be_freed := [] } }

/-- The state `chainStep1` after the type of the output `R2` has been recorded. -/
def chainStep1Typed (t : DataType) (shape : TensorShapeProto) : PlannerImpl :=
  { chainStep1 t shape with
    plan_ :=
      { allocation_plan := [⟨AllocKind.kPreExisting, some t, default, 0, false⟩,
          ⟨AllocKind.kAllocate, some t, default, 0, false⟩,
          ⟨AllocKind.kAllocate, some t, default, 0, false⟩, {}]
        execution_plan := [⟨1, 1, 0⟩, ⟨2, 1, 0⟩, ⟨3, 1, 0⟩]
        to_be_freed := [] } }

/-- Scenario A after the output of Sigmoid has been planned: `R2` shares the buffer of `R1`. -/
def chainStep1Out (t : DataType) (shape : TensorShapeProto) : PlannerImpl :=
  { ml_value_info_ := [⟨some (chainArg t shape "X"), 1, 0⟩, ⟨some (chainArg t shape "R1"), 2, 1⟩,
      ⟨some (chainArg t shape "R2"), 1, 1⟩, ⟨some (chainArg t shape "Y"), 1, 3⟩]
    freelist_ := []
    plan_ :=
      { allocation_plan := [⟨AllocKind.kPreExisting, some t, default, 0, false⟩,
          ⟨AllocKind.kAllocate, some t, default, 0, false⟩,
          ⟨AllocKind.kReuse, some t, default, 1, false⟩, {}]
        execution_plan := [⟨1, 1, 0⟩, ⟨2, 1, 0⟩, ⟨3, 1, 0⟩]
        to_be_freed := [] } }

/-- Scenario A at the start of step 2 (Tanh). -/
def chainStep2 (t : DataType) (shape : TensorShapeProto) : PlannerImpl :=
  { chainStep1Out t shape with
    ml_value_info_ := [⟨some (chainArg t shape "X"), 1, 0⟩, ⟨some (chainArg t shape "R1"), 1, 1⟩,
      ⟨some (chainArg t shape "R2"), 1, 1⟩, ⟨some (chainArg t shape "Y"), 1, 3⟩] }

/-- Scenario A after the program-counter loop. -/
def chainEnd (t : DataType) (shape : TensorShapeProto) : PlannerImpl :=
  { ml_value_info_ := [⟨some (chainArg t shape "X"), 1, 0⟩, ⟨some (chainArg t shape "R1"), 0, 1⟩,
      ⟨some (chainArg t shape "R2"), 1, 1⟩, ⟨some (chainArg t shape "Y"), 1, 3⟩]
    freelist_ := [⟨1, 2⟩]
    plan_ := { chainPlan t with execution_plan := [⟨1, 1, 0⟩, ⟨2, 1, 0⟩, ⟨3, 1, 0⟩]
                                to_be_freed := [] } }

/-! ### An in-place pair met by a later output -/

/-- A def of a float tensor of shape `[3]`. -/
def arg3 (name : String) : NodeArg := ⟨name, true, tFloat, some [Dimension.dim_value 3]⟩

/-- A kernel definition declaring that output 1 may be computed in place of input 0. -/
def secondOutputInplaceKernel : KernelDef := ⟨[], [(0, 1)], [], [], 0⟩

/-- The node of `shiftedInplaceGraph`: it reads `M`, leaves out its output 0, and produces
`Z1` of shape `[2]` as output 1 and `Z2` of shape `[3]` as output 2. -/
def shiftedInplaceNode : Node :=
  ⟨2, "Op", "op", [arg "M"], [missingArg, arg "Z1", arg3 "Z2"], kCpuExecutionProvider⟩

/-- Graph `X -> Abs -> M -> Op -> (-, Z1, Z2) -> Concat -> Y` with graph input `X` and graph
output `Y`; `Z2` has shape `[3]`, the other values shape `[2]`. -/
def shiftedInplaceGraph : Graph :=
  { Nodes := [⟨0, "_Source", "", [], [], ""⟩,
              ⟨1, "Abs", "abs", [arg "X"], [arg "M"], kCpuExecutionProvider⟩,
              shiftedInplaceNode,
              ⟨3, "Concat", "concat", [arg "Z1", arg3 "Z2"], [arg "Y"], kCpuExecutionProvider⟩,
              ⟨4, "_Sink", "", [], [], ""⟩]
    NodesInTopologicalOrder := .ok [0, 1, 2, 3, 4]
    source_node_index := 0
    sink_node_index := 4
    Inputs := [arg "X"]
    Outputs := [arg "Y"]
    AllInitializedTensors := []
    NodeArgs := [arg "X", arg "M", arg "Z1", arg3 "Z2", arg "Y"] }

/-- Session state for `shiftedInplaceGraph`: values `X, M, Z1, Z2, Y` are numbered 0 to 4, and
the kernel of node 2 declares that its output 1 may be computed in place of its input 0. -/
def shiftedInplaceSession : SessionState :=
  { Graph := some shiftedInplaceGraph
    GetMLValueIdx := indexOfName ["X", "M", "Z1", "Z2", "Y"]
    GetMaxMLValueIdx := 4
    GetKernelDef := fun n =>
      if n = 2 then some secondOutputInplaceKernel
      else if n = 1 ∨ n = 3 then some plainKernel else none
    GetAllocatorInfo := fun _ _ => cpuInfo
    GetExecutionProvider := fun s =>
      if s = kCpuExecutionProvider then some (fun _ => cpuInfo) else none }

/-- The planner state of `shiftedInplaceSession` in step 1 (node `Op`) after two iterations of
the output loop: the missing output 0 has been skipped and `Z1` (value 2) is allocated. -/
def shiftedInplaceMid : PlannerImpl :=
  { ml_value_info_ := [⟨some (arg "X"), 1, 0⟩, ⟨some (arg "M"), 1, 1⟩, ⟨some (arg "Z1"), 1, 2⟩,
      ⟨some (arg3 "Z2"), 1, 3⟩, ⟨some (arg "Y"), 1, 4⟩]
    freelist_ := []
    plan_ :=
      { allocation_plan := [floatEntry AllocKind.kPreExisting 0, floatEntry AllocKind.kAllocate 0,
          floatEntry AllocKind.kAllocate 0, {}, {}]
        execution_plan := [⟨1, 1, 0⟩, ⟨2, 1, 0⟩, ⟨3, 1, 0⟩]
        to_be_freed := [] } }

/-- The state `shiftedInplaceMid` after the type of the output `Z2` (value 3) has been
recorded. -/
def shiftedInplaceTyped : PlannerImpl :=
  { shiftedInplaceMid with
    plan_ :=
      { shiftedInplaceMid.plan_ with
        allocation_plan := [floatEntry AllocKind.kPreExisting 0, floatEntry AllocKind.kAllocate 0,
          floatEntry AllocKind.kAllocate 0, floatEntry AllocKind.kAllocate 0, {}] } }

/-- The plan `CreatePlan` produces for `shiftedInplaceSession`: `Z2` (value 3, shape `[3]`)
reuses the buffer of `M` (value 1, shape `[2]`). -/
def shiftedInplacePlan : SequentialExecutionPlan :=
  { allocation_plan := [floatEntry AllocKind.kPreExisting 0, floatEntry AllocKind.kAllocate 0,
      floatEntry AllocKind.kAllocate 0, floatEntry AllocKind.kReuse 1,
      floatEntry AllocKind.kAllocateOutput 0]
    execution_plan := [⟨1, 1, 0⟩, ⟨2, 1, 0⟩, ⟨3, 0, 1⟩]
    to_be_freed := [2, 1] }

/-! ## Conservation of use counts and the contents of the freelist -/

/-- The uses still to come of the values whose root buffer is `r`: their reads by the steps
still to run (`F`, with multiplicity) and their phantom uses (`P`). -/
def PendingUses (p : PlannerImpl) (F P : List MLValueIndex) (r : MLValueIndex) : Nat :=
  (F ++ P).countP (fun x => decide (buf p x = r))

/-- What the program-counter loop keeps besides `RInv`. `F` lists the reads still to be
processed, `Fut` the values still to be produced, `D` the values already defined, `P` the
pinned values, and `X` the outputs of the current node whose buffers the last loop of the
step has still to look at. -/
structure FInv (P : List MLValueIndex) (p : PlannerImpl) (F Fut D X : List MLValueIndex) :
    Prop where
  scope : ∀ x ∈ F ++ P, x ∈ D ∨ x ∈ Fut
  closed : ∀ x ∈ D, buf p x ∈ D
  upper : ∀ r, (r ∈ D ∨ r ∈ Fut) → buf p r = r →
    cnt p r ≤ (((F ++ P).countP (fun x => decide (buf p x = r)) : Nat) : Int)
  kind_root : ∀ v ∈ D, (entry p.plan_ v).alloc_kind ≠ AllocKind.kReuse → buf p v = v
  free_def : ∀ e ∈ p.freelist_, e.ml_value ∈ D
  collected : ∀ r ∈ D, buf p r = r → r ∉ P → cnt p r = 0 → (∀ c ∈ X, buf p c ≠ r) →
    ∃ e ∈ p.freelist_, e.ml_value = r

/-- The freelist holds buffers without a use to come, each of them once. -/
structure ZInv (p : PlannerImpl) : Prop where
  zero : ∀ e ∈ p.freelist_, cnt p e.ml_value = 0
  nodup : (p.freelist_.map (fun e => e.ml_value)).Nodup

/-- Every value that a scheduled node produces is read by a scheduled node or is a graph
output. -/
def NoDeadOutputs (ss : SessionState) (graph : Graph) : Prop :=
  ∀ c ∈ AllWrites ss graph.Scheduled,
    c ∈ AllReads ss graph.Scheduled ∨ c ∈ OutputIndices ss graph

instance (ss : SessionState) (graph : Graph) : Decidable (NoDeadOutputs ss graph) := by
  unfold NoDeadOutputs; infer_instance

/-! ## Places in the program-counter loop of `ComputeReusePlan`

The planner state at a place within the loop is obtained by running the loops of the model on
prefixes of their ranges. -/

/-- A place in the program-counter loop of `ComputeReusePlan`: in step `pc`, after `k`
iterations of loop number `phase` of that step (0: the loop that plans the outputs, 1: the
loop that frees the inputs, 2 or more: the loop that frees the unused outputs), the earlier
loops of the step being complete. A `k` beyond the range of the loop stands for the end of the
loop, a `pc` beyond the schedule for the end of the program-counter loop. -/
structure LoopPoint where
  pc : Nat
  phase : Nat
  k : Nat
deriving DecidableEq, Repr

/-- One iteration of the program-counter loop of `ComputeReusePlan`, up to `k` iterations of
its loop number `phase`. -/
def ReusePlanStepAt (ss : SessionState) (ctx : ISequentialPlannerContext) (graph : Graph)
    (step : NodeExecutionPlan) (program_counter : Nat) (phase k : Nat) (p : PlannerImpl) :
    M PlannerImpl :=
  match graph.GetNode step.node_index with
  | none => throw PlanError.thrown
  | some pnode =>
    match phase with
    | 0 => ReusePlanOutputs ss ctx graph pnode (pnode.OutputDefs.take k) 0 p
    | 1 => do
      let p ← ReusePlanOutputs ss ctx graph pnode pnode.OutputDefs 0 p
      FreeInputs ss program_counter (pnode.InputDefs.take k) p
    | _ => do
      let p ← ReusePlanOutputs ss ctx graph pnode pnode.OutputDefs 0 p
      let p ← FreeInputs ss program_counter pnode.InputDefs p
      FreeUnusedOutputs ss program_counter (pnode.OutputDefs.take k) p

/-- The program-counter loop of `ComputeReusePlan` up to the place `c`: the steps before
`c.pc` in full, then step `c.pc` up to the place within it. -/
def ReusePlanStepsAt (ss : SessionState) (ctx : ISequentialPlannerContext) (graph : Graph)
    (steps : List NodeExecutionPlan) (c : LoopPoint) (p : PlannerImpl) : M PlannerImpl := do
  let p ← ReusePlanSteps ss ctx graph (steps.take c.pc) 0 p
  match steps[c.pc]? with
  | none => pure p
  | some step => ReusePlanStepAt ss ctx graph step c.pc c.phase c.k p

/-- `ComputeReusePlan` up to the place `c` of its program-counter loop. -/
def ComputeReusePlanAt (ss : SessionState) (ctx : ISequentialPlannerContext) (graph : Graph)
    (c : LoopPoint) (p : PlannerImpl) : M PlannerImpl := do
  let p ← ReusePlanGraphInputs ss graph.Inputs p
  let p ← GeneratePlanForWeights ss graph p
  ReusePlanStepsAt ss ctx graph p.plan_.execution_plan c p

/-- `PlannerImpl::CreatePlan` up to the place `c` of the program-counter loop of
`ComputeReusePlan`: the planner object as it is there. -/
def CreatePlanImplAt (ss : SessionState) (ctx : ISequentialPlannerContext)
    (plan : SequentialExecutionPlan) (c : LoopPoint) : M PlannerImpl :=
  match ss.Graph with
  | none => throw PlanError.thrown
  | some p_graph =>
    match p_graph.NodesInTopologicalOrder with
    | .error msg => throw (PlanError.status msg)
    | .ok p_graph_nodes =>
      if ss.GetMaxMLValueIdx + 1 < 0 then throw PlanError.thrown
      else do
        let num_ml_values := (ss.GetMaxMLValueIdx + 1).toNat
        let p := Initialize { ml_value_info_ := [], freelist_ := [], plan_ := plan } num_ml_values
        let p : PlannerImpl :=
          { p with
            plan_ := { p.plan_ with execution_plan := ScheduledNodes p_graph p_graph_nodes } }
        let p ← ComputeUseCounts ss p_graph p
        ComputeReusePlanAt ss ctx p_graph c p

/-! ## The exception monad -/

theorem bind_ok {α β : Type} {x : M α} {f : α → M β} {b : β} :
    (x >>= f) = .ok b ↔ ∃ a, x = .ok a ∧ f a = .ok b := by
  cases x with
  | error e => simp [bind, Except.bind]
  | ok a => simp [bind, Except.bind]

theorem pure_ok {α : Type} {a b : α} : (pure a : M α) = .ok b ↔ a = b := by
  simp [pure, Except.pure]

theorem throw_ok {α : Type} {e : PlanError} {b : α} : (throw e : M α) = .ok b ↔ False := by
  simp [throw, throwThe, MonadExceptOf.throw]

/-! ## Success of the primitive accesses -/

theorem Index_ok {ss : SessionState} {name : MLValueName} {i : MLValueIndex}
    (h : Index ss name = .ok i) : ss.GetMLValueIdx name = some i := by
  unfold Index at h
  split at h <;> simp_all

theorem info_ok {p : PlannerImpl} {n : MLValueIndex} {i : MLValueInfo}
    (h : p.info n = .ok i) : p.ml_value_info_[n]? = some i := by
  unfold PlannerImpl.info at h
  split at h <;> simp_all

theorem Buffer_ok {p : PlannerImpl} {n b : MLValueIndex} (h : p.Buffer n = .ok b) :
    b = buf p n ∧ n < p.ml_value_info_.length := by
  unfold PlannerImpl.Buffer at h
  cases hi : p.info n with
  | error e => simp [hi, Except.map] at h
  | ok i =>
    have hl := info_ok hi
    simp only [hi, Except.map, Except.ok.injEq] at h
    refine ⟨?_, ?_⟩
    · simp [buf, hl, h]
    · exact (List.getElem?_eq_some_iff.mp hl).1

theorem UseCount_ok {p : PlannerImpl} {n : MLValueIndex} {c : Int} (h : p.UseCount n = .ok c) :
    c = cnt p n ∧ n < p.ml_value_info_.length := by
  unfold PlannerImpl.UseCount at h
  cases hi : p.info n with
  | error e => simp [hi, Except.map] at h
  | ok i =>
    have hl := info_ok hi
    simp only [hi, Except.map, Except.ok.injEq] at h
    refine ⟨?_, ?_⟩
    · simp [cnt, hl, h]
    · exact (List.getElem?_eq_some_iff.mp hl).1

theorem AllocPlan_ok {p : PlannerImpl} {n : MLValueIndex} {a : AllocPlanPerValue}
    (h : p.AllocPlan n = .ok a) : a = entry p.plan_ n ∧ n < p.plan_.allocation_plan.length := by
  unfold PlannerImpl.AllocPlan at h
  split at h
  · rename_i a' ha
    simp only [Except.ok.injEq] at h
    refine ⟨?_, (List.getElem?_eq_some_iff.mp ha).1⟩
    simp [entry, ha, h]
  · simp at h

/-- Effect of an assignment into `ml_value_info_`. -/
theorem modifyInfo_ok {p p' : PlannerImpl} {n : MLValueIndex} {f : MLValueInfo → MLValueInfo}
    (h : p.modifyInfo n f = .ok p') :
    ∃ i, p.ml_value_info_[n]? = some i ∧
      (∀ v, p'.ml_value_info_[v]? = if v = n then some (f i) else p.ml_value_info_[v]?) ∧
      p'.plan_ = p.plan_ ∧ p'.freelist_ = p.freelist_ := by
  unfold PlannerImpl.modifyInfo at h
  split at h
  · rename_i i hi
    simp only [Except.ok.injEq] at h
    subst h
    refine ⟨i, hi, ?_, rfl, rfl⟩
    intro v
    have hn := (List.getElem?_eq_some_iff.mp hi).1
    by_cases hv : v = n
    · subst hv; simp [hn]
    · simp [hv, List.getElem?_set_ne (Ne.symm hv)]
  · simp at h

/-- Effect of an assignment into the allocation plan. -/
theorem modifyAllocPlan_ok {p p' : PlannerImpl} {n : MLValueIndex}
    {f : AllocPlanPerValue → AllocPlanPerValue} (h : p.modifyAllocPlan n f = .ok p') :
    n < p.plan_.allocation_plan.length ∧
      (∀ v, entry p'.plan_ v = if v = n then f (entry p.plan_ n) else entry p.plan_ v) ∧
      p'.ml_value_info_ = p.ml_value_info_ ∧ p'.freelist_ = p.freelist_ ∧
      p'.plan_.execution_plan = p.plan_.execution_plan ∧
      p'.plan_.to_be_freed = p.plan_.to_be_freed ∧
      p'.plan_.allocation_plan.length = p.plan_.allocation_plan.length := by
  unfold PlannerImpl.modifyAllocPlan at h
  split at h
  · rename_i a ha
    simp only [Except.ok.injEq] at h
    subst h
    have hn := (List.getElem?_eq_some_iff.mp ha).1
    refine ⟨hn, ?_, rfl, rfl, rfl, rfl, by simp⟩
    intro v
    by_cases hv : v = n
    · subst hv; simp [entry, hn, ha]
    · simp [entry, hv, List.getElem?_set_ne (Ne.symm hv)]
  · simp at h

/-- Effect of an assignment into `ml_value_info_`, read through the accessors. -/
theorem modifyInfo_acc {p p' : PlannerImpl} {n : MLValueIndex} {f : MLValueInfo → MLValueInfo}
    (h : p.modifyInfo n f = .ok p') :
    ∃ i, p.ml_value_info_[n]? = some i ∧
      (∀ v, cnt p' v = if v = n then (f i).usecount else cnt p v) ∧
      (∀ v, buf p' v = if v = n then (f i).reused_buffer_index else buf p v) ∧
      (∀ v, defsite p' v = if v = n then (f i).p_def_site else defsite p v) ∧
      p'.plan_ = p.plan_ ∧ p'.freelist_ = p.freelist_ ∧
      p'.ml_value_info_.length = p.ml_value_info_.length := by
  obtain ⟨i, hi, hv, hp, hf⟩ := modifyInfo_ok h
  refine ⟨i, hi, ?_, ?_, ?_, hp, hf, ?_⟩
  · intro v
    have hv' := hv v
    by_cases hvn : v = n
    · subst hvn; simp only [if_true] at hv'; simp [cnt, hv']
    · simp only [hvn, if_false] at hv'; simp [cnt, hv', hvn]
  · intro v
    have hv' := hv v
    by_cases hvn : v = n
    · subst hvn; simp only [if_true] at hv'; simp [buf, hv']
    · simp only [hvn, if_false] at hv'; simp [buf, hv', hvn]
  · intro v
    have hv' := hv v
    by_cases hvn : v = n
    · subst hvn; simp only [if_true] at hv'; simp [defsite, hv']
    · simp only [hvn, if_false] at hv'; simp [defsite, hv', hvn]
  · unfold PlannerImpl.modifyInfo at h
    split at h
    · simp only [Except.ok.injEq] at h; subst h; simp
    · simp at h

/-! ## The use-count pass -/

theorem info_acc {p : PlannerImpl} {n : MLValueIndex} {i : MLValueInfo}
    (h : p.ml_value_info_[n]? = some i) :
    cnt p n = i.usecount ∧ buf p n = i.reused_buffer_index ∧ defsite p n = i.p_def_site := by
  simp [cnt, buf, defsite, h]

theorem UseCountsFrame.same (p : PlannerImpl) : UseCountsFrame p p :=
  ⟨fun _ => rfl, fun _ => rfl, rfl, rfl, rfl, fun h => h⟩

theorem UseCountsFrame.step {p q r : PlannerImpl} (h1 : UseCountsFrame p q)
    (h2 : UseCountsFrame q r) : UseCountsFrame p r :=
  ⟨fun v => (h2.alloc_kind v).trans (h1.alloc_kind v),
   fun v => (h2.reused_buffer v).trans (h1.reused_buffer v),
   h2.freelist.trans h1.freelist, h2.execution_plan.trans h1.execution_plan,
   h2.to_be_freed.trans h1.to_be_freed, fun h => h2.nonneg (h1.nonneg h)⟩

/-- Effect of `ProcessDef`. -/
theorem ProcessDef_acc {p p' : PlannerImpl} {id : MLValueIndex} {site : Option NodeArg}
    (h : ProcessDef p id site = .ok p') :
    (∀ v, cnt p' v = if v = id then 0 else cnt p v) ∧
    (∀ v, buf p' v = if v = id then id else buf p v) ∧
    (∀ v, defsite p' v = if v = id then site else defsite p v) ∧
    UseCountsFrame p p' := by
  unfold ProcessDef at h
  obtain ⟨i, _, hc, hb, hd, hp, hf, _⟩ := modifyInfo_acc h
  refine ⟨hc, hb, hd, ?_⟩
  refine ⟨fun v => by rw [hp], fun v => by rw [hp], hf, by rw [hp], by rw [hp], ?_⟩
  intro hn v
  rw [hc v]
  split
  · exact le_refl 0
  · exact hn v

/-- Effect of `UseCount(n)++`. -/
theorem incUseCount_acc {p p' : PlannerImpl} {n : MLValueIndex}
    (h : p.incUseCount n = .ok p') :
    (∀ v, cnt p' v = if v = n then cnt p v + 1 else cnt p v) ∧
    (∀ v, buf p' v = buf p v) ∧
    (∀ v, defsite p' v = defsite p v) ∧
    UseCountsFrame p p' := by
  unfold PlannerImpl.incUseCount at h
  obtain ⟨i, hi, hc, hb, hd, hp, hf, _⟩ := modifyInfo_acc h
  obtain ⟨hci, hbi, hdi⟩ := info_acc hi
  have hc' : ∀ v, cnt p' v = if v = n then cnt p v + 1 else cnt p v := by
    intro v
    rw [hc v]
    by_cases hv : v = n
    · subst hv; simp [hci]
    · simp [hv]
  refine ⟨hc', ?_, ?_, ?_⟩
  · intro v
    rw [hb v]
    by_cases hv : v = n
    · subst hv; simp [hbi]
    · simp [hv]
  · intro v
    rw [hd v]
    by_cases hv : v = n
    · subst hv; simp [hdi]
    · simp [hv]
  · refine ⟨fun v => by rw [hp], fun v => by rw [hp], hf, by rw [hp], by rw [hp], ?_⟩
    intro hn v
    rw [hc' v]
    have := hn v
    split <;> omega

/-- An allocation-plan assignment that keeps kind and donor leaves the use-count view alone. -/
theorem modifyAllocPlan_frame {p p' : PlannerImpl} {n : MLValueIndex}
    {f : AllocPlanPerValue → AllocPlanPerValue} (h : p.modifyAllocPlan n f = .ok p')
    (hk : ∀ a, (f a).alloc_kind = a.alloc_kind) (hr : ∀ a, (f a).reused_buffer = a.reused_buffer) :
    (∀ v, cnt p' v = cnt p v) ∧ (∀ v, buf p' v = buf p v) ∧ (∀ v, defsite p' v = defsite p v) ∧
    UseCountsFrame p p' := by
  obtain ⟨_, he, hi, hf, hx, ht, _⟩ := modifyAllocPlan_ok h
  refine ⟨fun v => by simp [cnt, hi], fun v => by simp [buf, hi], fun v => by simp [defsite, hi],
    ?_⟩
  refine ⟨?_, ?_, hf, hx, ht, ?_⟩
  · intro v; rw [he v]; split
    · rename_i hv; subst hv; exact hk _
    · rfl
  · intro v; rw [he v]; split
    · rename_i hv; subst hv; exact hr _
    · rfl
  · intro hn v
    have : cnt p' v = cnt p v := by simp [cnt, hi]
    rw [this]; exact hn v
/-- Effect of the graph-input loop of `ComputeUseCounts`. -/
theorem UseCountsGraphInputs_acc {ss : SessionState} :
    ∀ (inputs : List NodeArg) (p p' : PlannerImpl),
      UseCountsGraphInputs ss inputs p = .ok p' →
      UseCountsFrame p p' ∧
      (∀ v ∈ inputs.filterMap (fun a => ss.GetMLValueIdx a.Name), buf p' v = v ∧ cnt p' v = 1) ∧
      (∀ v, v ∉ inputs.filterMap (fun a => ss.GetMLValueIdx a.Name) →
        buf p' v = buf p v ∧ cnt p' v = cnt p v) ∧
      (DefSitesOK ss p → DefSitesOK ss p') := by
  intro inputs
  induction inputs with
  | nil =>
    intro p p' h
    simp only [UseCountsGraphInputs, pure_ok] at h
    subst h
    exact ⟨UseCountsFrame.same p, by simp, by simp, fun h => h⟩
  | cons a rest ih =>
    intro p p' h
    simp only [UseCountsGraphInputs, bind_ok] at h
    obtain ⟨index, hi, p1, h1, p2, h2, h3⟩ := h
    have hi' := Index_ok hi
    obtain ⟨c1, b1, d1, f1⟩ := ProcessDef_acc h1
    obtain ⟨c2, b2, d2, f2⟩ := incUseCount_acc h2
    obtain ⟨f3, in3, out3, ds3⟩ := ih p2 p' h3
    have hfm : (a :: rest).filterMap (fun a => ss.GetMLValueIdx a.Name) =
        index :: rest.filterMap (fun a => ss.GetMLValueIdx a.Name) := by
      simp [List.filterMap_cons, hi']
    rw [hfm]
    refine ⟨(f1.step f2).step f3, ?_, ?_, ?_⟩
    · intro v hv
      by_cases hr : v ∈ rest.filterMap (fun a => ss.GetMLValueIdx a.Name)
      · exact in3 v hr
      · have hvi : v = index := by
          rcases List.mem_cons.mp hv with h | h
          · exact h
          · exact absurd h hr
        obtain ⟨hb, hc⟩ := out3 v hr
        rw [hb, hc, b2, c2, b1, c1]
        simp [hvi]
    · intro v hv
      have hvi : v ≠ index := fun h => hv (h ▸ List.mem_cons_self _ _)
      have hr : v ∉ rest.filterMap (fun a => ss.GetMLValueIdx a.Name) :=
        fun h => hv (List.mem_cons_of_mem _ h)
      obtain ⟨hb, hc⟩ := out3 v hr
      rw [hb, hc, b2, c2, b1, c1]
      simp [hvi]
    · intro hds
      apply ds3
      intro v x hx
      rw [d2, d1] at hx
      by_cases hvi : v = index
      · simp only [hvi, if_true, Option.some.injEq] at hx
        subst hx; rw [hvi]; exact hi'
      · simp only [hvi, if_false] at hx
        exact hds v x hx

/-- Effect of the initializer loop of `ComputeUseCounts`. -/
theorem UseCountsInitializers_acc {ss : SessionState} {graph : Graph} :
    ∀ (names : List MLValueName) (p p' : PlannerImpl),
      UseCountsInitializers ss graph names p = .ok p' →
      UseCountsFrame p p' ∧
      (∀ v ∈ names.filterMap ss.GetMLValueIdx, buf p' v = v ∧ cnt p' v = 1) ∧
      (∀ v, v ∉ names.filterMap ss.GetMLValueIdx →
        buf p' v = buf p v ∧ cnt p' v = cnt p v) ∧
      (DefSitesOK ss p → DefSitesOK ss p') := by
  intro names
  induction names with
  | nil =>
    intro p p' h
    simp only [UseCountsInitializers, pure_ok] at h
    subst h
    exact ⟨UseCountsFrame.same p, by simp, by simp, fun h => h⟩
  | cons a rest ih =>
    intro p p' h
    simp only [UseCountsInitializers, bind_ok] at h
    obtain ⟨index, hi, p1, h1, index2, hi2, p2, h2, h3⟩ := h
    have hi' := Index_ok hi
    have hi2' := Index_ok hi2
    have he : index2 = index := by rw [hi'] at hi2'; exact (Option.some.inj hi2').symm
    subst he
    obtain ⟨c1, b1, d1, f1⟩ := ProcessDef_acc h1
    obtain ⟨c2, b2, d2, f2⟩ := incUseCount_acc h2
    obtain ⟨f3, in3, out3, ds3⟩ := ih p2 p' h3
    have hfm : (a :: rest).filterMap ss.GetMLValueIdx =
        index2 :: rest.filterMap ss.GetMLValueIdx := by
      simp [List.filterMap_cons, hi']
    rw [hfm]
    refine ⟨(f1.step f2).step f3, ?_, ?_, ?_⟩
    · intro v hv
      by_cases hr : v ∈ rest.filterMap ss.GetMLValueIdx
      · exact in3 v hr
      · have hvi : v = index2 := by
          rcases List.mem_cons.mp hv with h | h
          · exact h
          · exact absurd h hr
        obtain ⟨hb, hc⟩ := out3 v hr
        rw [hb, hc, b2, c2, b1, c1]
        simp [hvi]
    · intro v hv
      have hvi : v ≠ index2 := fun h => hv (h ▸ List.mem_cons_self _ _)
      have hr : v ∉ rest.filterMap ss.GetMLValueIdx :=
        fun h => hv (List.mem_cons_of_mem _ h)
      obtain ⟨hb, hc⟩ := out3 v hr
      rw [hb, hc, b2, c2, b1, c1]
      simp [hvi]
    · intro hds
      apply ds3
      intro v x hx
      rw [d2, d1] at hx
      by_cases hvi : v = index2
      · simp only [hvi, if_true] at hx
        have := List.find?_some hx
        simp only [beq_iff_eq] at this
        rw [hvi, this]; exact hi'
      · simp only [hvi, if_false] at hx
        exact hds v x hx
theorem ArgIndices_nil {ss : SessionState} : ArgIndices ss [] = [] := rfl

theorem ArgIndices_cons_exists {ss : SessionState} {a : NodeArg} {rest : List NodeArg}
    {i : MLValueIndex} (he : a.Exists = true) (hi : ss.GetMLValueIdx a.Name = some i) :
    ArgIndices ss (a :: rest) = i :: ArgIndices ss rest := by
  simp [ArgIndices, List.filter_cons, he, List.filterMap_cons, hi]

theorem ArgIndices_cons_missing {ss : SessionState} {a : NodeArg} {rest : List NodeArg}
    (he : ¬ a.Exists = true) : ArgIndices ss (a :: rest) = ArgIndices ss rest := by
  simp [ArgIndices, List.filter_cons, he]

/-- Effect of the input loop of one node in `ComputeUseCounts`. -/
theorem UseCountsNodeInputs_acc {ss : SessionState} :
    ∀ (ins : List NodeArg) (p p' : PlannerImpl),
      UseCountsNodeInputs ss ins p = .ok p' →
      UseCountsFrame p p' ∧
      (∀ v, buf p' v = buf p v) ∧ (∀ v, defsite p' v = defsite p v) ∧
      (∀ v, cnt p' v = cnt p v + ((ArgIndices ss ins).count v : Nat)) := by
  intro ins
  induction ins with
  | nil =>
    intro p p' h
    simp only [UseCountsNodeInputs, pure_ok] at h
    subst h
    exact ⟨UseCountsFrame.same p, fun _ => rfl, fun _ => rfl, by simp [ArgIndices_nil]⟩
  | cons a rest ih =>
    intro p p' h
    unfold UseCountsNodeInputs at h
    by_cases he : a.Exists = true
    · simp only [he, if_true, bind_ok] at h
      obtain ⟨index, hi, p1, h1, h2⟩ := h
      have hi' := Index_ok hi
      obtain ⟨c1, b1, d1, f1⟩ := incUseCount_acc h1
      obtain ⟨f2, b2, d2, c2⟩ := ih p1 p' h2
      rw [ArgIndices_cons_exists he hi']
      refine ⟨f1.step f2, fun v => by rw [b2, b1], fun v => by rw [d2, d1], ?_⟩
      intro v
      rw [c2, c1, List.count_cons]
      by_cases hv : v = index
      · subst hv; simp; ring
      · have : ¬ (index == v) = true := by simp; exact fun h => hv h.symm
        simp [hv, this]
    · simp only [he, if_false] at h
      rw [ArgIndices_cons_missing he]
      exact ih p p' h

/-- Effect of the graph-output loop of `ComputeUseCounts`. -/
theorem UseCountsGraphOutputs_acc {ss : SessionState} :
    ∀ (outs : List NodeArg) (p p' : PlannerImpl),
      UseCountsGraphOutputs ss outs p = .ok p' →
      UseCountsFrame p p' ∧
      (∀ v, buf p' v = buf p v) ∧ (∀ v, defsite p' v = defsite p v) ∧
      (∀ v, cnt p' v =
        cnt p v + ((outs.filterMap (fun a => ss.GetMLValueIdx a.Name)).count v : Nat)) := by
  intro outs
  induction outs with
  | nil =>
    intro p p' h
    simp only [UseCountsGraphOutputs, pure_ok] at h
    subst h
    exact ⟨UseCountsFrame.same p, fun _ => rfl, fun _ => rfl, by simp⟩
  | cons a rest ih =>
    intro p p' h
    simp only [UseCountsGraphOutputs, bind_ok] at h
    obtain ⟨index, hi, p1, h1, h2⟩ := h
    have hi' := Index_ok hi
    obtain ⟨c1, b1, d1, f1⟩ := incUseCount_acc h1
    obtain ⟨f2, b2, d2, c2⟩ := ih p1 p' h2
    have hfm : (a :: rest).filterMap (fun a => ss.GetMLValueIdx a.Name) =
        index :: rest.filterMap (fun a => ss.GetMLValueIdx a.Name) := by
      simp [List.filterMap_cons, hi']
    rw [hfm]
    refine ⟨f1.step f2, fun v => by rw [b2, b1], fun v => by rw [d2, d1], ?_⟩
    intro v
    rw [c2, c1, List.count_cons]
    by_cases hv : v = index
    · subst hv; simp; ring
    · have : ¬ (index == v) = true := by simp; exact fun h => hv h.symm
      simp [hv, this]

/-- Effect of the fence marking in `ComputeUseCounts`. -/
theorem MarkCreateFence_acc {ss : SessionState} :
    ∀ (args : List NodeArg) (p p' : PlannerImpl),
      MarkCreateFence ss args p = .ok p' →
      UseCountsFrame p p' ∧
      (∀ v, buf p' v = buf p v) ∧ (∀ v, defsite p' v = defsite p v) ∧
      (∀ v, cnt p' v = cnt p v) := by
  intro args
  induction args with
  | nil =>
    intro p p' h
    simp only [MarkCreateFence, pure_ok] at h
    subst h
    exact ⟨UseCountsFrame.same p, fun _ => rfl, fun _ => rfl, fun _ => rfl⟩
  | cons a rest ih =>
    intro p p' h
    simp only [MarkCreateFence, bind_ok] at h
    obtain ⟨index, hi, p1, h1, h2⟩ := h
    obtain ⟨c1, b1, d1, f1⟩ := modifyAllocPlan_frame h1 (fun _ => rfl) (fun _ => rfl)
    obtain ⟨f2, b2, d2, c2⟩ := ih p1 p' h2
    exact ⟨f1.step f2, fun v => by rw [b2, b1], fun v => by rw [d2, d1],
      fun v => by rw [c2, c1]⟩
/-- Effect of the output loop of one node in `ComputeUseCounts`. -/
theorem UseCountsNodeOutputs_acc {ss : SessionState} {node_index : NodeIndex}
    {dflt : AllocatorInfo} {mem : List (Nat × MemType)} :
    ∀ (outs : List NodeArg) (i : Nat) (p p' : PlannerImpl),
      UseCountsNodeOutputs ss node_index dflt mem outs i p = .ok p' →
      UseCountsFrame p p' ∧
      (∀ v ∈ ArgIndices ss outs, buf p' v = v ∧ cnt p' v = 0) ∧
      (∀ v, v ∉ ArgIndices ss outs → buf p' v = buf p v ∧ cnt p' v = cnt p v) ∧
      (DefSitesOK ss p → DefSitesOK ss p') := by
  intro outs
  induction outs with
  | nil =>
    intro i p p' h
    simp only [UseCountsNodeOutputs, pure_ok] at h
    subst h
    exact ⟨UseCountsFrame.same p, by simp [ArgIndices_nil], by simp, fun h => h⟩
  | cons a rest ih =>
    intro i p p' h
    unfold UseCountsNodeOutputs at h
    by_cases he : a.Exists = true
    · simp only [he, if_true, bind_ok] at h
      obtain ⟨index, hi, p1, h1, p2, h2, h3⟩ := h
      have hi' := Index_ok hi
      obtain ⟨c1, b1, d1, f1⟩ := ProcessDef_acc h1
      have h12 : (∀ v, cnt p2 v = cnt p1 v) ∧ (∀ v, buf p2 v = buf p1 v) ∧
          (∀ v, defsite p2 v = defsite p1 v) ∧ UseCountsFrame p1 p2 := by
        unfold AssignOutputLocation at h2
        split at h2
        · split at h2
          · exact modifyAllocPlan_frame h2 (fun _ => rfl) (fun _ => rfl)
          · exact modifyAllocPlan_frame h2 (fun _ => rfl) (fun _ => rfl)
        · simp only [pure_ok] at h2
          subst h2
          exact ⟨fun _ => rfl, fun _ => rfl, fun _ => rfl, UseCountsFrame.same _⟩
      obtain ⟨c2, b2, d2, f2⟩ := h12
      obtain ⟨f3, in3, out3, ds3⟩ := ih (i + 1) p2 p' h3
      rw [ArgIndices_cons_exists he hi']
      refine ⟨(f1.step f2).step f3, ?_, ?_, ?_⟩
      · intro v hv
        by_cases hr : v ∈ ArgIndices ss rest
        · exact in3 v hr
        · have hvi : v = index := by
            rcases List.mem_cons.mp hv with h | h
            · exact h
            · exact absurd h hr
          obtain ⟨hb, hc⟩ := out3 v hr
          rw [hb, hc, b2, c2, b1, c1]
          simp [hvi]
      · intro v hv
        have hvi : v ≠ index := fun h => hv (h ▸ List.mem_cons_self _ _)
        have hr : v ∉ ArgIndices ss rest := fun h => hv (List.mem_cons_of_mem _ h)
        obtain ⟨hb, hc⟩ := out3 v hr
        rw [hb, hc, b2, c2, b1, c1]
        simp [hvi]
      · intro hds
        apply ds3
        intro v x hx
        rw [d2, d1] at hx
        by_cases hvi : v = index
        · simp only [hvi, if_true, Option.some.injEq] at hx
          subst hx; rw [hvi]; exact hi'
        · simp only [hvi, if_false] at hx
          exact hds v x hx
    · simp only [he, if_false] at h
      rw [ArgIndices_cons_missing he]
      exact ih (i + 1) p p' h

theorem ValidOrder_disjoint {ss : SessionState} :
    ∀ (nodes : List Node) (defined : List MLValueIndex), ValidOrder ss defined nodes →
      ∀ x ∈ defined, x ∉ AllWrites ss nodes := by
  intro nodes
  induction nodes with
  | nil => intro defined _ x _; simp [AllWrites]
  | cons n rest ih =>
    intro defined h x hx
    obtain ⟨_, _, hw, hrest⟩ := h
    simp only [AllWrites, List.flatMap_cons, List.mem_append, not_or]
    refine ⟨fun hm => hw x hm hx, ?_⟩
    exact ih _ hrest x (List.mem_append_right _ hx)

theorem ValidOrder_nodup {ss : SessionState} :
    ∀ (nodes : List Node) (defined : List MLValueIndex), ValidOrder ss defined nodes →
      (AllWrites ss nodes).Nodup := by
  intro nodes
  induction nodes with
  | nil => intro defined _; simp [AllWrites]
  | cons n rest ih =>
    intro defined h
    obtain ⟨_, hnd, _, hrest⟩ := h
    simp only [AllWrites, List.flatMap_cons]
    rw [List.nodup_append]
    refine ⟨hnd, ih _ hrest, ?_⟩
    intro x hx1 hx2
    exact ValidOrder_disjoint rest _ hrest x (List.mem_append_left _ hx1) hx2

theorem ValidOrder_reads {ss : SessionState} :
    ∀ (nodes : List Node) (defined : List MLValueIndex), ValidOrder ss defined nodes →
      ∀ x ∈ AllReads ss nodes, x ∈ defined ∨ x ∈ AllWrites ss nodes := by
  intro nodes
  induction nodes with
  | nil => intro defined _ x hx; simp [AllReads] at hx
  | cons n rest ih =>
    intro defined h x hx
    obtain ⟨hr, _, _, hrest⟩ := h
    simp only [AllReads, List.flatMap_cons, List.mem_append] at hx
    simp only [AllWrites, List.flatMap_cons, List.mem_append]
    rcases hx with hx | hx
    · exact Or.inl (hr x hx)
    · rcases ih _ hrest x hx with h | h
      · rcases List.mem_append.mp h with h | h
        · exact Or.inr (Or.inl h)
        · exact Or.inl h
      · exact Or.inr (Or.inr h)
theorem StepNodes_cons {graph : Graph} {step : NodeExecutionPlan} {rest : List NodeExecutionPlan}
    {pnode : Node} (h : graph.GetNode step.node_index = some pnode) :
    StepNodes graph (step :: rest) = pnode :: StepNodes graph rest := by
  simp [StepNodes, List.filterMap_cons, h]

theorem MarkCreateFenceIfQueued_acc {ss : SessionState} {k : KernelDef} {pnode : Node}
    {p p' : PlannerImpl} (h : MarkCreateFenceIfQueued ss k pnode p = .ok p') :
    UseCountsFrame p p' ∧
      (∀ v, buf p' v = buf p v) ∧ (∀ v, defsite p' v = defsite p v) ∧
      (∀ v, cnt p' v = cnt p v) := by
  unfold MarkCreateFenceIfQueued at h
  split at h
  · exact MarkCreateFence_acc _ _ _ h
  · simp only [pure_ok] at h
    subst h
    exact ⟨UseCountsFrame.same p, fun _ => rfl, fun _ => rfl, fun _ => rfl⟩

/-- Success of the node loop of `ComputeUseCounts`, one node unfolded. -/
theorem UseCountsSteps_cons {ss : SessionState} {graph : Graph} {step : NodeExecutionPlan}
    {rest : List NodeExecutionPlan} {p p' : PlannerImpl}
    (h : UseCountsSteps ss graph (step :: rest) p = .ok p') :
    ∃ pnode k p1 p2 p3, graph.GetNode step.node_index = some pnode ∧
      ss.GetKernelDef step.node_index = some k ∧
      UseCountsNodeInputs ss pnode.InputDefs p = .ok p1 ∧
      UseCountsNodeOutputs ss step.node_index
        (ss.GetAllocatorInfo step.node_index MemType.kMemTypeDefault) k.OutputMemoryType
        pnode.OutputDefs 0 p1 = .ok p2 ∧
      MarkCreateFenceIfQueued ss k pnode p2 = .ok p3 ∧
      UseCountsSteps ss graph rest p3 = .ok p' := by
  unfold UseCountsSteps at h
  split at h
  · simp only [throw_ok] at h
  · rename_i pnode hn
    simp only [bind_ok] at h
    obtain ⟨p1, h1, h⟩ := h
    split at h
    · simp only [throw_ok] at h
    · rename_i k hk
      simp only [bind_ok] at h
      obtain ⟨p2, h2, p3, h3, h4⟩ := h
      exact ⟨pnode, k, p1, p2, p3, hn, hk, h1, h2, h3, h4⟩

/-- The node loop of `ComputeUseCounts` keeps kinds, freelist and schedule. -/
theorem UseCountsSteps_frame {ss : SessionState} {graph : Graph} :
    ∀ (steps : List NodeExecutionPlan) (p p' : PlannerImpl),
      UseCountsSteps ss graph steps p = .ok p' →
      UseCountsFrame p p' ∧ (DefSitesOK ss p → DefSitesOK ss p') := by
  intro steps
  induction steps with
  | nil =>
    intro p p' h
    simp only [UseCountsSteps, pure_ok] at h
    subst h
    exact ⟨UseCountsFrame.same p, fun h => h⟩
  | cons step rest ih =>
    intro p p' h
    obtain ⟨pnode, k, p1, p2, p3, hn, hk, h1, h2, h3, h4⟩ := UseCountsSteps_cons h
    obtain ⟨f1, b1, d1, c1⟩ := UseCountsNodeInputs_acc _ _ _ h1
    obtain ⟨f2, in2, out2, ds2⟩ := UseCountsNodeOutputs_acc _ _ _ _ h2
    obtain ⟨f3, b3, d3, c3⟩ := MarkCreateFenceIfQueued_acc h3
    obtain ⟨f4, ds4⟩ := ih p3 p' h4
    refine ⟨((f1.step f2).step f3).step f4, ?_⟩
    intro hds
    apply ds4
    have hds1 : DefSitesOK ss p1 := fun v a hv => hds v a (by rw [← d1]; exact hv)
    have hds2 := ds2 hds1
    exact fun v a hv => hds2 v a (by rw [← d3]; exact hv)

/-- Use counts and buffers after the node loop of `ComputeUseCounts`, for an execution order
that is valid from the values `defined` so far. -/
theorem UseCountsSteps_counts {ss : SessionState} {graph : Graph} :
    ∀ (steps : List NodeExecutionPlan) (defined : List MLValueIndex) (p p' : PlannerImpl),
      UseCountsSteps ss graph steps p = .ok p' →
      ValidOrder ss defined (StepNodes graph steps) →
      (∀ v ∈ defined, buf p v = v) →
      (∀ v ∈ defined, buf p' v = v ∧
        cnt p' v = cnt p v + ((AllReads ss (StepNodes graph steps)).count v : Nat)) ∧
      (∀ v ∈ AllWrites ss (StepNodes graph steps), buf p' v = v ∧
        cnt p' v = ((AllReads ss (StepNodes graph steps)).count v : Nat)) := by
  intro steps
  induction steps with
  | nil =>
    intro defined p p' h _ hb
    simp only [UseCountsSteps, pure_ok] at h
    subst h
    refine ⟨fun v hv => ⟨hb v hv, by simp [StepNodes, AllReads]⟩, ?_⟩
    intro v hv
    simp [StepNodes, AllWrites] at hv
  | cons step rest ih =>
    intro defined p p' h hvo hb
    obtain ⟨pnode, k, p1, p2, p3, hn, hk, h1, h2, h3, h4⟩ := UseCountsSteps_cons h
    rw [StepNodes_cons hn] at hvo ⊢
    obtain ⟨hreads, hnd, hfresh, hrest⟩ := hvo
    obtain ⟨f1, b1, d1, c1⟩ := UseCountsNodeInputs_acc _ _ _ h1
    obtain ⟨f2, in2, out2, ds2⟩ := UseCountsNodeOutputs_acc _ _ _ _ h2
    obtain ⟨f3, b3, d3, c3⟩ := MarkCreateFenceIfQueued_acc h3
    have hb3 : ∀ v ∈ pnode.Writes ss ++ defined, buf p3 v = v := by
      intro v hv
      rw [b3]
      by_cases hw : v ∈ pnode.Writes ss
      · exact (in2 v hw).1
      · rw [(out2 v hw).1, b1]
        rcases List.mem_append.mp hv with h | h
        · exact absurd h hw
        · exact hb v h
    obtain ⟨ihd, ihw⟩ := ih (pnode.Writes ss ++ defined) p3 p' h4 hrest hb3
    have hreads_count : ∀ v, v ∉ defined → (pnode.Reads ss).count v = 0 := by
      intro v hv
      exact List.count_eq_zero_of_not_mem (fun hm => hv (hreads v hm))
    have hall : ∀ v, (AllReads ss (pnode :: StepNodes graph rest)).count v =
        (pnode.Reads ss).count v + (AllReads ss (StepNodes graph rest)).count v := by
      intro v
      simp [AllReads, List.flatMap_cons, List.count_append]
    refine ⟨?_, ?_⟩
    · intro v hv
      obtain ⟨hbv, hcv⟩ := ihd v (List.mem_append_right _ hv)
      refine ⟨hbv, ?_⟩
      have hw : v ∉ pnode.Writes ss := fun hm => hfresh v hm hv
      rw [hcv, c3, (out2 v hw).2, c1, hall]
      have : (Node.Reads ss pnode) = ArgIndices ss pnode.InputDefs := rfl
      rw [this]
      push_cast
      ring
    · intro v hv
      simp only [AllWrites, List.flatMap_cons, List.mem_append] at hv
      rcases hv with hv | hv
      · obtain ⟨hbv, hcv⟩ := ihd v (List.mem_append_left _ hv)
        refine ⟨hbv, ?_⟩
        have hnd' : v ∉ defined := fun hd => hfresh v hv hd
        rw [hcv, c3, (in2 v hv).2, hall, hreads_count v hnd']
        simp
      · obtain ⟨hbv, hcv⟩ := ihw v hv
        refine ⟨hbv, ?_⟩
        have hnd' : v ∉ defined := fun hd =>
          ValidOrder_disjoint _ _ hrest v (List.mem_append_right _ hd) hv
        rw [hcv, hall, hreads_count v hnd']
        simp
/-- Success of `ComputeUseCounts`, split into its four loops. -/
theorem ComputeUseCounts_split {ss : SessionState} {graph : Graph} {p p' : PlannerImpl}
    (h : ComputeUseCounts ss graph p = .ok p') :
    ∃ p1 p2 p3, UseCountsGraphInputs ss graph.Inputs p = .ok p1 ∧
      UseCountsInitializers ss graph graph.AllInitializedTensors p1 = .ok p2 ∧
      UseCountsSteps ss graph p.plan_.execution_plan p2 = .ok p3 ∧
      UseCountsGraphOutputs ss graph.Outputs p3 = .ok p' := by
  simp only [ComputeUseCounts, bind_ok] at h
  obtain ⟨p1, h1, p2, h2, p3, h3, h4⟩ := h
  obtain ⟨f1, -⟩ := UseCountsGraphInputs_acc _ _ _ h1
  obtain ⟨f2, -⟩ := UseCountsInitializers_acc _ _ _ h2
  rw [f2.execution_plan, f1.execution_plan] at h3
  exact ⟨p1, p2, p3, h1, h2, h3, h4⟩

/-- `ComputeUseCounts` keeps kinds, freelist and schedule, and records consistent def-sites. -/
theorem ComputeUseCounts_frame {ss : SessionState} {graph : Graph} {p p' : PlannerImpl}
    (h : ComputeUseCounts ss graph p = .ok p') :
    UseCountsFrame p p' ∧ (DefSitesOK ss p → DefSitesOK ss p') := by
  obtain ⟨p1, p2, p3, h1, h2, h3, h4⟩ := ComputeUseCounts_split h
  obtain ⟨f1, _, _, ds1⟩ := UseCountsGraphInputs_acc _ _ _ h1
  obtain ⟨f2, _, _, ds2⟩ := UseCountsInitializers_acc _ _ _ h2
  obtain ⟨f3, ds3⟩ := UseCountsSteps_frame _ _ _ h3
  obtain ⟨f4, _, d4, _⟩ := UseCountsGraphOutputs_acc _ _ _ h4
  refine ⟨((f1.step f2).step f3).step f4, ?_⟩
  intro hds
  have := ds3 (ds2 (ds1 hds))
  exact fun v a hv => this v a (by rw [← d4]; exact hv)

/-- Use counts after `ComputeUseCounts` on a well-formed input: every defined value is its own
buffer and its count is the number of its reads plus its phantom uses. -/
theorem ComputeUseCounts_counts {ss : SessionState} {graph : Graph} {p p' : PlannerImpl}
    (h : ComputeUseCounts ss graph p = .ok p')
    (hvo : ValidOrder ss (InitiallyDefined ss graph) (StepNodes graph p.plan_.execution_plan))
    (h0 : ∀ v, cnt p v = 0) :
    (∀ v, v ∈ InitiallyDefined ss graph ∨ v ∈ AllWrites ss (StepNodes graph p.plan_.execution_plan) →
      buf p' v = v ∧
      cnt p' v = (((AllReads ss (StepNodes graph p.plan_.execution_plan) ++
        Pinned ss graph).count v : Nat) : Int)) ∧
    (∀ v, 0 ≤ cnt p' v) := by
  obtain ⟨p1, p2, p3, h1, h2, h3, h4⟩ := ComputeUseCounts_split h
  obtain ⟨f1, in1, out1, _⟩ := UseCountsGraphInputs_acc _ _ _ h1
  obtain ⟨f2, in2, out2, _⟩ := UseCountsInitializers_acc _ _ _ h2
  obtain ⟨f4, b4, _, c4⟩ := UseCountsGraphOutputs_acc _ _ _ h4
  have hdef : ∀ v ∈ InitiallyDefined ss graph, buf p2 v = v ∧ cnt p2 v = 1 := by
    intro v hv
    by_cases hi : v ∈ graph.AllInitializedTensors.filterMap ss.GetMLValueIdx
    · exact in2 v hi
    · obtain ⟨hb, hc⟩ := out2 v hi
      rw [hb, hc]
      rcases List.mem_append.mp hv with h | h
      · exact in1 v h
      · exact absurd h hi
  obtain ⟨d3, w3⟩ := UseCountsSteps_counts _ _ _ _ h3 hvo (fun v hv => (hdef v hv).1)
  obtain ⟨f3, _⟩ := @UseCountsSteps_frame ss graph _ _ _ h3
  refine ⟨?_, ?_⟩
  · intro v hv
    have hpin : (Pinned ss graph).count v =
        (if v ∈ InitiallyDefined ss graph then 1 else 0) + (OutputIndices ss graph).count v := by
      simp [Pinned, List.count_append, List.count_dedup]
    rw [b4, c4, List.count_append, hpin]
    rcases hv with hv | hv
    · obtain ⟨hb, hc⟩ := d3 v hv
      refine ⟨hb, ?_⟩
      rw [hc, (hdef v hv).2]
      simp only [hv, if_true, OutputIndices]
      push_cast
      ring
    · obtain ⟨hb, hc⟩ := w3 v hv
      refine ⟨hb, ?_⟩
      have hnd : v ∉ InitiallyDefined ss graph := fun hd => ValidOrder_disjoint _ _ hvo v hd hv
      rw [hc]
      simp only [hnd, if_false, OutputIndices]
      push_cast
      ring
  · exact (((f1.step f2).step f3).step f4).nonneg (fun v => by rw [h0 v])

/-! ## The passes before the program-counter loop -/

theorem ReuseFrame.id_frame (p : PlannerImpl) : ReuseFrame p p :=
  ⟨fun _ => rfl, fun _ => rfl, fun _ => rfl, rfl, rfl⟩

theorem ReuseFrame.seq {p q r : PlannerImpl} (h1 : ReuseFrame p q) (h2 : ReuseFrame q r) :
    ReuseFrame p r :=
  ⟨fun v => (h2.location v).trans (h1.location v),
   fun v => (h2.create_fence v).trans (h1.create_fence v),
   fun v => (h2.defsite v).trans (h1.defsite v),
   h2.execution_plan.trans h1.execution_plan, h2.to_be_freed.trans h1.to_be_freed⟩

/-- Effect of the graph-input loop of `ComputeReusePlan`. -/
theorem ReusePlanGraphInputs_acc {ss : SessionState} :
    ∀ (inputs : List NodeArg) (p p' : PlannerImpl),
      ReusePlanGraphInputs ss inputs p = .ok p' →
      p'.ml_value_info_ = p.ml_value_info_ ∧ p'.freelist_ = p.freelist_ ∧
      p'.plan_.execution_plan = p.plan_.execution_plan ∧
      p'.plan_.to_be_freed = p.plan_.to_be_freed ∧
      (∀ v ∈ inputs.filterMap (fun a => ss.GetMLValueIdx a.Name),
        (entry p'.plan_ v).alloc_kind = AllocKind.kPreExisting) ∧
      (∀ v, v ∉ inputs.filterMap (fun a => ss.GetMLValueIdx a.Name) →
        entry p'.plan_ v = entry p.plan_ v) ∧
      (∀ v, (entry p'.plan_ v).location = (entry p.plan_ v).location ∧
        (entry p'.plan_ v).create_fence = (entry p.plan_ v).create_fence ∧
        (entry p'.plan_ v).reused_buffer = (entry p.plan_ v).reused_buffer) := by
  intro inputs
  induction inputs with
  | nil =>
    intro p p' h
    simp only [ReusePlanGraphInputs, pure_ok] at h
    subst h
    simp
  | cons a rest ih =>
    intro p p' h
    simp only [ReusePlanGraphInputs, bind_ok] at h
    obtain ⟨index, hi, p1, h1, h2⟩ := h
    have hi' := Index_ok hi
    obtain ⟨_, he, hinfo, hfl, hex, htb, _⟩ := modifyAllocPlan_ok h1
    obtain ⟨i2, f2, x2, t2, in2, out2, same2⟩ := ih p1 p' h2
    have hfm : (a :: rest).filterMap (fun a => ss.GetMLValueIdx a.Name) =
        index :: rest.filterMap (fun a => ss.GetMLValueIdx a.Name) := by
      simp [List.filterMap_cons, hi']
    rw [hfm]
    refine ⟨i2.trans hinfo, f2.trans hfl, x2.trans hex, t2.trans htb, ?_, ?_, ?_⟩
    · intro v hv
      by_cases hr : v ∈ rest.filterMap (fun a => ss.GetMLValueIdx a.Name)
      · exact in2 v hr
      · have hvi : v = index := by
          rcases List.mem_cons.mp hv with h | h
          · exact h
          · exact absurd h hr
        rw [out2 v hr, he v]
        simp [hvi]
    · intro v hv
      have hvi : v ≠ index := fun h => hv (h ▸ List.mem_cons_self _ _)
      have hr : v ∉ rest.filterMap (fun a => ss.GetMLValueIdx a.Name) :=
        fun h => hv (List.mem_cons_of_mem _ h)
      rw [out2 v hr, he v]
      simp [hvi]
    · intro v
      obtain ⟨l2, c2, r2⟩ := same2 v
      rw [l2, c2, r2, he v]
      by_cases hvi : v = index
      · subst hvi; simp
      · simp [hvi]

theorem WeightIndicesOf_cons_skip {ss : SessionState} {graph : Graph} {d : NodeArg}
    {rest : List NodeArg}
    (h : (!d.Exists || !graph.AllInitializedTensors.contains d.Name) = true) :
    WeightIndicesOf ss graph (d :: rest) = WeightIndicesOf ss graph rest := by
  have : (d.Exists && graph.AllInitializedTensors.contains d.Name) = false := by
    cases hE : d.Exists <;> cases hC : graph.AllInitializedTensors.contains d.Name <;>
      simp_all
  unfold WeightIndicesOf
  rw [List.filter_cons_of_neg (by simp only [this]; simp)]

theorem WeightIndicesOf_cons_weight {ss : SessionState} {graph : Graph} {d : NodeArg}
    {rest : List NodeArg} {i : MLValueIndex}
    (h : ¬ (!d.Exists || !graph.AllInitializedTensors.contains d.Name) = true)
    (hi : ss.GetMLValueIdx d.Name = some i) :
    WeightIndicesOf ss graph (d :: rest) = i :: WeightIndicesOf ss graph rest := by
  have : (d.Exists && graph.AllInitializedTensors.contains d.Name) = true := by
    cases hE : d.Exists <;> cases hC : graph.AllInitializedTensors.contains d.Name <;>
      simp_all
  unfold WeightIndicesOf
  rw [List.filter_cons_of_pos (by simp only [this])]
  simp [List.filterMap_cons, hi]

/-- The planned weights are initializers. -/
theorem WeightIndicesOf_sub {ss : SessionState} {graph : Graph} (defs : List NodeArg) :
    ∀ v ∈ WeightIndicesOf ss graph defs, v ∈ InitializerIndices ss graph := by
  intro v hv
  simp only [WeightIndicesOf, List.mem_filterMap, List.mem_filter, Bool.and_eq_true] at hv
  obtain ⟨d, ⟨_, _, hc⟩, hi⟩ := hv
  simp only [InitializerIndices, List.mem_filterMap]
  refine ⟨d.Name, ?_, hi⟩
  simpa using hc

theorem PlannedWeights_sub {ss : SessionState} {graph : Graph} :
    ∀ v ∈ PlannedWeights ss graph, v ∈ InitializerIndices ss graph := by
  intro v hv
  simp only [PlannedWeights, List.mem_flatMap] at hv
  obtain ⟨n, _, hn⟩ := hv
  exact WeightIndicesOf_sub _ v hn
/-- Effect of the weight pass on the input defs of one node. -/
theorem PlanWeightsOfNode_acc {ss : SessionState} {graph : Graph} {node : Node} :
    ∀ (defs : List NodeArg) (index : Nat) (p p' : PlannerImpl),
      PlanWeightsOfNode ss graph node defs index p = .ok p' →
      p'.ml_value_info_ = p.ml_value_info_ ∧ p'.freelist_ = p.freelist_ ∧
      p'.plan_.execution_plan = p.plan_.execution_plan ∧
      p'.plan_.to_be_freed = p.plan_.to_be_freed ∧
      (∀ v ∈ WeightIndicesOf ss graph defs,
        (entry p'.plan_ v).alloc_kind = AllocKind.kAllocateStatically) ∧
      (∀ v, v ∉ WeightIndicesOf ss graph defs → entry p'.plan_ v = entry p.plan_ v) ∧
      (∀ v, (entry p'.plan_ v).create_fence = (entry p.plan_ v).create_fence ∧
        (entry p'.plan_ v).reused_buffer = (entry p.plan_ v).reused_buffer ∧
        (entry p'.plan_ v).value_type = (entry p.plan_ v).value_type) := by
  intro defs
  induction defs with
  | nil =>
    intro index p p' h
    simp only [PlanWeightsOfNode, pure_ok] at h
    subst h
    simp [WeightIndicesOf]
  | cons d rest ih =>
    intro index p p' h
    unfold PlanWeightsOfNode at h
    split at h
    · rename_i hskip
      rw [WeightIndicesOf_cons_skip hskip]
      exact ih _ _ _ h
    · rename_i hw
      simp only [bind_ok] at h
      obtain ⟨wt_index, hi, h⟩ := h
      have hi' := Index_ok hi
      split at h
      · simp only [bind_ok] at h
        obtain ⟨location, _, p1, h1, h2⟩ := h
        obtain ⟨_, he, hinfo, hfl, hex, htb, _⟩ := modifyAllocPlan_ok h1
        obtain ⟨i2, f2, x2, t2, in2, out2, same2⟩ := ih _ p1 p' h2
        rw [WeightIndicesOf_cons_weight hw hi']
        refine ⟨i2.trans hinfo, f2.trans hfl, x2.trans hex, t2.trans htb, ?_, ?_, ?_⟩
        · intro v hv
          by_cases hr : v ∈ WeightIndicesOf ss graph rest
          · exact in2 v hr
          · have hvi : v = wt_index := by
              rcases List.mem_cons.mp hv with h | h
              · exact h
              · exact absurd h hr
            rw [out2 v hr, he v]
            simp [hvi]
        · intro v hv
          have hvi : v ≠ wt_index := fun h => hv (h ▸ List.mem_cons_self _ _)
          have hr : v ∉ WeightIndicesOf ss graph rest := fun h => hv (List.mem_cons_of_mem _ h)
          rw [out2 v hr, he v]
          simp [hvi]
        · intro v
          obtain ⟨c2, r2, t2⟩ := same2 v
          rw [c2, r2, t2, he v]
          by_cases hvi : v = wt_index
          · subst hvi; simp
          · simp [hvi]
      · simp only [throw_ok] at h

/-- Effect of `GeneratePlanForWeights`. -/
theorem PlanWeightsOfNodes_acc {ss : SessionState} {graph : Graph} :
    ∀ (nodes : List Node) (p p' : PlannerImpl),
      PlanWeightsOfNodes ss graph nodes p = .ok p' →
      p'.ml_value_info_ = p.ml_value_info_ ∧ p'.freelist_ = p.freelist_ ∧
      p'.plan_.execution_plan = p.plan_.execution_plan ∧
      p'.plan_.to_be_freed = p.plan_.to_be_freed ∧
      (∀ v ∈ nodes.flatMap (fun n => WeightIndicesOf ss graph n.InputDefs),
        (entry p'.plan_ v).alloc_kind = AllocKind.kAllocateStatically) ∧
      (∀ v, v ∉ nodes.flatMap (fun n => WeightIndicesOf ss graph n.InputDefs) →
        entry p'.plan_ v = entry p.plan_ v) ∧
      (∀ v, (entry p'.plan_ v).create_fence = (entry p.plan_ v).create_fence ∧
        (entry p'.plan_ v).reused_buffer = (entry p.plan_ v).reused_buffer ∧
        (entry p'.plan_ v).value_type = (entry p.plan_ v).value_type) := by
  intro nodes
  induction nodes with
  | nil =>
    intro p p' h
    simp only [PlanWeightsOfNodes, pure_ok] at h
    subst h
    simp
  | cons n rest ih =>
    intro p p' h
    simp only [PlanWeightsOfNodes, bind_ok] at h
    obtain ⟨p1, h1, h2⟩ := h
    obtain ⟨i1, f1, x1, t1, in1, out1, same1⟩ := PlanWeightsOfNode_acc _ _ _ _ h1
    obtain ⟨i2, f2, x2, t2, in2, out2, same2⟩ := ih p1 p' h2
    refine ⟨i2.trans i1, f2.trans f1, x2.trans x1, t2.trans t1, ?_, ?_, ?_⟩
    · intro v hv
      by_cases hr : v ∈ rest.flatMap (fun n => WeightIndicesOf ss graph n.InputDefs)
      · exact in2 v hr
      · rw [out2 v hr]
        simp only [List.flatMap_cons, List.mem_append] at hv
        rcases hv with h | h
        · exact in1 v h
        · exact absurd h hr
    · intro v hv
      simp only [List.flatMap_cons, List.mem_append, not_or] at hv
      rw [out2 v hv.2, out1 v hv.1]
    · intro v
      obtain ⟨a1, b1, c1⟩ := same1 v
      obtain ⟨a2, b2, c2⟩ := same2 v
      exact ⟨a2.trans a1, b2.trans b1, c2.trans c1⟩

/-! ## The program-counter loop: primitive steps -/

/-- Effect of `Reuse(reused, reused_for)`. -/
theorem Reuse_acc {p p' : PlannerImpl} {reused c : MLValueIndex}
    (h : Reuse p reused c = .ok p') :
    reused ≠ c ∧
    (∀ v, buf p' v = if v = c then buf p reused else buf p v) ∧
    (∀ v, cnt p' v = if v = buf p reused then cnt p v + cnt p c else cnt p v) ∧
    (∀ v, entry p'.plan_ v =
      if v = c then
        { entry p.plan_ c with alloc_kind := AllocKind.kReuse, reused_buffer := buf p reused }
      else entry p.plan_ v) ∧
    p'.freelist_ = p.freelist_ ∧ (∀ v, defsite p' v = defsite p v) ∧
    p'.plan_.execution_plan = p.plan_.execution_plan ∧
    p'.plan_.to_be_freed = p.plan_.to_be_freed := by
  unfold Reuse at h
  by_cases hne : reused = c
  · simp [hne, bind_ok, throw_ok] at h
  · simp only [hne, if_false, bind_ok, pure_ok] at h
    obtain ⟨_, _, original, ho, p1, h1, count, hc, p2, h2, h3⟩ := h
    obtain ⟨horig, _⟩ := Buffer_ok ho
    subst horig
    obtain ⟨i1, hi1, c1, b1, d1, pl1, f1, _⟩ := modifyInfo_acc h1
    obtain ⟨hcount, _⟩ := UseCount_ok hc
    obtain ⟨i2, hi2, c2, b2, d2, pl2, f2, _⟩ := modifyInfo_acc h2
    obtain ⟨_, he, hinfo, hfl, hex, htb, _⟩ := modifyAllocPlan_ok h3
    obtain ⟨hci1, hbi1, hdi1⟩ := info_acc hi1
    obtain ⟨hci2, hbi2, hdi2⟩ := info_acc hi2
    have hcnt1 : ∀ v, cnt p1 v = cnt p v := by
      intro v; rw [c1 v]; split
      · rename_i hv; subst hv; exact hci1.symm
      · rfl
    have hbuf1 : ∀ v, buf p1 v = if v = c then buf p reused else buf p v := b1
    have hdef1 : ∀ v, defsite p1 v = defsite p v := by
      intro v; rw [d1 v]; split
      · rename_i hv; subst hv; exact hdi1.symm
      · rfl
    have hbuf2 : ∀ v, buf p2 v = buf p1 v := by
      intro v; rw [b2 v]; split
      · rename_i hv; subst hv; exact hbi2.symm
      · rfl
    have hdef2 : ∀ v, defsite p2 v = defsite p1 v := by
      intro v; rw [d2 v]; split
      · rename_i hv; subst hv; exact hdi2.symm
      · rfl
    have hcnt2 : ∀ v, cnt p2 v = if v = buf p reused then cnt p1 v + count else cnt p1 v := by
      intro v; rw [c2 v]; split
      · rename_i hv; subst hv; show i2.usecount + count = _; rw [hci2]
      · rfl
    refine ⟨hne, ?_, ?_, ?_, ?_, ?_, ?_, ?_⟩
    · intro v
      have : buf p' v = buf p2 v := by simp [buf, hinfo]
      rw [this, hbuf2, hbuf1]
    · intro v
      have : cnt p' v = cnt p2 v := by simp [cnt, hinfo]
      rw [this, hcnt2, hcnt1, hcount, hcnt1]
    · intro v
      rw [he v, pl2, pl1]
    · rw [hfl, f2, f1]
    · intro v
      have : defsite p' v = defsite p2 v := by simp [defsite, hinfo]
      rw [this, hdef2, hdef1]
    · rw [hex, pl2, pl1]
    · rw [htb, pl2, pl1]
theorem mem_ArgIndices {ss : SessionState} {args : List NodeArg} {k : Nat} {a : NodeArg}
    {r : MLValueIndex} (hk : args[k]? = some a) (he : a.Exists = true)
    (hi : ss.GetMLValueIdx a.Name = some r) : r ∈ ArgIndices ss args := by
  simp only [ArgIndices, List.mem_filterMap, List.mem_filter]
  exact ⟨a, ⟨List.getElem?_mem hk, he⟩, hi⟩

/-- A successful alias search returns the value of an existing input named by an alias pair
for this output. -/
theorem FindAliasInput_some {ss : SessionState} {ins : List NodeArg} {j : Nat} :
    ∀ (pairs : List (Int × Int)) (r : MLValueIndex),
      FindAliasInput ss ins j pairs = .ok (some r) →
      ∃ pair ∈ pairs, ∃ a, pair.2 = (j : Int) ∧ 0 ≤ pair.1 ∧ ins[pair.1.toNat]? = some a ∧
        a.Exists = true ∧ ss.GetMLValueIdx a.Name = some r := by
  intro pairs
  induction pairs with
  | nil => intro r h; simp [FindAliasInput, pure_ok] at h
  | cons pair rest ih =>
    intro r h
    have hrec : FindAliasInput ss ins j rest = .ok (some r) →
        ∃ pair' ∈ pair :: rest, ∃ a, pair'.2 = (j : Int) ∧ 0 ≤ pair'.1 ∧
          ins[pair'.1.toNat]? = some a ∧ a.Exists = true ∧ ss.GetMLValueIdx a.Name = some r := by
      intro h'
      obtain ⟨q, hq, a, h1⟩ := ih r h'
      exact ⟨q, List.mem_cons_of_mem _ hq, a, h1⟩
    unfold FindAliasInput at h
    split at h
    · rename_i hc
      split at h
      · rename_i a ha
        split at h
        · rename_i hex
          simp only [bind_ok, pure_ok, Option.some.injEq] at h
          obtain ⟨i, hi, hir⟩ := h
          subst hir
          exact ⟨pair, List.mem_cons_self _ _, a, hc.1, hc.2.1, ha, hex, Index_ok hi⟩
        · exact hrec h
      · exact hrec h
    · exact hrec h

/-- A successful may-inplace search returns an existing input whose root buffer has use count
one and that has the size of the output def. -/
theorem FindInplaceInput_some {ss : SessionState} {ctx : ISequentialPlannerContext}
    {p : PlannerImpl} {ins : List NodeArg} {out : NodeArg} {j : Nat} :
    ∀ (pairs : List (Int × Int)) (r : MLValueIndex),
      FindInplaceInput ss ctx p ins out j pairs = .ok (some r) →
      ∃ pair ∈ pairs, ∃ a, pair.2 = (j : Int) ∧ 0 ≤ pair.1 ∧ ins[pair.1.toNat]? = some a ∧
        a.Exists = true ∧ ss.GetMLValueIdx a.Name = some r ∧ cnt p (buf p r) = 1 ∧
        SameSize ctx a out = .ok true := by
  intro pairs
  induction pairs with
  | nil => intro r h; simp [FindInplaceInput, pure_ok] at h
  | cons pair rest ih =>
    intro r h
    have hrec : FindInplaceInput ss ctx p ins out j rest = .ok (some r) →
        ∃ pair' ∈ pair :: rest, ∃ a, pair'.2 = (j : Int) ∧ 0 ≤ pair'.1 ∧
          ins[pair'.1.toNat]? = some a ∧ a.Exists = true ∧ ss.GetMLValueIdx a.Name = some r ∧
          cnt p (buf p r) = 1 ∧ SameSize ctx a out = .ok true := by
      intro h'
      obtain ⟨q, hq, a, h1⟩ := ih r h'
      exact ⟨q, List.mem_cons_of_mem _ hq, a, h1⟩
    unfold FindInplaceInput at h
    split at h
    · rename_i hc
      split at h
      · rename_i a ha
        split at h
        · rename_i hex
          simp only [bind_ok] at h
          obtain ⟨i, hi, orig, ho, count, hcount, h⟩ := h
          obtain ⟨horig, _⟩ := Buffer_ok ho
          obtain ⟨hcnt, _⟩ := UseCount_ok hcount
          split at h
          · rename_i hone
            simp only [bind_ok] at h
            obtain ⟨same, hs, h⟩ := h
            split at h
            · rename_i hsame
              simp only [pure_ok, Option.some.injEq] at h
              subst h
              refine ⟨pair, List.mem_cons_self _ _, a, hc.1, hc.2.1, ha, hex, Index_ok hi, ?_, ?_⟩
              · rw [← horig, ← hcnt]; exact hone
              · rw [hs, hsame]
            · exact hrec h
          · exact hrec h
        · exact hrec h
      · exact hrec h
    · exact hrec h

/-- Whatever `FindReusableInput` returns is an existing input of the node. -/
theorem FindReusableInput_mem {ss : SessionState} {ctx : ISequentialPlannerContext}
    {p : PlannerImpl} {node : Node} {j : Nat} {r : MLValueIndex}
    (h : FindReusableInput ss ctx p node j = .ok (some r)) : r ∈ node.Reads ss := by
  unfold FindReusableInput at h
  split at h
  · rename_i out k ho hk
    simp only [bind_ok] at h
    obtain ⟨res, h1, h⟩ := h
    split at h
    · rename_i r' 
      simp only [pure_ok, Option.some.injEq] at h
      subst h
      obtain ⟨pair, _, a, _, _, ha, hex, hi⟩ := FindAliasInput_some _ _ h1
      exact mem_ArgIndices ha hex hi
    · obtain ⟨pair, _, a, _, _, ha, hex, hi, _⟩ := FindInplaceInput_some _ _ h
      exact mem_ArgIndices ha hex hi
  · simp at h
/-- A successful freelist walk returns the value of a freelist entry whose def-site has the
required location, and erases entries only. -/
theorem FindInFreelist_some {ss : SessionState} {ctx : ISequentialPlannerContext}
    {p : PlannerImpl} {shape : TensorShapeProto} {ty : DataType} {loc : AllocatorInfo} :
    ∀ (l : List FreeBufferInfo) (r : MLValueIndex) (l' : List FreeBufferInfo),
      FindInFreelist ss ctx p shape ty loc l = .ok (some (r, l')) →
      (∃ e ∈ l, e.ml_value = r) ∧ l'.Sublist l ∧
      ∃ a i, defsite p r = some a ∧ ss.GetMLValueIdx a.Name = some i ∧
        (entry p.plan_ i).location = loc := by
  intro l
  induction l with
  | nil => intro r l' h; simp [FindInFreelist, pure_ok] at h
  | cons it rest ih =>
    intro r l' h
    have hskip : ∀ (x : M (Option (MLValueIndex × List FreeBufferInfo))),
        x = FindInFreelist ss ctx p shape ty loc rest →
        (do
          match ← x with
          | some (r, l) => pure (some (r, it :: l))
          | none => pure none) = Except.ok (some (r, l')) →
        (∃ e ∈ it :: rest, e.ml_value = r) ∧ l'.Sublist (it :: rest) ∧
          ∃ a i, defsite p r = some a ∧ ss.GetMLValueIdx a.Name = some i ∧
            (entry p.plan_ i).location = loc := by
      intro x hx h'
      subst hx
      simp only [bind_ok] at h'
      obtain ⟨res, hres, h'⟩ := h'
      split at h'
      · rename_i r2 l2
        simp only [pure_ok, Option.some.injEq, Prod.mk.injEq] at h'
        obtain ⟨hr, hl⟩ := h'
        subst hr; subst hl
        obtain ⟨⟨e, he, her⟩, hsub, hloc⟩ := ih _ _ hres
        exact ⟨⟨e, List.mem_cons_of_mem _ he, her⟩, List.Sublist.cons₂ _ hsub, hloc⟩
      · simp [pure_ok] at h'
    unfold FindInFreelist at h
    simp only [bind_ok] at h
    obtain ⟨info, hinfo, h⟩ := h
    have hinfo' := info_ok hinfo
    obtain ⟨_, _, hds⟩ := info_acc hinfo'
    split at h
    · simp only [throw_ok] at h
    · rename_i a ha
      simp only [bind_ok] at h
      obtain ⟨idx, hidx, avail, havail, h⟩ := h
      obtain ⟨hav, _⟩ := AllocPlan_ok havail
      split at h
      · exact hskip _ rfl h
      · rename_i hloc
        split at h
        · exact hskip _ rfl h
        · simp only [bind_ok] at h
          obtain ⟨same, hsame, h⟩ := h
          split at h
          · simp only [pure_ok, Option.some.injEq, Prod.mk.injEq] at h
            obtain ⟨hr, hl⟩ := h
            subst hr; subst hl
            refine ⟨⟨it, List.mem_cons_self _ _, rfl⟩, List.sublist_cons_self _ _, a, idx, ?_,
              Index_ok hidx, ?_⟩
            · rw [hds, ha]
            · rw [← hav]; exact not_not.mp hloc
          · exact hskip _ rfl h

/-- Effect of `FindReusableTensor`: only the freelist changes, by erasing entries; a returned
value comes from the freelist and its def-site has the location of the output. -/
theorem FindReusableTensor_acc {ss : SessionState} {ctx : ISequentialPlannerContext}
    {p p' : PlannerImpl} {out : NodeArg} {res : Option MLValueIndex}
    (h : FindReusableTensor ss ctx p out = .ok (res, p')) :
    p'.ml_value_info_ = p.ml_value_info_ ∧ p'.plan_ = p.plan_ ∧
    p'.freelist_.Sublist p.freelist_ ∧
    ∀ r, res = some r → (∃ e ∈ p.freelist_, e.ml_value = r) ∧
      ∃ a i c, defsite p r = some a ∧ ss.GetMLValueIdx a.Name = some i ∧
        ss.GetMLValueIdx out.Name = some c ∧
        (entry p.plan_ i).location = (entry p.plan_ c).location := by
  unfold FindReusableTensor at h
  split at h
  · simp only [pure_ok, Prod.mk.injEq] at h
    obtain ⟨hr, hp⟩ := h
    subst hr; subst hp
    exact ⟨rfl, rfl, List.Sublist.refl _, fun r hr => by simp at hr⟩
  · rename_i shape hshape
    simp only [bind_ok] at h
    obtain ⟨idx, hidx, req, hreq, found, hfound, h⟩ := h
    obtain ⟨hreq', _⟩ := AllocPlan_ok hreq
    split at h
    · rename_i reusable l
      simp only [pure_ok, Prod.mk.injEq] at h
      obtain ⟨hr, hp⟩ := h
      subst hr; subst hp
      obtain ⟨hmem, hsub, a, i, hds, hi, hloc⟩ := FindInFreelist_some _ _ _ hfound
      refine ⟨rfl, rfl, hsub, ?_⟩
      intro r hr
      simp only [Option.some.injEq] at hr
      subst hr
      exact ⟨hmem, a, i, idx, hds, hi, Index_ok hidx, by rw [hloc, hreq']⟩
    · simp only [pure_ok, Prod.mk.injEq] at h
      obtain ⟨hr, hp⟩ := h
      subst hr; subst hp
      exact ⟨rfl, rfl, List.Sublist.refl _, fun r hr => by simp at hr⟩
/-- Every successful run of `ReusePlanOutput` is one of the five decisions. -/
theorem ReusePlanOutput_cases {ss : SessionState} {ctx : ISequentialPlannerContext}
    {graph : Graph} {pnode : Node} {node_output : NodeArg} {j : Nat} {p p' : PlannerImpl}
    (h : ReusePlanOutput ss ctx graph pnode node_output j p = .ok p') :
    ∃ current, ss.GetMLValueIdx node_output.Name = some current ∧
      OutputDecision ss ctx graph pnode node_output j current p p' := by
  unfold ReusePlanOutput at h
  simp only [bind_ok] at h
  obtain ⟨current, hi, p1, h1, h⟩ := h
  refine ⟨current, Index_ok hi, ?_⟩
  split at h
  · rename_i hgo
    exact OutputDecision.graph_output p1 h1 hgo h
  · rename_i hgo
    split at h
    · rename_i hnt
      exact OutputDecision.non_tensor p1 h1 hgo hnt h
    · rename_i hnt
      simp only [bind_ok] at h
      obtain ⟨res, hfi, h⟩ := h
      split at h
      · rename_i reused
        exact OutputDecision.reuse_input p1 reused h1 hgo hnt hfi h
      · simp only [bind_ok] at h
        obtain ⟨res2, hft, h⟩ := h
        split at h
        · rename_i reused p2
          exact OutputDecision.reuse_free p1 p2 reused h1 hgo hnt hfi hft h
        · rename_i p2
          exact OutputDecision.allocate p1 p2 h1 hgo hnt hfi hft h

/-! ## The program-counter loop: preservation of the invariant -/

/-- The invariant only reads buffers, use counts, the freelist and kinds and donors. -/
theorem RInv.congr {P F Fut D : List MLValueIndex} {p p' : PlannerImpl}
    (h : RInv P p F Fut D) (hb : ∀ v, buf p' v = buf p v) (hc : ∀ v, cnt p' v = cnt p v)
    (hf : ∀ e ∈ p'.freelist_, e ∈ p.freelist_)
    (hk : ∀ v, (entry p'.plan_ v).alloc_kind = (entry p.plan_ v).alloc_kind)
    (hr : ∀ v, (entry p'.plan_ v).reused_buffer = (entry p.plan_ v).reused_buffer) :
    RInv P p' F Fut D := by
  have hbf : buf p' = buf p := funext hb
  refine ⟨?_, ?_, ?_, ?_, h.fut_nodup, h.disj, ?_, ?_, ?_, ?_⟩
  · intro r; rw [hbf, hc]; exact h.count r
  · intro v hv; rw [hbf]; exact h.pinned v hv
  · intro c hc'; rw [hbf]; exact h.fut_self c hc'
  · intro x hx; rw [hbf]; exact h.fut_unref x hx
  · intro x hx; rw [hbf]; exact h.idem x hx
  · intro e he; rw [hbf]; exact h.free e (hf e he)
  · intro v hv; rw [hk] at hv; rw [hr, hbf]; exact h.reuse v hv
  · intro v hv; rw [hk] at hv; exact h.owned v hv

/-- The set of defined values may shrink. -/
theorem RInv.mono {P F Fut D D' : List MLValueIndex} {p : PlannerImpl}
    (h : RInv P p F Fut D) (hD : ∀ x ∈ D', x ∈ D) : RInv P p F Fut D' :=
  ⟨h.count, h.pinned, h.fut_self, fun x hx => h.fut_unref x (hD x hx), h.fut_nodup,
   fun x hx => h.disj x (hD x hx),
   fun x hx => h.idem x (hD x hx), h.free, h.reuse, h.owned⟩

/-- An output that is given a kind other than `kReuse` becomes defined. -/
theorem RInv.alloc {P F Fut D : List MLValueIndex} {p p' : PlannerImpl} {c : MLValueIndex}
    {k : AllocKind} (h : RInv P p F (c :: Fut) D)
    (hb : ∀ v, buf p' v = buf p v) (hc : ∀ v, cnt p' v = cnt p v)
    (hf : p'.freelist_ = p.freelist_)
    (he : ∀ v, entry p'.plan_ v =
      if v = c then { entry p.plan_ c with alloc_kind := k } else entry p.plan_ v)
    (hk : k ≠ AllocKind.kReuse) (hown : k.Owned → c ∈ P) :
    RInv P p' F Fut (c :: D) := by
  have hbf : buf p' = buf p := funext hb
  have hnd := List.nodup_cons.mp h.fut_nodup
  refine ⟨?_, ?_, ?_, ?_, hnd.2, ?_, ?_, ?_, ?_, ?_⟩
  · intro r; rw [hbf, hc]; exact h.count r
  · intro v hv; rw [hbf]; exact h.pinned v hv
  · intro x hx; rw [hbf]; exact h.fut_self x (List.mem_cons_of_mem _ hx)
  · intro x hx
    rw [hbf]
    rcases List.mem_cons.mp hx with hx | hx
    · subst hx; rw [h.fut_self x (List.mem_cons_self _ _)]; exact hnd.1
    · exact fun hm => h.fut_unref x hx (List.mem_cons_of_mem _ hm)
  · intro x hx
    rcases List.mem_cons.mp hx with hx | hx
    · subst hx; exact hnd.1
    · exact fun hm => h.disj x hx (List.mem_cons_of_mem _ hm)
  · intro x hx
    rw [hbf]
    rcases List.mem_cons.mp hx with hx | hx
    · subst hx; rw [h.fut_self x (List.mem_cons_self _ _)]
      exact h.fut_self x (List.mem_cons_self _ _)
    · exact h.idem x hx
  · intro e he'
    rw [hf] at he'; rw [hbf]
    obtain ⟨h1, h2, h3⟩ := h.free e he'
    exact ⟨fun hm => h1 (List.mem_cons_of_mem _ hm), h2, h3⟩
  · intro v hv
    rw [he v] at hv ⊢
    rw [hbf]
    by_cases hvc : v = c
    · simp only [hvc, if_true] at hv
      exact absurd hv hk
    · simp only [hvc, if_false] at hv ⊢
      obtain ⟨h1, h2, h3, h4⟩ := h.reuse v hv
      exact ⟨h1, h2, h3, fun hm => h4 (List.mem_cons_of_mem _ hm)⟩
  · intro v hv
    rw [he v] at hv
    by_cases hvc : v = c
    · simp only [hvc, if_true] at hv
      rw [hvc]; exact hown hv
    · simp only [hvc, if_false] at hv
      exact h.owned v hv

theorem countP_le_add {α : Type} (l : List α) (p q s : α → Bool)
    (h : ∀ x ∈ l, p x = true → q x = true ∨ s x = true) :
    l.countP p ≤ l.countP q + l.countP s := by
  induction l with
  | nil => simp
  | cons x rest ih =>
    have ih' := ih (fun y hy => h y (List.mem_cons_of_mem _ hy))
    have hx := h x (List.mem_cons_self _ _)
    simp only [List.countP_cons]
    cases hp : p x <;> cases hq : q x <;> cases hs : s x <;> simp_all <;> omega

theorem countP_reuse (l : List MLValueIndex) (b : MLValueIndex → MLValueIndex)
    (c root r : MLValueIndex) (hc : b c = c) :
    l.countP (fun x => decide ((if x = c then root else b x) = r)) ≤
      (if r = root then
        l.countP (fun x => decide (b x = r)) + l.countP (fun x => decide (b x = c))
      else l.countP (fun x => decide (b x = r))) := by
  by_cases hr : r = root
  · simp only [hr, if_true]
    apply countP_le_add
    intro x _ hx
    by_cases hxc : x = c
    · right; subst hxc; simpa using hc
    · left; simpa [hxc] using hx
  · simp only [hr, if_false]
    apply List.countP_mono_left
    intro x _ hx
    by_cases hxc : x = c
    · simp only [hxc, if_true, decide_eq_true_eq] at hx
      exact absurd hx.symm hr
    · simpa [hxc] using hx
/-- `Reuse(donor, c)` for the next output `c`, whose donor has a root outside the values still
to be produced. -/
theorem RInv.reuse_step {P F Fut D : List MLValueIndex} {p p' : PlannerImpl}
    {donor c : MLValueIndex} (h : RInv P p F (c :: Fut) D) (hR : Reuse p donor c = .ok p')
    (hcP : c ∉ P) (hroot : buf p (buf p donor) = buf p donor)
    (hfut : buf p donor ∉ c :: Fut) :
    RInv P p' F Fut (c :: D) := by
  obtain ⟨_, hb, hc, he, hf, _, _, _⟩ := Reuse_acc hR
  have hnd := List.nodup_cons.mp h.fut_nodup
  have hrc : buf p donor ≠ c := fun hx => hfut (hx ▸ List.mem_cons_self _ _)
  have hcc : buf p c = c := h.fut_self c (List.mem_cons_self _ _)
  have hbne : ∀ x ∈ D, buf p x ≠ c :=
    fun x hx hbx => h.fut_unref x hx (hbx ▸ List.mem_cons_self _ _)
  have hidemc : buf p' (buf p' c) = buf p' c := by
    rw [hb c]; simp only [if_true]
    rw [hb]; simp only [hrc, if_false]; exact hroot
  refine ⟨?_, ?_, ?_, ?_, hnd.2, ?_, ?_, ?_, ?_, ?_⟩
  · intro r
    have hfun : (fun x => decide (buf p' x = r)) =
        (fun x => decide ((if x = c then buf p donor else buf p x) = r)) := by
      funext x; rw [hb x]
    rw [hfun, hc r]
    have hle := countP_reuse (F ++ P) (buf p) c (buf p donor) r hcc
    by_cases hr : r = buf p donor
    · simp only [hr, if_true] at hle ⊢
      have h1 := h.count (buf p donor)
      have h2 := h.count c
      omega
    · simp only [hr, if_false] at hle ⊢
      have h1 := h.count r
      omega
  · intro v hv
    have : v ≠ c := fun hx => hcP (hx ▸ hv)
    rw [hb]; simp only [this, if_false]; exact h.pinned v hv
  · intro x hx
    have : x ≠ c := fun hxc => hnd.1 (hxc ▸ hx)
    rw [hb]; simp only [this, if_false]; exact h.fut_self x (List.mem_cons_of_mem _ hx)
  · intro x hx
    rw [hb]
    rcases List.mem_cons.mp hx with hx | hx
    · subst hx; simp only [if_true]
      exact fun hm => hfut (List.mem_cons_of_mem _ hm)
    · have hxc : x ≠ c := fun hxc => h.disj x hx (hxc ▸ List.mem_cons_self _ _)
      simp only [hxc, if_false]
      exact fun hm => h.fut_unref x hx (List.mem_cons_of_mem _ hm)
  · intro x hx
    rcases List.mem_cons.mp hx with hx | hx
    · subst hx; exact hnd.1
    · exact fun hm => h.disj x hx (List.mem_cons_of_mem _ hm)
  · intro x hx
    rcases List.mem_cons.mp hx with hx | hx
    · subst hx; exact hidemc
    · have hxc : x ≠ c := fun hxc => h.disj x hx (hxc ▸ List.mem_cons_self _ _)
      rw [hb x]; simp only [hxc, if_false]
      rw [hb]; simp only [hbne x hx, if_false]
      exact h.idem x hx
  · intro e he'
    rw [hf] at he'
    obtain ⟨h1, h2, h3⟩ := h.free e he'
    have hec : e.ml_value ≠ c := fun hx => h1 (hx ▸ List.mem_cons_self _ _)
    refine ⟨fun hm => h1 (List.mem_cons_of_mem _ hm), ?_, h3⟩
    rw [hb]; simp only [hec, if_false]; exact h2
  · intro v hv
    rw [he v] at hv ⊢
    by_cases hvc : v = c
    · subst hvc
      simp only [if_true]
      refine ⟨(by rw [hb]; simp), (by rw [hb]; simpa using hrc), hidemc, ?_⟩
      rw [hb]; simp only [if_true]
      exact fun hm => hfut (List.mem_cons_of_mem _ hm)
    · simp only [hvc, if_false] at hv ⊢
      obtain ⟨h1, h2, h3, h4⟩ := h.reuse v hv
      have hbv : buf p' v = buf p v := by rw [hb]; simp [hvc]
      have hbv2 : buf p v ≠ c := fun hx => h4 (hx ▸ List.mem_cons_self _ _)
      refine ⟨by rw [hbv]; exact h1, by rw [hbv]; exact h2, ?_, ?_⟩
      · rw [hbv, hb]; simp only [hbv2, if_false]; exact h3
      · rw [hbv]; exact fun hm => h4 (List.mem_cons_of_mem _ hm)
  · intro v hv
    rw [he v] at hv
    by_cases hvc : v = c
    · simp only [hvc, if_true] at hv
      rcases hv with hv | hv | hv <;> simp at hv
    · simp only [hvc, if_false] at hv
      exact h.owned v hv
theorem push_front_acc (p : PlannerImpl) (r : MLValueIndex) (pc : Nat) :
    (∀ v, buf (p.push_front r pc) v = buf p v) ∧ (∀ v, cnt (p.push_front r pc) v = cnt p v) ∧
    (∀ v, defsite (p.push_front r pc) v = defsite p v) ∧
    (p.push_front r pc).plan_ = p.plan_ ∧
    (p.push_front r pc).freelist_ = ⟨r, pc⟩ :: p.freelist_ :=
  ⟨fun _ => rfl, fun _ => rfl, fun _ => rfl, rfl, rfl⟩

/-- Pushing the root of a defined value whose use count is zero keeps the invariant. -/
theorem RInv.push {P F Fut D : List MLValueIndex} {p : PlannerImpl} {x : MLValueIndex}
    (h : RInv P p F Fut D) (hx : x ∈ D) (hz : cnt p (buf p x) = 0) (pc : Nat) :
    RInv P (p.push_front (buf p x) pc) F Fut D := by
  refine ⟨h.count, h.pinned, h.fut_self, h.fut_unref, h.fut_nodup, h.disj, h.idem, ?_,
    h.reuse, h.owned⟩
  intro e he
  rcases List.mem_cons.mp he with he | he
  · subst he
    refine ⟨h.fut_unref x hx, h.idem x hx, ?_⟩
    · intro hP
      have hc := h.count (buf p x)
      rw [hz] at hc
      have hpos : 0 < (F ++ P).countP (fun y => decide (buf p y = buf p x)) := by
        rw [List.countP_pos_iff]
        exact ⟨buf p x, List.mem_append_right _ hP, by simpa using h.pinned _ hP⟩
      omega
  · exact h.free e he

/-- Effect of `--UseCount(original)`. -/
theorem decUseCount_acc {p p' : PlannerImpl} {n : MLValueIndex}
    (h : p.modifyInfo n (fun i => { i with usecount := i.usecount - 1 }) = .ok p') :
    (∀ v, cnt p' v = if v = n then cnt p v - 1 else cnt p v) ∧
    (∀ v, buf p' v = buf p v) ∧ (∀ v, defsite p' v = defsite p v) ∧
    p'.plan_ = p.plan_ ∧ p'.freelist_ = p.freelist_ := by
  obtain ⟨i, hi, hc, hb, hd, hp, hf, _⟩ := modifyInfo_acc h
  obtain ⟨hci, hbi, hdi⟩ := info_acc hi
  refine ⟨?_, ?_, ?_, hp, hf⟩
  · intro v; rw [hc v]; split
    · rename_i hv; subst hv; show i.usecount - 1 = _; rw [hci]
    · rfl
  · intro v; rw [hb v]; split
    · rename_i hv; subst hv; exact hbi.symm
    · rfl
  · intro v; rw [hd v]; split
    · rename_i hv; subst hv; exact hdi.symm
    · rfl

/-- Consuming one read: the root's use count drops by one. -/
theorem RInv.consume {P F Fut D : List MLValueIndex} {p p' : PlannerImpl} {index : MLValueIndex}
    (h : RInv P p (index :: F) Fut D)
    (hb : ∀ v, buf p' v = buf p v)
    (hc : ∀ v, cnt p' v = if v = buf p index then cnt p v - 1 else cnt p v)
    (hf : p'.freelist_ = p.freelist_) (hp : p'.plan_ = p.plan_) :
    RInv P p' F Fut D := by
  have hbf : buf p' = buf p := funext hb
  refine ⟨?_, ?_, ?_, ?_, h.fut_nodup, h.disj, ?_, ?_, ?_, ?_⟩
  · intro r
    rw [hbf, hc r]
    have h1 := h.count r
    simp only [List.cons_append, List.countP_cons] at h1
    by_cases hr : r = buf p index
    · subst hr
      simp only [decide_True, if_true] at h1 ⊢
      omega
    · have : ¬ buf p index = r := fun hx => hr hx.symm
      simp only [hr, this, decide_False, if_false] at h1 ⊢
      simpa using h1
  · intro v hv; rw [hbf]; exact h.pinned v hv
  · intro c hc'; rw [hbf]; exact h.fut_self c hc'
  · intro x hx; rw [hbf]; exact h.fut_unref x hx
  · intro x hx; rw [hbf]; exact h.idem x hx
  · intro e he; rw [hf] at he; rw [hbf]; exact h.free e he
  · intro v hv; rw [hp] at hv ⊢; rw [hbf]; exact h.reuse v hv
  · intro v hv; rw [hp] at hv; exact h.owned v hv
/-- Effect of an allocation-plan assignment, read through the accessors. -/
theorem modifyAllocPlan_acc {p p' : PlannerImpl} {n : MLValueIndex}
    {f : AllocPlanPerValue → AllocPlanPerValue} (h : p.modifyAllocPlan n f = .ok p') :
    (∀ v, buf p' v = buf p v) ∧ (∀ v, cnt p' v = cnt p v) ∧ (∀ v, defsite p' v = defsite p v) ∧
    (∀ v, entry p'.plan_ v = if v = n then f (entry p.plan_ n) else entry p.plan_ v) ∧
    p'.freelist_ = p.freelist_ ∧ p'.plan_.execution_plan = p.plan_.execution_plan ∧
    p'.plan_.to_be_freed = p.plan_.to_be_freed := by
  obtain ⟨_, he, hi, hf, hx, ht, _⟩ := modifyAllocPlan_ok h
  exact ⟨fun v => by simp [buf, hi], fun v => by simp [cnt, hi], fun v => by simp [defsite, hi],
    he, hf, hx, ht⟩

/-- Recording the value type of an output keeps the invariant. -/
theorem RInv.value_type {P F Fut D : List MLValueIndex} {p p' : PlannerImpl} {c : MLValueIndex}
    {t : Option DataType} (h : RInv P p F Fut D)
    (hm : p.modifyAllocPlan c (fun a => { a with value_type := t }) = .ok p') :
    RInv P p' F Fut D := by
  obtain ⟨hb, hc, _, he, hf, _, _⟩ := modifyAllocPlan_acc hm
  refine h.congr hb hc (fun e he' => hf ▸ he') ?_ ?_
  · intro v; rw [he v]; split
    · rename_i hv; subst hv; rfl
    · rfl
  · intro v; rw [he v]; split
    · rename_i hv; subst hv; rfl
    · rfl

/-- Settling one output keeps the invariant and makes the output defined. -/
theorem RInv.output {ss : SessionState} {ctx : ISequentialPlannerContext} {graph : Graph}
    {pnode : Node} {o : NodeArg} {j : Nat} {c : MLValueIndex} {p p' : PlannerImpl}
    {P F Fut D : List MLValueIndex}
    (hd : OutputDecision ss ctx graph pnode o j c p p') (h : RInv P p F (c :: Fut) D)
    (hreads : ∀ x ∈ pnode.Reads ss, x ∈ D)
    (hin : graph.Outputs.any (fun g => g.Name == o.Name) = true → c ∈ P)
    (hout : ¬ graph.Outputs.any (fun g => g.Name == o.Name) = true → c ∉ P) :
    RInv P p' F Fut (c :: D) := by
  cases hd with
  | graph_output p1 h1 hgo h2 =>
    have hp1 := h.value_type h1
    obtain ⟨hb, hc, _, he, hf, _, _⟩ := modifyAllocPlan_acc h2
    exact hp1.alloc hb hc hf he (by decide) (fun _ => hin hgo)
  | non_tensor p1 h1 hgo hnt h2 =>
    have hp1 := h.value_type h1
    obtain ⟨hb, hc, _, he, hf, _, _⟩ := modifyAllocPlan_acc h2
    exact hp1.alloc hb hc hf he (by decide) (fun hk => by rcases hk with hk | hk | hk <;> simp at hk)
  | reuse_input p1 reused h1 hgo hnt hfi h2 =>
    have hp1 := h.value_type h1
    have hr : reused ∈ D := hreads _ (FindReusableInput_mem hfi)
    exact hp1.reuse_step h2 (hout hgo) (hp1.idem _ hr) (hp1.fut_unref _ hr)
  | reuse_free p1 p2 reused h1 hgo hnt hfi hft h2 =>
    have hp1 := h.value_type h1
    obtain ⟨hinfo, hplan, hsub, hres⟩ := FindReusableTensor_acc hft
    have hp2 : RInv P p2 F (c :: Fut) D :=
      hp1.congr (fun v => by simp [buf, hinfo]) (fun v => by simp [cnt, hinfo])
        (fun e he => hsub.subset he) (fun v => by rw [hplan]) (fun v => by rw [hplan])
    obtain ⟨⟨e, he, her⟩, _⟩ := hres reused rfl
    obtain ⟨f1, f2, _⟩ := hp1.free e he
    rw [her] at f1 f2
    have hb2 : ∀ v, buf p2 v = buf p1 v := fun v => by simp [buf, hinfo]
    refine hp2.reuse_step h2 (hout hgo) ?_ ?_
    · rw [hb2, hb2, f2, f2]
    · rw [hb2, f2]; exact f1
  | allocate p1 p2 h1 hgo hnt hfi hft h2 =>
    have hp1 := h.value_type h1
    obtain ⟨hinfo, hplan, hsub, hres⟩ := FindReusableTensor_acc hft
    have hp2 : RInv P p2 F (c :: Fut) D :=
      hp1.congr (fun v => by simp [buf, hinfo]) (fun v => by simp [cnt, hinfo])
        (fun e he => hsub.subset he) (fun v => by rw [hplan]) (fun v => by rw [hplan])
    obtain ⟨hb, hc, _, he, hf, _, _⟩ := modifyAllocPlan_acc h2
    exact hp2.alloc hb hc hf he (by decide) (fun hk => by rcases hk with hk | hk | hk <;> simp at hk)
/-- The output loop of one step keeps the invariant; the outputs become defined. -/
theorem ReusePlanOutputs_inv {ss : SessionState} {ctx : ISequentialPlannerContext}
    {graph : Graph} {pnode : Node} {P F Fut : List MLValueIndex} :
    ∀ (outs : List NodeArg) (j : Nat) (D : List MLValueIndex) (p p' : PlannerImpl),
      ReusePlanOutputs ss ctx graph pnode outs j p = .ok p' →
      RInv P p F (ArgIndices ss outs ++ Fut) D →
      (∀ x ∈ pnode.Reads ss, x ∈ D) → PinnedByName ss graph P outs →
      RInv P p' F Fut (ArgIndices ss outs ++ D) := by
  intro outs
  induction outs with
  | nil =>
    intro j D p p' h hinv _ _
    simp only [ReusePlanOutputs, pure_ok] at h
    subst h
    simpa [ArgIndices_nil] using hinv
  | cons o rest ih =>
    intro j D p p' h hinv hreads hpin
    have hpin' : PinnedByName ss graph P rest :=
      fun o' ho' => hpin o' (List.mem_cons_of_mem _ ho')
    unfold ReusePlanOutputs at h
    by_cases he : o.Exists = true
    · simp only [he, Bool.not_true, Bool.false_eq_true, if_false, bind_ok] at h
      obtain ⟨p1, h1, h2⟩ := h
      obtain ⟨c, hc, hd⟩ := ReusePlanOutput_cases h1
      rw [ArgIndices_cons_exists he hc] at hinv ⊢
      obtain ⟨hin, hout⟩ := hpin o (List.mem_cons_self _ _) he c hc
      have hp1 := RInv.output hd hinv hreads hin hout
      have := ih (j + 1) (c :: D) p1 p' h2 hp1
        (fun x hx => List.mem_cons_of_mem _ (hreads x hx)) hpin'
      refine this.mono ?_
      intro x hx
      simp only [List.cons_append, List.mem_cons, List.mem_append] at hx ⊢
      tauto
    · have he' : o.Exists = false := by simpa using he
      simp only [he', Bool.not_false, if_true] at h
      rw [ArgIndices_cons_missing he] at hinv ⊢
      exact ih j D p p' h hinv hreads hpin'

/-- The input loop of one step keeps the invariant; the reads are consumed. -/
theorem FreeInputs_inv {ss : SessionState} {pc : Nat} {P F Fut D : List MLValueIndex} :
    ∀ (ins : List NodeArg) (p p' : PlannerImpl),
      FreeInputs ss pc ins p = .ok p' →
      RInv P p (ArgIndices ss ins ++ F) Fut D →
      (∀ x ∈ ArgIndices ss ins, x ∈ D) →
      RInv P p' F Fut D := by
  intro ins
  induction ins with
  | nil =>
    intro p p' h hinv _
    simp only [FreeInputs, pure_ok] at h
    subst h
    simpa [ArgIndices_nil] using hinv
  | cons a rest ih =>
    intro p p' h hinv hD
    unfold FreeInputs at h
    by_cases he : a.Exists = true
    · simp only [he, if_true, bind_ok] at h
      obtain ⟨index, hi, original, ho, p1, h1, count, hc, h2⟩ := h
      have hi' := Index_ok hi
      obtain ⟨horig, _⟩ := Buffer_ok ho
      subst horig
      obtain ⟨hcount, _⟩ := UseCount_ok hc
      rw [ArgIndices_cons_exists he hi'] at hinv hD
      obtain ⟨c1, b1, _, pl1, f1⟩ := decUseCount_acc h1
      have hp1 : RInv P p1 (ArgIndices ss rest ++ F) Fut D := hinv.consume b1 c1 f1 pl1
      have hrest : ∀ x ∈ ArgIndices ss rest, x ∈ D := fun x hx => hD x (List.mem_cons_of_mem _ hx)
      have hidx : index ∈ D := hD index (List.mem_cons_self _ _)
      by_cases hz : count = 0
      · simp only [hz, if_true] at h2
        have hz' : cnt p1 (buf p1 index) = 0 := by rw [b1, ← hcount]; exact hz
        have := hp1.push hidx hz' pc
        rw [b1] at this
        exact ih _ p' h2 this hrest
      · simp only [hz, if_false] at h2
        exact ih _ p' h2 hp1 hrest
    · simp only [he, if_false] at h
      rw [ArgIndices_cons_missing he] at hinv hD
      exact ih p p' h hinv hD

/-- The second output loop of one step keeps the invariant. -/
theorem FreeUnusedOutputs_inv {ss : SessionState} {pc : Nat} {P F Fut D : List MLValueIndex} :
    ∀ (outs : List NodeArg) (p p' : PlannerImpl),
      FreeUnusedOutputs ss pc outs p = .ok p' →
      RInv P p F Fut D →
      (∀ x ∈ ArgIndices ss outs, x ∈ D) →
      RInv P p' F Fut D := by
  intro outs
  induction outs with
  | nil =>
    intro p p' h hinv _
    simp only [FreeUnusedOutputs, pure_ok] at h
    subst h
    exact hinv
  | cons a rest ih =>
    intro p p' h hinv hD
    unfold FreeUnusedOutputs at h
    by_cases he : a.Exists = true
    · simp only [he, if_true, bind_ok] at h
      obtain ⟨index, hi, original, ho, count, hc, h2⟩ := h
      have hi' := Index_ok hi
      obtain ⟨horig, _⟩ := Buffer_ok ho
      subst horig
      obtain ⟨hcount, _⟩ := UseCount_ok hc
      rw [ArgIndices_cons_exists he hi'] at hD
      have hrest : ∀ x ∈ ArgIndices ss rest, x ∈ D := fun x hx => hD x (List.mem_cons_of_mem _ hx)
      have hidx : index ∈ D := hD index (List.mem_cons_self _ _)
      by_cases hz : count = 0
      · simp only [hz, if_true] at h2
        have hz' : cnt p (buf p index) = 0 := by rw [← hcount]; exact hz
        exact ih _ p' h2 (hinv.push hidx hz' pc) hrest
      · simp only [hz, if_false] at h2
        exact ih _ p' h2 hinv hrest
    · simp only [he, if_false] at h
      rw [ArgIndices_cons_missing he] at hD
      exact ih p p' h hinv hD
/-- Success of one step of the program-counter loop, split into its three loops. -/
theorem ReusePlanStep_split {ss : SessionState} {ctx : ISequentialPlannerContext} {graph : Graph}
    {step : NodeExecutionPlan} {pc : Nat} {p p' : PlannerImpl}
    (h : ReusePlanStep ss ctx graph step pc p = .ok p') :
    ∃ pnode p1 p2, graph.GetNode step.node_index = some pnode ∧
      ReusePlanOutputs ss ctx graph pnode pnode.OutputDefs 0 p = .ok p1 ∧
      FreeInputs ss pc pnode.InputDefs p1 = .ok p2 ∧
      FreeUnusedOutputs ss pc pnode.OutputDefs p2 = .ok p' := by
  unfold ReusePlanStep at h
  split at h
  · simp only [throw_ok] at h
  · rename_i pnode hn
    simp only [bind_ok] at h
    obtain ⟨p1, h1, p2, h2, h3⟩ := h
    exact ⟨pnode, p1, p2, hn, h1, h2, h3⟩

theorem AllReads_cons (ss : SessionState) (n : Node) (rest : List Node) :
    AllReads ss (n :: rest) = n.Reads ss ++ AllReads ss rest := by
  simp [AllReads, List.flatMap_cons]

theorem AllWrites_cons (ss : SessionState) (n : Node) (rest : List Node) :
    AllWrites ss (n :: rest) = n.Writes ss ++ AllWrites ss rest := by
  simp [AllWrites, List.flatMap_cons]

/-- The program-counter loop keeps the invariant on a valid execution order. -/
theorem ReusePlanSteps_inv {ss : SessionState} {ctx : ISequentialPlannerContext} {graph : Graph}
    {P : List MLValueIndex} :
    ∀ (steps : List NodeExecutionPlan) (pc : Nat) (D : List MLValueIndex) (p p' : PlannerImpl),
      ReusePlanSteps ss ctx graph steps pc p = .ok p' →
      ValidOrder ss D (StepNodes graph steps) →
      (∀ n ∈ StepNodes graph steps, PinnedByName ss graph P n.OutputDefs) →
      RInv P p (AllReads ss (StepNodes graph steps)) (AllWrites ss (StepNodes graph steps)) D →
      RInv P p' [] [] (AllWrites ss (StepNodes graph steps) ++ D) := by
  intro steps
  induction steps with
  | nil =>
    intro pc D p p' h _ _ hinv
    simp only [ReusePlanSteps, pure_ok] at h
    subst h
    simpa [StepNodes, AllReads, AllWrites] using hinv
  | cons step rest ih =>
    intro pc D p p' h hvo hpin hinv
    simp only [ReusePlanSteps, bind_ok] at h
    obtain ⟨p3, hstep, hrest⟩ := h
    obtain ⟨pnode, p1, p2, hn, h1, h2, h3⟩ := ReusePlanStep_split hstep
    rw [StepNodes_cons hn] at hvo hpin hinv ⊢
    rw [AllReads_cons, AllWrites_cons] at hinv
    obtain ⟨hreads, _, _, hvo'⟩ := hvo
    have hp1 := ReusePlanOutputs_inv _ _ _ _ _ h1 hinv hreads
      (hpin pnode (List.mem_cons_self _ _))
    have hp2 := FreeInputs_inv _ _ _ h2 hp1
      (fun x hx => List.mem_append_right _ (hreads x hx))
    have hp3 := FreeUnusedOutputs_inv _ _ _ h3 hp2
      (fun x hx => List.mem_append_left _ hx)
    have := ih (pc + 1) _ p3 p' hrest hvo'
      (fun n hn' => hpin n (List.mem_cons_of_mem _ hn')) hp3
    refine this.mono ?_
    intro x hx
    rw [AllWrites_cons] at hx
    simp only [List.mem_append] at hx ⊢
    tauto

/-! ## Initialisation, deallocation plan and the phases of `CreatePlan` -/

theorem resize_nil {α : Type} (n : Nat) (d : α) : resize [] n d = List.replicate n d := by
  simp [resize]

theorem entry_replicate (plan : SequentialExecutionPlan) (n : Nat)
    (h : plan.allocation_plan = List.replicate n {}) (v : MLValueIndex) : entry plan v = {} := by
  unfold entry
  rw [h]
  by_cases hv : v < n
  · simp [List.getElem?_replicate, hv]
  · simp [List.getElem?_replicate, hv]

/-- The planner state on entry to `ComputeUseCounts`. -/
theorem Initialize_acc (plan : SequentialExecutionPlan) (n : Nat)
    (steps : List NodeExecutionPlan) (p : PlannerImpl)
    (hp : p = { Initialize { ml_value_info_ := [], freelist_ := [], plan_ := plan } n with
      plan_ := { (Initialize { ml_value_info_ := [], freelist_ := [], plan_ := plan } n).plan_ with
        execution_plan := steps } }) :
    (∀ v, cnt p v = 0) ∧ (∀ v, defsite p v = none) ∧ (∀ v, entry p.plan_ v = {}) ∧
    p.freelist_ = [] ∧ p.plan_.execution_plan = steps ∧
    p.plan_.to_be_freed = plan.to_be_freed := by
  subst hp
  refine ⟨?_, ?_, ?_, rfl, rfl, rfl⟩
  · intro v
    simp only [cnt, Initialize, resize_nil]
    by_cases hv : v < n
    · simp [List.getElem?_replicate, hv]
    · simp [List.getElem?_replicate, hv]
  · intro v
    simp only [defsite, Initialize, resize_nil]
    by_cases hv : v < n
    · simp [List.getElem?_replicate, hv]
    · simp [List.getElem?_replicate, hv]
  · intro v
    exact entry_replicate _ n (by simp [Initialize, resize_nil]) v

theorem set_free_to_index_acc (plan : SequentialExecutionPlan) (n : Nat) (v : Int) :
    (set_free_to_index plan n v).allocation_plan = plan.allocation_plan ∧
    (set_free_to_index plan n v).to_be_freed = plan.to_be_freed := ⟨rfl, rfl⟩

theorem set_free_from_index_acc (plan : SequentialExecutionPlan) (n : Nat) (v : Int) :
    (set_free_from_index plan n v).allocation_plan = plan.allocation_plan ∧
    (set_free_from_index plan n v).to_be_freed = plan.to_be_freed := ⟨rfl, rfl⟩

/-- The deallocation loop appends the ml-values of the entries it walks and leaves the
allocation plan alone. -/
theorem DeallocationLoop_acc :
    ∀ (l : List FreeBufferInfo) (prev : Option Nat) (current : Nat)
      (plan : SequentialExecutionPlan),
      (DeallocationLoop l prev current plan).2.2.allocation_plan = plan.allocation_plan ∧
      (DeallocationLoop l prev current plan).2.2.to_be_freed =
        plan.to_be_freed ++ l.map (fun e => e.ml_value) := by
  intro l
  induction l with
  | nil => intro prev current plan; simp [DeallocationLoop]
  | cons it rest ih =>
    intro prev current plan
    unfold DeallocationLoop
    simp only
    split
    · cases prev with
      | none =>
        simp only
        obtain ⟨h1, h2⟩ := ih (some it.deallocate_point) (current + 1)
          (set_free_from_index { plan with to_be_freed := plan.to_be_freed ++ [it.ml_value] }
            it.deallocate_point current)
        rw [h1, h2]
        simp [set_free_from_index]
      | some prev =>
        simp only
        obtain ⟨h1, h2⟩ := ih (some it.deallocate_point) (current + 1)
          (set_free_from_index (set_free_to_index
            { plan with to_be_freed := plan.to_be_freed ++ [it.ml_value] } prev
              ((current : Int) - 1)) it.deallocate_point current)
        rw [h1, h2]
        simp [set_free_from_index, set_free_to_index]
    · obtain ⟨h1, h2⟩ := ih prev (current + 1)
        { plan with to_be_freed := plan.to_be_freed ++ [it.ml_value] }
      rw [h1, h2]
      simp

/-- `GenerateDeallocationPlan` appends the freelist, read from back to front, to `to_be_freed`
and leaves the allocation plan alone. -/
theorem GenerateDeallocationPlan_acc (freelist : List FreeBufferInfo)
    (plan : SequentialExecutionPlan) :
    (GenerateDeallocationPlan freelist plan).allocation_plan = plan.allocation_plan ∧
    (GenerateDeallocationPlan freelist plan).to_be_freed =
      plan.to_be_freed ++ freelist.reverse.map (fun e => e.ml_value) := by
  unfold GenerateDeallocationPlan
  obtain ⟨h1, h2⟩ := DeallocationLoop_acc freelist.reverse none 0 plan
  split
  · rename_i prev current plan' heq
    rw [heq] at h1 h2
    simp only at h1 h2
    simp [set_free_to_index, h1, h2]
  · rename_i x plan' heq
    rw [heq] at h1 h2
    exact ⟨h1, h2⟩

theorem entry_GenerateDeallocationPlan (freelist : List FreeBufferInfo)
    (plan : SequentialExecutionPlan) (v : MLValueIndex) :
    entry (GenerateDeallocationPlan freelist plan) v = entry plan v := by
  simp [entry, (GenerateDeallocationPlan_acc freelist plan).1]

/-- Success of `CreatePlan`, split into its phases. -/
theorem CreatePlanImpl_split {ss : SessionState} {ctx : ISequentialPlannerContext}
    {plan : SequentialExecutionPlan} {p : PlannerImpl}
    (h : CreatePlanImpl ss ctx plan = .ok p) :
    ∃ graph order p0 p1 p2 p3 p4, ss.Graph = some graph ∧
      graph.NodesInTopologicalOrder = .ok order ∧
      ((∀ v, cnt p0 v = 0) ∧ (∀ v, defsite p0 v = none) ∧ (∀ v, entry p0.plan_ v = {}) ∧
        p0.freelist_ = [] ∧ p0.plan_.execution_plan = ScheduledNodes graph order ∧
        p0.plan_.to_be_freed = plan.to_be_freed) ∧
      ComputeUseCounts ss graph p0 = .ok p1 ∧
      ReusePlanGraphInputs ss graph.Inputs p1 = .ok p2 ∧
      GeneratePlanForWeights ss graph p2 = .ok p3 ∧
      ReusePlanSteps ss ctx graph (ScheduledNodes graph order) 0 p3 = .ok p4 ∧
      p = { p4 with plan_ := GenerateDeallocationPlan p4.freelist_ p4.plan_ } := by
  unfold CreatePlanImpl at h
  split at h
  · simp only [throw_ok] at h
  · rename_i graph hg
    split at h
    · simp only [throw_ok] at h
    · rename_i order ho
      split at h
      · simp only [throw_ok] at h
      simp only [bind_ok, pure_ok] at h
      obtain ⟨p1, h1, p4, h4, hp⟩ := h
      simp only [ComputeReusePlan, bind_ok] at h4
      obtain ⟨p2, h2, p3, h3, h4⟩ := h4
      have hinit := Initialize_acc plan (ss.GetMaxMLValueIdx + 1).toNat
        (ScheduledNodes graph order) _ rfl
      obtain ⟨f1, _⟩ := ComputeUseCounts_frame h1
      obtain ⟨_, _, x2, _⟩ := ReusePlanGraphInputs_acc _ _ _ h2
      obtain ⟨_, _, x3, _⟩ := PlanWeightsOfNodes_acc _ _ _ h3
      rw [x3, x2, f1.execution_plan, hinit.2.2.2.2.1] at h4
      exact ⟨graph, order, _, p1, p2, p3, p4, hg, ho, hinit, h1, h2, h3, h4, hp.symm⟩

/-! ## What the program-counter loop leaves alone -/

theorem modifyAllocPlan_reuseFrame {p p' : PlannerImpl} {n : MLValueIndex}
    {f : AllocPlanPerValue → AllocPlanPerValue} (h : p.modifyAllocPlan n f = .ok p')
    (hl : ∀ a, (f a).location = a.location) (hc : ∀ a, (f a).create_fence = a.create_fence) :
    ReuseFrame p p' := by
  obtain ⟨_, _, hd, he, _, hx, ht⟩ := modifyAllocPlan_acc h
  refine ⟨?_, ?_, hd, hx, ht⟩
  · intro v; rw [he v]; split
    · rename_i hv; subst hv; exact hl _
    · rfl
  · intro v; rw [he v]; split
    · rename_i hv; subst hv; exact hc _
    · rfl

theorem Reuse_reuseFrame {p p' : PlannerImpl} {r c : MLValueIndex}
    (h : Reuse p r c = .ok p') : ReuseFrame p p' := by
  obtain ⟨_, _, _, he, _, hd, hx, ht⟩ := Reuse_acc h
  refine ⟨?_, ?_, hd, hx, ht⟩
  · intro v; rw [he v]; split
    · rename_i hv; subst hv; rfl
    · rfl
  · intro v; rw [he v]; split
    · rename_i hv; subst hv; rfl
    · rfl

theorem reuseFrame_of_plan_eq {p p' : PlannerImpl} (hp : p'.plan_ = p.plan_)
    (hd : ∀ v, defsite p' v = defsite p v) : ReuseFrame p p' :=
  ⟨fun v => by rw [hp], fun v => by rw [hp], hd, by rw [hp], by rw [hp]⟩

theorem OutputDecision.reuseFrame {ss : SessionState} {ctx : ISequentialPlannerContext}
    {graph : Graph} {pnode : Node} {o : NodeArg} {j : Nat} {c : MLValueIndex}
    {p p' : PlannerImpl} (hd : OutputDecision ss ctx graph pnode o j c p p') :
    ReuseFrame p p' := by
  cases hd with
  | graph_output p1 h1 hgo h2 =>
    exact (modifyAllocPlan_reuseFrame h1 (fun _ => rfl) (fun _ => rfl)).seq
      (modifyAllocPlan_reuseFrame h2 (fun _ => rfl) (fun _ => rfl))
  | non_tensor p1 h1 hgo hnt h2 =>
    exact (modifyAllocPlan_reuseFrame h1 (fun _ => rfl) (fun _ => rfl)).seq
      (modifyAllocPlan_reuseFrame h2 (fun _ => rfl) (fun _ => rfl))
  | reuse_input p1 reused h1 hgo hnt hfi h2 =>
    exact (modifyAllocPlan_reuseFrame h1 (fun _ => rfl) (fun _ => rfl)).seq
      (Reuse_reuseFrame h2)
  | reuse_free p1 p2 reused h1 hgo hnt hfi hft h2 =>
    obtain ⟨hinfo, hplan, _, _⟩ := FindReusableTensor_acc hft
    exact ((modifyAllocPlan_reuseFrame h1 (fun _ => rfl) (fun _ => rfl)).seq
      (reuseFrame_of_plan_eq hplan (fun v => by simp [defsite, hinfo]))).seq
      (Reuse_reuseFrame h2)
  | allocate p1 p2 h1 hgo hnt hfi hft h2 =>
    obtain ⟨hinfo, hplan, _, _⟩ := FindReusableTensor_acc hft
    exact ((modifyAllocPlan_reuseFrame h1 (fun _ => rfl) (fun _ => rfl)).seq
      (reuseFrame_of_plan_eq hplan (fun v => by simp [defsite, hinfo]))).seq
      (modifyAllocPlan_reuseFrame h2 (fun _ => rfl) (fun _ => rfl))

theorem ReusePlanOutputs_frame {ss : SessionState} {ctx : ISequentialPlannerContext}
    {graph : Graph} {pnode : Node} :
    ∀ (outs : List NodeArg) (j : Nat) (p p' : PlannerImpl),
      ReusePlanOutputs ss ctx graph pnode outs j p = .ok p' → ReuseFrame p p' := by
  intro outs
  induction outs with
  | nil =>
    intro j p p' h
    simp only [ReusePlanOutputs, pure_ok] at h
    subst h
    exact ReuseFrame.id_frame p
  | cons o rest ih =>
    intro j p p' h
    unfold ReusePlanOutputs at h
    by_cases he : o.Exists = true
    · simp only [he, Bool.not_true, Bool.false_eq_true, if_false, bind_ok] at h
      obtain ⟨p1, h1, h2⟩ := h
      obtain ⟨c, _, hd⟩ := ReusePlanOutput_cases h1
      exact hd.reuseFrame.seq (ih _ _ _ h2)
    · have he' : o.Exists = false := by simpa using he
      simp only [he', Bool.not_false, if_true] at h
      exact ih _ _ _ h

theorem FreeInputs_frame {ss : SessionState} {pc : Nat} :
    ∀ (ins : List NodeArg) (p p' : PlannerImpl),
      FreeInputs ss pc ins p = .ok p' → ReuseFrame p p' := by
  intro ins
  induction ins with
  | nil =>
    intro p p' h
    simp only [FreeInputs, pure_ok] at h
    subst h
    exact ReuseFrame.id_frame p
  | cons a rest ih =>
    intro p p' h
    unfold FreeInputs at h
    by_cases he : a.Exists = true
    · simp only [he, if_true, bind_ok] at h
      obtain ⟨index, hi, original, ho, p1, h1, count, hc, h2⟩ := h
      obtain ⟨_, _, d1, pl1, _⟩ := decUseCount_acc h1
      have f1 : ReuseFrame p p1 := reuseFrame_of_plan_eq pl1 d1
      by_cases hz : count = 0
      · simp only [hz, if_true] at h2
        exact (f1.seq (@reuseFrame_of_plan_eq p1 (p1.push_front original pc) rfl
          (fun _ => rfl))).seq (ih _ _ h2)
      · simp only [hz, if_false] at h2
        exact f1.seq (ih _ _ h2)
    · simp only [he, if_false] at h
      exact ih _ _ h

theorem FreeUnusedOutputs_frame {ss : SessionState} {pc : Nat} :
    ∀ (outs : List NodeArg) (p p' : PlannerImpl),
      FreeUnusedOutputs ss pc outs p = .ok p' → ReuseFrame p p' := by
  intro outs
  induction outs with
  | nil =>
    intro p p' h
    simp only [FreeUnusedOutputs, pure_ok] at h
    subst h
    exact ReuseFrame.id_frame p
  | cons a rest ih =>
    intro p p' h
    unfold FreeUnusedOutputs at h
    by_cases he : a.Exists = true
    · simp only [he, if_true, bind_ok] at h
      obtain ⟨index, hi, original, ho, count, hc, h2⟩ := h
      by_cases hz : count = 0
      · simp only [hz, if_true] at h2
        exact (@reuseFrame_of_plan_eq p (p.push_front original pc) rfl
          (fun _ => rfl)).seq (ih _ _ h2)
      · simp only [hz, if_false] at h2
        exact ih _ _ h2
    · simp only [he, if_false] at h
      exact ih _ _ h

/-- The program-counter loop leaves locations, fences, def-sites, the schedule and
`to_be_freed` alone. -/
theorem ReusePlanSteps_frame {ss : SessionState} {ctx : ISequentialPlannerContext}
    {graph : Graph} :
    ∀ (steps : List NodeExecutionPlan) (pc : Nat) (p p' : PlannerImpl),
      ReusePlanSteps ss ctx graph steps pc p = .ok p' → ReuseFrame p p' := by
  intro steps
  induction steps with
  | nil =>
    intro pc p p' h
    simp only [ReusePlanSteps, pure_ok] at h
    subst h
    exact ReuseFrame.id_frame p
  | cons step rest ih =>
    intro pc p p' h
    simp only [ReusePlanSteps, bind_ok] at h
    obtain ⟨p3, hstep, hrest⟩ := h
    obtain ⟨pnode, p1, p2, hn, h1, h2, h3⟩ := ReusePlanStep_split hstep
    exact (((ReusePlanOutputs_frame _ _ _ _ h1).seq (FreeInputs_frame _ _ _ h2)).seq
      (FreeUnusedOutputs_frame _ _ _ h3)).seq (ih _ _ _ hrest)

/-! ## The invariant holds when the program-counter loop is done -/

theorem mem_Writes {ss : SessionState} {n : Node} {o : NodeArg} {c : MLValueIndex}
    (ho : o ∈ n.OutputDefs) (he : o.Exists = true) (hc : ss.GetMLValueIdx o.Name = some c) :
    c ∈ n.Writes ss := by
  simp only [Node.Writes, ArgIndices, List.mem_filterMap, List.mem_filter]
  exact ⟨o, ⟨ho, he⟩, hc⟩

theorem mem_Pinned {ss : SessionState} {graph : Graph} {v : MLValueIndex} :
    v ∈ Pinned ss graph ↔ v ∈ InitiallyDefined ss graph ∨ v ∈ OutputIndices ss graph := by
  simp [Pinned]

/-- On a well-formed input the by-name test for graph outputs agrees with the pinned values. -/
theorem PinnedByName_of_wf {ss : SessionState} {graph : Graph}
    (hvo : ValidOrder ss (InitiallyDefined ss graph) graph.Scheduled)
    (hnames : OutputNamesDistinct ss graph) :
    ∀ n ∈ graph.Scheduled, PinnedByName ss graph (Pinned ss graph) n.OutputDefs := by
  intro n hn o ho he c hc
  constructor
  · intro hany
    rw [List.any_eq_true] at hany
    obtain ⟨g, hg, hgn⟩ := hany
    have hgn' : g.Name = o.Name := by simpa using hgn
    rw [mem_Pinned]
    right
    simp only [OutputIndices, List.mem_filterMap]
    exact ⟨g, hg, by rw [hgn']; exact hc⟩
  · intro hany hP
    rw [mem_Pinned] at hP
    have hw : c ∈ AllWrites ss graph.Scheduled := by
      simp only [AllWrites, List.mem_flatMap]
      exact ⟨n, hn, mem_Writes ho he hc⟩
    rcases hP with hP | hP
    · exact ValidOrder_disjoint _ _ hvo c hP hw
    · simp only [OutputIndices, List.mem_filterMap] at hP
      obtain ⟨g, hg, hgc⟩ := hP
      have := hnames n hn o ho g hg (by rw [hc]; rfl) (by rw [hgc, hc])
      apply hany
      rw [List.any_eq_true]
      exact ⟨g, hg, by simpa using this⟩

theorem countP_buf_eq_count {p : PlannerImpl} (l : List MLValueIndex) (r : MLValueIndex)
    (h : ∀ x ∈ l, buf p x = x) :
    l.countP (fun x => decide (buf p x = r)) = l.count r := by
  unfold List.count
  apply List.countP_congr
  intro x hx
  rw [h x hx]
  simp

/-- The invariant holds on entry to the program-counter loop. -/
theorem RInv_initial {ss : SessionState} {graph : Graph} {p0 p1 p2 p3 : PlannerImpl}
    (hvo : ValidOrder ss (InitiallyDefined ss graph) (StepNodes graph p0.plan_.execution_plan))
    (hout : ∀ g ∈ OutputIndices ss graph, g ∈ InitiallyDefined ss graph ∨
      g ∈ AllWrites ss (StepNodes graph p0.plan_.execution_plan))
    (h0 : ∀ v, cnt p0 v = 0) (he0 : ∀ v, entry p0.plan_ v = {}) (hf0 : p0.freelist_ = [])
    (h1 : ComputeUseCounts ss graph p0 = .ok p1)
    (h2 : ReusePlanGraphInputs ss graph.Inputs p1 = .ok p2)
    (h3 : GeneratePlanForWeights ss graph p2 = .ok p3) :
    RInv (Pinned ss graph) p3 (AllReads ss (StepNodes graph p0.plan_.execution_plan))
      (AllWrites ss (StepNodes graph p0.plan_.execution_plan)) (InitiallyDefined ss graph) := by
  obtain ⟨hcounts, hnonneg⟩ := ComputeUseCounts_counts h1 hvo h0
  obtain ⟨f1, _⟩ := ComputeUseCounts_frame h1
  obtain ⟨i2, fl2, _, _, in2, out2, _⟩ := ReusePlanGraphInputs_acc _ _ _ h2
  obtain ⟨i3, fl3, _, _, in3, out3, _⟩ := PlanWeightsOfNodes_acc _ _ _ h3
  have hb : ∀ v, buf p3 v = buf p1 v := fun v => by simp [buf, i3, i2]
  have hc : ∀ v, cnt p3 v = cnt p1 v := fun v => by simp [cnt, i3, i2]
  have hbf : buf p3 = buf p1 := funext hb
  have hfl : p3.freelist_ = [] := by rw [fl3, fl2, f1.freelist, hf0]
  have hk1 : ∀ v, (entry p1.plan_ v).alloc_kind = AllocKind.kAllocate := by
    intro v; rw [f1.alloc_kind, he0]
  have hkinds : ∀ v, (entry p3.plan_ v).alloc_kind = AllocKind.kAllocate ∨
      v ∈ InitiallyDefined ss graph ∧ (entry p3.plan_ v).alloc_kind ≠ AllocKind.kReuse := by
    intro v
    by_cases hw : v ∈ PlannedWeights ss graph
    · right
      exact ⟨List.mem_append_right _ (PlannedWeights_sub v hw), by rw [in3 v hw]; decide⟩
    · rw [out3 v hw]
      by_cases hi : v ∈ InputIndices ss graph
      · right
        exact ⟨List.mem_append_left _ hi, by rw [in2 v hi]; decide⟩
      · left; rw [out2 v hi]; exact hk1 v
  have hself : ∀ x ∈ AllReads ss (StepNodes graph p0.plan_.execution_plan) ++ Pinned ss graph,
      x ∈ InitiallyDefined ss graph ∨
        x ∈ AllWrites ss (StepNodes graph p0.plan_.execution_plan) := by
    intro x hx
    rcases List.mem_append.mp hx with hx | hx
    · exact ValidOrder_reads _ _ hvo x hx
    · rcases mem_Pinned.mp hx with hx | hx
      · exact Or.inl hx
      · exact hout x hx
  refine ⟨?_, ?_, ?_, ?_, ValidOrder_nodup _ _ hvo, ValidOrder_disjoint _ _ hvo, ?_, ?_, ?_, ?_⟩
  · intro r
    rw [hbf, hc, countP_buf_eq_count _ r (fun x hx => (hcounts x (hself x hx)).1)]
    by_cases hr : r ∈ InitiallyDefined ss graph ∨
        r ∈ AllWrites ss (StepNodes graph p0.plan_.execution_plan)
    · rw [(hcounts r hr).2]
    · have : r ∉ AllReads ss (StepNodes graph p0.plan_.execution_plan) ++ Pinned ss graph :=
        fun hm => hr (hself r hm)
      rw [List.count_eq_zero_of_not_mem this]
      exact hnonneg r
  · intro v hv
    rw [hb]
    exact (hcounts v (hself v (List.mem_append_right _ hv))).1
  · intro c hc'
    rw [hb]
    exact (hcounts c (Or.inr hc')).1
  · intro x hx
    rw [hb, (hcounts x (Or.inl hx)).1]
    exact ValidOrder_disjoint _ _ hvo x hx
  · intro x hx
    rw [hb x, (hcounts x (Or.inl hx)).1, hb x, (hcounts x (Or.inl hx)).1]
  · intro e he
    rw [hfl] at he
    simp at he
  · intro v hv
    rcases hkinds v with h | h
    · rw [h] at hv; simp at hv
    · exact absurd hv h.2
  · intro v hv
    rcases hkinds v with h | h
    · rw [h] at hv
      rcases hv with hv | hv | hv <;> simp at hv
    · exact mem_Pinned.mpr (Or.inl h.1)

/-- On a well-formed input, the state that `CreatePlan` reaches after the program-counter loop
satisfies the invariant with nothing left to read or to produce. -/
theorem CreatePlanImpl_inv {ss : SessionState} {ctx : ISequentialPlannerContext}
    {plan : SequentialExecutionPlan} {p : PlannerImpl}
    (hwf : WellFormed ss) (h : CreatePlanImpl ss ctx plan = .ok p) :
    ∃ graph p4, ss.Graph = some graph ∧
      RInv (Pinned ss graph) p4 [] []
        (AllWrites ss graph.Scheduled ++ InitiallyDefined ss graph) ∧
      p = { p4 with plan_ := GenerateDeallocationPlan p4.freelist_ p4.plan_ } ∧
      p4.plan_.to_be_freed = plan.to_be_freed := by
  obtain ⟨graph, order, p0, p1, p2, p3, p4, hg, ho, hinit, h1, h2, h3, h4, hp⟩ :=
    CreatePlanImpl_split h
  obtain ⟨h0, _, he0, hf0, hx0, ht0⟩ := hinit
  unfold WellFormed at hwf
  rw [hg] at hwf
  obtain ⟨hvo, hout, hnames⟩ := hwf
  have hsched : graph.Scheduled = StepNodes graph p0.plan_.execution_plan := by
    simp only [Graph.Scheduled, ho, hx0]
  have hpin := PinnedByName_of_wf hvo hnames
  rw [hsched] at hvo hout hpin
  have hinv3 := RInv_initial hvo hout h0 he0 hf0 h1 h2 h3
  rw [← hx0] at h4
  have hinv4 := ReusePlanSteps_inv _ _ _ _ _ h4 hvo hpin hinv3
  obtain ⟨f1, _⟩ := ComputeUseCounts_frame h1
  obtain ⟨_, _, _, t2, _⟩ := ReusePlanGraphInputs_acc _ _ _ h2
  obtain ⟨_, _, _, t3, _⟩ := PlanWeightsOfNodes_acc _ _ _ h3
  have f4 := ReusePlanSteps_frame _ _ _ _ h4
  refine ⟨graph, p4, hg, ?_, hp, by rw [f4.to_be_freed, t3, t2, f1.to_be_freed, ht0]⟩
  rw [hsched]
  exact hinv4


/-! ## Values the program-counter loop does not touch -/

/-- Settling output `c` changes the plan entry and the buffer of `c` only. -/
theorem OutputDecision.untouched {ss : SessionState} {ctx : ISequentialPlannerContext}
    {graph : Graph} {pnode : Node} {o : NodeArg} {j : Nat} {c : MLValueIndex}
    {p p' : PlannerImpl} (hd : OutputDecision ss ctx graph pnode o j c p p')
    (v : MLValueIndex) (hv : v ≠ c) :
    entry p'.plan_ v = entry p.plan_ v ∧ buf p' v = buf p v := by
  have hm : ∀ {q q' : PlannerImpl} {f : AllocPlanPerValue → AllocPlanPerValue},
      q.modifyAllocPlan c f = .ok q' →
      entry q'.plan_ v = entry q.plan_ v ∧ buf q' v = buf q v := by
    intro q q' f hq
    obtain ⟨hb, _, _, he, _, _, _⟩ := modifyAllocPlan_acc hq
    exact ⟨by rw [he v]; simp [hv], hb v⟩
  have hr : ∀ {q q' : PlannerImpl} {r : MLValueIndex}, Reuse q r c = .ok q' →
      entry q'.plan_ v = entry q.plan_ v ∧ buf q' v = buf q v := by
    intro q q' r hq
    obtain ⟨_, hb, _, he, _, _, _, _⟩ := Reuse_acc hq
    exact ⟨by rw [he v]; simp [hv], by rw [hb v]; simp [hv]⟩
  have ht : ∀ {q q' : PlannerImpl} {res : Option MLValueIndex},
      FindReusableTensor ss ctx q o = .ok (res, q') →
      entry q'.plan_ v = entry q.plan_ v ∧ buf q' v = buf q v := by
    intro q q' res hq
    obtain ⟨hinfo, hplan, _, _⟩ := FindReusableTensor_acc hq
    exact ⟨by rw [hplan], by simp [buf, hinfo]⟩
  cases hd with
  | graph_output p1 h1 hgo h2 =>
    obtain ⟨a1, b1⟩ := hm h1; obtain ⟨a2, b2⟩ := hm h2
    exact ⟨a2.trans a1, b2.trans b1⟩
  | non_tensor p1 h1 hgo hnt h2 =>
    obtain ⟨a1, b1⟩ := hm h1; obtain ⟨a2, b2⟩ := hm h2
    exact ⟨a2.trans a1, b2.trans b1⟩
  | reuse_input p1 reused h1 hgo hnt hfi h2 =>
    obtain ⟨a1, b1⟩ := hm h1; obtain ⟨a2, b2⟩ := hr h2
    exact ⟨a2.trans a1, b2.trans b1⟩
  | reuse_free p1 p2 reused h1 hgo hnt hfi hft h2 =>
    obtain ⟨a1, b1⟩ := hm h1; obtain ⟨a2, b2⟩ := ht hft; obtain ⟨a3, b3⟩ := hr h2
    exact ⟨a3.trans (a2.trans a1), b3.trans (b2.trans b1)⟩
  | allocate p1 p2 h1 hgo hnt hfi hft h2 =>
    obtain ⟨a1, b1⟩ := hm h1; obtain ⟨a2, b2⟩ := ht hft; obtain ⟨a3, b3⟩ := hm h2
    exact ⟨a3.trans (a2.trans a1), b3.trans (b2.trans b1)⟩

theorem ReusePlanOutputs_untouched {ss : SessionState} {ctx : ISequentialPlannerContext}
    {graph : Graph} {pnode : Node} :
    ∀ (outs : List NodeArg) (j : Nat) (p p' : PlannerImpl),
      ReusePlanOutputs ss ctx graph pnode outs j p = .ok p' →
      ∀ v, v ∉ ArgIndices ss outs → entry p'.plan_ v = entry p.plan_ v ∧ buf p' v = buf p v := by
  intro outs
  induction outs with
  | nil =>
    intro j p p' h v _
    simp only [ReusePlanOutputs, pure_ok] at h
    subst h
    exact ⟨rfl, rfl⟩
  | cons o rest ih =>
    intro j p p' h v hv
    unfold ReusePlanOutputs at h
    by_cases he : o.Exists = true
    · simp only [he, Bool.not_true, Bool.false_eq_true, if_false, bind_ok] at h
      obtain ⟨p1, h1, h2⟩ := h
      obtain ⟨c, hc, hd⟩ := ReusePlanOutput_cases h1
      rw [ArgIndices_cons_exists he hc] at hv
      obtain ⟨a1, b1⟩ := hd.untouched v (fun hx => hv (hx ▸ List.mem_cons_self _ _))
      obtain ⟨a2, b2⟩ := ih _ _ _ h2 v (fun hx => hv (List.mem_cons_of_mem _ hx))
      exact ⟨a2.trans a1, b2.trans b1⟩
    · have he' : o.Exists = false := by simpa using he
      simp only [he', Bool.not_false, if_true] at h
      rw [ArgIndices_cons_missing he] at hv
      exact ih _ _ _ h v hv

theorem FreeInputs_plan {ss : SessionState} {pc : Nat} :
    ∀ (ins : List NodeArg) (p p' : PlannerImpl),
      FreeInputs ss pc ins p = .ok p' → p'.plan_ = p.plan_ ∧ ∀ v, buf p' v = buf p v := by
  intro ins
  induction ins with
  | nil =>
    intro p p' h
    simp only [FreeInputs, pure_ok] at h
    subst h
    exact ⟨rfl, fun _ => rfl⟩
  | cons a rest ih =>
    intro p p' h
    unfold FreeInputs at h
    by_cases he : a.Exists = true
    · simp only [he, if_true, bind_ok] at h
      obtain ⟨index, hi, original, ho, p1, h1, count, hc, h2⟩ := h
      obtain ⟨_, b1, _, pl1, _⟩ := decUseCount_acc h1
      by_cases hz : count = 0
      · simp only [hz, if_true] at h2
        obtain ⟨a2, b2⟩ := ih _ _ h2
        exact ⟨a2.trans pl1, fun v => (b2 v).trans (b1 v)⟩
      · simp only [hz, if_false] at h2
        obtain ⟨a2, b2⟩ := ih _ _ h2
        exact ⟨a2.trans pl1, fun v => (b2 v).trans (b1 v)⟩
    · simp only [he, if_false] at h
      exact ih _ _ h

theorem FreeUnusedOutputs_plan {ss : SessionState} {pc : Nat} :
    ∀ (outs : List NodeArg) (p p' : PlannerImpl),
      FreeUnusedOutputs ss pc outs p = .ok p' →
      p'.plan_ = p.plan_ ∧ ∀ v, buf p' v = buf p v := by
  intro outs
  induction outs with
  | nil =>
    intro p p' h
    simp only [FreeUnusedOutputs, pure_ok] at h
    subst h
    exact ⟨rfl, fun _ => rfl⟩
  | cons a rest ih =>
    intro p p' h
    unfold FreeUnusedOutputs at h
    by_cases he : a.Exists = true
    · simp only [he, if_true, bind_ok] at h
      obtain ⟨index, hi, original, ho, count, hc, h2⟩ := h
      by_cases hz : count = 0
      · simp only [hz, if_true] at h2
        have := ih (p.push_front original pc) p' h2
        exact this
      · simp only [hz, if_false] at h2
        exact ih _ _ h2
    · simp only [he, if_false] at h
      exact ih _ _ h

/-- The program-counter loop changes plan entries and buffers only of values that a
scheduled node produces. -/
theorem ReusePlanSteps_untouched {ss : SessionState} {ctx : ISequentialPlannerContext}
    {graph : Graph} :
    ∀ (steps : List NodeExecutionPlan) (pc : Nat) (p p' : PlannerImpl),
      ReusePlanSteps ss ctx graph steps pc p = .ok p' →
      ∀ v, v ∉ AllWrites ss (StepNodes graph steps) →
        entry p'.plan_ v = entry p.plan_ v ∧ buf p' v = buf p v := by
  intro steps
  induction steps with
  | nil =>
    intro pc p p' h v _
    simp only [ReusePlanSteps, pure_ok] at h
    subst h
    exact ⟨rfl, rfl⟩
  | cons step rest ih =>
    intro pc p p' h v hv
    simp only [ReusePlanSteps, bind_ok] at h
    obtain ⟨p3, hstep, hrest⟩ := h
    obtain ⟨pnode, p1, p2, hn, h1, h2, h3⟩ := ReusePlanStep_split hstep
    rw [StepNodes_cons hn, AllWrites_cons, List.mem_append, not_or] at hv
    obtain ⟨a1, b1⟩ := ReusePlanOutputs_untouched _ _ _ _ h1 v hv.1
    obtain ⟨a2, b2⟩ := FreeInputs_plan _ _ _ h2
    obtain ⟨a3, b3⟩ := FreeUnusedOutputs_plan _ _ _ h3
    obtain ⟨a4, b4⟩ := ih _ _ _ hrest v hv.2
    exact ⟨by rw [a4, a3, a2, a1], by rw [b4, b3, b2, b1]⟩

/-! ## The outcome of every output decision in the final plan -/

/-- An outcome survives later steps that leave alone every value outside `Fut`. -/
theorem Outcome.transport {ss : SessionState} {ctx : ISequentialPlannerContext} {graph : Graph}
    {pnode : Node} {o : NodeArg} {j : Nat} {c : MLValueIndex} {Fut : List MLValueIndex}
    {p p' : PlannerImpl} (h : Outcome ss ctx graph pnode o j c Fut p) (hc : c ∉ Fut)
    (hfr : ∀ v, v ∉ Fut → entry p'.plan_ v = entry p.plan_ v ∧ buf p' v = buf p v) :
    Outcome ss ctx graph pnode o j c Fut p' := by
  have hec := (hfr c hc).1
  cases h with
  | graph_output hgo hk => exact Outcome.graph_output hgo (by rw [hec]; exact hk)
  | non_tensor hgo hnt hk => exact Outcome.non_tensor hgo hnt (by rw [hec]; exact hk)
  | reuse_input pa reused hgo hnt hfi hfut hk hr =>
    exact Outcome.reuse_input pa reused hgo hnt hfi hfut (by rw [hec]; exact hk)
      (by rw [hec, (hfr reused hfut).2]; exact hr)
  | reuse_free pa pb reused hgo hnt hfi hft hfut hk hr hloc =>
    exact Outcome.reuse_free pa pb reused hgo hnt hfi hft hfut (by rw [hec]; exact hk)
      (by rw [hec]; exact hr) (by rw [hec, (hfr reused hfut).1]; exact hloc)
  | allocate pa pb hgo hnt hfi hft hk =>
    exact Outcome.allocate pa pb hgo hnt hfi hft (by rw [hec]; exact hk)

/-- The list of later values of an outcome may shrink. -/
theorem Outcome.weaken {ss : SessionState} {ctx : ISequentialPlannerContext} {graph : Graph}
    {pnode : Node} {o : NodeArg} {j : Nat} {c : MLValueIndex} {Fut Fut' : List MLValueIndex}
    {p : PlannerImpl} (h : Outcome ss ctx graph pnode o j c Fut p)
    (hsub : ∀ v ∈ Fut', v ∈ Fut) : Outcome ss ctx graph pnode o j c Fut' p := by
  cases h with
  | graph_output hgo hk => exact Outcome.graph_output hgo hk
  | non_tensor hgo hnt hk => exact Outcome.non_tensor hgo hnt hk
  | reuse_input pa reused hgo hnt hfi hfut hk hr =>
    exact Outcome.reuse_input pa reused hgo hnt hfi (fun hm => hfut (hsub _ hm)) hk hr
  | reuse_free pa pb reused hgo hnt hfi hft hfut hk hr hloc =>
    exact Outcome.reuse_free pa pb reused hgo hnt hfi hft (fun hm => hfut (hsub _ hm)) hk hr hloc
  | allocate pa pb hgo hnt hfi hft hk => exact Outcome.allocate pa pb hgo hnt hfi hft hk

/-- The outcome of one output decision, right after it. -/
theorem OutputDecision.outcome {ss : SessionState} {ctx : ISequentialPlannerContext}
    {graph : Graph} {pnode : Node} {o : NodeArg} {j : Nat} {c : MLValueIndex}
    {p p' : PlannerImpl} {P F Fut D : List MLValueIndex}
    (hd : OutputDecision ss ctx graph pnode o j c p p') (h : RInv P p F (c :: Fut) D)
    (hreads : ∀ x ∈ pnode.Reads ss, x ∈ D) (hds : DefSitesOK ss p)
    (hc : ss.GetMLValueIdx o.Name = some c) :
    Outcome ss ctx graph pnode o j c Fut p' := by
  cases hd with
  | graph_output p1 h1 hgo h2 =>
    obtain ⟨_, _, _, he, _, _, _⟩ := modifyAllocPlan_acc h2
    exact Outcome.graph_output hgo (by rw [he c]; simp)
  | non_tensor p1 h1 hgo hnt h2 =>
    obtain ⟨_, _, _, he, _, _, _⟩ := modifyAllocPlan_acc h2
    exact Outcome.non_tensor hgo hnt (by rw [he c]; simp)
  | reuse_input p1 reused h1 hgo hnt hfi h2 =>
    have hp1 := h.value_type h1
    have hr : reused ∈ D := hreads _ (FindReusableInput_mem hfi)
    have hrf := hp1.disj _ hr
    have hrc : reused ≠ c := fun hx => hrf (hx ▸ List.mem_cons_self _ _)
    obtain ⟨_, hb, _, he, _, _, _, _⟩ := Reuse_acc h2
    refine Outcome.reuse_input p1 reused hgo hnt hfi
      (fun hm => hrf (List.mem_cons_of_mem _ hm)) (by rw [he c]; simp) ?_
    rw [he c, hb reused]
    simp [hrc]
  | reuse_free p1 p2 reused h1 hgo hnt hfi hft h2 =>
    have hp1 := h.value_type h1
    obtain ⟨hinfo, hplan, hsub, hres⟩ := FindReusableTensor_acc hft
    obtain ⟨⟨e, he, her⟩, a, i, c', hdsite, hi, hc', hloc⟩ := hres reused rfl
    obtain ⟨f1, f2, _⟩ := hp1.free e he
    rw [her] at f1 f2
    have hrc : reused ≠ c := fun hx => f1 (hx ▸ List.mem_cons_self _ _)
    obtain ⟨_, _, d1, _, _, _, _⟩ := modifyAllocPlan_acc h1
    have hi' : i = reused := by
      have := hds reused a (by rw [← d1]; exact hdsite)
      rw [hi] at this
      exact Option.some.inj this
    have hcc : c' = c := by rw [hc] at hc'; exact (Option.some.inj hc').symm
    subst hi'; subst hcc
    obtain ⟨_, hb, _, he', _, _, _, _⟩ := Reuse_acc h2
    have hb2 : buf p2 i = i := by
      have : buf p2 i = buf p1 i := by simp [buf, hinfo]
      rw [this]; exact f2
    refine Outcome.reuse_free p1 p2 i hgo hnt hfi hft
      (fun hm => f1 (List.mem_cons_of_mem _ hm)) (by rw [he' c']; simp) ?_ ?_
    · rw [he' c']; simp [hb2]
    · rw [he' c', he' i]
      simp only [if_true, hrc, if_false]
      rw [hplan]
      exact hloc.symm
  | allocate p1 p2 h1 hgo hnt hfi hft h2 =>
    obtain ⟨_, _, _, he, _, _, _⟩ := modifyAllocPlan_acc h2
    exact Outcome.allocate p1 p2 hgo hnt hfi hft (by rw [he c]; simp)
theorem OutputArgNum_cons_exists {a : NodeArg} {pre : List NodeArg} (he : a.Exists = true) :
    OutputArgNum (a :: pre) = OutputArgNum pre + 1 := by
  simp [OutputArgNum, List.filter_cons, he]

theorem OutputArgNum_cons_missing {a : NodeArg} {pre : List NodeArg} (he : ¬ a.Exists = true) :
    OutputArgNum (a :: pre) = OutputArgNum pre := by
  simp [OutputArgNum, List.filter_cons, he]

/-- Def-sites stay consistent along a frame of the reuse pass. -/
theorem DefSitesOK_of_frame {ss : SessionState} {p p' : PlannerImpl} (hf : ReuseFrame p p')
    (h : DefSitesOK ss p) : DefSitesOK ss p' :=
  fun v a hv => h v a (by rw [← hf.defsite]; exact hv)

/-- Outcomes of the outputs settled by the output loop of one step. -/
theorem ReusePlanOutputs_outcome {ss : SessionState} {ctx : ISequentialPlannerContext}
    {graph : Graph} {pnode : Node} {P F Fut : List MLValueIndex} :
    ∀ (outs : List NodeArg) (j0 : Nat) (D : List MLValueIndex) (p p' : PlannerImpl),
      ReusePlanOutputs ss ctx graph pnode outs j0 p = .ok p' →
      RInv P p F (ArgIndices ss outs ++ Fut) D →
      (∀ x ∈ pnode.Reads ss, x ∈ D) → PinnedByName ss graph P outs → DefSitesOK ss p →
      ∀ (pre : List NodeArg) (o : NodeArg) (post : List NodeArg) (c : MLValueIndex),
        outs = pre ++ o :: post → o.Exists = true → ss.GetMLValueIdx o.Name = some c →
        Outcome ss ctx graph pnode o (j0 + OutputArgNum pre) c Fut p' := by
  intro outs
  induction outs with
  | nil =>
    intro j0 D p p' _ _ _ _ _ pre o post c hsplit
    simp at hsplit
  | cons o' rest ih =>
    intro j0 D p p' h hinv hreads hpin hds pre o post c hsplit hex hc
    have hpin' : PinnedByName ss graph P rest :=
      fun o'' ho'' => hpin o'' (List.mem_cons_of_mem _ ho'')
    unfold ReusePlanOutputs at h
    by_cases he : o'.Exists = true
    · simp only [he, Bool.not_true, Bool.false_eq_true, if_false, bind_ok] at h
      obtain ⟨p1, h1, h2⟩ := h
      obtain ⟨c1, hc1, hd⟩ := ReusePlanOutput_cases h1
      rw [ArgIndices_cons_exists he hc1] at hinv
      obtain ⟨hin, hout⟩ := hpin o' (List.mem_cons_self _ _) he c1 hc1
      have hp1 := RInv.output hd hinv hreads hin hout
      have hds1 := DefSitesOK_of_frame hd.reuseFrame hds
      have hreads1 : ∀ x ∈ pnode.Reads ss, x ∈ c1 :: D :=
        fun x hx => List.mem_cons_of_mem _ (hreads x hx)
      cases pre with
      | nil =>
        simp only [List.nil_append, List.cons.injEq] at hsplit
        obtain ⟨ho, hpost⟩ := hsplit
        subst ho
        have hcc : c1 = c := by rw [hc] at hc1; exact (Option.some.inj hc1).symm
        subst hcc
        have hout1 := hd.outcome hinv hreads hds hc
        have hnd := List.nodup_cons.mp hinv.fut_nodup
        have := hout1.transport hnd.1
          (fun v hv => ReusePlanOutputs_untouched _ _ _ _ h2 v
            (fun hm => hv (List.mem_append_left _ hm)))
        simpa [OutputArgNum] using this.weaken (fun v hv => List.mem_append_right _ hv)
      | cons a pre' =>
        simp only [List.cons_append, List.cons.injEq] at hsplit
        obtain ⟨ha, hrest⟩ := hsplit
        subst ha
        have := ih (j0 + 1) (c1 :: D) p1 p' h2 hp1 hreads1 hpin' hds1 pre' o post c hrest hex hc
        rw [OutputArgNum_cons_exists he]
        have harith : j0 + (OutputArgNum pre' + 1) = j0 + 1 + OutputArgNum pre' := by omega
        rw [harith]
        exact this
    · have he' : o'.Exists = false := by simpa using he
      simp only [he', Bool.not_false, if_true] at h
      rw [ArgIndices_cons_missing he] at hinv
      cases pre with
      | nil =>
        simp only [List.nil_append, List.cons.injEq] at hsplit
        obtain ⟨ho, _⟩ := hsplit
        subst ho
        exact absurd hex he
      | cons a pre' =>
        simp only [List.cons_append, List.cons.injEq] at hsplit
        obtain ⟨ha, hrest⟩ := hsplit
        subst ha
        rw [OutputArgNum_cons_missing he]
        exact ih j0 D p p' h hinv hreads hpin' hds pre' o post c hrest hex hc

/-- Outcomes of all outputs settled by the program-counter loop. -/
theorem ReusePlanSteps_outcome {ss : SessionState} {ctx : ISequentialPlannerContext}
    {graph : Graph} {P : List MLValueIndex} :
    ∀ (steps : List NodeExecutionPlan) (pc : Nat) (D : List MLValueIndex) (p p' : PlannerImpl),
      ReusePlanSteps ss ctx graph steps pc p = .ok p' →
      ValidOrder ss D (StepNodes graph steps) →
      (∀ n ∈ StepNodes graph steps, PinnedByName ss graph P n.OutputDefs) →
      RInv P p (AllReads ss (StepNodes graph steps)) (AllWrites ss (StepNodes graph steps)) D →
      DefSitesOK ss p →
      ∀ n ∈ StepNodes graph steps,
        ∀ (pre : List NodeArg) (o : NodeArg) (post : List NodeArg) (c : MLValueIndex),
          n.OutputDefs = pre ++ o :: post → o.Exists = true →
          ss.GetMLValueIdx o.Name = some c →
          Outcome ss ctx graph n o (OutputArgNum pre) c [] p' := by
  intro steps
  induction steps with
  | nil =>
    intro pc D p p' _ _ _ _ _ n hn
    simp [StepNodes] at hn
  | cons step rest ih =>
    intro pc D p p' h hvo hpin hinv hds n hn pre o post c hsplit hex hc
    simp only [ReusePlanSteps, bind_ok] at h
    obtain ⟨p3, hstep, hrest⟩ := h
    obtain ⟨pnode, p1, p2, hnode, h1, h2, h3⟩ := ReusePlanStep_split hstep
    rw [StepNodes_cons hnode] at hvo hpin hinv hn
    rw [AllReads_cons, AllWrites_cons] at hinv
    obtain ⟨hreads, _, _, hvo'⟩ := hvo
    have hp1 := ReusePlanOutputs_inv _ _ _ _ _ h1 hinv hreads
      (hpin pnode (List.mem_cons_self _ _))
    have hp2 := FreeInputs_inv _ _ _ h2 hp1
      (fun x hx => List.mem_append_right _ (hreads x hx))
    have hp3 := FreeUnusedOutputs_inv _ _ _ h3 hp2
      (fun x hx => List.mem_append_left _ hx)
    have hds3 : DefSitesOK ss p3 :=
      DefSitesOK_of_frame (((ReusePlanOutputs_frame _ _ _ _ h1).seq
        (FreeInputs_frame _ _ _ h2)).seq (FreeUnusedOutputs_frame _ _ _ h3)) hds
    by_cases hnp : n = pnode
    · subst hnp
      have hout1 := ReusePlanOutputs_outcome _ _ _ _ _ h1 hinv hreads
        (hpin n (List.mem_cons_self _ _)) hds pre o post c hsplit hex hc
      simp only [Nat.zero_add] at hout1
      have hcw : c ∈ n.Writes ss :=
        mem_Writes (by rw [hsplit]; simp) hex hc
      have hcf : c ∉ AllWrites ss (StepNodes graph rest) := by
        have hnd := hinv.fut_nodup
        rw [List.nodup_append] at hnd
        exact fun hm => hnd.2.2 hcw hm
      obtain ⟨a2, b2⟩ := FreeInputs_plan _ _ _ h2
      obtain ⟨a3, b3⟩ := FreeUnusedOutputs_plan _ _ _ h3
      have hout3 := hout1.transport hcf (fun v _ => ⟨by rw [a3, a2], by rw [b3, b2]⟩)
      have hout4 := hout3.transport hcf (fun v hv => ReusePlanSteps_untouched _ _ _ _ hrest v hv)
      exact hout4.weaken (fun v hv => by simp at hv)
    · have hn' : n ∈ StepNodes graph rest := by
        rcases List.mem_cons.mp hn with h | h
        · exact absurd h hnp
        · exact h
      exact ih (pc + 1) _ p3 p' hrest hvo'
        (fun m hm => hpin m (List.mem_cons_of_mem _ hm)) hp3 hds3 n hn' pre o post c hsplit hex hc
/-- On a well-formed input, every existing output of every scheduled node has an outcome in
the planner state that `CreatePlan` ends with. -/
theorem CreatePlanImpl_outcome {ss : SessionState} {ctx : ISequentialPlannerContext}
    {plan : SequentialExecutionPlan} {p : PlannerImpl} {graph : Graph}
    (hwf : WellFormed ss) (hg : ss.Graph = some graph) (h : CreatePlanImpl ss ctx plan = .ok p) :
    ∀ n ∈ graph.Scheduled,
      ∀ (pre : List NodeArg) (o : NodeArg) (post : List NodeArg) (c : MLValueIndex),
        n.OutputDefs = pre ++ o :: post → o.Exists = true →
        ss.GetMLValueIdx o.Name = some c →
        Outcome ss ctx graph n o (OutputArgNum pre) c [] p := by
  obtain ⟨graph', order, p0, p1, p2, p3, p4, hg', ho, hinit, h1, h2, h3, h4, hp⟩ :=
    CreatePlanImpl_split h
  rw [hg] at hg'
  cases hg'
  obtain ⟨h0, hd0, he0, hf0, hx0, ht0⟩ := hinit
  unfold WellFormed at hwf
  rw [hg] at hwf
  obtain ⟨hvo, hout, hnames⟩ := hwf
  have hsched : graph.Scheduled = StepNodes graph p0.plan_.execution_plan := by
    simp only [Graph.Scheduled, ho, hx0]
  have hpin := PinnedByName_of_wf hvo hnames
  rw [hsched] at hvo hout hpin ⊢
  have hinv3 := RInv_initial hvo hout h0 he0 hf0 h1 h2 h3
  rw [← hx0] at h4
  obtain ⟨_, ds1⟩ := ComputeUseCounts_frame h1
  obtain ⟨i2, _⟩ := ReusePlanGraphInputs_acc _ _ _ h2
  obtain ⟨i3, _⟩ := PlanWeightsOfNodes_acc _ _ _ h3
  have hds1 : DefSitesOK ss p1 := ds1 (fun v a hv => by rw [hd0 v] at hv; simp at hv)
  have hds3 : DefSitesOK ss p3 := by
    intro v a hv
    apply hds1 v a
    have : defsite p3 v = defsite p1 v := by simp [defsite, i3, i2]
    rw [← this]; exact hv
  intro n hn pre o post c hsplit hex hc
  have := ReusePlanSteps_outcome _ _ _ _ _ h4 hvo hpin hinv3 hds3 n hn pre o post c hsplit hex hc
  subst hp
  exact this.transport (by simp)
    (fun v _ => ⟨entry_GenerateDeallocationPlan _ _ v, rfl⟩)

/-- If the alias pairs for output number `j` all name the existing input `i`, the alias search
returns the value of that input. -/
theorem FindAliasInput_of_pair {ss : SessionState} {ins : List NodeArg} {j : Nat} {i : Int}
    {a : NodeArg} {x : MLValueIndex} (hi : 0 ≤ i) (ha : ins[i.toNat]? = some a)
    (hex : a.Exists = true) (hx : ss.GetMLValueIdx a.Name = some x) :
    ∀ (pairs : List (Int × Int)), (∃ q ∈ pairs, q.2 = (j : Int)) →
      (∀ q ∈ pairs, q.2 = (j : Int) → q.1 = i) →
      FindAliasInput ss ins j pairs = .ok (some x) := by
  intro pairs
  induction pairs with
  | nil => intro h; simp at h
  | cons q rest ih =>
    intro hexq hall
    have hlt : i < (ins.length : Int) := by
      have := (List.getElem?_eq_some_iff.mp ha).1
      omega
    unfold FindAliasInput
    by_cases hq : q.2 = (j : Int)
    · have hq1 : q.1 = i := hall q (List.mem_cons_self _ _) hq
      have hcond : q.2 = (j : Int) ∧ 0 ≤ q.1 ∧ q.1 < (ins.length : Int) := by
        rw [hq1]; exact ⟨hq, hi, hlt⟩
      rw [if_pos hcond, hq1]
      simp only [ha, hex, if_true, Index, hx]
      rfl
    · have hcond : ¬ (q.2 = (j : Int) ∧ 0 ≤ q.1 ∧ q.1 < (ins.length : Int)) :=
        fun h => hq h.1
      simp only [hcond, if_false]
      apply ih
      · obtain ⟨q', hq', hq'2⟩ := hexq
        rcases List.mem_cons.mp hq' with h | h
        · subst h; exact absurd hq'2 hq
        · exact ⟨q', h, hq'2⟩
      · exact fun q' hq' => hall q' (List.mem_cons_of_mem _ hq')

/-- When the alias search finds a value, `FindReusableInput` returns that value. -/
theorem FindReusableInput_of_alias {ss : SessionState} {ctx : ISequentialPlannerContext}
    {p : PlannerImpl} {node : Node} {j : Nat} {k : KernelDef} {x : MLValueIndex}
    {r : Option MLValueIndex} (hk : ss.GetKernelDef node.Index = some k)
    (ha : FindAliasInput ss node.InputDefs j k.Alias = .ok (some x))
    (h : FindReusableInput ss ctx p node j = .ok r) : r = some x := by
  unfold FindReusableInput at h
  split at h
  · rename_i out k' ho hk'
    rw [hk] at hk'
    cases hk'
    simp only [ha, bind_ok] at h
    obtain ⟨res, hres, h⟩ := h
    simp only [Except.ok.injEq] at hres
    subst hres
    simp only [pure_ok] at h
    exact h.symm
  · simp at h

/-! ## The free ranges written by `GenerateDeallocationPlan` -/

theorem set_free_from_index_step (plan : SequentialExecutionPlan) (n : Nat) (v : Int) (s : Nat) :
    (set_free_from_index plan n v).execution_plan[s]? =
      (plan.execution_plan[s]?).map
        (fun e => if n = s then { e with free_from_index := v } else e) := by
  simp [set_free_from_index, List.getElem?_modify]

theorem set_free_to_index_step (plan : SequentialExecutionPlan) (n : Nat) (v : Int) (s : Nat) :
    (set_free_to_index plan n v).execution_plan[s]? =
      (plan.execution_plan[s]?).map
        (fun e => if n = s then { e with free_to_index := v } else e) := by
  simp [set_free_to_index, List.getElem?_modify]

theorem GenerateDeallocationPlan_close (freelist : List FreeBufferInfo)
    (plan : SequentialExecutionPlan) :
    GenerateDeallocationPlan freelist plan =
      CloseLastRange (DeallocationLoop freelist.reverse none 0 plan) := by
  unfold GenerateDeallocationPlan CloseLastRange
  split <;> simp_all

/-- The free ranges after the deallocation loop has walked the entries `l` (oldest first,
deallocation points ascending) and the last range has been closed. -/
theorem DeallocationLoop_steps :
    ∀ (l : List FreeBufferInfo) (prev : Option Nat) (current : Nat)
      (plan : SequentialExecutionPlan),
      l.Pairwise (fun a b => a.deallocate_point ≤ b.deallocate_point) →
      (∀ q, prev = some q → ∀ e ∈ l, q ≤ e.deallocate_point) →
      ∀ s : Nat, (CloseLastRange (DeallocationLoop l prev current plan)).execution_plan[s]? =
        (plan.execution_plan[s]?).map (fun e : NodeExecutionPlan =>
          ({ node_index := e.node_index,
             free_from_index :=
              if (∃ x ∈ l, x.deallocate_point = s) ∧ prev ≠ some s then
                ((current + l.countP (fun x => decide (x.deallocate_point < s)) : Nat) : Int)
              else e.free_from_index,
             free_to_index :=
              if (∃ x ∈ l, x.deallocate_point = s) ∨ prev = some s then
                ((current + l.countP (fun x => decide (x.deallocate_point ≤ s)) : Nat) : Int) - 1
              else e.free_to_index } : NodeExecutionPlan)) := by
  intro l
  induction l with
  | nil =>
    intro prev current plan _ _ s
    cases prev with
    | none =>
      simp only [DeallocationLoop, CloseLastRange]
      cases plan.execution_plan[s]? <;> simp
    | some q =>
      simp only [DeallocationLoop, CloseLastRange, set_free_to_index_step]
      cases plan.execution_plan[s]? with
      | none => simp
      | some e =>
        by_cases hq : q = s
        · simp [hq]
        · simp [hq]
  | cons it rest ih =>
    intro prev current plan hsorted hprev s
    obtain ⟨hhead, hrest⟩ := List.pairwise_cons.mp hsorted
    have hlt0 : it.deallocate_point = s →
        rest.countP (fun x => decide (x.deallocate_point < s)) = 0 := by
      intro h
      rw [List.countP_eq_zero]
      intro a ha
      have := hhead a ha
      simp only [decide_eq_true_eq]; omega
    have hle0 : s < it.deallocate_point →
        rest.countP (fun x => decide (x.deallocate_point ≤ s)) = 0 := by
      intro h
      rw [List.countP_eq_zero]
      intro a ha
      have := hhead a ha
      simp only [decide_eq_true_eq]; omega
    have hnotin : s < it.deallocate_point → ¬ ∃ x ∈ rest, x.deallocate_point = s := by
      rintro h ⟨x, hx, hxs⟩
      have := hhead x hx
      omega
    have hin : (∃ x ∈ rest, x.deallocate_point = s) → it.deallocate_point ≤ s := by
      rintro ⟨x, hx, hxs⟩
      have := hhead x hx
      omega
    unfold DeallocationLoop
    simp only
    by_cases hchg : some it.deallocate_point ≠ prev
    · rw [if_pos hchg]
      rw [ih (some it.deallocate_point) (current + 1) _ hrest
        (fun q hq e he => by cases hq; exact hhead e he) s]
      cases prev with
      | none =>
        simp only [set_free_from_index_step]
        cases plan.execution_plan[s]? with
        | none => simp
        | some e =>
          simp only [Option.map_some', Option.some.injEq, List.countP_cons, List.mem_cons,
            exists_eq_or_imp, decide_eq_true_eq]
          by_cases h1 : it.deallocate_point = s
          · have := hlt0 h1
            simp [h1, this]
            omega
          · by_cases h2 : ∃ x ∈ rest, x.deallocate_point = s
            · have h3 := hin h2
              have h4 : it.deallocate_point < s := by omega
              have h5 : ¬ s = it.deallocate_point := by omega
              simp [h1, h2, h4, h3, h5]
              omega
            · simp [h1, h2]
      | some q =>
        have hq : q ≠ it.deallocate_point := fun h => hchg (by rw [h])
        have hqle : q ≤ it.deallocate_point := hprev q rfl it (List.mem_cons_self _ _)
        simp only [set_free_from_index_step, set_free_to_index_step]
        cases plan.execution_plan[s]? with
        | none => simp
        | some e =>
          simp only [Option.map_some', Option.some.injEq, List.countP_cons, List.mem_cons,
            exists_eq_or_imp, decide_eq_true_eq]
          by_cases h1 : it.deallocate_point = s
          · have := hlt0 h1
            have hqs : ¬ q = s := by omega
            simp [h1, this, hqs]
            omega
          · by_cases h2 : ∃ x ∈ rest, x.deallocate_point = s
            · have h3 := hin h2
              have h4 : it.deallocate_point < s := by omega
              have h5 : ¬ s = it.deallocate_point := by omega
              have hqs : ¬ q = s := by omega
              simp [h1, h2, h4, h3, h5, hqs]
              omega
            · by_cases hqs : q = s
              · have h6 : s < it.deallocate_point := by omega
                have h7 := hle0 h6
                have h8 : ¬ it.deallocate_point ≤ s := by omega
                simp [h1, h2, hqs, h7, h8]
              · have h5 : ¬ s = it.deallocate_point := fun h => h1 h.symm
                simp [h1, h2, hqs, h5]
    · have hsame : prev = some it.deallocate_point := by
        by_contra h; exact hchg (fun h' => h h'.symm)
      rw [if_neg hchg]
      rw [ih prev (current + 1) _ hrest
        (fun q hq e he => by
          rw [hsame] at hq; cases hq; exact hhead e he) s]
      subst hsame
      cases plan.execution_plan[s]? with
      | none => simp
      | some e =>
        simp only [Option.map_some', Option.some.injEq, List.countP_cons, List.mem_cons,
          exists_eq_or_imp, decide_eq_true_eq]
        by_cases h1 : it.deallocate_point = s
        · simp [h1]
          omega
        · by_cases h2 : ∃ x ∈ rest, x.deallocate_point = s
          · have h3 := hin h2
            have h4 : it.deallocate_point < s := by omega
            simp [h1, h2, h4, h3]
            omega
          · simp [h1, h2]
/-! ## The order of the freelist -/

theorem OutputDecision.freelist {ss : SessionState} {ctx : ISequentialPlannerContext}
    {graph : Graph} {pnode : Node} {o : NodeArg} {j : Nat} {c : MLValueIndex}
    {p p' : PlannerImpl} (h : OutputDecision ss ctx graph pnode o j c p p') :
    p'.freelist_.Sublist p.freelist_ := by
  cases h with
  | graph_output p1 h1 hgo h2 =>
    obtain ⟨_, _, _, f1, _⟩ := modifyAllocPlan_ok h1
    obtain ⟨_, _, _, f2, _⟩ := modifyAllocPlan_ok h2
    rw [f2, f1]
  | non_tensor p1 h1 hgo hnt h2 =>
    obtain ⟨_, _, _, f1, _⟩ := modifyAllocPlan_ok h1
    obtain ⟨_, _, _, f2, _⟩ := modifyAllocPlan_ok h2
    rw [f2, f1]
  | reuse_input p1 reused h1 hgo hnt hfi h2 =>
    obtain ⟨_, _, _, f1, _⟩ := modifyAllocPlan_ok h1
    obtain ⟨_, _, _, _, f2, _⟩ := Reuse_acc h2
    rw [f2, f1]
  | reuse_free p1 p2 reused h1 hgo hnt hfi hft h2 =>
    obtain ⟨_, _, _, f1, _⟩ := modifyAllocPlan_ok h1
    obtain ⟨_, _, fs, _⟩ := FindReusableTensor_acc hft
    obtain ⟨_, _, _, _, f2, _⟩ := Reuse_acc h2
    rw [f2, ← f1]; exact fs
  | allocate p1 p2 h1 hgo hnt hfi hft h2 =>
    obtain ⟨_, _, _, f1, _⟩ := modifyAllocPlan_ok h1
    obtain ⟨_, _, fs, _⟩ := FindReusableTensor_acc hft
    obtain ⟨_, _, _, f2, _⟩ := modifyAllocPlan_ok h2
    rw [f2, ← f1]; exact fs

/-- Planning the outputs of a node only ever erases freelist entries. -/
theorem ReusePlanOutputs_freelist {ss : SessionState} {ctx : ISequentialPlannerContext}
    {graph : Graph} {pnode : Node} :
    ∀ (outs : List NodeArg) (j : Nat) (p p' : PlannerImpl),
      ReusePlanOutputs ss ctx graph pnode outs j p = .ok p' →
      p'.freelist_.Sublist p.freelist_ := by
  intro outs
  induction outs with
  | nil =>
    intro j p p' h
    simp only [ReusePlanOutputs, pure_ok] at h
    subst h
    exact List.Sublist.refl _
  | cons o rest ih =>
    intro j p p' h
    unfold ReusePlanOutputs at h
    by_cases he : o.Exists = true
    · simp only [he, Bool.not_true, Bool.false_eq_true, if_false, bind_ok] at h
      obtain ⟨p1, h1, h2⟩ := h
      obtain ⟨c, _, hd⟩ := ReusePlanOutput_cases h1
      exact (ih _ _ _ h2).trans hd.freelist
    · have he' : o.Exists = false := by simpa using he
      simp only [he', Bool.not_false, if_true] at h
      exact ih _ _ _ h

/-- Releasing the inputs of a node pushes entries for the current program counter in front of
the freelist. -/
theorem FreeInputs_freelist {ss : SessionState} {pc : Nat} :
    ∀ (ins : List NodeArg) (p p' : PlannerImpl),
      FreeInputs ss pc ins p = .ok p' →
      ∃ pushed, p'.freelist_ = pushed ++ p.freelist_ ∧
        ∀ e ∈ pushed, e.deallocate_point = pc := by
  intro ins
  induction ins with
  | nil =>
    intro p p' h
    simp only [FreeInputs, pure_ok] at h
    subst h
    exact ⟨[], rfl, by simp⟩
  | cons a rest ih =>
    intro p p' h
    unfold FreeInputs at h
    by_cases he : a.Exists = true
    · simp only [he, if_true, bind_ok] at h
      obtain ⟨index, hi, original, ho, p1, h1, count, hc, h2⟩ := h
      obtain ⟨_, _, _, _, f1⟩ := modifyInfo_ok h1
      by_cases hz : count = 0
      · simp only [hz, if_true] at h2
        obtain ⟨pushed, hp, hall⟩ := ih _ _ h2
        refine ⟨pushed ++ [⟨original, pc⟩], ?_, ?_⟩
        · rw [hp]; simp [PlannerImpl.push_front, f1]
        · intro e hmem
          rcases List.mem_append.mp hmem with hmem | hmem
          · exact hall e hmem
          · simp only [List.mem_singleton] at hmem; subst hmem; rfl
      · simp only [hz, if_false] at h2
        obtain ⟨pushed, hp, hall⟩ := ih _ _ h2
        exact ⟨pushed, by rw [hp, f1], hall⟩
    · simp only [he, if_false] at h
      exact ih _ _ h

/-- Releasing the unused outputs of a node pushes entries for the current program counter in
front of the freelist. -/
theorem FreeUnusedOutputs_freelist {ss : SessionState} {pc : Nat} :
    ∀ (outs : List NodeArg) (p p' : PlannerImpl),
      FreeUnusedOutputs ss pc outs p = .ok p' →
      ∃ pushed, p'.freelist_ = pushed ++ p.freelist_ ∧
        ∀ e ∈ pushed, e.deallocate_point = pc := by
  intro outs
  induction outs with
  | nil =>
    intro p p' h
    simp only [FreeUnusedOutputs, pure_ok] at h
    subst h
    exact ⟨[], rfl, by simp⟩
  | cons a rest ih =>
    intro p p' h
    unfold FreeUnusedOutputs at h
    by_cases he : a.Exists = true
    · simp only [he, if_true, bind_ok] at h
      obtain ⟨index, hi, original, ho, count, hc, h2⟩ := h
      by_cases hz : count = 0
      · simp only [hz, if_true] at h2
        obtain ⟨pushed, hp, hall⟩ := ih _ _ h2
        refine ⟨pushed ++ [⟨original, pc⟩], ?_, ?_⟩
        · rw [hp]; simp [PlannerImpl.push_front]
        · intro e hmem
          rcases List.mem_append.mp hmem with hmem | hmem
          · exact hall e hmem
          · simp only [List.mem_singleton] at hmem; subst hmem; rfl
      · simp only [hz, if_false] at h2
        exact ih _ _ h2
    · simp only [he, if_false] at h
      exact ih _ _ h

theorem pushed_ordered {fl pushed : List FreeBufferInfo} {pc : Nat}
    (hs : fl.Pairwise (fun a b => b.deallocate_point ≤ a.deallocate_point))
    (hb : ∀ e ∈ fl, e.deallocate_point ≤ pc) (hp : ∀ e ∈ pushed, e.deallocate_point = pc) :
    (pushed ++ fl).Pairwise (fun a b => b.deallocate_point ≤ a.deallocate_point) ∧
      ∀ e ∈ pushed ++ fl, e.deallocate_point ≤ pc := by
  refine ⟨List.pairwise_append.mpr ⟨?_, hs, ?_⟩, ?_⟩
  · rw [List.pairwise_iff_forall_sublist]
    intro a b hab
    have ha := hp a (hab.subset (by simp))
    have hb' := hp b (hab.subset (by simp))
    omega
  · intro a ha b hb'
    have := hp a ha
    have := hb b hb'
    omega
  · intro e he
    rcases List.mem_append.mp he with he | he
    · exact le_of_eq (hp e he)
    · exact hb e he

/-- The program-counter loop keeps the freelist ordered: newest entry first, every
deallocation point a program counter that has been processed. -/
theorem ReusePlanSteps_freelist {ss : SessionState} {ctx : ISequentialPlannerContext}
    {graph : Graph} :
    ∀ (steps : List NodeExecutionPlan) (pc : Nat) (p p' : PlannerImpl),
      ReusePlanSteps ss ctx graph steps pc p = .ok p' → FreelistOrdered p.freelist_ pc →
      FreelistOrdered p'.freelist_ (pc + steps.length) := by
  intro steps
  induction steps with
  | nil =>
    intro pc p p' h ho
    simp only [ReusePlanSteps, pure_ok] at h
    subst h
    simpa using ho
  | cons step rest ih =>
    intro pc p p' h ho
    simp only [ReusePlanSteps, bind_ok] at h
    obtain ⟨p3, hstep, hrest⟩ := h
    obtain ⟨pnode, p1, p2, hn, h1, h2, h3⟩ := ReusePlanStep_split hstep
    have s1 := ReusePlanOutputs_freelist _ _ _ _ h1
    obtain ⟨pushed2, e2, a2⟩ := FreeInputs_freelist _ _ _ h2
    obtain ⟨pushed3, e3, a3⟩ := FreeUnusedOutputs_freelist _ _ _ h3
    have o1 : p1.freelist_.Pairwise (fun a b => b.deallocate_point ≤ a.deallocate_point) :=
      List.Pairwise.sublist s1 ho.1
    have b1 : ∀ e ∈ p1.freelist_, e.deallocate_point ≤ pc :=
      fun e he => Nat.le_of_lt (ho.2 e (s1.subset he))
    obtain ⟨o2, b2⟩ := pushed_ordered o1 b1 a2
    rw [← e2] at o2 b2
    obtain ⟨o3, b3⟩ := pushed_ordered o2 b2 a3
    rw [← e3] at o3 b3
    have := ih (pc + 1) p3 p' hrest ⟨o3, fun e he => Nat.lt_succ_of_le (b3 e he)⟩
    simpa [Nat.add_assoc, Nat.add_comm 1] using this
/-- The free ranges that `GenerateDeallocationPlan` writes for an ordered freelist: a step
with freelist entries gets the range that starts after the entries of earlier steps and ends
with its own last entry; any other step is left alone. -/
theorem GenerateDeallocationPlan_steps (freelist : List FreeBufferInfo)
    (plan : SequentialExecutionPlan)
    (hs : freelist.Pairwise (fun a b => b.deallocate_point ≤ a.deallocate_point)) (s : Nat) :
    (GenerateDeallocationPlan freelist plan).execution_plan[s]? =
      (plan.execution_plan[s]?).map (fun e : NodeExecutionPlan =>
        if ∃ x ∈ freelist, x.deallocate_point = s then
          ({ node_index := e.node_index,
             free_from_index :=
               (freelist.countP (fun x => decide (x.deallocate_point < s)) : Int),
             free_to_index :=
               (freelist.countP (fun x => decide (x.deallocate_point ≤ s)) : Int) - 1 } :
            NodeExecutionPlan)
        else e) := by
  rw [GenerateDeallocationPlan_close,
    DeallocationLoop_steps freelist.reverse none 0 plan (List.pairwise_reverse.mpr hs)
      (fun q hq => by cases hq) s]
  cases plan.execution_plan[s]? with
  | none => rfl
  | some e =>
    simp only [Option.map_some', List.mem_reverse, List.countP_reverse, Option.some.injEq]
    by_cases h : ∃ x ∈ freelist, x.deallocate_point = s
    · simp [h]
    · simp [h]

theorem countP_le_split (l : List FreeBufferInfo) (s : Nat) :
    l.countP (fun x => decide (x.deallocate_point ≤ s)) =
      l.countP (fun x => decide (x.deallocate_point < s)) +
        l.countP (fun x => decide (x.deallocate_point = s)) := by
  induction l with
  | nil => rfl
  | cons h t ih =>
    simp only [List.countP_cons, ih, decide_eq_true_eq]
    by_cases h1 : h.deallocate_point < s
    · have h2 : h.deallocate_point ≤ s := by omega
      have h3 : ¬ h.deallocate_point = s := by omega
      simp [h1, h2, h3]; omega
    · by_cases h3 : h.deallocate_point = s
      · have h2 : h.deallocate_point ≤ s := by omega
        simp [h1, h2, h3]; omega
      · have h2 : ¬ h.deallocate_point ≤ s := by omega
        simp [h1, h2, h3]

/-- A list with ascending deallocation points splits into the entries before, at and after
any given point. -/
theorem ascending_split (l : List FreeBufferInfo)
    (hs : l.Pairwise (fun a b => a.deallocate_point ≤ b.deallocate_point)) (s : Nat) :
    l = l.filter (fun x => decide (x.deallocate_point < s)) ++
      (l.filter (fun x => decide (x.deallocate_point = s)) ++
        l.filter (fun x => decide (s < x.deallocate_point))) := by
  induction l with
  | nil => rfl
  | cons h t ih =>
    obtain ⟨hh, ht⟩ := List.pairwise_cons.mp hs
    have ih' := ih ht
    by_cases h1 : h.deallocate_point < s
    · have h2 : ¬ h.deallocate_point = s := by omega
      have h3 : ¬ s < h.deallocate_point := by omega
      simp only [List.filter_cons, h1, h2, h3, decide_True, decide_False, if_true,
        Bool.false_eq_true, if_false, List.cons_append]
      rw [← ih']
    · have hge : ∀ x ∈ t, ¬ x.deallocate_point < s := fun x hx => by
        have := hh x hx; omega
      have e1 : t.filter (fun x => decide (x.deallocate_point < s)) = [] :=
        List.filter_eq_nil_iff.mpr (fun x hx => by simpa using hge x hx)
      rw [e1, List.nil_append] at ih'
      by_cases h2 : h.deallocate_point = s
      · have h3 : ¬ s < h.deallocate_point := by omega
        have e3 : (h :: t).filter (fun x => decide (x.deallocate_point = s)) =
            h :: t.filter (fun x => decide (x.deallocate_point = s)) := by
          simp [List.filter_cons, h2]
        have e4 : (h :: t).filter (fun x => decide (s < x.deallocate_point)) =
            t.filter (fun x => decide (s < x.deallocate_point)) := by
          simp [List.filter_cons, h3]
        have e5 : (h :: t).filter (fun x => decide (x.deallocate_point < s)) = [] := by
          simp [List.filter_cons, h1, e1]
        rw [e3, e4, e5, List.nil_append, List.cons_append, ← ih']
      · have h3 : s < h.deallocate_point := by omega
        have hgt : ∀ x ∈ t, ¬ x.deallocate_point = s := fun x hx => by
          have := hh x hx; omega
        have e2 : t.filter (fun x => decide (x.deallocate_point = s)) = [] :=
          List.filter_eq_nil_iff.mpr (fun x hx => by simpa using hgt x hx)
        rw [e2, List.nil_append] at ih'
        simp only [List.filter_cons, h1, h2, h3, decide_True, decide_False, if_true,
          Bool.false_eq_true, if_false, List.nil_append, e1, e2]
        rw [← ih']

/-- In a list with ascending deallocation points the range from the count of earlier entries
to the count of entries up to the point of `s`, less one, holds the entries of `s`. -/
theorem FreeRange_ascending (l : List FreeBufferInfo)
    (hs : l.Pairwise (fun a b => a.deallocate_point ≤ b.deallocate_point)) (s : Nat) :
    FreeRange (l.map (fun e => e.ml_value))
        (l.countP (fun x => decide (x.deallocate_point < s)) : Int)
        ((l.countP (fun x => decide (x.deallocate_point ≤ s)) : Int) - 1) =
      (l.filter (fun x => decide (x.deallocate_point = s))).map (fun e => e.ml_value) := by
  have hsplit := ascending_split l hs s
  have hlen : (((l.countP (fun x => decide (x.deallocate_point ≤ s)) : Int) - 1) -
      (l.countP (fun x => decide (x.deallocate_point < s)) : Int) + 1).toNat =
      (l.filter (fun x => decide (x.deallocate_point = s))).length := by
    rw [countP_le_split, ← List.countP_eq_length_filter]
    omega
  have hmap : l.map (fun e => e.ml_value) =
      (l.filter (fun x => decide (x.deallocate_point < s))).map (fun e => e.ml_value) ++
        ((l.filter (fun x => decide (x.deallocate_point = s))).map (fun e => e.ml_value) ++
          (l.filter (fun x => decide (s < x.deallocate_point))).map (fun e => e.ml_value)) := by
    conv_lhs => rw [hsplit]
    simp
  unfold FreeRange
  rw [hlen, Int.toNat_ofNat, List.countP_eq_length_filter, hmap]
  simp

/-- In a list with ascending deallocation points, position `k` lies within the range of the
deallocation point found there. -/
theorem ascending_index :
    ∀ (l : List FreeBufferInfo) (k : Nat) (e : FreeBufferInfo),
      l.Pairwise (fun a b => a.deallocate_point ≤ b.deallocate_point) → l[k]? = some e →
      l.countP (fun x => decide (x.deallocate_point < e.deallocate_point)) ≤ k ∧
        k < l.countP (fun x => decide (x.deallocate_point ≤ e.deallocate_point)) := by
  intro l
  induction l with
  | nil => intro k e _ h; simp at h
  | cons h t ih =>
    intro k e hs hk
    obtain ⟨hh, ht⟩ := List.pairwise_cons.mp hs
    cases k with
    | zero =>
      simp only [List.getElem?_cons_zero, Option.some.injEq] at hk
      subst hk
      have e1 : t.countP (fun x => decide (x.deallocate_point < h.deallocate_point)) = 0 := by
        rw [List.countP_eq_zero]
        intro a ha
        have := hh a ha
        simp only [decide_eq_true_eq]; omega
      simp [List.countP_cons, e1]
    | succ k =>
      simp only [List.getElem?_cons_succ] at hk
      obtain ⟨i1, i2⟩ := ih k e ht hk
      have hle : h.deallocate_point ≤ e.deallocate_point := hh e (List.getElem?_mem hk)
      simp only [List.countP_cons, decide_eq_true_eq, hle, if_true]
      constructor
      · split <;> omega
      · omega
/-- Every step of the schedule that `CreatePlan` builds is created with the empty default
range `free_from_index = 1`, `free_to_index = 0`. -/
theorem ScheduledNodes_default (graph : Graph) (order : List NodeIndex) (s : Nat)
    (e : NodeExecutionPlan) (h : (ScheduledNodes graph order)[s]? = some e) :
    e.free_from_index = 1 ∧ e.free_to_index = 0 := by
  have := List.getElem?_mem h
  simp only [ScheduledNodes, List.mem_map] at this
  obtain ⟨n, _, hn⟩ := this
  subst hn
  exact ⟨rfl, rfl⟩

/-- The deallocation plan of a successful `CreatePlan` in terms of the final freelist. -/
theorem CreatePlanImpl_dealloc {ss : SessionState} {ctx : ISequentialPlannerContext}
    {plan : SequentialExecutionPlan} {p : PlannerImpl}
    (h : CreatePlanImpl ss ctx plan = .ok p) :
    ∃ graph order, ss.Graph = some graph ∧ graph.NodesInTopologicalOrder = .ok order ∧
      FreelistOrdered p.freelist_ (ScheduledNodes graph order).length ∧
      p.plan_.to_be_freed =
        plan.to_be_freed ++ p.freelist_.reverse.map (fun e => e.ml_value) ∧
      ∀ s : Nat, p.plan_.execution_plan[s]? =
        ((ScheduledNodes graph order)[s]?).map (fun e : NodeExecutionPlan =>
          if ∃ x ∈ p.freelist_, x.deallocate_point = s then
            ({ node_index := e.node_index,
               free_from_index :=
                 (p.freelist_.countP (fun x => decide (x.deallocate_point < s)) : Int),
               free_to_index :=
                 (p.freelist_.countP (fun x => decide (x.deallocate_point ≤ s)) : Int) - 1 } :
              NodeExecutionPlan)
          else e) := by
  obtain ⟨graph, order, p0, p1, p2, p3, p4, hg, ho, hinit, h1, h2, h3, h4, hp⟩ :=
    CreatePlanImpl_split h
  obtain ⟨_, _, _, hf0, hx0, ht0⟩ := hinit
  obtain ⟨f1, _⟩ := ComputeUseCounts_frame h1
  obtain ⟨_, f2, x2, t2, _⟩ := ReusePlanGraphInputs_acc _ _ _ h2
  obtain ⟨_, f3, x3, t3, _⟩ := PlanWeightsOfNodes_acc _ _ _ h3
  have f4 := ReusePlanSteps_frame _ _ _ _ h4
  have hfl3 : p3.freelist_ = [] := by rw [f3, f2, f1.freelist, hf0]
  have hx4 : p4.plan_.execution_plan = ScheduledNodes graph order := by
    rw [f4.execution_plan, x3, x2, f1.execution_plan, hx0]
  have ht4 : p4.plan_.to_be_freed = plan.to_be_freed := by
    rw [f4.to_be_freed, t3, t2, f1.to_be_freed, ht0]
  have hord := ReusePlanSteps_freelist _ _ _ _ h4
    (by rw [hfl3]; exact ⟨List.Pairwise.nil, by simp⟩)
  rw [Nat.zero_add] at hord
  subst hp
  refine ⟨graph, order, hg, ho, hord, ?_, ?_⟩
  · show (GenerateDeallocationPlan p4.freelist_ p4.plan_).to_be_freed = _
    rw [(GenerateDeallocationPlan_acc _ _).2, ht4]
  · intro s
    show (GenerateDeallocationPlan p4.freelist_ p4.plan_).execution_plan[s]? = _
    rw [GenerateDeallocationPlan_steps _ _ hord.1 s, hx4]

/-! ## The release loop of the executor -/

/-- The release loop, started within `to_be_freed` with exactly the iterations left that
reach `free_to_index`, releases the next `n` entries in order. -/
theorem ReleaseLoop_ok {Frame : Type} (ReleaseMLValue : MLValueIndex → Frame → Frame)
    (to_be_freed : List MLValueIndex) (free_to_index : Int) :
    ∀ (n : Nat) (i : Int) (frame : Frame), 0 ≤ i → i.toNat + n ≤ to_be_freed.length →
      i + n = free_to_index + 1 →
      ReleaseLoop ReleaseMLValue to_be_freed free_to_index n i frame =
        .ok (((to_be_freed.drop i.toNat).take n).foldl (fun f v => ReleaseMLValue v f) frame) := by
  intro n
  induction n with
  | zero => intro i frame _ _ _; rfl
  | succ n ih =>
    intro i frame hi hlen hto
    have hcond : i ≤ free_to_index := by omega
    have hneg : ¬ i < 0 := by omega
    have hlt : i.toNat < to_be_freed.length := by omega
    unfold ReleaseLoop
    rw [if_pos hcond, if_neg hneg, List.getElem?_eq_getElem hlt]
    simp only
    have hnext : (i + 1).toNat = i.toNat + 1 := by omega
    rw [ih (i + 1) _ (by omega) (by omega) (by push_cast at hto ⊢; omega), hnext]
    rw [List.drop_eq_getElem_cons hlt]
    simp only [List.take_succ_cons, List.foldl_cons]

theorem FreeRange_getElem? (to_be_freed : List MLValueIndex) (free_from free_to : Int)
    (k : Nat) (hk : k < (free_to - free_from + 1).toNat) :
    (FreeRange to_be_freed free_from free_to)[k]? = to_be_freed[free_from.toNat + k]? := by
  unfold FreeRange
  rw [List.getElem?_take_of_lt hk, List.getElem?_drop]

/-! ## Where a failure status can come from -/

theorem noStatus_ok {α : Type} (a : α) : NoStatus (Except.ok a : M α) := by
  intro msg h; cases h

theorem noStatus_pure {α : Type} (a : α) : NoStatus (pure a : M α) := by
  intro msg h; cases h

theorem noStatus_thrown {α : Type} : NoStatus (Except.error PlanError.thrown : M α) := by
  intro msg h; cases h

theorem noStatus_throw {α : Type} : NoStatus (throw PlanError.thrown : M α) := by
  intro msg h; cases h

theorem noStatus_bind {α β : Type} {x : M α} {f : α → M β} (hx : NoStatus x)
    (hf : ∀ a, NoStatus (f a)) : NoStatus (x >>= f) := by
  intro msg h
  cases x with
  | error e =>
    simp only [bind, Except.bind, Except.error.injEq] at h
    exact hx msg (by rw [h])
  | ok a =>
    simp only [bind, Except.bind] at h
    exact hf a msg h

theorem noStatus_map {α β : Type} {x : M α} (f : α → β) (hx : NoStatus x) :
    NoStatus (Except.map f x) := by
  intro msg h
  cases x with
  | error e =>
    simp only [Except.map, Except.error.injEq] at h
    exact hx msg (by rw [h])
  | ok a => simp [Except.map] at h

theorem noStatus_Index (ss : SessionState) (name : MLValueName) : NoStatus (Index ss name) := by
  unfold Index
  split
  · exact noStatus_ok _
  · exact noStatus_thrown

theorem noStatus_info (p : PlannerImpl) (n : MLValueIndex) : NoStatus (p.info n) := by
  unfold PlannerImpl.info
  split
  · exact noStatus_ok _
  · exact noStatus_thrown

theorem noStatus_modifyInfo (p : PlannerImpl) (n : MLValueIndex)
    (f : MLValueInfo → MLValueInfo) : NoStatus (p.modifyInfo n f) := by
  unfold PlannerImpl.modifyInfo
  split
  · exact noStatus_ok _
  · exact noStatus_thrown

theorem noStatus_UseCount (p : PlannerImpl) (n : MLValueIndex) : NoStatus (p.UseCount n) :=
  noStatus_map _ (noStatus_info p n)

theorem noStatus_Buffer (p : PlannerImpl) (n : MLValueIndex) : NoStatus (p.Buffer n) :=
  noStatus_map _ (noStatus_info p n)

theorem noStatus_AllocPlan (p : PlannerImpl) (n : MLValueIndex) : NoStatus (p.AllocPlan n) := by
  unfold PlannerImpl.AllocPlan
  split
  · exact noStatus_ok _
  · exact noStatus_thrown

theorem noStatus_modifyAllocPlan (p : PlannerImpl) (n : MLValueIndex)
    (f : AllocPlanPerValue → AllocPlanPerValue) : NoStatus (p.modifyAllocPlan n f) := by
  unfold PlannerImpl.modifyAllocPlan
  split
  · exact noStatus_ok _
  · exact noStatus_thrown

theorem noStatus_ProcessDef (p : PlannerImpl) (id : MLValueIndex) (site : Option NodeArg) :
    NoStatus (ProcessDef p id site) :=
  noStatus_modifyInfo _ _ _

theorem noStatus_incUseCount (p : PlannerImpl) (n : MLValueIndex) : NoStatus (p.incUseCount n) :=
  noStatus_modifyInfo _ _ _

theorem noStatus_Reuse (p : PlannerImpl) (reused c : MLValueIndex) :
    NoStatus (Reuse p reused c) := by
  unfold Reuse
  repeat' first
    | exact noStatus_pure _
    | exact noStatus_throw
    | exact noStatus_Buffer _ _
    | exact noStatus_UseCount _ _
    | exact noStatus_modifyInfo _ _ _
    | exact noStatus_modifyAllocPlan _ _ _
    | refine noStatus_bind ?_ (fun _ => ?_)
    | split

theorem noStatus_GetElementSize (t : DataType) : NoStatus (GetElementSize t) := by
  unfold GetElementSize
  split
  · exact noStatus_ok _
  · exact noStatus_thrown

theorem noStatus_SameSize (ctx : ISequentialPlannerContext) (a b : NodeArg) :
    NoStatus (SameSize ctx a b) := by
  unfold SameSize SameSizeShapes
  repeat' first
    | exact noStatus_pure _
    | exact noStatus_GetElementSize _
    | refine noStatus_bind ?_ (fun _ => ?_)
    | split

theorem noStatus_FindAliasInput (ss : SessionState) (input_args : List NodeArg) (j : Nat) :
    ∀ pairs : List (Int × Int), NoStatus (FindAliasInput ss input_args j pairs) := by
  intro pairs
  induction pairs with
  | nil => exact noStatus_pure _
  | cons pair rest ih =>
    unfold FindAliasInput
    repeat' first
      | exact ih
      | exact noStatus_pure _
      | exact noStatus_Index _ _
      | refine noStatus_bind ?_ (fun _ => ?_)
      | split

theorem noStatus_FindInplaceInput (ss : SessionState) (ctx : ISequentialPlannerContext)
    (p : PlannerImpl) (input_args : List NodeArg) (out : NodeArg) (j : Nat) :
    ∀ pairs : List (Int × Int),
      NoStatus (FindInplaceInput ss ctx p input_args out j pairs) := by
  intro pairs
  induction pairs with
  | nil => exact noStatus_pure _
  | cons pair rest ih =>
    unfold FindInplaceInput
    repeat' first
      | exact ih
      | exact noStatus_pure _
      | exact noStatus_Index _ _
      | exact noStatus_Buffer _ _
      | exact noStatus_UseCount _ _
      | exact noStatus_SameSize _ _ _
      | refine noStatus_bind ?_ (fun _ => ?_)
      | split

theorem noStatus_FindReusableInput (ss : SessionState) (ctx : ISequentialPlannerContext)
    (p : PlannerImpl) (node : Node) (j : Nat) : NoStatus (FindReusableInput ss ctx p node j) := by
  unfold FindReusableInput
  repeat' first
    | exact noStatus_pure _
    | exact noStatus_throw
    | exact noStatus_FindAliasInput _ _ _ _
    | exact noStatus_FindInplaceInput _ _ _ _ _ _ _
    | refine noStatus_bind ?_ (fun _ => ?_)
    | split
theorem noStatus_FindInFreelist (ss : SessionState) (ctx : ISequentialPlannerContext)
    (p : PlannerImpl) (shape : TensorShapeProto) (t : DataType) (loc : AllocatorInfo) :
    ∀ l : List FreeBufferInfo, NoStatus (FindInFreelist ss ctx p shape t loc l) := by
  intro l
  induction l with
  | nil => exact noStatus_pure _
  | cons it rest ih =>
    unfold FindInFreelist
    repeat' first
      | exact ih
      | exact noStatus_pure _
      | exact noStatus_throw
      | exact noStatus_info _ _
      | exact noStatus_Index _ _
      | exact noStatus_AllocPlan _ _
      | exact noStatus_SameSize _ _ _
      | exact noStatus_bind (noStatus_GetElementSize _)
          (fun _ => noStatus_bind (noStatus_GetElementSize _) (fun _ => noStatus_pure _))
      | refine noStatus_bind ?_ (fun _ => ?_)
      | split

theorem noStatus_FindReusableTensor (ss : SessionState) (ctx : ISequentialPlannerContext)
    (p : PlannerImpl) (out : NodeArg) : NoStatus (FindReusableTensor ss ctx p out) := by
  unfold FindReusableTensor
  repeat' first
    | exact noStatus_pure _
    | exact noStatus_Index _ _
    | exact noStatus_AllocPlan _ _
    | exact noStatus_FindInFreelist _ _ _ _ _ _ _
    | refine noStatus_bind ?_ (fun _ => ?_)
    | split

theorem noStatus_UseCountsGraphInputs (ss : SessionState) :
    ∀ (l : List NodeArg) (p : PlannerImpl), NoStatus (UseCountsGraphInputs ss l p) := by
  intro l
  induction l with
  | nil => intro p; exact noStatus_pure _
  | cons a rest ih =>
    intro p
    unfold UseCountsGraphInputs
    repeat' first
      | exact ih _
      | exact noStatus_Index _ _
      | exact noStatus_ProcessDef _ _ _
      | exact noStatus_incUseCount _ _
      | refine noStatus_bind ?_ (fun _ => ?_)

theorem noStatus_UseCountsInitializers (ss : SessionState) (graph : Graph) :
    ∀ (l : List MLValueName) (p : PlannerImpl),
      NoStatus (UseCountsInitializers ss graph l p) := by
  intro l
  induction l with
  | nil => intro p; exact noStatus_pure _
  | cons a rest ih =>
    intro p
    unfold UseCountsInitializers
    repeat' first
      | exact ih _
      | exact noStatus_Index _ _
      | exact noStatus_ProcessDef _ _ _
      | exact noStatus_incUseCount _ _
      | refine noStatus_bind ?_ (fun _ => ?_)

theorem noStatus_UseCountsNodeInputs (ss : SessionState) :
    ∀ (l : List NodeArg) (p : PlannerImpl), NoStatus (UseCountsNodeInputs ss l p) := by
  intro l
  induction l with
  | nil => intro p; exact noStatus_pure _
  | cons a rest ih =>
    intro p
    unfold UseCountsNodeInputs
    repeat' first
      | exact ih _
      | exact noStatus_Index _ _
      | exact noStatus_incUseCount _ _
      | refine noStatus_bind ?_ (fun _ => ?_)
      | split

theorem noStatus_AssignOutputLocation (ss : SessionState) (node_index : NodeIndex)
    (info : AllocatorInfo) (m : List (Nat × MemType)) (i : Nat) (index : MLValueIndex)
    (p : PlannerImpl) : NoStatus (AssignOutputLocation ss node_index info m i index p) := by
  unfold AssignOutputLocation
  repeat' first
    | exact noStatus_pure _
    | exact noStatus_modifyAllocPlan _ _ _
    | split

theorem noStatus_UseCountsNodeOutputs (ss : SessionState) (node_index : NodeIndex)
    (info : AllocatorInfo) (m : List (Nat × MemType)) :
    ∀ (l : List NodeArg) (i : Nat) (p : PlannerImpl),
      NoStatus (UseCountsNodeOutputs ss node_index info m l i p) := by
  intro l
  induction l with
  | nil => intro i p; exact noStatus_pure _
  | cons a rest ih =>
    intro i p
    unfold UseCountsNodeOutputs
    repeat' first
      | exact ih _ _
      | exact noStatus_Index _ _
      | exact noStatus_ProcessDef _ _ _
      | exact noStatus_AssignOutputLocation _ _ _ _ _ _ _
      | refine noStatus_bind ?_ (fun _ => ?_)
      | split

theorem noStatus_MarkCreateFence (ss : SessionState) :
    ∀ (l : List NodeArg) (p : PlannerImpl), NoStatus (MarkCreateFence ss l p) := by
  intro l
  induction l with
  | nil => intro p; exact noStatus_pure _
  | cons a rest ih =>
    intro p
    unfold MarkCreateFence
    repeat' first
      | exact ih _
      | exact noStatus_Index _ _
      | exact noStatus_modifyAllocPlan _ _ _
      | refine noStatus_bind ?_ (fun _ => ?_)

theorem noStatus_MarkCreateFenceIfQueued (ss : SessionState) (k : KernelDef) (pnode : Node)
    (p : PlannerImpl) : NoStatus (MarkCreateFenceIfQueued ss k pnode p) := by
  unfold MarkCreateFenceIfQueued
  split
  · exact noStatus_MarkCreateFence _ _ _
  · exact noStatus_pure _

theorem noStatus_UseCountsGraphOutputs (ss : SessionState) :
    ∀ (l : List NodeArg) (p : PlannerImpl), NoStatus (UseCountsGraphOutputs ss l p) := by
  intro l
  induction l with
  | nil => intro p; exact noStatus_pure _
  | cons a rest ih =>
    intro p
    unfold UseCountsGraphOutputs
    repeat' first
      | exact ih _
      | exact noStatus_Index _ _
      | exact noStatus_incUseCount _ _
      | refine noStatus_bind ?_ (fun _ => ?_)

theorem noStatus_WeightLocation (ss : SessionState) (p_provider : MemType → AllocatorInfo)
    (k : KernelDef) (index : Nat) : NoStatus (WeightLocation ss p_provider k index) := by
  unfold WeightLocation
  repeat' first
    | exact noStatus_pure _
    | exact noStatus_throw
    | split

theorem noStatus_PlanWeightsOfNode (ss : SessionState) (graph : Graph) (node : Node) :
    ∀ (l : List NodeArg) (i : Nat) (p : PlannerImpl),
      NoStatus (PlanWeightsOfNode ss graph node l i p) := by
  intro l
  induction l with
  | nil => intro i p; exact noStatus_pure _
  | cons a rest ih =>
    intro i p
    unfold PlanWeightsOfNode
    repeat' first
      | exact ih _ _
      | exact noStatus_throw
      | exact noStatus_WeightLocation _ _ _ _
      | exact noStatus_Index _ _
      | exact noStatus_modifyAllocPlan _ _ _
      | refine noStatus_bind ?_ (fun _ => ?_)
      | split

theorem noStatus_PlanWeightsOfNodes (ss : SessionState) (graph : Graph) :
    ∀ (l : List Node) (p : PlannerImpl), NoStatus (PlanWeightsOfNodes ss graph l p) := by
  intro l
  induction l with
  | nil => intro p; exact noStatus_pure _
  | cons a rest ih =>
    intro p
    unfold PlanWeightsOfNodes
    repeat' first
      | exact ih _
      | exact noStatus_PlanWeightsOfNode _ _ _ _ _ _
      | refine noStatus_bind ?_ (fun _ => ?_)

theorem noStatus_ReusePlanGraphInputs (ss : SessionState) :
    ∀ (l : List NodeArg) (p : PlannerImpl), NoStatus (ReusePlanGraphInputs ss l p) := by
  intro l
  induction l with
  | nil => intro p; exact noStatus_pure _
  | cons a rest ih =>
    intro p
    unfold ReusePlanGraphInputs
    repeat' first
      | exact ih _
      | exact noStatus_Index _ _
      | exact noStatus_modifyAllocPlan _ _ _
      | refine noStatus_bind ?_ (fun _ => ?_)

theorem noStatus_ReusePlanOutput (ss : SessionState) (ctx : ISequentialPlannerContext)
    (graph : Graph) (pnode : Node) (o : NodeArg) (j : Nat) (p : PlannerImpl) :
    NoStatus (ReusePlanOutput ss ctx graph pnode o j p) := by
  unfold ReusePlanOutput
  repeat' first
    | exact noStatus_Index _ _
    | exact noStatus_modifyAllocPlan _ _ _
    | exact noStatus_Reuse _ _ _
    | exact noStatus_FindReusableInput _ _ _ _ _
    | exact noStatus_FindReusableTensor _ _ _ _
    | refine noStatus_bind ?_ (fun _ => ?_)
    | split

theorem noStatus_ReusePlanOutputs (ss : SessionState) (ctx : ISequentialPlannerContext)
    (graph : Graph) (pnode : Node) :
    ∀ (l : List NodeArg) (j : Nat) (p : PlannerImpl),
      NoStatus (ReusePlanOutputs ss ctx graph pnode l j p) := by
  intro l
  induction l with
  | nil => intro j p; exact noStatus_pure _
  | cons a rest ih =>
    intro j p
    unfold ReusePlanOutputs
    repeat' first
      | exact ih _ _
      | exact noStatus_ReusePlanOutput _ _ _ _ _ _ _
      | refine noStatus_bind ?_ (fun _ => ?_)
      | split

theorem noStatus_FreeInputs (ss : SessionState) (pc : Nat) :
    ∀ (l : List NodeArg) (p : PlannerImpl), NoStatus (FreeInputs ss pc l p) := by
  intro l
  induction l with
  | nil => intro p; exact noStatus_pure _
  | cons a rest ih =>
    intro p
    unfold FreeInputs
    repeat' first
      | exact ih _
      | exact noStatus_Index _ _
      | exact noStatus_Buffer _ _
      | exact noStatus_UseCount _ _
      | exact noStatus_modifyInfo _ _ _
      | refine noStatus_bind ?_ (fun _ => ?_)
      | split

theorem noStatus_FreeUnusedOutputs (ss : SessionState) (pc : Nat) :
    ∀ (l : List NodeArg) (p : PlannerImpl), NoStatus (FreeUnusedOutputs ss pc l p) := by
  intro l
  induction l with
  | nil => intro p; exact noStatus_pure _
  | cons a rest ih =>
    intro p
    unfold FreeUnusedOutputs
    repeat' first
      | exact ih _
      | exact noStatus_Index _ _
      | exact noStatus_Buffer _ _
      | exact noStatus_UseCount _ _
      | refine noStatus_bind ?_ (fun _ => ?_)
      | split

theorem noStatus_ReusePlanSteps (ss : SessionState) (ctx : ISequentialPlannerContext)
    (graph : Graph) :
    ∀ (l : List NodeExecutionPlan) (pc : Nat) (p : PlannerImpl),
      NoStatus (ReusePlanSteps ss ctx graph l pc p) := by
  intro l
  induction l with
  | nil => intro pc p; exact noStatus_pure _
  | cons a rest ih =>
    intro pc p
    unfold ReusePlanSteps ReusePlanStep
    repeat' first
      | exact ih _ _
      | exact noStatus_throw
      | exact noStatus_ReusePlanOutputs _ _ _ _ _ _ _
      | exact noStatus_FreeInputs _ _ _ _
      | exact noStatus_FreeUnusedOutputs _ _ _ _
      | refine noStatus_bind ?_ (fun _ => ?_)
      | split

/-- The reuse pass never ends in a failure status. -/
theorem noStatus_ComputeReusePlan (ss : SessionState) (ctx : ISequentialPlannerContext)
    (graph : Graph) (p : PlannerImpl) : NoStatus (ComputeReusePlan ss ctx graph p) := by
  unfold ComputeReusePlan GeneratePlanForWeights
  repeat' first
    | exact noStatus_ReusePlanGraphInputs _ _ _
    | exact noStatus_PlanWeightsOfNodes _ _ _ _
    | exact noStatus_ReusePlanSteps _ _ _ _ _ _
    | refine noStatus_bind ?_ (fun _ => ?_)
/-! ## The status of `CreatePlan` and the plan object -/

theorem StatusResult_bind {α β : Type} (x : M β) (f : β → M (Status × α)) :
    StatusResult (x >>= f) = x >>= (fun a => StatusResult (f a)) := by
  cases x with
  | error e => rfl
  | ok a => rfl

theorem UseCountsSteps_status (ss : SessionState) (graph : Graph) :
    ∀ (steps : List NodeExecutionPlan) (p : PlannerImpl),
      UseCountsSteps ss graph steps p = StatusResult (UseCountsStepsStatus ss graph steps p) := by
  intro steps
  induction steps with
  | nil => intro p; rfl
  | cons step rest ih =>
    intro p
    unfold UseCountsSteps UseCountsStepsStatus
    cases graph.GetNode step.node_index with
    | none => rfl
    | some pnode =>
      simp only
      rw [StatusResult_bind]
      congr 1
      funext p1
      cases ss.GetKernelDef step.node_index with
      | none => rfl
      | some k =>
        simp only
        rw [StatusResult_bind]
        congr 1
        funext p2
        rw [StatusResult_bind]
        congr 1
        funext p3
        exact ih p3

theorem ComputeUseCounts_status (ss : SessionState) (graph : Graph) (p : PlannerImpl) :
    ComputeUseCounts ss graph p = StatusResult (ComputeUseCountsStatus ss graph p) := by
  unfold ComputeUseCounts ComputeUseCountsStatus
  rw [StatusResult_bind]
  congr 1
  funext p1
  rw [StatusResult_bind]
  congr 1
  funext p2
  rw [UseCountsSteps_status]
  cases UseCountsStepsStatus ss graph p2.plan_.execution_plan p2 with
  | error e => rfl
  | ok r =>
    obtain ⟨st, p3⟩ := r
    cases st with
    | FAIL msg => rfl
    | OK =>
      show UseCountsGraphOutputs ss graph.Outputs p3 =
        StatusResult (UseCountsGraphOutputs ss graph.Outputs p3 >>= fun p => pure (Status.OK, p))
      cases UseCountsGraphOutputs ss graph.Outputs p3 with
      | error e => rfl
      | ok p4 => rfl

/-- `CreatePlan` is what the caller sees of `CreatePlanStatus`. -/
theorem CreatePlan_status (ss : SessionState) (ctx : ISequentialPlannerContext)
    (plan : SequentialExecutionPlan) :
    CreatePlan ss ctx plan = StatusResult (CreatePlanStatus ss ctx plan) := by
  unfold CreatePlan CreatePlanImpl CreatePlanStatus
  cases ss.Graph with
  | none => rfl
  | some graph =>
    simp only
    cases graph.NodesInTopologicalOrder with
    | error msg => rfl
    | ok order =>
      simp only
      split
      · rfl
      rw [ComputeUseCounts_status]
      cases ComputeUseCountsStatus ss graph _ with
      | error e => rfl
      | ok r =>
        obtain ⟨st, p1⟩ := r
        cases st with
        | FAIL msg => rfl
        | OK =>
          change Except.map (fun p : PlannerImpl => p.plan_)
              (ComputeReusePlan ss ctx graph p1 >>= fun p =>
                pure { p with plan_ := GenerateDeallocationPlan p.freelist_ p.plan_ }) =
            StatusResult (ComputeReusePlan ss ctx graph p1 >>= fun p =>
              pure (Status.OK, GenerateDeallocationPlan p.freelist_ p.plan_))
          cases ComputeReusePlan ss ctx graph p1 with
          | error e => rfl
          | ok p2 => rfl
theorem noStatus_UseCountsStepsStatus (ss : SessionState) (graph : Graph) :
    ∀ (l : List NodeExecutionPlan) (p : PlannerImpl),
      NoStatus (UseCountsStepsStatus ss graph l p) := by
  intro l
  induction l with
  | nil => intro p; exact noStatus_pure _
  | cons a rest ih =>
    intro p
    unfold UseCountsStepsStatus
    repeat' first
      | exact ih _
      | exact noStatus_pure _
      | exact noStatus_throw
      | exact noStatus_UseCountsNodeInputs _ _ _
      | exact noStatus_UseCountsNodeOutputs _ _ _ _ _ _ _
      | exact noStatus_MarkCreateFenceIfQueued _ _ _ _
      | refine noStatus_bind ?_ (fun _ => ?_)
      | split

theorem noStatus_CreatePlanStatus (ss : SessionState) (ctx : ISequentialPlannerContext)
    (plan : SequentialExecutionPlan) : NoStatus (CreatePlanStatus ss ctx plan) := by
  unfold CreatePlanStatus ComputeUseCountsStatus
  split
  · exact noStatus_throw
  · split
    · exact noStatus_pure _
    · split
      · exact noStatus_throw
      refine noStatus_bind (noStatus_bind (noStatus_UseCountsGraphInputs _ _ _) (fun _ =>
        noStatus_bind (noStatus_UseCountsInitializers _ _ _ _) (fun _ =>
          noStatus_bind (noStatus_UseCountsStepsStatus _ _ _ _) (fun r => ?_))))
        (fun r => ?_)
      · obtain ⟨st, p⟩ := r
        cases st with
        | OK =>
          exact noStatus_bind (noStatus_UseCountsGraphOutputs _ _ _) (fun _ => noStatus_pure _)
        | FAIL msg => exact noStatus_pure _
      · obtain ⟨st, p⟩ := r
        cases st with
        | OK => exact noStatus_bind (noStatus_ComputeReusePlan _ _ _ _) (fun _ => noStatus_pure _)
        | FAIL msg => exact noStatus_pure _

/-- A failure status of `CreatePlan` is a failure status of `CreatePlanStatus`, which comes
with the plan object. -/
theorem CreatePlan_status_error {ss : SessionState} {ctx : ISequentialPlannerContext}
    {plan : SequentialExecutionPlan} {msg : String} :
    CreatePlan ss ctx plan = .error (PlanError.status msg) ↔
      ∃ plan', CreatePlanStatus ss ctx plan = .ok (Status.FAIL msg, plan') := by
  rw [CreatePlan_status]
  constructor
  · intro h
    cases hr : CreatePlanStatus ss ctx plan with
    | error e =>
      rw [hr] at h
      simp only [StatusResult, Except.error.injEq] at h
      exact absurd (by rw [hr, h]) (noStatus_CreatePlanStatus ss ctx plan msg)
    | ok r =>
      obtain ⟨st, plan'⟩ := r
      rw [hr] at h
      cases st with
      | OK => simp [StatusResult] at h
      | FAIL m =>
        simp only [StatusResult, Except.error.injEq, PlanError.status.injEq] at h
        exact ⟨plan', by rw [h]⟩
  · rintro ⟨plan', h⟩
    rw [h]
    rfl

/-- The node loop of `ComputeUseCounts` keeps kinds, donors, freelist, schedule and
`to_be_freed`, also when it leaves with a failure status; that status is the one for the
first step without kernel definition. -/
theorem UseCountsStepsStatus_acc {ss : SessionState} {graph : Graph} :
    ∀ (steps : List NodeExecutionPlan) (p p' : PlannerImpl) (st : Status),
      UseCountsStepsStatus ss graph steps p = .ok (st, p') →
      UseCountsFrame p p' ∧
      (st = Status.OK → ∀ s ∈ steps, ss.GetKernelDef s.node_index ≠ none) ∧
      (∀ msg, st = Status.FAIL msg →
        ∃ pre s post node, steps = pre ++ s :: post ∧
          (∀ t ∈ pre, ss.GetKernelDef t.node_index ≠ none) ∧
          ss.GetKernelDef s.node_index = none ∧ graph.GetNode s.node_index = some node ∧
          msg = MissingKernelMessage node) := by
  intro steps
  induction steps with
  | nil =>
    intro p p' st h
    simp only [UseCountsStepsStatus, pure_ok, Prod.mk.injEq] at h
    obtain ⟨h1, h2⟩ := h
    subst h1; subst h2
    exact ⟨UseCountsFrame.same p, fun _ s hs => by simp at hs,
      fun msg hm => Status.noConfusion hm⟩
  | cons step rest ih =>
    intro p p' st h
    unfold UseCountsStepsStatus at h
    split at h
    · simp only [throw_ok] at h
    · rename_i pnode hn
      simp only [bind_ok] at h
      obtain ⟨p1, h1, h⟩ := h
      obtain ⟨f1, _⟩ := UseCountsNodeInputs_acc _ _ _ h1
      split at h
      · rename_i hk
        simp only [pure_ok, Prod.mk.injEq] at h
        obtain ⟨hst, hp⟩ := h
        subst hst; subst hp
        refine ⟨f1, fun hm => Status.noConfusion hm, ?_⟩
        intro msg hm
        cases hm
        exact ⟨[], step, rest, pnode, rfl, fun t ht => by simp at ht, hk, hn, rfl⟩
      · rename_i k hk
        simp only [bind_ok] at h
        obtain ⟨p2, h2, p3, h3, h4⟩ := h
        obtain ⟨f2, _⟩ := UseCountsNodeOutputs_acc _ _ _ _ h2
        obtain ⟨f3, _⟩ := MarkCreateFenceIfQueued_acc h3
        obtain ⟨f4, a4, b4⟩ := ih p3 p' st h4
        refine ⟨((f1.step f2).step f3).step f4, ?_, ?_⟩
        · intro hst s hs
          rcases List.mem_cons.mp hs with hs | hs
          · subst hs; rw [hk]; simp
          · exact a4 hst s hs
        · intro msg hm
          obtain ⟨pre, s, post, node, hsteps, hpre, hs, hnode, hmsg⟩ := b4 msg hm
          refine ⟨step :: pre, s, post, node, by rw [hsteps]; rfl, ?_, hs, hnode, hmsg⟩
          intro t ht
          rcases List.mem_cons.mp ht with ht | ht
          · subst ht; rw [hk]; simp
          · exact hpre t ht

/-- What a failure status of `CreatePlan` leaves in the plan object. -/
theorem CreatePlanStatus_fail {ss : SessionState} {ctx : ISequentialPlannerContext}
    {plan plan' : SequentialExecutionPlan} {msg : String}
    (h : CreatePlanStatus ss ctx plan = .ok (Status.FAIL msg, plan')) :
    ∃ graph, ss.Graph = some graph ∧
      ((graph.NodesInTopologicalOrder = .error msg ∧ plan' = plan) ∨
       (∃ order, graph.NodesInTopologicalOrder = .ok order ∧
          plan'.execution_plan = ScheduledNodes graph order ∧
          plan'.to_be_freed = plan.to_be_freed ∧
          (∀ v, (entry plan' v).alloc_kind = AllocKind.kAllocate ∧
            (entry plan' v).reused_buffer = 0) ∧
          ∃ pre s post node, ScheduledNodes graph order = pre ++ s :: post ∧
            (∀ t ∈ pre, ss.GetKernelDef t.node_index ≠ none) ∧
            ss.GetKernelDef s.node_index = none ∧ graph.GetNode s.node_index = some node ∧
            msg = MissingKernelMessage node)) := by
  unfold CreatePlanStatus at h
  split at h
  · simp only [throw_ok] at h
  · rename_i graph hg
    refine ⟨graph, hg, ?_⟩
    split at h
    · rename_i m ho
      simp only [pure_ok, Prod.mk.injEq, Status.FAIL.injEq] at h
      obtain ⟨hm, hp⟩ := h
      left
      exact ⟨by rw [ho, hm], hp.symm⟩
    · rename_i order ho
      right
      split at h
      · simp only [throw_ok] at h
      simp only [bind_ok] at h
      obtain ⟨r, hr, hfin⟩ := h
      obtain ⟨st, p⟩ := r
      have hinit := Initialize_acc plan (ss.GetMaxMLValueIdx + 1).toNat
        (ScheduledNodes graph order) _ rfl
      obtain ⟨_, _, he0, _, hx0, ht0⟩ := hinit
      cases st with
      | OK =>
        simp only [CreatePlanFinish, bind_ok, pure_ok, Prod.mk.injEq] at hfin
        obtain ⟨_, _, hbad, _⟩ := hfin
        cases hbad
      | FAIL m =>
        simp only [CreatePlanFinish, pure_ok, Prod.mk.injEq, Status.FAIL.injEq] at hfin
        obtain ⟨hm, hp⟩ := hfin
        subst hm; subst hp
        simp only [ComputeUseCountsStatus, bind_ok] at hr
        obtain ⟨p1, h1, p2, h2, r3, h3, hfin3⟩ := hr
        obtain ⟨st3, p3⟩ := r3
        obtain ⟨f1, _⟩ := UseCountsGraphInputs_acc _ _ _ h1
        obtain ⟨f2, _⟩ := UseCountsInitializers_acc _ _ _ h2
        obtain ⟨f3, _, hfail⟩ := UseCountsStepsStatus_acc _ _ _ _ h3
        cases st3 with
        | OK =>
          simp only [UseCountsFinish, bind_ok, pure_ok, Prod.mk.injEq] at hfin3
          obtain ⟨_, _, hbad, _⟩ := hfin3
          cases hbad
        | FAIL m3 =>
          simp only [UseCountsFinish, pure_ok, Prod.mk.injEq, Status.FAIL.injEq] at hfin3
          obtain ⟨hm, hp⟩ := hfin3
          subst hm; subst hp
          have f := (f1.step f2).step f3
          have hsched : p2.plan_.execution_plan = ScheduledNodes graph order := by
            rw [f2.execution_plan, f1.execution_plan, hx0]
          refine ⟨order, ho, by rw [f.execution_plan, hx0], by rw [f.to_be_freed, ht0], ?_, ?_⟩
          · intro v
            rw [f.alloc_kind v, f.reused_buffer v, he0 v]
            exact ⟨rfl, rfl⟩
          · rw [← hsched]
            exact hfail _ rfl
/-! ## Progress of `ComputeUseCounts` on resolvable names -/

theorem Index_resolvable {ss : SessionState} {name : MLValueName} (h : Resolvable ss name) :
    ∃ i, Index ss name = .ok i ∧ i < (ss.GetMaxMLValueIdx + 1).toNat := by
  unfold Index
  cases hi : ss.GetMLValueIdx name with
  | none => simp [Resolvable, hi] at h
  | some i =>
    have h' : (i : Int) ≤ ss.GetMaxMLValueIdx := by simpa [Resolvable, hi] using h
    have hlt : i < (ss.GetMaxMLValueIdx + 1).toNat := Int.lt_toNat.mpr (by linarith)
    exact ⟨i, rfl, hlt⟩

theorem modifyInfo_sized {p : PlannerImpl} {N n : Nat} (f : MLValueInfo → MLValueInfo)
    (hs : Sized p N) (hn : n < N) : ∃ p', p.modifyInfo n f = .ok p' ∧ Sized p' N := by
  unfold PlannerImpl.modifyInfo
  have hlt : n < p.ml_value_info_.length := by rw [hs.1]; exact hn
  rw [List.getElem?_eq_getElem hlt]
  exact ⟨_, rfl, by simp [Sized, hs.1, hs.2]⟩

theorem modifyAllocPlan_sized {p : PlannerImpl} {N n : Nat}
    (f : AllocPlanPerValue → AllocPlanPerValue) (hs : Sized p N) (hn : n < N) :
    ∃ p', p.modifyAllocPlan n f = .ok p' ∧ Sized p' N := by
  unfold PlannerImpl.modifyAllocPlan
  have hlt : n < p.plan_.allocation_plan.length := by rw [hs.2]; exact hn
  rw [List.getElem?_eq_getElem hlt]
  exact ⟨_, rfl, by simp [Sized, hs.1, hs.2]⟩

theorem UseCountsGraphInputs_progress {ss : SessionState} :
    ∀ (l : List NodeArg) (p : PlannerImpl), Sized p (ss.GetMaxMLValueIdx + 1).toNat →
      (∀ a ∈ l, Resolvable ss a.Name) →
      ∃ p', UseCountsGraphInputs ss l p = .ok p' ∧ Sized p' (ss.GetMaxMLValueIdx + 1).toNat := by
  intro l
  induction l with
  | nil => intro p hs _; exact ⟨p, rfl, hs⟩
  | cons a rest ih =>
    intro p hs hres
    obtain ⟨i, hi, hlt⟩ := Index_resolvable (hres a (List.mem_cons_self _ _))
    obtain ⟨p1, h1, s1⟩ := modifyInfo_sized
      (fun _ => { usecount := 0, reused_buffer_index := i, p_def_site := some a }) hs hlt
    obtain ⟨p2, h2, s2⟩ := modifyInfo_sized
      (fun i => { i with usecount := i.usecount + 1 }) s1 hlt
    obtain ⟨p3, h3, s3⟩ := ih p2 s2 (fun b hb => hres b (List.mem_cons_of_mem _ hb))
    refine ⟨p3, ?_, s3⟩
    simp only [UseCountsGraphInputs, bind_ok]
    exact ⟨i, hi, p1, h1, p2, h2, h3⟩

theorem UseCountsInitializers_progress {ss : SessionState} {graph : Graph} :
    ∀ (l : List MLValueName) (p : PlannerImpl), Sized p (ss.GetMaxMLValueIdx + 1).toNat →
      (∀ w ∈ l, Resolvable ss w) →
      ∃ p', UseCountsInitializers ss graph l p = .ok p' ∧
        Sized p' (ss.GetMaxMLValueIdx + 1).toNat := by
  intro l
  induction l with
  | nil => intro p hs _; exact ⟨p, rfl, hs⟩
  | cons a rest ih =>
    intro p hs hres
    obtain ⟨i, hi, hlt⟩ := Index_resolvable (hres a (List.mem_cons_self _ _))
    obtain ⟨p1, h1, s1⟩ := modifyInfo_sized
      (fun _ => { usecount := 0, reused_buffer_index := i,
                  p_def_site := graph.FindNodeArg a }) hs hlt
    obtain ⟨p2, h2, s2⟩ := modifyInfo_sized
      (fun i => { i with usecount := i.usecount + 1 }) s1 hlt
    obtain ⟨p3, h3, s3⟩ := ih p2 s2 (fun b hb => hres b (List.mem_cons_of_mem _ hb))
    refine ⟨p3, ?_, s3⟩
    simp only [UseCountsInitializers, bind_ok]
    exact ⟨i, hi, p1, h1, i, hi, p2, h2, h3⟩

theorem UseCountsNodeInputs_progress {ss : SessionState} :
    ∀ (l : List NodeArg) (p : PlannerImpl), Sized p (ss.GetMaxMLValueIdx + 1).toNat →
      (∀ a ∈ l, a.Exists = true → Resolvable ss a.Name) →
      ∃ p', UseCountsNodeInputs ss l p = .ok p' ∧ Sized p' (ss.GetMaxMLValueIdx + 1).toNat := by
  intro l
  induction l with
  | nil => intro p hs _; exact ⟨p, rfl, hs⟩
  | cons a rest ih =>
    intro p hs hres
    unfold UseCountsNodeInputs
    by_cases he : a.Exists = true
    · obtain ⟨i, hi, hlt⟩ := Index_resolvable (hres a (List.mem_cons_self _ _) he)
      obtain ⟨p2, h2, s2⟩ := modifyInfo_sized
        (fun i => { i with usecount := i.usecount + 1 }) hs hlt
      obtain ⟨p3, h3, s3⟩ := ih p2 s2 (fun b hb => hres b (List.mem_cons_of_mem _ hb))
      refine ⟨p3, ?_, s3⟩
      simp only [he, if_true, bind_ok]
      exact ⟨i, hi, p2, h2, h3⟩
    · simp only [he, if_false]
      exact ih p hs (fun b hb => hres b (List.mem_cons_of_mem _ hb))

theorem AssignOutputLocation_progress {ss : SessionState} (node_index : NodeIndex)
    (info : AllocatorInfo) (m : List (Nat × MemType)) (i : Nat) {index : MLValueIndex}
    {p : PlannerImpl} (hs : Sized p (ss.GetMaxMLValueIdx + 1).toNat)
    (hlt : index < (ss.GetMaxMLValueIdx + 1).toNat) :
    ∃ p', AssignOutputLocation ss node_index info m i index p = .ok p' ∧
      Sized p' (ss.GetMaxMLValueIdx + 1).toNat := by
  unfold AssignOutputLocation
  split
  · split
    · exact modifyAllocPlan_sized _ hs hlt
    · exact modifyAllocPlan_sized _ hs hlt
  · exact ⟨p, rfl, hs⟩

theorem UseCountsNodeOutputs_progress {ss : SessionState} (node_index : NodeIndex)
    (info : AllocatorInfo) (m : List (Nat × MemType)) :
    ∀ (l : List NodeArg) (i : Nat) (p : PlannerImpl),
      Sized p (ss.GetMaxMLValueIdx + 1).toNat →
      (∀ a ∈ l, a.Exists = true → Resolvable ss a.Name) →
      ∃ p', UseCountsNodeOutputs ss node_index info m l i p = .ok p' ∧
        Sized p' (ss.GetMaxMLValueIdx + 1).toNat := by
  intro l
  induction l with
  | nil => intro i p hs _; exact ⟨p, rfl, hs⟩
  | cons a rest ih =>
    intro i p hs hres
    unfold UseCountsNodeOutputs
    by_cases he : a.Exists = true
    · obtain ⟨idx, hi, hlt⟩ := Index_resolvable (hres a (List.mem_cons_self _ _) he)
      obtain ⟨p1, h1, s1⟩ := modifyInfo_sized
        (fun _ => { usecount := 0, reused_buffer_index := idx, p_def_site := some a }) hs hlt
      obtain ⟨p2, h2, s2⟩ := AssignOutputLocation_progress node_index info m i s1 hlt
      obtain ⟨p3, h3, s3⟩ := ih (i + 1) p2 s2 (fun b hb => hres b (List.mem_cons_of_mem _ hb))
      refine ⟨p3, ?_, s3⟩
      simp only [he, if_true, bind_ok]
      exact ⟨idx, hi, p1, h1, p2, h2, h3⟩
    · simp only [he, if_false]
      exact ih (i + 1) p hs (fun b hb => hres b (List.mem_cons_of_mem _ hb))

theorem MarkCreateFence_progress {ss : SessionState} :
    ∀ (l : List NodeArg) (p : PlannerImpl), Sized p (ss.GetMaxMLValueIdx + 1).toNat →
      (∀ a ∈ l, Resolvable ss a.Name) →
      ∃ p', MarkCreateFence ss l p = .ok p' ∧ Sized p' (ss.GetMaxMLValueIdx + 1).toNat := by
  intro l
  induction l with
  | nil => intro p hs _; exact ⟨p, rfl, hs⟩
  | cons a rest ih =>
    intro p hs hres
    obtain ⟨i, hi, hlt⟩ := Index_resolvable (hres a (List.mem_cons_self _ _))
    obtain ⟨p1, h1, s1⟩ := modifyAllocPlan_sized
      (fun a => { a with create_fence := true }) hs hlt
    obtain ⟨p3, h3, s3⟩ := ih p1 s1 (fun b hb => hres b (List.mem_cons_of_mem _ hb))
    refine ⟨p3, ?_, s3⟩
    simp only [MarkCreateFence, bind_ok]
    exact ⟨i, hi, p1, h1, h3⟩

/-- On resolvable names the node loop of `ComputeUseCounts` reaches the first step without
kernel definition and returns the failure status for its node. -/
theorem UseCountsStepsStatus_missing {ss : SessionState} {graph : Graph}
    (s : NodeExecutionPlan) (post : List NodeExecutionPlan) (node : Node)
    (hk : ss.GetKernelDef s.node_index = none) (hnode : graph.GetNode s.node_index = some node) :
    ∀ (pre : List NodeExecutionPlan) (p : PlannerImpl),
      Sized p (ss.GetMaxMLValueIdx + 1).toNat →
      (∀ t ∈ pre, (graph.GetNode t.node_index).isSome) →
      (∀ n ∈ StepNodes graph (pre ++ s :: post), ∀ a ∈ n.InputDefs ++ n.OutputDefs,
        a.Exists = true → Resolvable ss a.Name) →
      (∀ t ∈ pre, ss.GetKernelDef t.node_index ≠ none) →
      ∃ p', UseCountsStepsStatus ss graph (pre ++ s :: post) p =
        .ok (Status.FAIL (MissingKernelMessage node), p') := by
  intro pre
  induction pre with
  | nil =>
    intro p hs _ hres _
    have hmem : node ∈ StepNodes graph ([] ++ s :: post) := by
      simp [StepNodes, List.filterMap_cons, hnode]
    obtain ⟨p1, h1, s1⟩ := UseCountsNodeInputs_progress node.InputDefs p hs
      (fun a ha he => hres node hmem a (List.mem_append_left _ ha) he)
    refine ⟨p1, ?_⟩
    simp only [List.nil_append, UseCountsStepsStatus, hnode, hk, bind_ok, pure_ok]
    exact ⟨p1, h1, rfl⟩
  | cons t pre ih =>
    intro p hs hnodes hres hkern
    obtain ⟨n, hn⟩ := Option.isSome_iff_exists.mp (hnodes t (List.mem_cons_self _ _))
    obtain ⟨k, hkt⟩ := Option.ne_none_iff_exists'.mp (hkern t (List.mem_cons_self _ _))
    have hmem : n ∈ StepNodes graph (t :: pre ++ s :: post) := by
      simp [StepNodes, List.filterMap_cons, hn]
    have hsub : ∀ m ∈ StepNodes graph (pre ++ s :: post),
        m ∈ StepNodes graph (t :: pre ++ s :: post) := by
      intro m hm
      simp only [StepNodes, List.cons_append, List.filterMap_cons, hn]
      exact List.mem_cons_of_mem _ hm
    obtain ⟨p1, h1, s1⟩ := UseCountsNodeInputs_progress n.InputDefs p hs
      (fun a ha he => hres n hmem a (List.mem_append_left _ ha) he)
    obtain ⟨p2, h2, s2⟩ := UseCountsNodeOutputs_progress t.node_index
      (ss.GetAllocatorInfo t.node_index MemType.kMemTypeDefault) k.OutputMemoryType
      n.OutputDefs 0 p1 s1 (fun a ha he => hres n hmem a (List.mem_append_right _ ha) he)
    have h3 : ∃ p3, MarkCreateFenceIfQueued ss k n p2 = .ok p3 ∧
        Sized p3 (ss.GetMaxMLValueIdx + 1).toNat := by
      unfold MarkCreateFenceIfQueued
      split
      · apply MarkCreateFence_progress _ _ s2
        intro a ha
        simp only [Node.ForEachDef, List.mem_filter] at ha
        exact hres n hmem a ha.1 ha.2
      · exact ⟨p2, rfl, s2⟩
    obtain ⟨p3, h3, s3⟩ := h3
    obtain ⟨p4, h4⟩ := ih p3 s3 (fun u hu => hnodes u (List.mem_cons_of_mem _ hu))
      (fun m hm => hres m (hsub m hm)) (fun u hu => hkern u (List.mem_cons_of_mem _ hu))
    refine ⟨p4, ?_⟩
    simp only [List.cons_append, UseCountsStepsStatus, hn, hkt, bind_ok]
    exact ⟨p1, h1, p2, h2, p3, h3, h4⟩

theorem first_without_kernel (ss : SessionState) :
    ∀ steps : List NodeExecutionPlan,
      (∃ s ∈ steps, ss.GetKernelDef s.node_index = none) →
      ∃ pre s post, steps = pre ++ s :: post ∧
        (∀ t ∈ pre, ss.GetKernelDef t.node_index ≠ none) ∧
        ss.GetKernelDef s.node_index = none := by
  intro steps
  induction steps with
  | nil => rintro ⟨s, hs, _⟩; simp at hs
  | cons t rest ih =>
    rintro ⟨s, hs, hk⟩
    by_cases ht : ss.GetKernelDef t.node_index = none
    · exact ⟨[], t, rest, rfl, fun u hu => by simp at hu, ht⟩
    · have hsr : s ∈ rest := by
        rcases List.mem_cons.mp hs with h | h
        · subst h; exact absurd hk ht
        · exact h
      obtain ⟨pre, s', post, hsteps, hpre, hs'⟩ := ih ⟨s, hsr, hk⟩
      refine ⟨t :: pre, s', post, by rw [hsteps]; rfl, ?_, hs'⟩
      intro u hu
      rcases List.mem_cons.mp hu with h | h
      · subst h; exact ht
      · exact hpre u h

/-- On resolvable names and with a count of values that is not negative, `CreatePlanStatus`
returns the failure status for the first scheduled node without kernel definition. -/
theorem CreatePlanStatus_missing {ss : SessionState} (ctx : ISequentialPlannerContext)
    (plan : SequentialExecutionPlan) {graph : Graph} {order : List NodeIndex}
    (hg : ss.Graph = some graph) (ho : graph.NodesInTopologicalOrder = .ok order)
    (hmax : -1 ≤ ss.GetMaxMLValueIdx)
    (hres : NamesResolvable ss graph (ScheduledNodes graph order))
    (pre : List NodeExecutionPlan) (s : NodeExecutionPlan) (post : List NodeExecutionPlan)
    (node : Node) (hsched : ScheduledNodes graph order = pre ++ s :: post)
    (hpre : ∀ t ∈ pre, ss.GetKernelDef t.node_index ≠ none)
    (hs : ss.GetKernelDef s.node_index = none) (hnode : graph.GetNode s.node_index = some node) :
    ∃ plan', CreatePlanStatus ss ctx plan = .ok (Status.FAIL (MissingKernelMessage node), plan') := by
  obtain ⟨hnodes, hin, hinit, hdefs, _⟩ := hres
  have hs0 : Sized ({ Initialize { ml_value_info_ := [], freelist_ := [], plan_ := plan }
      (ss.GetMaxMLValueIdx + 1).toNat with
      plan_ := { (Initialize { ml_value_info_ := [], freelist_ := [], plan_ := plan }
        (ss.GetMaxMLValueIdx + 1).toNat).plan_ with
        execution_plan := ScheduledNodes graph order } } : PlannerImpl)
      (ss.GetMaxMLValueIdx + 1).toNat := by
    simp [Sized, Initialize, resize]
  obtain ⟨p1, h1, s1⟩ := UseCountsGraphInputs_progress graph.Inputs _ hs0 hin
  obtain ⟨p2, h2, s2⟩ := @UseCountsInitializers_progress ss graph
    graph.AllInitializedTensors p1 s1 hinit
  obtain ⟨f1, _⟩ := UseCountsGraphInputs_acc _ _ _ h1
  obtain ⟨f2, _⟩ := UseCountsInitializers_acc _ _ _ h2
  have hx2 : p2.plan_.execution_plan = pre ++ s :: post := by
    rw [f2.execution_plan, f1.execution_plan, ← hsched]
  rw [hsched] at hdefs hnodes
  obtain ⟨p3, h3⟩ := UseCountsStepsStatus_missing s post node hs hnode pre p2 s2
    (fun t ht => hnodes t (List.mem_append_left _ ht)) hdefs hpre
  refine ⟨p3.plan_, ?_⟩
  have hneg : ¬ (ss.GetMaxMLValueIdx + 1 < 0) := by omega
  unfold CreatePlanStatus
  simp only [hg, ho, hneg, if_false, bind_ok]
  refine ⟨(Status.FAIL (MissingKernelMessage node), p3), ?_, rfl⟩
  simp only [ComputeUseCountsStatus, bind_ok]
  refine ⟨p1, h1, p2, h2, (Status.FAIL (MissingKernelMessage node), p3), ?_, rfl⟩
  rw [hx2]
  exact h3


/-! ## Shapes and sizes -/

theorem SameDim_iff (d1 d2 : Dimension) : SameDim d1 d2 = true ↔ AxesAgree d1 d2 := by
  cases d1 <;> cases d2 <;>
    simp [SameDim, AxesAgree, Dimension.has_dim_value, Dimension.has_dim_param] <;>
    exact eq_comm

theorem SameShapeLoop_iff :
    ∀ (shape1 shape2 : TensorShapeProto), shape1.length = shape2.length →
      (SameShapeLoop shape1 shape2 = true ↔
        ∀ (i : Nat) (d1 d2 : Dimension), shape1[i]? = some d1 → shape2[i]? = some d2 →
          AxesAgree d1 d2) := by
  intro shape1
  induction shape1 with
  | nil =>
    intro shape2 hlen
    cases shape2 with
    | nil => simp [SameShapeLoop]
    | cons d2 rest2 => simp at hlen
  | cons d1 rest1 ih =>
    intro shape2 hlen
    cases shape2 with
    | nil => simp at hlen
    | cons d2 rest2 =>
      have hlen' : rest1.length = rest2.length := by simpa using hlen
      unfold SameShapeLoop
      constructor
      · intro h
        by_cases hd : SameDim d1 d2 = true
        · rw [if_pos hd] at h
          intro i e1 e2 h1 h2
          cases i with
          | zero =>
            simp only [List.getElem?_cons_zero, Option.some.injEq] at h1 h2
            subst h1; subst h2
            exact (SameDim_iff _ _).mp hd
          | succ i =>
            simp only [List.getElem?_cons_succ] at h1 h2
            exact (ih rest2 hlen').mp h i e1 e2 h1 h2
        · rw [if_neg hd] at h
          exact absurd h (by simp)
      · intro h
        have hd : SameDim d1 d2 = true := (SameDim_iff _ _).mpr (h 0 d1 d2 (by simp) (by simp))
        rw [if_pos hd]
        exact (ih rest2 hlen').mpr (fun i e1 e2 h1 h2 => h (i + 1) e1 e2 (by simpa using h1) (by simpa using h2))

theorem SameShape_iff (shape1 shape2 : TensorShapeProto) :
    SameShape shape1 shape2 = true ↔ ShapesAgree shape1 shape2 := by
  unfold SameShape ShapesAgree
  by_cases hlen : shape1.length = shape2.length
  · have hne : (shape2.length != shape1.length) = false := by simp [hlen]
    simp only [hne, Bool.false_eq_true, if_false]
    rw [SameShapeLoop_iff _ _ hlen]
    exact ⟨fun h => ⟨hlen, h⟩, fun h => h.2⟩
  · have hne : (shape2.length != shape1.length) = true := by
      simp only [bne_iff_ne, ne_eq]
      exact fun h => hlen h.symm
    simp only [hne, if_true]
    exact ⟨fun h => absurd h (by simp), fun h => absurd h.1 hlen⟩

theorem GetElementSize_tensor (t z : Nat) : GetElementSize (DataType.tensor t z) = .ok z := rfl

theorem SameSize_known {ctx : ISequentialPlannerContext} {arg1 arg2 : NodeArg}
    {shape1 shape2 : TensorShapeProto} {t1 z1 t2 z2 : Nat}
    (he1 : arg1.Exists = true) (he2 : arg2.Exists = true)
    (hs1 : ctx.GetShape arg1 = some shape1) (hs2 : ctx.GetShape arg2 = some shape2)
    (ht1 : arg1.Type_ = DataType.tensor t1 z1) (ht2 : arg2.Type_ = DataType.tensor t2 z2) :
    SameSize ctx arg1 arg2 = .ok (z1 == z2 && SameShape shape1 shape2) := by
  unfold SameSize
  simp only [he1, he2, Bool.not_true, Bool.or_self, Bool.false_eq_true, if_false, hs1, hs2]
  unfold SameSizeShapes
  rw [ht1, ht2]
  rfl

/-! ## The freelist search as a first-fit search -/

theorem info_of_defsite {p : PlannerImpl} {v : MLValueIndex} {a : NodeArg}
    (h : defsite p v = some a) : ∃ info, p.info v = .ok info ∧ info.p_def_site = some a := by
  unfold defsite at h
  unfold PlannerImpl.info
  cases hv : p.ml_value_info_[v]? with
  | none => simp [hv] at h
  | some info =>
    simp only [hv] at h
    exact ⟨info, rfl, h⟩

theorem AllocPlan_of_lt {p : PlannerImpl} {i : MLValueIndex}
    (h : i < p.plan_.allocation_plan.length) : p.AllocPlan i = .ok (entry p.plan_ i) := by
  unfold PlannerImpl.AllocPlan entry
  rw [List.getElem?_eq_getElem h]

/-- One iteration of the freelist walk on an entry that does not suit: the walk goes on and
keeps the entry. -/
theorem FindInFreelist_skip {ss : SessionState} {ctx : ISequentialPlannerContext}
    {p : PlannerImpl} {shape : TensorShapeProto} {t0 z0 : Nat} {loc : AllocatorInfo}
    {it : FreeBufferInfo} {rest : List FreeBufferInfo} {a : NodeArg} {i : MLValueIndex}
    (hds : defsite p it.ml_value = some a) (hi : ss.GetMLValueIdx a.Name = some i)
    (hlt : i < p.plan_.allocation_plan.length)
    (hty : (ctx.GetShape a).isSome → ∃ t z, a.Type_ = DataType.tensor t z)
    (hno : ¬ ((entry p.plan_ i).location = loc ∧ ∃ sh, ctx.GetShape a = some sh ∧
      SameSizeShapes sh a.Type_ shape (DataType.tensor t0 z0) = .ok true)) :
    FindInFreelist ss ctx p shape (DataType.tensor t0 z0) loc (it :: rest) =
      (do
        match ← FindInFreelist ss ctx p shape (DataType.tensor t0 z0) loc rest with
        | some (r, l) => pure (some (r, it :: l))
        | none => pure none) := by
  obtain ⟨info, hinfo, hsite⟩ := info_of_defsite hds
  have hidx : Index ss a.Name = .ok i := by simp [Index, hi]
  conv_lhs => unfold FindInFreelist
  simp only [hinfo, hsite, hidx, AllocPlan_of_lt hlt, bind, Except.bind]
  by_cases hloc : (entry p.plan_ i).location = loc
  · simp only [hloc, ne_eq, not_true_eq_false, if_false]
    cases hsh : ctx.GetShape a with
    | none => rfl
    | some sh =>
      obtain ⟨t, z, hta⟩ := hty (by simp [hsh])
      have hsame : SameSizeShapes sh a.Type_ shape (DataType.tensor t0 z0) =
          .ok (z == z0 && SameShape sh shape) := by
        rw [hta]; rfl
      have hfalse : (z == z0 && SameShape sh shape) = false := by
        cases hb : (z == z0 && SameShape sh shape) with
        | false => rfl
        | true => exact absurd ⟨hloc, sh, hsh, by rw [hsame, hb]⟩ hno
      simp only [hsame, hfalse, Bool.false_eq_true, if_false]
      try rfl
  · simp only [ne_eq, hloc, not_false_eq_true, if_true]
    try rfl

/-- One iteration of the freelist walk on an entry that suits: the walk ends with that entry
erased. -/
theorem FindInFreelist_hit {ss : SessionState} {ctx : ISequentialPlannerContext}
    {p : PlannerImpl} {shape : TensorShapeProto} {ty : DataType} {loc : AllocatorInfo}
    {it : FreeBufferInfo} {rest : List FreeBufferInfo} {a : NodeArg} {i : MLValueIndex}
    {sh : TensorShapeProto}
    (hds : defsite p it.ml_value = some a) (hi : ss.GetMLValueIdx a.Name = some i)
    (hlt : i < p.plan_.allocation_plan.length)
    (hloc : (entry p.plan_ i).location = loc) (hsh : ctx.GetShape a = some sh)
    (hsame : SameSizeShapes sh a.Type_ shape ty = .ok true) :
    FindInFreelist ss ctx p shape ty loc (it :: rest) = .ok (some (it.ml_value, rest)) := by
  obtain ⟨info, hinfo, hsite⟩ := info_of_defsite hds
  have hidx : Index ss a.Name = .ok i := by simp [Index, hi]
  unfold FindInFreelist
  simp only [hinfo, hsite, hidx, AllocPlan_of_lt hlt, bind, Except.bind, hloc, ne_eq,
    not_true_eq_false, if_false, hsh, hsame, if_true]
  try rfl
/-- The freelist walk over entries none of which suits finds nothing. -/
theorem FindInFreelist_none {ss : SessionState} {ctx : ISequentialPlannerContext}
    {p : PlannerImpl} {shape : TensorShapeProto} {t0 z0 : Nat} {loc : AllocatorInfo} :
    ∀ l : List FreeBufferInfo,
      (∀ e ∈ l, ∃ a i, defsite p e.ml_value = some a ∧ ss.GetMLValueIdx a.Name = some i ∧
        i < p.plan_.allocation_plan.length ∧
        ((ctx.GetShape a).isSome → ∃ t z, a.Type_ = DataType.tensor t z) ∧
        ¬ ((entry p.plan_ i).location = loc ∧ ∃ sh, ctx.GetShape a = some sh ∧
          SameSizeShapes sh a.Type_ shape (DataType.tensor t0 z0) = .ok true)) →
      FindInFreelist ss ctx p shape (DataType.tensor t0 z0) loc l = .ok none := by
  intro l
  induction l with
  | nil => intro _; rfl
  | cons it rest ih =>
    intro h
    obtain ⟨a, i, hds, hi, hlt, hty, hno⟩ := h it (List.mem_cons_self _ _)
    rw [FindInFreelist_skip hds hi hlt hty hno,
      ih (fun e he => h e (List.mem_cons_of_mem _ he))]
    try rfl

/-- The freelist walk returns the first entry that suits and erases exactly that entry. -/
theorem FindInFreelist_first {ss : SessionState} {ctx : ISequentialPlannerContext}
    {p : PlannerImpl} {shape : TensorShapeProto} {t0 z0 : Nat} {loc : AllocatorInfo}
    (e : FreeBufferInfo) (post : List FreeBufferInfo)
    (hfit : ∃ a i sh, defsite p e.ml_value = some a ∧ ss.GetMLValueIdx a.Name = some i ∧
      i < p.plan_.allocation_plan.length ∧ (entry p.plan_ i).location = loc ∧
      ctx.GetShape a = some sh ∧
      SameSizeShapes sh a.Type_ shape (DataType.tensor t0 z0) = .ok true) :
    ∀ pre : List FreeBufferInfo,
      (∀ x ∈ pre, ∃ a i, defsite p x.ml_value = some a ∧ ss.GetMLValueIdx a.Name = some i ∧
        i < p.plan_.allocation_plan.length ∧
        ((ctx.GetShape a).isSome → ∃ t z, a.Type_ = DataType.tensor t z) ∧
        ¬ ((entry p.plan_ i).location = loc ∧ ∃ sh, ctx.GetShape a = some sh ∧
          SameSizeShapes sh a.Type_ shape (DataType.tensor t0 z0) = .ok true)) →
      FindInFreelist ss ctx p shape (DataType.tensor t0 z0) loc (pre ++ e :: post) =
        .ok (some (e.ml_value, pre ++ post)) := by
  intro pre
  induction pre with
  | nil =>
    intro _
    obtain ⟨a, i, sh, hds, hi, hlt, hloc, hsh, hsame⟩ := hfit
    exact FindInFreelist_hit hds hi hlt hloc hsh hsame
  | cons it rest ih =>
    intro h
    obtain ⟨a, i, hds, hi, hlt, hty, hno⟩ := h it (List.mem_cons_self _ _)
    rw [List.cons_append, FindInFreelist_skip hds hi hlt hty hno,
      ih (fun x hx => h x (List.mem_cons_of_mem _ hx))]
    try rfl

/-- An entry that is readable and does not suit the output, in the form the walk tests. -/
theorem not_fits_of_readable {ss : SessionState} {ctx : ISequentialPlannerContext}
    {p : PlannerImpl} {out : NodeArg} {shape : TensorShapeProto} {c : MLValueIndex}
    {e : FreeBufferInfo} (hc : ss.GetMLValueIdx out.Name = some c)
    (hread : ∃ a i, defsite p e.ml_value = some a ∧ ss.GetMLValueIdx a.Name = some i ∧
      i < p.plan_.allocation_plan.length ∧
      ((ctx.GetShape a).isSome → ∃ t z, a.Type_ = DataType.tensor t z))
    (hno : ¬ FitsOutput ss ctx p out shape e) :
    ∃ a i, defsite p e.ml_value = some a ∧ ss.GetMLValueIdx a.Name = some i ∧
      i < p.plan_.allocation_plan.length ∧
      ((ctx.GetShape a).isSome → ∃ t z, a.Type_ = DataType.tensor t z) ∧
      ¬ ((entry p.plan_ i).location = (entry p.plan_ c).location ∧
        ∃ sh, ctx.GetShape a = some sh ∧
          SameSizeShapes sh a.Type_ shape out.Type_ = .ok true) := by
  obtain ⟨a, i, hds, hi, hlt, hty⟩ := hread
  refine ⟨a, i, hds, hi, hlt, hty, ?_⟩
  rintro ⟨hloc, sh, hsh, hsame⟩
  exact hno ⟨a, i, c, sh, hds, hi, hc, hloc, hsh, hsame⟩

/-- Among the entries of a list, one of which satisfies `P`, there is a first one. -/
theorem first_such {α : Type} (P : α → Prop) :
    ∀ l : List α, (∃ e ∈ l, P e) →
      ∃ pre e post, l = pre ++ e :: post ∧ (∀ x ∈ pre, ¬ P x) ∧ P e := by
  intro l
  induction l with
  | nil => rintro ⟨e, he, _⟩; simp at he
  | cons t rest ih =>
    rintro ⟨e, he, hP⟩
    by_cases ht : P t
    · exact ⟨[], t, rest, rfl, fun x hx => by simp at hx, ht⟩
    · have her : e ∈ rest := by
        rcases List.mem_cons.mp he with h | h
        · subst h; exact absurd hP ht
        · exact h
      obtain ⟨pre, e', post, hl, hpre, he'⟩ := ih ⟨e, her, hP⟩
      refine ⟨t :: pre, e', post, by rw [hl]; rfl, ?_, he'⟩
      intro x hx
      rcases List.mem_cons.mp hx with h | h
      · subst h; exact ht
      · exact hpre x h

theorem twoFreedMid2_readable :
    FreelistReadable twoFreedSession shapeContext twoFreedMid2 (arg "Y") := by
  refine ⟨⟨3, rfl, by decide⟩, ⟨1, 4, rfl⟩, ?_⟩
  intro e he
  have he' : e = ⟨2, 2⟩ ∨ e = ⟨1, 2⟩ := by
    simpa [twoFreedMid2] using he
  rcases he' with h | h
  · subst h
    exact ⟨arg "N", 2, rfl, rfl, by decide, fun _ => ⟨1, 4, rfl⟩⟩
  · subst h
    exact ⟨arg "M", 1, rfl, rfl, by decide, fun _ => ⟨1, 4, rfl⟩⟩


/-! ## Locations and fences written by `ComputeUseCounts` -/

theorem UseCountsGraphInputs_plan {ss : SessionState} :
    ∀ (l : List NodeArg) (p p' : PlannerImpl),
      UseCountsGraphInputs ss l p = .ok p' → p'.plan_ = p.plan_ := by
  intro l
  induction l with
  | nil => intro p p' h; simp only [UseCountsGraphInputs, pure_ok] at h; rw [h]
  | cons a rest ih =>
    intro p p' h
    simp only [UseCountsGraphInputs, bind_ok] at h
    obtain ⟨index, _, p1, h1, p2, h2, h3⟩ := h
    obtain ⟨_, _, _, e1, _⟩ := modifyInfo_ok h1
    obtain ⟨_, _, _, e2, _⟩ := modifyInfo_ok h2
    rw [ih _ _ h3, e2, e1]

theorem UseCountsInitializers_plan {ss : SessionState} {graph : Graph} :
    ∀ (l : List MLValueName) (p p' : PlannerImpl),
      UseCountsInitializers ss graph l p = .ok p' → p'.plan_ = p.plan_ := by
  intro l
  induction l with
  | nil => intro p p' h; simp only [UseCountsInitializers, pure_ok] at h; rw [h]
  | cons a rest ih =>
    intro p p' h
    simp only [UseCountsInitializers, bind_ok] at h
    obtain ⟨index, _, p1, h1, index2, _, p2, h2, h3⟩ := h
    obtain ⟨_, _, _, e1, _⟩ := modifyInfo_ok h1
    obtain ⟨_, _, _, e2, _⟩ := modifyInfo_ok h2
    rw [ih _ _ h3, e2, e1]

theorem UseCountsNodeInputs_plan {ss : SessionState} :
    ∀ (l : List NodeArg) (p p' : PlannerImpl),
      UseCountsNodeInputs ss l p = .ok p' → p'.plan_ = p.plan_ := by
  intro l
  induction l with
  | nil => intro p p' h; simp only [UseCountsNodeInputs, pure_ok] at h; rw [h]
  | cons a rest ih =>
    intro p p' h
    unfold UseCountsNodeInputs at h
    by_cases he : a.Exists = true
    · simp only [he, if_true, bind_ok] at h
      obtain ⟨index, _, p1, h1, h3⟩ := h
      obtain ⟨_, _, _, e1, _⟩ := modifyInfo_ok h1
      rw [ih _ _ h3, e1]
    · simp only [he, if_false] at h
      exact ih _ _ h

theorem UseCountsGraphOutputs_plan {ss : SessionState} :
    ∀ (l : List NodeArg) (p p' : PlannerImpl),
      UseCountsGraphOutputs ss l p = .ok p' → p'.plan_ = p.plan_ := by
  intro l
  induction l with
  | nil => intro p p' h; simp only [UseCountsGraphOutputs, pure_ok] at h; rw [h]
  | cons a rest ih =>
    intro p p' h
    simp only [UseCountsGraphOutputs, bind_ok] at h
    obtain ⟨index, _, p1, h1, h3⟩ := h
    obtain ⟨_, _, _, e1, _⟩ := modifyInfo_ok h1
    rw [ih _ _ h3, e1]

/-- The location assignment for one output: the fence flags stay, and only the location of
the output changes, to the one that `OutputLocation` describes. -/
theorem AssignOutputLocation_entry {ss : SessionState} {node_index : NodeIndex}
    {k : KernelDef} {i : Nat} {index : MLValueIndex} {p p' : PlannerImpl}
    (h : AssignOutputLocation ss node_index
      (ss.GetAllocatorInfo node_index MemType.kMemTypeDefault) k.OutputMemoryType i index p =
        .ok p') :
    (∀ v, (entry p'.plan_ v).create_fence = (entry p.plan_ v).create_fence) ∧
    (∀ v, v ≠ index → (entry p'.plan_ v).location = (entry p.plan_ v).location) ∧
    (entry p'.plan_ index).location =
      OutputLocation ss node_index k i (entry p.plan_ index).location := by
  unfold AssignOutputLocation at h
  unfold OutputLocation
  split at h
  · rename_i hcpu
    rw [if_neg hcpu]
    split at h
    · rename_i hlook
      obtain ⟨_, he, _⟩ := modifyAllocPlan_ok h
      refine ⟨fun v => ?_, fun v hv => ?_, ?_⟩
      · rw [he v]; split <;> simp_all
      · rw [he v]; simp [hv]
      · rw [he index, hlook]; simp
    · rename_i mt hlook
      obtain ⟨_, he, _⟩ := modifyAllocPlan_ok h
      refine ⟨fun v => ?_, fun v hv => ?_, ?_⟩
      · rw [he v]; split <;> simp_all
      · rw [he v]; simp [hv]
      · rw [he index, hlook]; simp
  · rename_i hcpu
    simp only [pure_ok] at h
    subst h
    have hcpu' : (ss.GetAllocatorInfo node_index MemType.kMemTypeDefault).name = CPU := by
      by_contra hne; exact hcpu hne
    rw [if_pos hcpu']
    exact ⟨fun _ => rfl, fun _ _ => rfl, rfl⟩

/-- The output loop of one node in `ComputeUseCounts`, seen from the allocation plan: fences
stay, the location of a value that is no output of the node stays, and the location of an
output is the one described by `OutputLocation` for its position. -/
theorem UseCountsNodeOutputs_plan {ss : SessionState} {node_index : NodeIndex} {k : KernelDef} :
    ∀ (outs : List NodeArg) (i0 : Nat) (p p' : PlannerImpl),
      UseCountsNodeOutputs ss node_index
        (ss.GetAllocatorInfo node_index MemType.kMemTypeDefault) k.OutputMemoryType outs i0 p =
          .ok p' →
      (∀ v, (entry p'.plan_ v).create_fence = (entry p.plan_ v).create_fence) ∧
      (∀ v, v ∉ ArgIndices ss outs → (entry p'.plan_ v).location = (entry p.plan_ v).location) ∧
      ((ArgIndices ss outs).Nodup →
        ∀ (pre : List NodeArg) (o : NodeArg) (post : List NodeArg) (c : MLValueIndex),
          outs = pre ++ o :: post → o.Exists = true → ss.GetMLValueIdx o.Name = some c →
          (entry p'.plan_ c).location =
            OutputLocation ss node_index k (i0 + pre.length) (entry p.plan_ c).location) := by
  intro outs
  induction outs with
  | nil =>
    intro i0 p p' h
    simp only [UseCountsNodeOutputs, pure_ok] at h
    subst h
    refine ⟨fun _ => rfl, fun _ _ => rfl, ?_⟩
    intro _ pre o post c hdefs
    simp at hdefs
  | cons a rest ih =>
    intro i0 p p' h
    unfold UseCountsNodeOutputs at h
    by_cases he : a.Exists = true
    · simp only [he, if_true, bind_ok] at h
      obtain ⟨index, hi, p1, h1, p2, h2, h3⟩ := h
      have hi' := Index_ok hi
      have e1 : p1.plan_ = p.plan_ := by
        unfold ProcessDef at h1
        exact (modifyInfo_ok h1).choose_spec.2.2.1
      obtain ⟨fc2, fo2, fl2⟩ := AssignOutputLocation_entry h2
      obtain ⟨fc3, fo3, fl3⟩ := ih (i0 + 1) p2 p' h3
      rw [e1] at fc2 fo2 fl2
      rw [ArgIndices_cons_exists he hi']
      refine ⟨fun v => by rw [fc3, fc2], ?_, ?_⟩
      · intro v hv
        have hvi : v ≠ index := fun h => hv (h ▸ List.mem_cons_self _ _)
        have hr : v ∉ ArgIndices ss rest := fun h => hv (List.mem_cons_of_mem _ h)
        rw [fo3 v hr, fo2 v hvi]
      · intro hnd pre o post c hdefs hoe hoc
        obtain ⟨hnotin, hnd'⟩ := List.nodup_cons.mp hnd
        cases pre with
        | nil =>
          simp only [List.nil_append, List.cons.injEq] at hdefs
          obtain ⟨hao, hrest⟩ := hdefs
          subst hao
          rw [hi'] at hoc
          cases hoc
          rw [fo3 index hnotin, fl2]
          simp
        | cons b pre' =>
          simp only [List.cons_append, List.cons.injEq] at hdefs
          obtain ⟨hab, hrest⟩ := hdefs
          have hcr : c ∈ ArgIndices ss rest := by
            rw [hrest]
            simp only [ArgIndices, List.mem_filterMap, List.mem_filter]
            exact ⟨o, ⟨by simp, hoe⟩, hoc⟩
          have hci : c ≠ index := fun h => hnotin (h ▸ hcr)
          rw [fl3 hnd' pre' o post c hrest hoe hoc, fo2 c hci]
          simp only [List.length_cons]
          congr 1
          omega
    · simp only [he, if_false] at h
      rw [ArgIndices_cons_missing he]
      obtain ⟨fc3, fo3, fl3⟩ := ih (i0 + 1) p p' h
      refine ⟨fc3, fo3, ?_⟩
      intro hnd pre o post c hdefs hoe hoc
      cases pre with
      | nil =>
        simp only [List.nil_append, List.cons.injEq] at hdefs
        obtain ⟨hao, _⟩ := hdefs
        subst hao
        exact absurd hoe he
      | cons b pre' =>
        simp only [List.cons_append, List.cons.injEq] at hdefs
        obtain ⟨hab, hrest⟩ := hdefs
        rw [fl3 hnd pre' o post c hrest hoe hoc]
        simp only [List.length_cons]
        congr 1
        omega

/-- The fence lambda sets the flag of the values it visits and leaves locations alone. -/
theorem MarkCreateFence_plan {ss : SessionState} :
    ∀ (args : List NodeArg) (p p' : PlannerImpl),
      MarkCreateFence ss args p = .ok p' →
      (∀ v, (entry p'.plan_ v).location = (entry p.plan_ v).location) ∧
      (∀ v, (entry p'.plan_ v).create_fence = true ↔
        (entry p.plan_ v).create_fence = true ∨
          ∃ a ∈ args, ss.GetMLValueIdx a.Name = some v) := by
  intro args
  induction args with
  | nil =>
    intro p p' h
    simp only [MarkCreateFence, pure_ok] at h
    subst h
    exact ⟨fun _ => rfl, fun v => by simp⟩
  | cons a rest ih =>
    intro p p' h
    simp only [MarkCreateFence, bind_ok] at h
    obtain ⟨index, hi, p1, h1, h2⟩ := h
    have hi' := Index_ok hi
    obtain ⟨_, he, _⟩ := modifyAllocPlan_ok h1
    obtain ⟨l2, c2⟩ := ih p1 p' h2
    refine ⟨fun v => ?_, fun v => ?_⟩
    · rw [l2, he v]; split <;> simp_all
    · rw [c2 v, he v]
      by_cases hv : v = index
      · subst hv
        simp only [if_true, true_or, true_iff]
        exact Or.inr ⟨a, List.mem_cons_self _ _, hi'⟩
      · simp only [hv, if_false, List.mem_cons, exists_eq_or_imp, hi', Option.some.injEq]
        constructor
        · rintro (h | h)
          · exact Or.inl h
          · exact Or.inr (Or.inr h)
        · rintro (h | h | h)
          · exact Or.inl h
          · exact absurd h.symm hv
          · exact Or.inr h
theorem FencedBy_cons {ss : SessionState} {graph : Graph} {step : NodeExecutionPlan}
    {rest : List NodeExecutionPlan} {v : MLValueIndex} :
    FencedBy ss graph (step :: rest) v ↔
      FencedBy ss graph [step] v ∨ FencedBy ss graph rest v := by
  simp only [FencedBy, List.mem_cons, List.mem_singleton, exists_eq_or_imp, List.not_mem_nil,
    or_false, exists_eq_left]

/-- The node loop of `ComputeUseCounts`, seen from the fence flags: a flag is set afterwards
if and only if it was set before or a queued node of the loop touches the value. -/
theorem UseCountsSteps_fence {ss : SessionState} {graph : Graph} :
    ∀ (steps : List NodeExecutionPlan) (p p' : PlannerImpl),
      UseCountsSteps ss graph steps p = .ok p' →
      ∀ v, (entry p'.plan_ v).create_fence = true ↔
        (entry p.plan_ v).create_fence = true ∨ FencedBy ss graph steps v := by
  intro steps
  induction steps with
  | nil =>
    intro p p' h v
    simp only [UseCountsSteps, pure_ok] at h
    subst h
    simp [FencedBy]
  | cons step rest ih =>
    intro p p' h v
    obtain ⟨pnode, k, p1, p2, p3, hn, hk, h1, h2, h3, h4⟩ := UseCountsSteps_cons h
    have e1 := UseCountsNodeInputs_plan _ _ _ h1
    obtain ⟨fc2, _, _⟩ := UseCountsNodeOutputs_plan _ _ _ _ h2
    rw [ih p3 p' h4 v, FencedBy_cons]
    have hhead : (entry p3.plan_ v).create_fence = true ↔
        (entry p.plan_ v).create_fence = true ∨ FencedBy ss graph [step] v := by
      unfold MarkCreateFenceIfQueued at h3
      split at h3
      · rename_i hq
        obtain ⟨_, c3⟩ := MarkCreateFence_plan _ _ _ h3
        rw [c3 v, fc2 v, e1]
        apply or_congr Iff.rfl
        simp only [FencedBy, List.mem_singleton, exists_eq_left, hn, hk, Option.some.injEq,
          Node.ForEachDef, List.mem_filter]
        constructor
        · rintro ⟨a, ⟨ha, hex⟩, hi⟩
          exact ⟨pnode, k, rfl, rfl, hq, a, ha, hex, hi⟩
        · rintro ⟨_, _, rfl, rfl, _, a, ha, hex, hi⟩
          exact ⟨a, ⟨ha, hex⟩, hi⟩
      · rename_i hq
        simp only [pure_ok] at h3
        subst h3
        rw [fc2 v, e1]
        constructor
        · exact fun h => Or.inl h
        · rintro (h | h)
          · exact h
          · simp only [FencedBy, List.mem_singleton, exists_eq_left, hn, hk,
              Option.some.injEq] at h
            obtain ⟨_, _, rfl, rfl, hne, _⟩ := h
            exact absurd hne hq
    rw [hhead, or_assoc]

/-- The node loop of `ComputeUseCounts` leaves the location of a value alone that no node of
the loop produces. -/
theorem UseCountsSteps_location_other {ss : SessionState} {graph : Graph} :
    ∀ (steps : List NodeExecutionPlan) (p p' : PlannerImpl),
      UseCountsSteps ss graph steps p = .ok p' →
      ∀ v, v ∉ AllWrites ss (StepNodes graph steps) →
        (entry p'.plan_ v).location = (entry p.plan_ v).location := by
  intro steps
  induction steps with
  | nil =>
    intro p p' h v _
    simp only [UseCountsSteps, pure_ok] at h
    subst h
    rfl
  | cons step rest ih =>
    intro p p' h v hv
    obtain ⟨pnode, k, p1, p2, p3, hn, hk, h1, h2, h3, h4⟩ := UseCountsSteps_cons h
    rw [StepNodes_cons hn] at hv
    simp only [AllWrites, List.flatMap_cons, List.mem_append, not_or] at hv
    have e1 := UseCountsNodeInputs_plan _ _ _ h1
    obtain ⟨_, fo2, _⟩ := UseCountsNodeOutputs_plan _ _ _ _ h2
    have l3 : (entry p3.plan_ v).location = (entry p2.plan_ v).location := by
      unfold MarkCreateFenceIfQueued at h3
      split at h3
      · exact (MarkCreateFence_plan _ _ _ h3).1 v
      · simp only [pure_ok] at h3
        subst h3
        rfl
    rw [ih p3 p' h4 v hv.2, l3, fo2 v hv.1, e1]

/-- The location that the node loop of `ComputeUseCounts` leaves for an output of one of its
nodes, when every value is produced once. -/
theorem UseCountsSteps_location {ss : SessionState} {graph : Graph} :
    ∀ (spre : List NodeExecutionPlan) (s : NodeExecutionPlan) (spost : List NodeExecutionPlan)
      (p p' : PlannerImpl),
      UseCountsSteps ss graph (spre ++ s :: spost) p = .ok p' →
      (AllWrites ss (StepNodes graph (spre ++ s :: spost))).Nodup →
      ∀ (n : Node) (k : KernelDef) (pre : List NodeArg) (o : NodeArg) (post : List NodeArg)
        (c : MLValueIndex), graph.GetNode s.node_index = some n →
        ss.GetKernelDef s.node_index = some k → n.OutputDefs = pre ++ o :: post →
        o.Exists = true → ss.GetMLValueIdx o.Name = some c →
        (entry p'.plan_ c).location =
          OutputLocation ss s.node_index k pre.length (entry p.plan_ c).location := by
  intro spre
  induction spre with
  | nil =>
    intro s spost p p' h hnd n k pre o post c hn hk hdefs hoe hoc
    rw [List.nil_append] at h hnd
    obtain ⟨pnode, k', p1, p2, p3, hn', hk', h1, h2, h3, h4⟩ := UseCountsSteps_cons h
    rw [hn] at hn'
    cases hn'
    rw [hk] at hk'
    cases hk'
    rw [StepNodes_cons hn] at hnd
    simp only [AllWrites, List.flatMap_cons] at hnd
    obtain ⟨hnd1, _, hdisj⟩ := List.nodup_append.mp hnd
    have hcw : c ∈ n.Writes ss := mem_Writes (by rw [hdefs]; simp) hoe hoc
    have hnot : c ∉ AllWrites ss (StepNodes graph spost) := fun hm => hdisj hcw hm
    have e1 := UseCountsNodeInputs_plan _ _ _ h1
    obtain ⟨_, _, fl2⟩ := UseCountsNodeOutputs_plan _ _ _ _ h2
    have l3 : (entry p3.plan_ c).location = (entry p2.plan_ c).location := by
      unfold MarkCreateFenceIfQueued at h3
      split at h3
      · exact (MarkCreateFence_plan _ _ _ h3).1 c
      · simp only [pure_ok] at h3
        subst h3
        rfl
    rw [UseCountsSteps_location_other _ _ _ h4 c hnot, l3,
      fl2 hnd1 pre o post c hdefs hoe hoc, e1, Nat.zero_add]
  | cons t spre ih =>
    intro s spost p p' h hnd n k pre o post c hn hk hdefs hoe hoc
    rw [List.cons_append] at h hnd
    obtain ⟨pnode, k', p1, p2, p3, hn', hk', h1, h2, h3, h4⟩ := UseCountsSteps_cons h
    rw [StepNodes_cons hn'] at hnd
    simp only [AllWrites, List.flatMap_cons] at hnd
    obtain ⟨_, hnd2, hdisj⟩ := List.nodup_append.mp hnd
    have hcw : c ∈ AllWrites ss (StepNodes graph (spre ++ s :: spost)) := by
      simp only [AllWrites, StepNodes, List.filterMap_append, List.filterMap_cons, hn,
        List.flatMap_append, List.flatMap_cons, List.mem_append]
      exact Or.inr (Or.inl (mem_Writes (by rw [hdefs]; simp) hoe hoc))
    have hnot : c ∉ pnode.Writes ss := fun hm => hdisj hm hcw
    have e1 := UseCountsNodeInputs_plan _ _ _ h1
    obtain ⟨_, fo2, _⟩ := UseCountsNodeOutputs_plan _ _ _ _ h2
    have l3 : (entry p3.plan_ c).location = (entry p2.plan_ c).location := by
      unfold MarkCreateFenceIfQueued at h3
      split at h3
      · exact (MarkCreateFence_plan _ _ _ h3).1 c
      · simp only [pure_ok] at h3
        subst h3
        rfl
    rw [ih s spost p3 p' h4 hnd2 n k pre o post c hn hk hdefs hoe hoc, l3, fo2 c hnot, e1]
/-- The fence flags after `ComputeUseCounts`. -/
theorem ComputeUseCounts_fence {ss : SessionState} {graph : Graph} {p p' : PlannerImpl}
    (h : ComputeUseCounts ss graph p = .ok p') (v : MLValueIndex) :
    (entry p'.plan_ v).create_fence = true ↔
      (entry p.plan_ v).create_fence = true ∨ FencedBy ss graph p.plan_.execution_plan v := by
  obtain ⟨p1, p2, p3, h1, h2, h3, h4⟩ := ComputeUseCounts_split h
  rw [UseCountsGraphOutputs_plan _ _ _ h4, UseCountsSteps_fence _ _ _ h3 v,
    UseCountsInitializers_plan _ _ _ h2, UseCountsGraphInputs_plan _ _ _ h1]

/-- The location that `ComputeUseCounts` leaves for an output of a scheduled node, when every
value is produced once. -/
theorem ComputeUseCounts_location {ss : SessionState} {graph : Graph} {p p' : PlannerImpl}
    (h : ComputeUseCounts ss graph p = .ok p')
    (hnd : (AllWrites ss (StepNodes graph p.plan_.execution_plan)).Nodup)
    {spre : List NodeExecutionPlan} {s : NodeExecutionPlan} {spost : List NodeExecutionPlan}
    (hs : p.plan_.execution_plan = spre ++ s :: spost)
    {n : Node} {k : KernelDef} {pre : List NodeArg} {o : NodeArg} {post : List NodeArg}
    {c : MLValueIndex} (hn : graph.GetNode s.node_index = some n)
    (hk : ss.GetKernelDef s.node_index = some k) (hdefs : n.OutputDefs = pre ++ o :: post)
    (hoe : o.Exists = true) (hoc : ss.GetMLValueIdx o.Name = some c) :
    (entry p'.plan_ c).location =
      OutputLocation ss s.node_index k pre.length (entry p.plan_ c).location := by
  obtain ⟨p1, p2, p3, h1, h2, h3, h4⟩ := ComputeUseCounts_split h
  rw [hs] at h3 hnd
  rw [UseCountsGraphOutputs_plan _ _ _ h4,
    UseCountsSteps_location spre s spost p2 p3 h3 hnd n k pre o post c hn hk hdefs hoe hoc,
    UseCountsInitializers_plan _ _ _ h2, UseCountsGraphInputs_plan _ _ _ h1]

/-- The fence flags of the plan that `CreatePlan` produces. -/
theorem CreatePlanImpl_fence {ss : SessionState} {ctx : ISequentialPlannerContext}
    {plan : SequentialExecutionPlan} {p : PlannerImpl} {graph : Graph} {order : List NodeIndex}
    (h : CreatePlanImpl ss ctx plan = .ok p) (hg : ss.Graph = some graph)
    (ho : graph.NodesInTopologicalOrder = .ok order) (v : MLValueIndex) :
    (entry p.plan_ v).create_fence = true ↔
      FencedBy ss graph (ScheduledNodes graph order) v := by
  obtain ⟨graph', order', p0, p1, p2, p3, p4, hg', ho', ⟨_, _, he0, _, hx0, _⟩, h1, h2, h3, h4, hp⟩ :=
    CreatePlanImpl_split h
  rw [hg] at hg'
  cases hg'
  rw [ho] at ho'
  cases ho'
  subst hp
  have f4 := ReusePlanSteps_frame _ _ _ _ h4
  obtain ⟨_, _, _, _, _, _, same3⟩ := PlanWeightsOfNodes_acc _ _ _ h3
  obtain ⟨_, _, _, _, _, _, same2⟩ := ReusePlanGraphInputs_acc _ _ _ h2
  simp only [entry_GenerateDeallocationPlan]
  rw [f4.create_fence v, (same3 v).1, (same2 v).2.1, ComputeUseCounts_fence h1 v, hx0, he0 v]
  simp
/-- The node loop of `ComputeUseCounts` adds its reads to the count of a value that none of its
nodes produces. -/
theorem UseCountsSteps_counts_other {ss : SessionState} {graph : Graph} :
    ∀ (steps : List NodeExecutionPlan) (p p' : PlannerImpl),
      UseCountsSteps ss graph steps p = .ok p' →
      ∀ v, v ∉ AllWrites ss (StepNodes graph steps) →
        cnt p' v = cnt p v + ((AllReads ss (StepNodes graph steps)).count v : Nat) := by
  intro steps
  induction steps with
  | nil =>
    intro p p' h v _
    simp only [UseCountsSteps, pure_ok] at h
    subst h
    simp [StepNodes, AllReads]
  | cons step rest ih =>
    intro p p' h v hv
    obtain ⟨pnode, k, p1, p2, p3, hn, hk, h1, h2, h3, h4⟩ := UseCountsSteps_cons h
    rw [StepNodes_cons hn] at hv ⊢
    simp only [AllWrites, List.flatMap_cons, List.mem_append, not_or] at hv
    obtain ⟨_, _, _, c1⟩ := UseCountsNodeInputs_acc _ _ _ h1
    obtain ⟨_, _, out2, _⟩ := UseCountsNodeOutputs_acc _ _ _ _ h2
    obtain ⟨_, _, _, c3⟩ := MarkCreateFenceIfQueued_acc h3
    rw [ih p3 p' h4 v hv.2, c3, (out2 v hv.1).2, c1]
    simp only [AllReads, List.flatMap_cons, List.count_append, Node.Reads]
    push_cast
    ring

/-- Use counts after `ComputeUseCounts`, for every value: the reads by scheduled nodes, one
phantom use if the value is a graph input or an initializer, and one per occurrence among the
graph outputs. -/
theorem ComputeUseCounts_counts_all {ss : SessionState} {graph : Graph} {p p' : PlannerImpl}
    (h : ComputeUseCounts ss graph p = .ok p')
    (hvo : ValidOrder ss (InitiallyDefined ss graph) (StepNodes graph p.plan_.execution_plan))
    (h0 : ∀ v, cnt p v = 0) (v : MLValueIndex) :
    cnt p' v = ((AllReads ss (StepNodes graph p.plan_.execution_plan)).count v : Nat) +
      (if v ∈ InitiallyDefined ss graph then 1 else 0) +
      ((OutputIndices ss graph).count v : Nat) := by
  by_cases hv : v ∈ InitiallyDefined ss graph ∨
      v ∈ AllWrites ss (StepNodes graph p.plan_.execution_plan)
  · obtain ⟨_, hc⟩ := (ComputeUseCounts_counts h hvo h0).1 v hv
    rw [hc]
    simp only [Pinned, List.count_append, List.count_dedup]
    push_cast
    ring
  · simp only [not_or] at hv
    obtain ⟨hd, hw⟩ := hv
    obtain ⟨p1, p2, p3, h1, h2, h3, h4⟩ := ComputeUseCounts_split h
    obtain ⟨_, _, out1, _⟩ := UseCountsGraphInputs_acc _ _ _ h1
    obtain ⟨_, _, out2, _⟩ := UseCountsInitializers_acc _ _ _ h2
    obtain ⟨_, _, _, c4⟩ := UseCountsGraphOutputs_acc _ _ _ h4
    simp only [InitiallyDefined, List.mem_append, not_or] at hd
    rw [c4, UseCountsSteps_counts_other _ _ _ h3 v hw, (out2 v hd.2).2, (out1 v hd.1).2, h0]
    have hnd : v ∉ InitiallyDefined ss graph := by
      simp only [InitiallyDefined, List.mem_append, not_or]
      exact hd
    rw [if_neg hnd]
    simp only [OutputIndices]
    ring
/-- A table whose entries all have use count zero reads as zero everywhere. -/
theorem cnt_zero_of_all {p : PlannerImpl} (h : ∀ i ∈ p.ml_value_info_, i.usecount = 0)
    (v : MLValueIndex) : cnt p v = 0 := by
  unfold cnt
  split
  · rename_i i hi
    obtain ⟨hlt, he⟩ := List.getElem?_eq_some_iff.mp hi
    exact h i (he ▸ List.getElem_mem hlt)
  · rfl

/-! ## The size of the allocation plan -/

theorem Reuse_length {p p' : PlannerImpl} {r c : MLValueIndex} (h : Reuse p r c = .ok p') :
    p'.plan_.allocation_plan.length = p.plan_.allocation_plan.length := by
  unfold Reuse at h
  by_cases hne : r = c
  · simp [hne, bind_ok, throw_ok] at h
  · simp only [hne, if_false, bind_ok, pure_ok] at h
    obtain ⟨_, _, original, _, p1, h1, count, _, p2, h2, h3⟩ := h
    obtain ⟨_, _, _, hp1, _⟩ := modifyInfo_ok h1
    obtain ⟨_, _, _, hp2, _⟩ := modifyInfo_ok h2
    obtain ⟨_, _, _, _, _, _, hl⟩ := modifyAllocPlan_ok h3
    rw [hl, hp2, hp1]

theorem OutputDecision.length {ss : SessionState} {ctx : ISequentialPlannerContext}
    {graph : Graph} {pnode : Node} {o : NodeArg} {j : Nat} {c : MLValueIndex}
    {p p' : PlannerImpl} (hd : OutputDecision ss ctx graph pnode o j c p p') :
    p'.plan_.allocation_plan.length = p.plan_.allocation_plan.length := by
  cases hd with
  | graph_output p1 h1 hgo h2 =>
    rw [(modifyAllocPlan_ok h2).2.2.2.2.2.2, (modifyAllocPlan_ok h1).2.2.2.2.2.2]
  | non_tensor p1 h1 hgo hnt h2 =>
    rw [(modifyAllocPlan_ok h2).2.2.2.2.2.2, (modifyAllocPlan_ok h1).2.2.2.2.2.2]
  | reuse_input p1 reused h1 hgo hnt hfi h2 =>
    rw [Reuse_length h2, (modifyAllocPlan_ok h1).2.2.2.2.2.2]
  | reuse_free p1 p2 reused h1 hgo hnt hfi hft h2 =>
    obtain ⟨_, hplan, _, _⟩ := FindReusableTensor_acc hft
    rw [Reuse_length h2, hplan, (modifyAllocPlan_ok h1).2.2.2.2.2.2]
  | allocate p1 p2 h1 hgo hnt hfi hft h2 =>
    obtain ⟨_, hplan, _, _⟩ := FindReusableTensor_acc hft
    rw [(modifyAllocPlan_ok h2).2.2.2.2.2.2, hplan, (modifyAllocPlan_ok h1).2.2.2.2.2.2]

theorem ReusePlanOutputs_length {ss : SessionState} {ctx : ISequentialPlannerContext}
    {graph : Graph} {pnode : Node} :
    ∀ (outs : List NodeArg) (j : Nat) (p p' : PlannerImpl),
      ReusePlanOutputs ss ctx graph pnode outs j p = .ok p' →
      p'.plan_.allocation_plan.length = p.plan_.allocation_plan.length := by
  intro outs
  induction outs with
  | nil =>
    intro j p p' h
    simp only [ReusePlanOutputs, pure_ok] at h
    subst h
    rfl
  | cons o rest ih =>
    intro j p p' h
    unfold ReusePlanOutputs at h
    by_cases he : o.Exists = true
    · simp only [he, Bool.not_true, Bool.false_eq_true, if_false, bind_ok] at h
      obtain ⟨p1, h1, h2⟩ := h
      obtain ⟨c, _, hd⟩ := ReusePlanOutput_cases h1
      rw [ih _ _ _ h2, hd.length]
    · have he' : o.Exists = false := by simpa using he
      simp only [he', Bool.not_false, if_true] at h
      exact ih _ _ _ h

/-- The program-counter loop keeps the size of the allocation plan. -/
theorem ReusePlanSteps_length {ss : SessionState} {ctx : ISequentialPlannerContext}
    {graph : Graph} :
    ∀ (steps : List NodeExecutionPlan) (pc : Nat) (p p' : PlannerImpl),
      ReusePlanSteps ss ctx graph steps pc p = .ok p' →
      p'.plan_.allocation_plan.length = p.plan_.allocation_plan.length := by
  intro steps
  induction steps with
  | nil =>
    intro pc p p' h
    simp only [ReusePlanSteps, pure_ok] at h
    subst h
    rfl
  | cons step rest ih =>
    intro pc p p' h
    simp only [ReusePlanSteps, bind_ok] at h
    obtain ⟨p3, hstep, hrest⟩ := h
    obtain ⟨pnode, p1, p2, hn, h1, h2, h3⟩ := ReusePlanStep_split hstep
    rw [ih _ _ _ hrest, (FreeUnusedOutputs_plan _ _ _ h3).1, (FreeInputs_plan _ _ _ h2).1,
      ReusePlanOutputs_length _ _ _ _ h1]
/-! ## The weight pass, occurrence by occurrence -/

/-- The lambda of `GeneratePlanForWeights` on a def that is an existing initializer. -/
theorem PlanWeightsOfNode_weight {ss : SessionState} {graph : Graph} {node : Node}
    {d : NodeArg} {rest : List NodeArg} {index : Nat} {p p' : PlannerImpl}
    (hde : d.Exists = true) (hdi : graph.AllInitializedTensors.contains d.Name = true)
    (h : PlanWeightsOfNode ss graph node (d :: rest) index p = .ok p') :
    ∃ w p_provider k location p1, ss.GetMLValueIdx d.Name = some w ∧
      ss.GetExecutionProvider node.ExecutionProviderType = some p_provider ∧
      ss.GetKernelDef node.Index = some k ∧
      WeightLocation ss p_provider k index = .ok location ∧
      p.modifyAllocPlan w (fun a =>
        { a with alloc_kind := AllocKind.kAllocateStatically, location := location }) = .ok p1 ∧
      PlanWeightsOfNode ss graph node rest (index + 1) p1 = .ok p' := by
  unfold PlanWeightsOfNode at h
  simp only [hde, hdi, Bool.not_true, Bool.or_self, Bool.false_eq_true, if_false, bind_ok] at h
  obtain ⟨w, hi, h⟩ := h
  split at h
  · rename_i p_provider k hp hk
    simp only [bind_ok] at h
    obtain ⟨location, hl, p1, h1, h2⟩ := h
    exact ⟨w, p_provider, k, location, p1, Index_ok hi, hp, hk, hl, h1, h2⟩
  · simp only [throw_ok] at h

/-- The lambda of `GeneratePlanForWeights` over a def list in two parts. -/
theorem PlanWeightsOfNode_append {ss : SessionState} {graph : Graph} {node : Node} :
    ∀ (l1 l2 : List NodeArg) (i : Nat) (p p' : PlannerImpl),
      PlanWeightsOfNode ss graph node (l1 ++ l2) i p = .ok p' ↔
        ∃ q, PlanWeightsOfNode ss graph node l1 i p = .ok q ∧
          PlanWeightsOfNode ss graph node l2 (i + l1.length) q = .ok p' := by
  intro l1
  induction l1 with
  | nil =>
    intro l2 i p p'
    simp [PlanWeightsOfNode, pure_ok]
  | cons d rest ih =>
    intro l2 i p p'
    have hlen : i + (d :: rest).length = i + 1 + rest.length := by
      simp only [List.length_cons]; omega
    rw [hlen, List.cons_append]
    have ih' := ih l2 (i + 1)
    generalize PlanWeightsOfNode ss graph node l2 (i + 1 + rest.length) = f at ih' ⊢
    unfold PlanWeightsOfNode
    by_cases hc : (!d.Exists || !graph.AllInitializedTensors.contains d.Name) = true
    · simp only [hc, if_true]
      exact ih' p p'
    · simp only [hc, Bool.false_eq_true, if_false, bind_ok]
      constructor
      · rintro ⟨w, hi, h⟩
        split at h
        · rename_i p_provider k hp hk
          simp only [bind_ok] at h
          obtain ⟨location, hl, p1, h1, h2⟩ := h
          obtain ⟨q, hq1, hq2⟩ := (ih' p1 p').mp h2
          refine ⟨q, ⟨w, hi, ?_⟩, hq2⟩
          simp only [hp, hk, bind_ok]
          exact ⟨location, hl, p1, h1, hq1⟩
        · simp only [throw_ok] at h
      · rintro ⟨q, ⟨w, hi, h⟩, hq2⟩
        refine ⟨w, hi, ?_⟩
        split at h
        · rename_i p_provider k hp hk
          simp only [bind_ok] at h
          obtain ⟨location, hl, p1, h1, hq1⟩ := h
          simp only [hp, hk, bind_ok]
          exact ⟨location, hl, p1, h1, (ih' p1 p').mpr ⟨q, hq1, hq2⟩⟩
        · simp only [throw_ok] at h

/-- The loop of `GeneratePlanForWeights` over a node list in two parts. -/
theorem PlanWeightsOfNodes_append {ss : SessionState} {graph : Graph} :
    ∀ (l1 l2 : List Node) (p p' : PlannerImpl),
      PlanWeightsOfNodes ss graph (l1 ++ l2) p = .ok p' ↔
        ∃ q, PlanWeightsOfNodes ss graph l1 p = .ok q ∧
          PlanWeightsOfNodes ss graph l2 q = .ok p' := by
  intro l1
  induction l1 with
  | nil =>
    intro l2 p p'
    simp [PlanWeightsOfNodes, pure_ok]
  | cons n rest ih =>
    intro l2 p p'
    simp only [List.cons_append, PlanWeightsOfNodes, bind_ok]
    constructor
    · rintro ⟨p1, h1, h2⟩
      obtain ⟨q, hq1, hq2⟩ := (ih l2 p1 p').mp h2
      exact ⟨q, ⟨p1, h1, hq1⟩, hq2⟩
    · rintro ⟨q, ⟨p1, h1, hq1⟩, hq2⟩
      exact ⟨p1, h1, (ih l2 p1 p').mpr ⟨q, hq1, hq2⟩⟩

/-- A successful weight pass, split at one consuming occurrence of an initializer: the state
`q0` in which the lambda is called for the occurrence, the state `q1` it leaves, and the rest
of the pass. -/
theorem PlanWeightsOfNodes_occurrence {ss : SessionState} {graph : Graph}
    {npre : List Node} {n : Node} {npost : List Node} {dpre : List NodeArg} {d : NodeArg}
    {dpost : List NodeArg} {p p' : PlannerImpl}
    (h : PlanWeightsOfNodes ss graph (npre ++ n :: npost) p = .ok p')
    (hd : n.InputDefs = dpre ++ d :: dpost) (hde : d.Exists = true)
    (hdi : graph.AllInitializedTensors.contains d.Name = true) :
    ∃ w p_provider k location qn q0 q1 q2, ss.GetMLValueIdx d.Name = some w ∧
      ss.GetExecutionProvider n.ExecutionProviderType = some p_provider ∧
      ss.GetKernelDef n.Index = some k ∧
      WeightLocation ss p_provider k dpre.length = .ok location ∧
      PlanWeightsOfNodes ss graph npre p = .ok qn ∧
      PlanWeightsOfNode ss graph n dpre 0 qn = .ok q0 ∧
      q0.modifyAllocPlan w (fun a =>
        { a with alloc_kind := AllocKind.kAllocateStatically, location := location }) = .ok q1 ∧
      PlanWeightsOfNode ss graph n dpost (dpre.length + 1) q1 = .ok q2 ∧
      PlanWeightsOfNodes ss graph npost q2 = .ok p' := by
  obtain ⟨qn, hqn, hrest⟩ := (PlanWeightsOfNodes_append npre (n :: npost) p p').mp h
  simp only [PlanWeightsOfNodes, bind_ok] at hrest
  obtain ⟨q2, hnode, hpost⟩ := hrest
  rw [hd] at hnode
  obtain ⟨q0, hq0, hq⟩ := (PlanWeightsOfNode_append dpre (d :: dpost) 0 qn q2).mp hnode
  rw [Nat.zero_add] at hq
  obtain ⟨w, p_provider, k, location, q1, hw, hp, hk, hl, h1, h2⟩ :=
    PlanWeightsOfNode_weight hde hdi hq
  exact ⟨w, p_provider, k, location, qn, q0, q1, q2, hw, hp, hk, hl, hqn, hq0, h1, h2, hpost⟩

/-- The location `WeightLocation` returns. -/
theorem WeightLocation_ok {ss : SessionState} {p_provider : MemType → AllocatorInfo}
    {k : KernelDef} {index : Nat} {location : AllocatorInfo}
    (h : WeightLocation ss p_provider k index = .ok location) :
    (MemTypeOnCpuExplicitly k.InputMemoryType index = true →
      ∃ cpu_provider, ss.GetExecutionProvider kCpuExecutionProvider = some cpu_provider ∧
        location = cpu_provider MemType.kMemTypeDefault) ∧
    (MemTypeOnCpuExplicitly k.InputMemoryType index = false →
      location = p_provider MemType.kMemTypeDefault) := by
  unfold WeightLocation at h
  split at h
  · rename_i hc
    refine ⟨fun _ => ?_, fun hf => by rw [hc] at hf; cases hf⟩
    split at h
    · rename_i cpu_provider hcpu
      simp only [pure_ok] at h
      exact ⟨cpu_provider, hcpu, h.symm⟩
    · simp only [throw_ok] at h
  · rename_i hc
    simp only [pure_ok] at h
    exact ⟨fun ht => absurd ht hc, fun _ => h.symm⟩

/-- The entry that the last consuming occurrence of an initializer leaves is the final
one. -/
theorem PlanWeightsOfNodes_last {ss : SessionState} {graph : Graph}
    {npre : List Node} {n : Node} {npost : List Node} {dpre : List NodeArg} {d : NodeArg}
    {dpost : List NodeArg} {p p' : PlannerImpl} {w : MLValueIndex}
    (h : PlanWeightsOfNodes ss graph (npre ++ n :: npost) p = .ok p')
    (hd : n.InputDefs = dpre ++ d :: dpost) (hde : d.Exists = true)
    (hdi : graph.AllInitializedTensors.contains d.Name = true)
    (hw : ss.GetMLValueIdx d.Name = some w)
    (hl1 : w ∉ WeightIndicesOf ss graph dpost)
    (hl2 : w ∉ npost.flatMap (fun m => WeightIndicesOf ss graph m.InputDefs)) :
    ∃ p_provider k, ss.GetExecutionProvider n.ExecutionProviderType = some p_provider ∧
      ss.GetKernelDef n.Index = some k ∧
      WeightLocation ss p_provider k dpre.length = .ok (entry p'.plan_ w).location ∧
      (entry p'.plan_ w).alloc_kind = AllocKind.kAllocateStatically := by
  obtain ⟨w', p_provider, k, location, qn, q0, q1, q2, hw', hp, hk, hl, _, _, h1, h2, h3⟩ :=
    PlanWeightsOfNodes_occurrence h hd hde hdi
  rw [hw] at hw'
  cases hw'
  obtain ⟨_, he, _⟩ := modifyAllocPlan_ok h1
  obtain ⟨_, _, _, _, _, out2, _⟩ := PlanWeightsOfNode_acc _ _ _ _ h2
  obtain ⟨_, _, _, _, _, out3, _⟩ := PlanWeightsOfNodes_acc _ _ _ h3
  have hent : entry p'.plan_ w = { entry q0.plan_ w with
      alloc_kind := AllocKind.kAllocateStatically, location := location } := by
    rw [out3 w hl2, out2 w hl1, he w, if_pos rfl]
  refine ⟨p_provider, k, hp, hk, ?_, ?_⟩
  · rw [hent]; exact hl
  · rw [hent]
/-! ## Running the weight pass on another state -/

theorem PlanWeightsOfNode_skip {ss : SessionState} {graph : Graph} {node : Node}
    {d : NodeArg} {rest : List NodeArg} {index : Nat} {p : PlannerImpl}
    (hc : (!d.Exists || !graph.AllInitializedTensors.contains d.Name) = true) :
    PlanWeightsOfNode ss graph node (d :: rest) index p =
      PlanWeightsOfNode ss graph node rest (index + 1) p := by
  conv_lhs => unfold PlanWeightsOfNode
  rw [if_pos hc]

theorem PlanWeightsOfNode_weight_of {ss : SessionState} {graph : Graph} {node : Node}
    {d : NodeArg} {rest : List NodeArg} {index : Nat} {p p1 p' : PlannerImpl}
    {w : MLValueIndex} {p_provider : MemType → AllocatorInfo} {k : KernelDef}
    {location : AllocatorInfo}
    (hc : ¬ (!d.Exists || !graph.AllInitializedTensors.contains d.Name) = true)
    (hw : Index ss d.Name = .ok w)
    (hp : ss.GetExecutionProvider node.ExecutionProviderType = some p_provider)
    (hk : ss.GetKernelDef node.Index = some k)
    (hl : WeightLocation ss p_provider k index = .ok location)
    (h1 : p.modifyAllocPlan w (fun a =>
      { a with alloc_kind := AllocKind.kAllocateStatically, location := location }) = .ok p1)
    (h2 : PlanWeightsOfNode ss graph node rest (index + 1) p1 = .ok p') :
    PlanWeightsOfNode ss graph node (d :: rest) index p = .ok p' := by
  generalize hf : PlanWeightsOfNode ss graph node rest (index + 1) = f at h2
  unfold PlanWeightsOfNode
  simp only [hc, Bool.false_eq_true, if_false, bind_ok, hf]
  refine ⟨w, hw, ?_⟩
  simp only [hp, hk, bind_ok]
  exact ⟨location, hl, p1, h1, h2⟩

/-- The lambda of `GeneratePlanForWeights` succeeds on every state with an allocation plan of
the same size, and writes the same locations there. -/
theorem PlanWeightsOfNode_rerun {ss : SessionState} {graph : Graph} {node : Node} :
    ∀ (defs : List NodeArg) (index : Nat) (p p' q : PlannerImpl),
      PlanWeightsOfNode ss graph node defs index p = .ok p' →
      q.plan_.allocation_plan.length = p.plan_.allocation_plan.length →
      p'.plan_.allocation_plan.length = p.plan_.allocation_plan.length ∧
      ∃ q', PlanWeightsOfNode ss graph node defs index q = .ok q' ∧
        q'.plan_.allocation_plan.length = p'.plan_.allocation_plan.length ∧
        ∀ v ∈ WeightIndicesOf ss graph defs,
          (entry q'.plan_ v).location = (entry p'.plan_ v).location := by
  intro defs
  induction defs with
  | nil =>
    intro index p p' q h hlen
    simp only [PlanWeightsOfNode, pure_ok] at h
    subst h
    exact ⟨rfl, q, by simp [PlanWeightsOfNode, pure_ok], hlen, by simp [WeightIndicesOf]⟩
  | cons d rest ih =>
    intro index p p' q h hlen
    by_cases hc : (!d.Exists || !graph.AllInitializedTensors.contains d.Name) = true
    · rw [PlanWeightsOfNode_skip hc] at h ⊢
      rw [WeightIndicesOf_cons_skip hc]
      exact ih _ _ _ _ h hlen
    · have hde : d.Exists = true := by
        cases hE : d.Exists <;> simp_all
      have hdi : graph.AllInitializedTensors.contains d.Name = true := by
        cases hC : graph.AllInitializedTensors.contains d.Name <;> simp_all
      obtain ⟨w, p_provider, k, location, p1, hw, hp, hk, hl, h1, h2⟩ :=
        PlanWeightsOfNode_weight hde hdi h
      obtain ⟨hlt, he1, _, _, _, _, hl1⟩ := modifyAllocPlan_ok h1
      have hltq : w < q.plan_.allocation_plan.length := by rw [hlen]; exact hlt
      have hq1 : ∃ q1, q.modifyAllocPlan w (fun a =>
          { a with alloc_kind := AllocKind.kAllocateStatically, location := location }) =
            .ok q1 := by
        unfold PlannerImpl.modifyAllocPlan
        rw [List.getElem?_eq_getElem hltq]
        exact ⟨_, rfl⟩
      obtain ⟨q1, hq1⟩ := hq1
      obtain ⟨_, heq1, _, _, _, _, hlq1⟩ := modifyAllocPlan_ok hq1
      obtain ⟨hlp, q', hq', hlen', hloc⟩ :=
        ih (index + 1) p1 p' q1 h2 (by rw [hlq1, hl1, hlen])
      have hwi : Index ss d.Name = .ok w := by simp [Index, hw]
      refine ⟨hlp.trans hl1, q', PlanWeightsOfNode_weight_of hc hwi hp hk hl hq1 hq', hlen', ?_⟩
      rw [WeightIndicesOf_cons_weight hc hw]
      intro v hv
      by_cases hr : v ∈ WeightIndicesOf ss graph rest
      · exact hloc v hr
      · have hvw : v = w := by
          rcases List.mem_cons.mp hv with h | h
          · exact h
          · exact absurd h hr
        obtain ⟨_, _, _, _, _, outp, _⟩ := PlanWeightsOfNode_acc _ _ _ _ h2
        obtain ⟨_, _, _, _, _, outq, _⟩ := PlanWeightsOfNode_acc _ _ _ _ hq'
        rw [outp v hr, outq v hr, he1 v, heq1 v, if_pos hvw, if_pos hvw]

/-- The weight pass succeeds on every state with an allocation plan of the same size, and
writes the same locations there. -/
theorem PlanWeightsOfNodes_rerun {ss : SessionState} {graph : Graph} :
    ∀ (nodes : List Node) (p p' q : PlannerImpl),
      PlanWeightsOfNodes ss graph nodes p = .ok p' →
      q.plan_.allocation_plan.length = p.plan_.allocation_plan.length →
      p'.plan_.allocation_plan.length = p.plan_.allocation_plan.length ∧
      ∃ q', PlanWeightsOfNodes ss graph nodes q = .ok q' ∧
        q'.plan_.allocation_plan.length = p'.plan_.allocation_plan.length ∧
        ∀ v ∈ nodes.flatMap (fun n => WeightIndicesOf ss graph n.InputDefs),
          (entry q'.plan_ v).location = (entry p'.plan_ v).location := by
  intro nodes
  induction nodes with
  | nil =>
    intro p p' q h hlen
    simp only [PlanWeightsOfNodes, pure_ok] at h
    subst h
    exact ⟨rfl, q, by simp [PlanWeightsOfNodes, pure_ok], hlen, by simp⟩
  | cons n rest ih =>
    intro p p' q h hlen
    simp only [PlanWeightsOfNodes, bind_ok] at h ⊢
    obtain ⟨p1, h1, h2⟩ := h
    obtain ⟨hlp1, q1, hq1, hlen1, hloc1⟩ := PlanWeightsOfNode_rerun _ _ _ _ q h1 hlen
    obtain ⟨hlp', q', hq', hlen', hloc'⟩ := ih p1 p' q1 h2 hlen1
    refine ⟨hlp'.trans hlp1, q', ⟨q1, hq1, hq'⟩, hlen', ?_⟩
    intro v hv
    by_cases hr : v ∈ rest.flatMap (fun n => WeightIndicesOf ss graph n.InputDefs)
    · exact hloc' v hr
    · have hvn : v ∈ WeightIndicesOf ss graph n.InputDefs := by
        simp only [List.flatMap_cons, List.mem_append] at hv
        rcases hv with h | h
        · exact h
        · exact absurd h hr
      obtain ⟨_, _, _, _, _, outp, _⟩ := PlanWeightsOfNodes_acc _ _ _ h2
      obtain ⟨_, _, _, _, _, outq, _⟩ := PlanWeightsOfNodes_acc _ _ _ hq'
      rw [outp v hr, outq v hr]
      exact hloc1 v hvn

/-! ## The weight pass within `CreatePlan` -/

theorem AllocPlanPerValue.ext_fields {a b : AllocPlanPerValue}
    (h1 : a.alloc_kind = b.alloc_kind) (h2 : a.value_type = b.value_type)
    (h3 : a.location = b.location) (h4 : a.reused_buffer = b.reused_buffer)
    (h5 : a.create_fence = b.create_fence) : a = b := by
  cases a
  cases b
  simp only at h1 h2 h3 h4 h5
  simp [h1, h2, h3, h4, h5]

/-- Two allocation plans of the same size with the same entries are equal. -/
theorem allocation_plan_ext {a b : SequentialExecutionPlan}
    (hl : a.allocation_plan.length = b.allocation_plan.length)
    (he : ∀ v, entry a v = entry b v) : a.allocation_plan = b.allocation_plan := by
  apply List.ext_getElem hl
  intro n h1 h2
  have hn := he n
  simp only [entry, List.getElem?_eq_getElem h1, List.getElem?_eq_getElem h2] at hn
  exact hn

/-- The final location of an initializer is the one its last consuming occurrence asks
for. -/
theorem CreatePlanImpl_weight_location {ss : SessionState} {ctx : ISequentialPlannerContext}
    {plan : SequentialExecutionPlan} {p : PlannerImpl} {graph : Graph}
    {npre : List Node} {n : Node} {npost : List Node} {dpre : List NodeArg} {d : NodeArg}
    {dpost : List NodeArg} {w : MLValueIndex}
    (h : CreatePlanImpl ss ctx plan = .ok p) (hg : ss.Graph = some graph)
    (hl : LastWeightUse ss graph npre n npost dpre d dpost w) :
    ∃ p_provider k, ss.GetExecutionProvider n.ExecutionProviderType = some p_provider ∧
      ss.GetKernelDef n.Index = some k ∧
      WeightLocation ss p_provider k dpre.length = .ok (entry p.plan_ w).location := by
  obtain ⟨graph', order, p0, p1, p2, p3, p4, hg', ho, _, h1, h2, h3, h4, hp⟩ :=
    CreatePlanImpl_split h
  rw [hg] at hg'
  cases hg'
  obtain ⟨hn, hd, hde, hdi, hw, hl1, hl2⟩ := hl
  unfold GeneratePlanForWeights at h3
  rw [hn] at h3
  obtain ⟨p_provider, k, hpv, hk, hloc, _⟩ :=
    PlanWeightsOfNodes_last h3 hd hde hdi hw hl1 hl2
  refine ⟨p_provider, k, hpv, hk, ?_⟩
  subst hp
  simp only [entry_GenerateDeallocationPlan]
  rw [(ReusePlanSteps_frame _ _ _ _ h4).location w]
  exact hloc

/-- On a well-formed input the weight pass, run on any planner object that holds the plan
`CreatePlan` produced, succeeds and changes nothing. -/
theorem CreatePlanImpl_rerun_weights {ss : SessionState} {ctx : ISequentialPlannerContext}
    {plan : SequentialExecutionPlan} {p : PlannerImpl} {graph : Graph}
    (hwf : WellFormed ss) (hg : ss.Graph = some graph)
    (h : CreatePlanImpl ss ctx plan = .ok p) (q : PlannerImpl) (hq : q.plan_ = p.plan_) :
    GeneratePlanForWeights ss graph q = .ok q := by
  obtain ⟨graph', order, p0, p1, p2, p3, p4, hg', ho, _, h1, h2, h3, h4, hp⟩ :=
    CreatePlanImpl_split h
  rw [hg] at hg'
  cases hg'
  unfold WellFormed at hwf
  rw [hg] at hwf
  obtain ⟨hvo, _, _⟩ := hwf
  have hsched : graph.Scheduled = StepNodes graph (ScheduledNodes graph order) := by
    simp only [Graph.Scheduled, ho]
  rw [hsched] at hvo
  have hfinal : ∀ v, entry p.plan_ v = entry p4.plan_ v := by
    intro v
    subst hp
    simp only [entry_GenerateDeallocationPlan]
  have hlenp : p.plan_.allocation_plan.length = p4.plan_.allocation_plan.length := by
    subst hp
    simp only [(GenerateDeallocationPlan_acc _ _).1]
  unfold GeneratePlanForWeights at h3 ⊢
  obtain ⟨hl3, q', hq', hlq', hloc⟩ := PlanWeightsOfNodes_rerun graph.Nodes p2 p3 q h3
    (by rw [hq, hlenp, ReusePlanSteps_length _ _ _ _ h4, (PlanWeightsOfNodes_rerun graph.Nodes p2 p3 p2 h3 rfl).1])
  obtain ⟨_, _, _, _, in3, _, _⟩ := PlanWeightsOfNodes_acc _ _ _ h3
  obtain ⟨iq, fq, xq, tq, inq, outq, sameq⟩ := PlanWeightsOfNodes_acc _ _ _ hq'
  have hent : ∀ v, entry q'.plan_ v = entry q.plan_ v := by
    intro v
    by_cases hv : v ∈ graph.Nodes.flatMap (fun n => WeightIndicesOf ss graph n.InputDefs)
    · have hvi : v ∈ InitiallyDefined ss graph :=
        List.mem_append_right _ (PlannedWeights_sub v hv)
      have hnw := ValidOrder_disjoint _ _ hvo v hvi
      have e43 : entry p4.plan_ v = entry p3.plan_ v :=
        (ReusePlanSteps_untouched _ _ _ _ h4 v hnw).1
      have eq3 : entry q.plan_ v = entry p3.plan_ v := by rw [hq, hfinal v, e43]
      obtain ⟨c, r, t⟩ := sameq v
      apply AllocPlanPerValue.ext_fields
      · rw [inq v hv, eq3, in3 v hv]
      · exact t
      · rw [hloc v hv, eq3]
      · exact r
      · exact c
    · exact outq v hv
  have hlen : q'.plan_.allocation_plan.length = q.plan_.allocation_plan.length := by
    rw [hlq', ← ReusePlanSteps_length _ _ _ _ h4, ← hlenp, hq]
  have hap := allocation_plan_ext hlen hent
  rw [hq']
  congr 1
  cases q' with
  | mk i' f' pl' =>
    cases q with
    | mk i f pl =>
      cases pl' with
      | mk a' x' t' =>
        cases pl with
        | mk a x t =>
          simp only at iq fq xq tq hap
          simp [iq, fq, xq, tq, hap]

/-! ## `FindShapeSubsetAxis` and `Broadcast` -/

theorem Dim_ok {shape : TensorShape} {i : Nat} {d : Int} (h : shape[i]? = some d) :
    Dim shape (i : Int) = .ok d := by
  unfold Dim
  have : ¬ ((i : Int) < 0) := by omega
  simp only [this, if_false, Int.toNat_ofNat, h]
  rfl

theorem Dim_add_ok {shape : TensorShape} {i j : Nat} {d : Int} (h : shape[i + j]? = some d) :
    Dim shape ((i : Int) + (j : Int)) = .ok d := by
  have := Dim_ok h
  rwa [Nat.cast_add] at this

/-- The inner loop of `FindShapeSubsetAxis` within the two shapes: it stops at the first
position where they differ, and reaches `find.length` exactly when they agree from `j` on. -/
theorem MatchLoop_spec {shape find : TensorShape} {i : Nat}
    (hin : i + find.length ≤ shape.length) :
    ∀ (n j : Nat), j + n = find.length →
      ∃ r, MatchLoop shape find i n j = .ok r ∧ r ≤ find.length ∧
        (r = find.length ↔ ∀ t, j ≤ t → t < find.length → find[t]? = shape[i + t]?) := by
  intro n
  induction n with
  | zero =>
    intro j hj
    refine ⟨j, rfl, by omega, ?_⟩
    constructor
    · intro _ t h1 h2; omega
    · intro _; omega
  | succ n ih =>
    intro j hj
    have hj1 : j < find.length := by omega
    have hj2 : i + j < shape.length := by omega
    have ea : shape[i + j]? = some shape[i + j] := List.getElem?_eq_getElem hj2
    have eb : find[j]? = some find[j] := List.getElem?_eq_getElem hj1
    unfold MatchLoop
    rw [Dim_add_ok ea, Dim_ok eb]
    by_cases hne : shape[i + j] ≠ find[j]
    · refine ⟨j, ?_, by omega, ?_⟩
      · simp only [bind, Except.bind]
        rw [if_pos hne]
        rfl
      · constructor
        · intro h; omega
        · intro h
          have := h j (le_refl j) hj1
          rw [ea, eb, Option.some.injEq] at this
          exact absurd this.symm hne
    · have heq : shape[i + j] = find[j] := by
        by_contra hc
        exact hne hc
      obtain ⟨r, hr, hle, hiff⟩ := ih (j + 1) (by omega)
      refine ⟨r, ?_, hle, ?_⟩
      · simp only [bind, Except.bind]
        rw [if_neg hne]
        exact hr
      · rw [hiff]
        constructor
        · intro h t h1 h2
          by_cases ht : t = j
          · subst ht
            rw [ea, eb, heq]
          · exact h t (by omega) h2
        · intro h t h1 h2
          exact h t (by omega) h2

/-- The outer loop of `FindShapeSubsetAxis` started at `s`: it returns the largest axis
`i` with `1 ≤ i ≤ s` at which `find` matches, and throws when there is none. Axis 0 is never
looked at. -/
theorem FindShapeSubsetAxisLoop_spec {shape find : TensorShape} :
    ∀ s, s + find.length ≤ shape.length →
      ((∃ i, 1 ≤ i ∧ i ≤ s ∧ MatchesAt shape find i ∧
          (∀ i', i < i' → i' ≤ s → ¬ MatchesAt shape find i') ∧
          FindShapeSubsetAxisLoop shape find s = .ok (i : Int)) ∨
       ((∀ i, 1 ≤ i → i ≤ s → ¬ MatchesAt shape find i) ∧
          FindShapeSubsetAxisLoop shape find s =
            .error (OpError.thrown "Tensors have no common shape subset"))) := by
  intro s
  induction s with
  | zero =>
    intro _
    right
    exact ⟨fun i h1 h2 => by omega, rfl⟩
  | succ s ih =>
    intro hs
    obtain ⟨r, hr, hle, hiff⟩ := MatchLoop_spec hs find.length 0 (by omega)
    have hm : r = find.length ↔ MatchesAt shape find (s + 1) := by
      rw [hiff]
      unfold MatchesAt
      constructor
      · intro h
        exact ⟨hs, fun j hj => h j (Nat.zero_le j) hj⟩
      · intro h t _ ht
        exact h.2 t ht
    unfold FindShapeSubsetAxisLoop
    by_cases hfull : r = find.length
    · left
      refine ⟨s + 1, by omega, le_refl _, hm.mp hfull, fun i' h1 h2 => by omega, ?_⟩
      simp only [hr, bind, Except.bind, hfull, if_true]
      rfl
    · have hstep : (do
          let j ← MatchLoop shape find (s + 1) find.length 0
          if j = find.length then pure ((s + 1 : Nat) : Int)
          else FindShapeSubsetAxisLoop shape find s) = FindShapeSubsetAxisLoop shape find s := by
        simp only [hr, bind, Except.bind, hfull, if_false]
      rw [hstep]
      have hnot : ¬ MatchesAt shape find (s + 1) := fun h => hfull (hm.mpr h)
      rcases ih (by omega) with ⟨i, h1, h2, hmi, hmax, hres⟩ | ⟨hnone, hres⟩
      · left
        refine ⟨i, h1, by omega, hmi, ?_, hres⟩
        intro i' hlt hle'
        by_cases hi' : i' = s + 1
        · rw [hi']; exact hnot
        · exact hmax i' hlt (by omega)
      · right
        refine ⟨?_, hres⟩
        intro i h1 h2
        by_cases hi : i = s + 1
        · rw [hi]; exact hnot
        · exact hnone i h1 (by omega)

/-- What `FindShapeSubsetAxis` does: it returns the largest axis `i ≥ 1` at which `find`
matches a contiguous run of the dimensions of `shape`, and throws when no axis `i ≥ 1`
does, also when `find` matches at axis 0. -/
theorem FindShapeSubsetAxis_spec (shape find : TensorShape) :
    (∃ i, 1 ≤ i ∧ MatchesAt shape find i ∧
        (∀ i', i < i' → ¬ MatchesAt shape find i') ∧
        FindShapeSubsetAxis shape find = .ok (i : Int)) ∨
    ((∀ i, 1 ≤ i → ¬ MatchesAt shape find i) ∧
        FindShapeSubsetAxis shape find =
          .error (OpError.thrown "Tensors have no common shape subset")) := by
  unfold FindShapeSubsetAxis
  by_cases hk : find.length ≤ shape.length
  · have hs : ((shape.length : Int) - (find.length : Int)).toNat =
        shape.length - find.length := by omega
    rw [hs]
    have hout : ∀ i, shape.length - find.length < i → ¬ MatchesAt shape find i := by
      intro i hi hm
      have := hm.1
      omega
    rcases @FindShapeSubsetAxisLoop_spec shape find (shape.length - find.length) (by omega) with
      ⟨i, h1, h2, hmi, hmax, hres⟩ | ⟨hnone, hres⟩
    · left
      refine ⟨i, h1, hmi, ?_, hres⟩
      intro i' hlt
      by_cases hle : i' ≤ shape.length - find.length
      · exact hmax i' hlt hle
      · exact hout i' (by omega)
    · right
      refine ⟨?_, hres⟩
      intro i h1
      by_cases hle : i ≤ shape.length - find.length
      · exact hnone i h1 hle
      · exact hout i (by omega)
  · have hs : (((List.length shape : Nat) : Int) - ((List.length find : Nat) : Int)).toNat =
        0 := by omega
    rw [hs]
    right
    refine ⟨?_, rfl⟩
    intro i _ hm
    have := hm.1
    omega
theorem succ_div_mod (i P : Nat) (hP : 0 < P) :
    (i % P + 1 = P ∧ (i + 1) / P = i / P + 1 ∧ (i + 1) % P = 0) ∨
    (i % P + 1 < P ∧ (i + 1) / P = i / P ∧ (i + 1) % P = i % P + 1) := by
  have hr : i % P < P := Nat.mod_lt i hP
  have hi : P * (i / P) + i % P = i := Nat.div_add_mod i P
  by_cases h : i % P + 1 = P
  · left
    have e : i + 1 = P * (i / P + 1) := by
      rw [Nat.mul_add, Nat.mul_one]
      omega
    refine ⟨h, ?_, ?_⟩
    · rw [e, Nat.mul_div_cancel_left _ hP]
    · rw [e, Nat.mul_mod_right]
  · right
    have hlt : i % P + 1 < P := by omega
    have e : i + 1 = P * (i / P) + (i % P + 1) := by omega
    refine ⟨hlt, ?_, ?_⟩
    · have e2 : (P * (i / P) + (i % P + 1)) / P = i / P := by
        rw [Nat.mul_add_div hP, Nat.div_eq_of_lt hlt, Nat.add_zero]
      rw [e]
      exact e2
    · have e2 : (P * (i / P) + (i % P + 1)) % P = i % P + 1 := by
        rw [Nat.mul_add_mod, Nat.mod_eq_of_lt hlt]
      rw [e]
      exact e2

/-- What the loop of `Broadcast` computes for positive pitches: output element `t` is
`op(input1[t], input2[(t / incrementPitch) % resetPitch])`. -/
theorem BroadcastLoop_spec {T : Type} (op : T → T → T) (d1 d2 : List T) (P R : Nat)
    (hP : 0 < P) (hR : 0 < R) (hR2 : R ≤ d2.length) :
    ∀ (n i : Nat) (out : List T), i + n ≤ d1.length →
      ∃ ys, BroadcastLoop op d1 d2 (P : Int) (R : Int) n i ((i / P) % R)
          ((i % P : Nat) : Int) out = .ok (out ++ ys) ∧ ys.length = n ∧
        ∀ t, t < n → ∃ a b, d1[i + t]? = some a ∧ d2[((i + t) / P) % R]? = some b ∧
          ys[t]? = some (op a b) := by
  intro n
  induction n with
  | zero =>
    intro i out _
    exact ⟨[], by simp [BroadcastLoop, pure, Except.pure], rfl, fun t ht => by omega⟩
  | succ n ih =>
    intro i out hin
    have hi1 : i < d1.length := by omega
    have hidx : (i / P) % R < d2.length := lt_of_lt_of_le (Nat.mod_lt _ hR) hR2
    have ea : d1[i]? = some d1[i] := List.getElem?_eq_getElem hi1
    have eb : d2[(i / P) % R]? = some d2[(i / P) % R] := List.getElem?_eq_getElem hidx
    obtain ⟨ys, hys, hlen, hall⟩ := ih (i + 1) (out ++ [op d1[i] d2[(i / P) % R]]) (by omega)
    refine ⟨op d1[i] d2[(i / P) % R] :: ys, ?_, by simp [hlen], ?_⟩
    · unfold BroadcastLoop
      simp only [ea, eb]
      rw [List.append_assoc, List.singleton_append] at hys
      rcases succ_div_mod i P hP with ⟨h1, h2, h3⟩ | ⟨h1, h2, h3⟩
      · have hc : ((i % P : Nat) : Int) + 1 = (P : Int) := by exact_mod_cast h1
        rw [if_pos hc]
        rw [h2, h3] at hys
        rcases succ_div_mod (i / P) R hR with ⟨hw, _, hz⟩ | ⟨hw, _, hz⟩
        · have hc2 : (((i / P) % R + 1 : Nat) : Int) = (R : Int) := by exact_mod_cast hw
          rw [if_pos hc2]
          rw [hz] at hys
          exact hys
        · have hc2 : ¬ (((i / P) % R + 1 : Nat) : Int) = (R : Int) := by
            intro hc3
            have hc4 : (i / P) % R + 1 = R := by exact_mod_cast hc3
            omega
          rw [if_neg hc2]
          rw [hz] at hys
          exact hys
      · have hc : ¬ ((i % P : Nat) : Int) + 1 = (P : Int) := by
          intro hc3
          have hc4 : i % P + 1 = P := by exact_mod_cast hc3
          omega
        rw [if_neg hc]
        rw [h2, h3] at hys
        have hcast : ((i % P + 1 : Nat) : Int) = ((i % P : Nat) : Int) + 1 := by
          exact_mod_cast rfl
        rw [hcast] at hys
        exact hys
    · intro t ht
      cases t with
      | zero => exact ⟨_, _, ea, eb, by simp⟩
      | succ t =>
        obtain ⟨a, b, h1, h2, h3⟩ := hall t (by omega)
        have e1 : i + (t + 1) = i + 1 + t := by omega
        refine ⟨a, b, ?_, ?_, ?_⟩
        · rw [e1]; exact h1
        · rw [e1]; exact h2
        · simpa using h3

/-- `CreatePlan` reads nothing of the plan object it is given but `to_be_freed`. -/
theorem CreatePlan_of_to_be_freed (ss : SessionState) (ctx : ISequentialPlannerContext)
    {plan plan2 : SequentialExecutionPlan} (h : plan.to_be_freed = plan2.to_be_freed) :
    CreatePlan ss ctx plan = CreatePlan ss ctx plan2 := by
  cases plan with
  | mk a x t =>
    cases plan2 with
    | mk a2 x2 t2 =>
      simp only at h
      subst h
      rfl

/-! ## Scenario A for every element type and shape -/

/-- The phases of `CreatePlan`, put together. -/
theorem CreatePlanImpl_intro {ss : SessionState} {ctx : ISequentialPlannerContext}
    {plan : SequentialExecutionPlan} {graph : Graph} {order : List NodeIndex}
    {p1 p2 p3 p4 : PlannerImpl}
    (hg : ss.Graph = some graph) (ho : graph.NodesInTopologicalOrder = .ok order)
    (hmax : -1 ≤ ss.GetMaxMLValueIdx)
    (h1 : ComputeUseCounts ss graph
      { Initialize { ml_value_info_ := [], freelist_ := [], plan_ := plan }
          (ss.GetMaxMLValueIdx + 1).toNat with
        plan_ := { (Initialize { ml_value_info_ := [], freelist_ := [], plan_ := plan }
            (ss.GetMaxMLValueIdx + 1).toNat).plan_ with
          execution_plan := ScheduledNodes graph order } } = .ok p1)
    (h2 : ReusePlanGraphInputs ss graph.Inputs p1 = .ok p2)
    (h3 : GeneratePlanForWeights ss graph p2 = .ok p3)
    (h4 : ReusePlanSteps ss ctx graph p3.plan_.execution_plan 0 p3 = .ok p4) :
    CreatePlanImpl ss ctx plan =
      .ok { p4 with plan_ := GenerateDeallocationPlan p4.freelist_ p4.plan_ } := by
  have hneg : ¬ (ss.GetMaxMLValueIdx + 1 < 0) := by omega
  unfold CreatePlanImpl
  rw [hg]
  simp only [ho, hneg, if_false, bind_ok, pure_ok, ComputeReusePlan]
  exact ⟨p1, h1, p4, ⟨p2, h2, p3, h3, h4⟩, rfl⟩

/-- The three loops of a step, put together. -/
theorem ReusePlanStep_intro {ss : SessionState} {ctx : ISequentialPlannerContext}
    {graph : Graph} {step : NodeExecutionPlan} {pc : Nat} {pnode : Node}
    {p p1 p2 p3 : PlannerImpl}
    (hn : graph.GetNode step.node_index = some pnode)
    (h1 : ReusePlanOutputs ss ctx graph pnode pnode.OutputDefs 0 p = .ok p1)
    (h2 : FreeInputs ss pc pnode.InputDefs p1 = .ok p2)
    (h3 : FreeUnusedOutputs ss pc pnode.OutputDefs p2 = .ok p3) :
    ReusePlanStep ss ctx graph step pc p = .ok p3 := by
  unfold ReusePlanStep
  rw [hn]
  simp only [bind_ok]
  exact ⟨p1, h1, p2, h2, h3⟩

/-- The decision for an output that is no graph output, a tensor, and for which
`FindReusableInput` finds an input. -/
theorem ReusePlanOutput_reuse_input {ss : SessionState} {ctx : ISequentialPlannerContext}
    {graph : Graph} {pnode : Node} {o : NodeArg} {j : Nat} {cur r : MLValueIndex}
    {p p1 p' : PlannerImpl}
    (hi : ss.GetMLValueIdx o.Name = some cur)
    (h1 : p.modifyAllocPlan cur (fun a => { a with value_type := some o.Type_ }) = .ok p1)
    (hgo : graph.Outputs.any (fun g => g.Name == o.Name) = false)
    (hnt : IsNonTensor o = false)
    (hfi : FindReusableInput ss ctx p1 pnode j = .ok (some r))
    (h2 : Reuse p1 r cur = .ok p') :
    ReusePlanOutput ss ctx graph pnode o j p = .ok p' := by
  unfold ReusePlanOutput
  simp only [bind_ok]
  refine ⟨cur, by simp [Index, hi], p1, h1, ?_⟩
  simp only [hgo, hnt, Bool.false_eq_true, if_false, bind_ok]
  exact ⟨some r, hfi, h2⟩

theorem chain_same_size (e z : Nat) (shape : TensorShapeProto)
    (hs : SameShape shape shape = true) (a b : String) :
    SameSize shapeContext (chainArg (DataType.tensor e z) shape a)
      (chainArg (DataType.tensor e z) shape b) = .ok true := by
  rw [@SameSize_known shapeContext (chainArg (DataType.tensor e z) shape a)
    (chainArg (DataType.tensor e z) shape b) shape shape e z e z rfl rfl rfl rfl rfl rfl, hs]
  simp

theorem chain_find (e z : Nat) (shape : TensorShapeProto) (hs : SameShape shape shape = true) :
    FindReusableInput (chainSession (DataType.tensor e z) shape) shapeContext
      (chainStep1Typed (DataType.tensor e z) shape)
      ⟨2, "Sigmoid", "sigmoid", [chainArg (DataType.tensor e z) shape "R1"],
        [chainArg (DataType.tensor e z) shape "R2"], kCpuExecutionProvider⟩ 0 = .ok (some 1) := by
  have hsame := chain_same_size e z shape hs "R1" "R2"
  have hidx : Index (chainSession (DataType.tensor e z) shape) "R1" = .ok 1 := rfl
  have hbuf : (chainStep1Typed (DataType.tensor e z) shape).Buffer 1 = .ok 1 := rfl
  have hcnt : (chainStep1Typed (DataType.tensor e z) shape).UseCount 1 = .ok 1 := rfl
  have hk : (chainSession (DataType.tensor e z) shape).GetKernelDef 2 = some inplaceKernel := rfl
  simp only [FindReusableInput, List.getElem?_cons_zero, hk, inplaceKernel, FindAliasInput,
    FindInplaceInput]
  simp only [chainArg] at hsame
  simp [chainArg, hidx, hbuf, hcnt, pure, Except.pure, bind, Except.bind, hsame]

/-- The plan of scenario A, for every tensor type and every shape that `SameShape` finds equal
to itself, started on a plan object without entries. -/
theorem chain_plan (e z : Nat) (shape : TensorShapeProto) (hs : SameShape shape shape = true) :
    CreatePlanImpl (chainSession (DataType.tensor e z) shape) shapeContext freshPlan =
      .ok { chainEnd (DataType.tensor e z) shape with plan_ := chainPlan (DataType.tensor e z) } := by
  have h1 : ComputeUseCounts (chainSession (DataType.tensor e z) shape)
      (chainGraph (DataType.tensor e z) shape) (chainStart (DataType.tensor e z) shape) =
      .ok (chainCounted (DataType.tensor e z) shape) := rfl
  have h2 : ReusePlanGraphInputs (chainSession (DataType.tensor e z) shape)
      (chainGraph (DataType.tensor e z) shape).Inputs (chainCounted (DataType.tensor e z) shape) =
      .ok (chainEntry (DataType.tensor e z) shape) := rfl
  have h3 : GeneratePlanForWeights (chainSession (DataType.tensor e z) shape)
      (chainGraph (DataType.tensor e z) shape) (chainEntry (DataType.tensor e z) shape) =
      .ok (chainEntry (DataType.tensor e z) shape) := rfl
  have s0 : ReusePlanStep (chainSession (DataType.tensor e z) shape) shapeContext
      (chainGraph (DataType.tensor e z) shape) ⟨1, 1, 0⟩ 0
      (chainEntry (DataType.tensor e z) shape) = .ok (chainStep1 (DataType.tensor e z) shape) := rfl
  have s1 : ReusePlanStep (chainSession (DataType.tensor e z) shape) shapeContext
      (chainGraph (DataType.tensor e z) shape) ⟨2, 1, 0⟩ 1
      (chainStep1 (DataType.tensor e z) shape) = .ok (chainStep2 (DataType.tensor e z) shape) := by
    have hn : (chainGraph (DataType.tensor e z) shape).GetNode 2 =
        some ⟨2, "Sigmoid", "sigmoid", [chainArg (DataType.tensor e z) shape "R1"],
          [chainArg (DataType.tensor e z) shape "R2"], kCpuExecutionProvider⟩ := rfl
    refine @ReusePlanStep_intro _ _ _ _ _ _ _ (chainStep1Out (DataType.tensor e z) shape)
      (chainStep2 (DataType.tensor e z) shape) _ hn ?_ rfl rfl
    show ReusePlanOutputs _ _ _ _ [chainArg (DataType.tensor e z) shape "R2"] 0 _ = _
    unfold ReusePlanOutputs
    have hex : (chainArg (DataType.tensor e z) shape "R2").Exists = true := rfl
    simp only [hex, Bool.not_true, Bool.false_eq_true, if_false, bind_ok]
    refine ⟨chainStep1Out (DataType.tensor e z) shape, ?_, rfl⟩
    exact @ReusePlanOutput_reuse_input _ _ _ _ _ _ 2 1 _
      (chainStep1Typed (DataType.tensor e z) shape) _ rfl rfl rfl rfl (chain_find e z shape hs) rfl
  have s2 : ReusePlanStep (chainSession (DataType.tensor e z) shape) shapeContext
      (chainGraph (DataType.tensor e z) shape) ⟨3, 1, 0⟩ 2
      (chainStep2 (DataType.tensor e z) shape) = .ok (chainEnd (DataType.tensor e z) shape) := rfl
  have h4 : ReusePlanSteps (chainSession (DataType.tensor e z) shape) shapeContext
      (chainGraph (DataType.tensor e z) shape)
      (chainEntry (DataType.tensor e z) shape).plan_.execution_plan 0
      (chainEntry (DataType.tensor e z) shape) = .ok (chainEnd (DataType.tensor e z) shape) := by
    show ReusePlanSteps _ _ _ [⟨1, 1, 0⟩, ⟨2, 1, 0⟩, ⟨3, 1, 0⟩] 0 _ = _
    simp only [ReusePlanSteps, bind_ok, pure_ok]
    exact ⟨_, s0, _, s1, _, s2, rfl⟩
  exact CreatePlanImpl_intro rfl rfl (show (-1 : Int) ≤ 3 by decide) h1 h2 h3 h4

/-- A shape whose axes all have a known value is the same shape as itself. -/
theorem SameShape_self_of_known (shape : TensorShapeProto)
    (h : ∀ d ∈ shape, ∃ v, d = Dimension.dim_value v) : SameShape shape shape = true := by
  have hloop : ∀ (s : TensorShapeProto), (∀ d ∈ s, ∃ v, d = Dimension.dim_value v) →
      SameShapeLoop s s = true := by
    intro s
    induction s with
    | nil => intro _; rfl
    | cons d rest ih =>
      intro hd
      obtain ⟨v, rfl⟩ := hd d (List.mem_cons_self _ _)
      have hsd : SameDim (Dimension.dim_value v) (Dimension.dim_value v) = true := by
        simp [SameDim, Dimension.has_dim_value]
      simp only [SameShapeLoop, hsd, if_true]
      exact ih (fun d' hd' => hd d' (List.mem_cons_of_mem _ hd'))
  unfold SameShape
  simp only [bne_self_eq_false, Bool.false_eq_true, if_false]
  exact hloop shape h

/-! ## Conservation of use counts and the contents of the freelist -/

/-- A successful freelist walk erases exactly the entry it returns. -/
theorem FindInFreelist_erase {ss : SessionState} {ctx : ISequentialPlannerContext}
    {p : PlannerImpl} {shape : TensorShapeProto} {ty : DataType} {loc : AllocatorInfo} :
    ∀ (l : List FreeBufferInfo) (r : MLValueIndex) (l' : List FreeBufferInfo),
      FindInFreelist ss ctx p shape ty loc l = .ok (some (r, l')) →
      ∃ pre e post, l = pre ++ e :: post ∧ e.ml_value = r ∧ l' = pre ++ post := by
  intro l
  induction l with
  | nil => intro r l' h; simp [FindInFreelist, pure_ok] at h
  | cons it rest ih =>
    intro r l' h
    have hskip : ∀ (x : M (Option (MLValueIndex × List FreeBufferInfo))),
        x = FindInFreelist ss ctx p shape ty loc rest →
        (do
          match ← x with
          | some (r, l) => pure (some (r, it :: l))
          | none => pure none) = Except.ok (some (r, l')) →
        ∃ pre e post, it :: rest = pre ++ e :: post ∧ e.ml_value = r ∧ l' = pre ++ post := by
      intro x hx h'
      subst hx
      simp only [bind_ok] at h'
      obtain ⟨res, hres, h'⟩ := h'
      split at h'
      · rename_i r2 l2
        simp only [pure_ok, Option.some.injEq, Prod.mk.injEq] at h'
        obtain ⟨hr, hl⟩ := h'
        subst hr; subst hl
        obtain ⟨pre, e, post, hl, he, hl'⟩ := ih _ _ hres
        exact ⟨it :: pre, e, post, by rw [hl]; rfl, he, by rw [hl']; rfl⟩
      · simp [pure_ok] at h'
    unfold FindInFreelist at h
    simp only [bind_ok] at h
    obtain ⟨info, hinfo, h⟩ := h
    split at h
    · simp only [throw_ok] at h
    · rename_i a ha
      simp only [bind_ok] at h
      obtain ⟨idx, hidx, avail, havail, h⟩ := h
      split at h
      · exact hskip _ rfl h
      · split at h
        · exact hskip _ rfl h
        · simp only [bind_ok] at h
          obtain ⟨same, hsame, h⟩ := h
          split at h
          · simp only [pure_ok, Option.some.injEq, Prod.mk.injEq] at h
            obtain ⟨hr, hl⟩ := h
            subst hr; subst hl
            exact ⟨[], it, rest, rfl, rfl, rfl⟩
          · exact hskip _ rfl h

/-- `FindReusableTensor` erases exactly the freelist entry whose ml-value it returns, and
leaves the planner as it is when it returns nothing. -/
theorem FindReusableTensor_erase {ss : SessionState} {ctx : ISequentialPlannerContext}
    {p p' : PlannerImpl} {out : NodeArg} {res : Option MLValueIndex}
    (h : FindReusableTensor ss ctx p out = .ok (res, p')) :
    (res = none → p' = p) ∧
    ∀ r, res = some r →
      ∃ pre e post, p.freelist_ = pre ++ e :: post ∧ e.ml_value = r ∧
        p'.freelist_ = pre ++ post := by
  unfold FindReusableTensor at h
  split at h
  · simp only [pure_ok, Prod.mk.injEq] at h
    obtain ⟨hr, hp⟩ := h
    subst hr; subst hp
    exact ⟨fun _ => rfl, fun r hr => by simp at hr⟩
  · rename_i shape hshape
    simp only [bind_ok] at h
    obtain ⟨idx, hidx, req, hreq, found, hfound, h⟩ := h
    split at h
    · rename_i reusable l
      simp only [pure_ok, Prod.mk.injEq] at h
      obtain ⟨hr, hp⟩ := h
      subst hr; subst hp
      refine ⟨fun hn => by simp at hn, ?_⟩
      intro r hr
      simp only [Option.some.injEq] at hr
      subst hr
      exact FindInFreelist_erase _ _ _ hfound
    · simp only [pure_ok, Prod.mk.injEq] at h
      obtain ⟨hr, hp⟩ := h
      subst hr; subst hp
      exact ⟨fun _ => rfl, fun r hr => by simp at hr⟩

theorem countP_add_le_of_disjoint {α : Type} (l : List α) (p q s : α → Bool)
    (hp : ∀ x ∈ l, p x = true → s x = true) (hq : ∀ x ∈ l, q x = true → s x = true)
    (hd : ∀ x ∈ l, p x = true → q x = true → False) :
    l.countP p + l.countP q ≤ l.countP s := by
  induction l with
  | nil => simp
  | cons x rest ih =>
    have ih' := ih (fun y hy => hp y (List.mem_cons_of_mem _ hy))
      (fun y hy => hq y (List.mem_cons_of_mem _ hy))
      (fun y hy => hd y (List.mem_cons_of_mem _ hy))
    have hpx := hp x (List.mem_cons_self _ _)
    have hqx := hq x (List.mem_cons_self _ _)
    have hdx := hd x (List.mem_cons_self _ _)
    simp only [List.countP_cons]
    cases hp' : p x <;> cases hq' : q x <;> cases hs' : s x <;> simp_all <;> omega

/-- The additional invariant only reads buffers, use counts, the freelist and kinds. -/
theorem FInv.fcongr {P F Fut D X : List MLValueIndex} {p p' : PlannerImpl}
    (h : FInv P p F Fut D X) (hb : ∀ v, buf p' v = buf p v) (hc : ∀ v, cnt p' v = cnt p v)
    (hf : p'.freelist_ = p.freelist_)
    (hk : ∀ v, (entry p'.plan_ v).alloc_kind = (entry p.plan_ v).alloc_kind) :
    FInv P p' F Fut D X := by
  have hbf : buf p' = buf p := funext hb
  refine ⟨h.scope, ?_, ?_, ?_, ?_, ?_⟩
  · intro x hx; rw [hbf]; exact h.closed x hx
  · intro r hr; rw [hbf, hc]; exact h.upper r hr
  · intro v hv; rw [hk, hbf]; exact h.kind_root v hv
  · intro e he; rw [hf] at he; exact h.free_def e he
  · intro r hr; rw [hbf, hc, hf]; exact h.collected r hr

/-- More outputs may be set aside. -/
theorem FInv.fweaken {P F Fut D X X' : List MLValueIndex} {p : PlannerImpl}
    (h : FInv P p F Fut D X) (hX : ∀ x ∈ X, x ∈ X') : FInv P p F Fut D X' :=
  ⟨h.scope, h.closed, h.upper, h.kind_root, h.free_def,
   fun r hr hb hP hz hx => h.collected r hr hb hP hz (fun c hc => hx c (hX c hc))⟩

/-- The lists of defined values and of values to come matter as sets. -/
theorem FInv.congrD {P F Fut D D' X : List MLValueIndex} {p : PlannerImpl}
    (h : FInv P p F Fut D X) (hD : ∀ x, x ∈ D' ↔ x ∈ D) : FInv P p F Fut D' X := by
  refine ⟨?_, ?_, ?_, ?_, ?_, ?_⟩
  · intro x hx
    rcases h.scope x hx with h1 | h1
    · exact Or.inl ((hD x).mpr h1)
    · exact Or.inr h1
  · intro x hx; exact (hD _).mpr (h.closed x ((hD x).mp hx))
  · intro r hr
    refine h.upper r ?_
    rcases hr with h1 | h1
    · exact Or.inl ((hD r).mp h1)
    · exact Or.inr h1
  · intro v hv; exact h.kind_root v ((hD v).mp hv)
  · intro e he; exact (hD _).mpr (h.free_def e he)
  · intro r hr; exact h.collected r ((hD r).mp hr)

/-- An output that is given a kind other than `kReuse` becomes defined. -/
theorem FInv.falloc {P F Fut D X : List MLValueIndex} {p p' : PlannerImpl} {c : MLValueIndex}
    {k : AllocKind} (h : FInv P p F (c :: Fut) D X) (hr : RInv P p F (c :: Fut) D)
    (hb : ∀ v, buf p' v = buf p v) (hc : ∀ v, cnt p' v = cnt p v)
    (hf : p'.freelist_ = p.freelist_)
    (he : ∀ v, entry p'.plan_ v =
      if v = c then { entry p.plan_ c with alloc_kind := k } else entry p.plan_ v)
    (hcX : c ∈ X) :
    FInv P p' F Fut (c :: D) X := by
  have hbf : buf p' = buf p := funext hb
  have hcc : buf p c = c := hr.fut_self c (List.mem_cons_self _ _)
  refine ⟨?_, ?_, ?_, ?_, ?_, ?_⟩
  · intro x hx
    rcases h.scope x hx with h1 | h1
    · exact Or.inl (List.mem_cons_of_mem _ h1)
    · rcases List.mem_cons.mp h1 with h2 | h2
      · exact Or.inl (h2 ▸ List.mem_cons_self _ _)
      · exact Or.inr h2
  · intro x hx
    rw [hbf]
    rcases List.mem_cons.mp hx with h1 | h1
    · rw [h1, hcc]; exact List.mem_cons_self _ _
    · exact List.mem_cons_of_mem _ (h.closed x h1)
  · intro r hr'
    rw [hbf, hc]
    refine h.upper r ?_
    rcases hr' with h1 | h1
    · rcases List.mem_cons.mp h1 with h2 | h2
      · exact Or.inr (h2 ▸ List.mem_cons_self _ _)
      · exact Or.inl h2
    · exact Or.inr (List.mem_cons_of_mem _ h1)
  · intro v hv hk'
    rw [hbf]
    rcases List.mem_cons.mp hv with h1 | h1
    · rw [h1]; exact hcc
    · have hvc : v ≠ c := fun hx => hr.disj v h1 (hx ▸ List.mem_cons_self _ _)
      rw [he v, if_neg hvc] at hk'
      exact h.kind_root v h1 hk'
  · intro e he'
    rw [hf] at he'
    exact List.mem_cons_of_mem _ (h.free_def e he')
  · intro r hr' hroot hP hz hx
    rw [hbf] at hroot hx
    rw [hc] at hz
    rw [hf]
    rcases List.mem_cons.mp hr' with h1 | h1
    · exact absurd (h1 ▸ hcc) (hx c hcX)
    · exact h.collected r h1 hroot hP hz hx
/-- The next output `c` takes over the root buffer `root` of a defined value; the freelist
loses at most entries for `root`. -/
theorem FInv.reuse {P F Fut D X : List MLValueIndex} {p p' : PlannerImpl}
    {root c : MLValueIndex} (h : FInv P p F (c :: Fut) D X) (hr : RInv P p F (c :: Fut) D)
    (hrootD : root ∈ D) (hroot : buf p root = root)
    (hb : ∀ v, buf p' v = if v = c then root else buf p v)
    (hc : ∀ v, cnt p' v = if v = root then cnt p v + cnt p c else cnt p v)
    (he : ∀ v, entry p'.plan_ v =
      if v = c then
        { entry p.plan_ c with alloc_kind := AllocKind.kReuse, reused_buffer := root }
      else entry p.plan_ v)
    (hf1 : ∀ e ∈ p'.freelist_, e ∈ p.freelist_)
    (hf2 : ∀ e ∈ p.freelist_, e.ml_value ≠ root → e ∈ p'.freelist_)
    (hcX : c ∈ X) :
    FInv P p' F Fut (c :: D) X := by
  have hcc : buf p c = c := hr.fut_self c (List.mem_cons_self _ _)
  have hrc : root ≠ c := fun hx => hr.disj root hrootD (hx ▸ List.mem_cons_self _ _)
  have hbD : ∀ x ∈ D, buf p' x = buf p x := by
    intro x hx
    have hxc : x ≠ c := fun hxc => hr.disj x hx (hxc ▸ List.mem_cons_self _ _)
    rw [hb, if_neg hxc]
  have honly : ∀ x ∈ F ++ P, buf p x = c → x = c := by
    intro x hx hbx
    rcases h.scope x hx with h1 | h1
    · exact absurd (hbx ▸ List.mem_cons_self _ _) (hr.fut_unref x h1)
    · rw [hr.fut_self x h1] at hbx
      exact hbx
  refine ⟨?_, ?_, ?_, ?_, ?_, ?_⟩
  · intro x hx
    rcases h.scope x hx with h1 | h1
    · exact Or.inl (List.mem_cons_of_mem _ h1)
    · rcases List.mem_cons.mp h1 with h2 | h2
      · exact Or.inl (h2 ▸ List.mem_cons_self _ _)
      · exact Or.inr h2
  · intro x hx
    rcases List.mem_cons.mp hx with h1 | h1
    · rw [h1, hb, if_pos rfl]; exact List.mem_cons_of_mem _ hrootD
    · rw [hbD x h1]; exact List.mem_cons_of_mem _ (h.closed x h1)
  · intro r hr' hself
    have hrc' : r ≠ c := by
      intro hx
      rw [hx, hb, if_pos rfl] at hself
      exact hrc hself
    have hself' : buf p r = r := by
      rw [hb, if_neg hrc'] at hself
      exact hself
    have hscope : r ∈ D ∨ r ∈ c :: Fut := by
      rcases hr' with h1 | h1
      · rcases List.mem_cons.mp h1 with h2 | h2
        · exact absurd h2 hrc'
        · exact Or.inl h2
      · exact Or.inr (List.mem_cons_of_mem _ h1)
    rw [hc]
    by_cases hrr : r = root
    · rw [if_pos hrr]
      have u1 := h.upper root (Or.inl hrootD) hroot
      have u2 := h.upper c (Or.inr (List.mem_cons_self _ _)) hcc
      have hle := countP_add_le_of_disjoint (F ++ P) (fun x => decide (buf p x = root))
        (fun x => decide (buf p x = c)) (fun x => decide (buf p' x = r)) ?_ ?_ ?_
      · rw [hrr]
        have : (((F ++ P).countP (fun x => decide (buf p x = root)) +
            (F ++ P).countP (fun x => decide (buf p x = c)) : Nat) : Int) ≤
            (((F ++ P).countP (fun x => decide (buf p' x = r)) : Nat) : Int) := by
          exact_mod_cast hle
        rw [hrr] at this
        push_cast at this
        omega
      · intro x _ hx
        simp only [decide_eq_true_eq] at hx ⊢
        have hxc : x ≠ c := fun hxc => by rw [hxc, hcc] at hx; exact hrc hx.symm
        rw [hb, if_neg hxc, hx, hrr]
      · intro x hxm hx
        simp only [decide_eq_true_eq] at hx ⊢
        rw [honly x hxm hx, hb, if_pos rfl, hrr]
      · intro x _ h1 h2
        simp only [decide_eq_true_eq] at h1 h2
        exact hrc (h1.symm.trans h2)
    · rw [if_neg hrr]
      refine le_trans (h.upper r hscope hself') ?_
      have : (F ++ P).countP (fun x => decide (buf p x = r)) ≤
          (F ++ P).countP (fun x => decide (buf p' x = r)) := by
        apply List.countP_mono_left
        intro x _ hx
        simp only [decide_eq_true_eq] at hx ⊢
        have hxc : x ≠ c := fun hxc => by rw [hxc, hcc] at hx; exact hrc' hx.symm
        rw [hb, if_neg hxc, hx]
      exact_mod_cast this
  · intro v hv hk'
    rcases List.mem_cons.mp hv with h1 | h1
    · rw [h1, he c, if_pos rfl] at hk'
      exact absurd rfl hk'
    · have hvc : v ≠ c := fun hx => hr.disj v h1 (hx ▸ List.mem_cons_self _ _)
      rw [he v, if_neg hvc] at hk'
      rw [hbD v h1]
      exact h.kind_root v h1 hk'
  · intro e he'
    exact List.mem_cons_of_mem _ (h.free_def e (hf1 e he'))
  · intro r hr' hself hP hz hx
    have hrr : r ≠ root := by
      have := hx c hcX
      rw [hb, if_pos rfl] at this
      exact fun hh => this hh.symm
    have hrc' : r ≠ c := by
      intro hh
      rw [hh, hb, if_pos rfl] at hself
      exact hrc hself
    have hrD : r ∈ D := by
      rcases List.mem_cons.mp hr' with h1 | h1
      · exact absurd h1 hrc'
      · exact h1
    rw [hb, if_neg hrc'] at hself
    rw [hc, if_neg hrr] at hz
    have hx' : ∀ x ∈ X, buf p x ≠ r := by
      intro x hxX
      by_cases hxc : x = c
      · rw [hxc, hcc]; exact fun hh => hrc' hh.symm
      · have := hx x hxX
        rw [hb, if_neg hxc] at this
        exact this
    obtain ⟨e, hef, her⟩ := h.collected r hrD hself hP hz hx'
    exact ⟨e, hf2 e hef (by rw [her]; exact hrr), her⟩

/-- Consuming one read: the root's use count drops by one; the value read is set aside until
its root has been looked at. -/
theorem FInv.fconsume {P F Fut D X : List MLValueIndex} {p p' : PlannerImpl}
    {index : MLValueIndex} (h : FInv P p (index :: F) Fut D X)
    (hb : ∀ v, buf p' v = buf p v)
    (hc : ∀ v, cnt p' v = if v = buf p index then cnt p v - 1 else cnt p v)
    (hf : p'.freelist_ = p.freelist_) (hp : p'.plan_ = p.plan_) :
    FInv P p' F Fut D (index :: X) := by
  have hbf : buf p' = buf p := funext hb
  refine ⟨?_, ?_, ?_, ?_, ?_, ?_⟩
  · intro x hx
    exact h.scope x (by
      rcases List.mem_append.mp hx with h1 | h1
      · exact List.mem_append_left _ (List.mem_cons_of_mem _ h1)
      · exact List.mem_append_right _ h1)
  · intro x hx; rw [hbf]; exact h.closed x hx
  · intro r hr hself
    rw [hbf] at hself ⊢
    have u := h.upper r hr hself
    simp only [List.cons_append, List.countP_cons] at u
    rw [hc]
    by_cases hrr : r = buf p index
    · rw [if_pos hrr]
      have : decide (buf p index = r) = true := by simp [hrr]
      simp only [this, if_true] at u
      push_cast at u
      omega
    · rw [if_neg hrr]
      have : decide (buf p index = r) = false := by
        simp only [decide_eq_false_iff_not]
        exact fun hh => hrr hh.symm
      simp only [this] at u
      simpa using u
  · intro v hv hk'
    rw [hp] at hk'
    rw [hbf]
    exact h.kind_root v hv hk'
  · intro e he; rw [hf] at he; exact h.free_def e he
  · intro r hr hself hP hz hx
    rw [hbf] at hself hx
    rw [hf]
    have hne : buf p index ≠ r := hx index (List.mem_cons_self _ _)
    rw [hc, if_neg (fun hh => hne hh.symm)] at hz
    exact h.collected r hr hself hP hz (fun c hc' => hx c (List.mem_cons_of_mem _ hc'))

/-- Pushing the root of a value that was set aside, its use count being zero. -/
theorem FInv.fpush {P F Fut D X : List MLValueIndex} {p : PlannerImpl} {x : MLValueIndex}
    (h : FInv P p F Fut D (x :: X)) (hx : x ∈ D) (pc : Nat) :
    FInv P (p.push_front (buf p x) pc) F Fut D X := by
  refine ⟨h.scope, h.closed, h.upper, h.kind_root, ?_, ?_⟩
  · intro e he
    rcases List.mem_cons.mp he with he | he
    · subst he; exact h.closed x hx
    · exact h.free_def e he
  · intro r hr hself hP hz hX
    by_cases hxr : buf p x = r
    · exact ⟨⟨buf p x, pc⟩, List.mem_cons_self _ _, hxr⟩
    · have hall : ∀ c ∈ x :: X, buf p c ≠ r := by
        intro c hc
        rcases List.mem_cons.mp hc with h1 | h1
        · rw [h1]; exact hxr
        · exact hX c h1
      obtain ⟨e, he, her⟩ := h.collected r hr hself hP hz hall
      exact ⟨e, List.mem_cons_of_mem _ he, her⟩

/-- A value that was set aside and whose root is still in use needs no entry. -/
theorem FInv.skip {P F Fut D X : List MLValueIndex} {p : PlannerImpl} {x : MLValueIndex}
    (h : FInv P p F Fut D (x :: X)) (hnz : cnt p (buf p x) ≠ 0) :
    FInv P p F Fut D X := by
  refine ⟨h.scope, h.closed, h.upper, h.kind_root, h.free_def, ?_⟩
  intro r hr hself hP hz hX
  have hxr : buf p x ≠ r := fun hh => hnz (hh ▸ hz)
  refine h.collected r hr hself hP hz ?_
  intro c hc
  rcases List.mem_cons.mp hc with h1 | h1
  · rw [h1]; exact hxr
  · exact hX c h1
/-- A value with a use to come has a root with a positive use count. -/
theorem RInv.count_pos {P F Fut D : List MLValueIndex} {p : PlannerImpl} {x : MLValueIndex}
    (hr : RInv P p F Fut D) (hx : x ∈ F ++ P) : 0 < cnt p (buf p x) := by
  have hc := hr.count (buf p x)
  have hpos : 0 < (F ++ P).countP (fun y => decide (buf p y = buf p x)) := by
    rw [List.countP_pos_iff]
    exact ⟨x, hx, by simp⟩
  omega

theorem ZInv.zcongr {p p' : PlannerImpl} (h : ZInv p) (hc : ∀ v, cnt p' v = cnt p v)
    (hf : p'.freelist_ = p.freelist_) : ZInv p' := by
  refine ⟨?_, ?_⟩
  · intro e he; rw [hf] at he; rw [hc]; exact h.zero e he
  · rw [hf]; exact h.nodup

/-- On a freelist of unused buffers, no entry is the root of a value with a use to come. -/
theorem ZInv.not_root {P F Fut D : List MLValueIndex} {p : PlannerImpl} {x : MLValueIndex}
    (hz : ZInv p) (hr : RInv P p F Fut D) (hx : x ∈ F ++ P) :
    ∀ e ∈ p.freelist_, e.ml_value ≠ buf p x := by
  intro e he hh
  have h0 := hz.zero e he
  have hpos := hr.count_pos hx
  rw [hh] at h0
  omega

/-- A use count other than those of the freelist entries changes. -/
theorem ZInv.change {p p' : PlannerImpl} {root : MLValueIndex} (h : ZInv p)
    (hc : ∀ v, v ≠ root → cnt p' v = cnt p v) (hf : p'.freelist_ = p.freelist_)
    (hne : ∀ e ∈ p.freelist_, e.ml_value ≠ root) : ZInv p' := by
  refine ⟨?_, ?_⟩
  · intro e he
    rw [hf] at he
    rw [hc _ (hne e he)]
    exact h.zero e he
  · rw [hf]; exact h.nodup

/-- The entry of `root` is erased and the use count of `root` changes. -/
theorem ZInv.erase {p p' : PlannerImpl} {root : MLValueIndex}
    {pre post : List FreeBufferInfo} {e0 : FreeBufferInfo} (h : ZInv p)
    (hc : ∀ v, v ≠ root → cnt p' v = cnt p v)
    (hfl : p.freelist_ = pre ++ e0 :: post) (he0 : e0.ml_value = root)
    (hfl' : p'.freelist_ = pre ++ post) : ZInv p' := by
  have hnd := h.nodup
  rw [hfl, List.map_append, List.map_cons] at hnd
  have hnd' : (pre.map (fun e => e.ml_value) ++ post.map (fun e => e.ml_value)).Nodup :=
    hnd.sublist (List.Sublist.append_left (List.sublist_cons_self _ _) _)
  have hnot : ∀ e ∈ pre ++ post, e.ml_value ≠ root := by
    intro e he hh
    rw [List.nodup_append] at hnd
    obtain ⟨_, h2, h3⟩ := hnd
    rcases List.mem_append.mp he with h1 | h1
    · exact h3 (List.mem_map_of_mem _ h1) (by rw [hh, ← he0]; exact List.mem_cons_self _ _)
    · have := (List.nodup_cons.mp h2).1
      exact this (by rw [he0, ← hh]; exact List.mem_map_of_mem _ h1)
  refine ⟨?_, ?_⟩
  · intro e he
    rw [hfl'] at he
    rw [hc _ (hnot e he)]
    refine h.zero e ?_
    rw [hfl]
    rcases List.mem_append.mp he with h1 | h1
    · exact List.mem_append_left _ h1
    · exact List.mem_append_right _ (List.mem_cons_of_mem _ h1)
  · rw [hfl', List.map_append]
    exact hnd'

/-- Pushing a buffer whose use count is zero and that is not on the freelist. -/
theorem ZInv.zpush {p : PlannerImpl} {r : MLValueIndex} (h : ZInv p) (hz : cnt p r = 0)
    (hne : ∀ e ∈ p.freelist_, e.ml_value ≠ r) (pc : Nat) : ZInv (p.push_front r pc) := by
  refine ⟨?_, ?_⟩
  · intro e he
    rcases List.mem_cons.mp he with he | he
    · subst he; exact hz
    · exact h.zero e he
  · show ((⟨r, pc⟩ :: p.freelist_).map (fun e => e.ml_value)).Nodup
    rw [List.map_cons, List.nodup_cons]
    refine ⟨?_, h.nodup⟩
    intro hm
    obtain ⟨e, he, her⟩ := List.mem_map.mp hm
    exact hne e he her
/-- Recording the value type of an output keeps the additional invariants. -/
theorem FInv.fvalue_type {P F Fut D X : List MLValueIndex} {p p' : PlannerImpl}
    {c : MLValueIndex} {t : Option DataType} (h : FInv P p F Fut D X)
    (hm : p.modifyAllocPlan c (fun a => { a with value_type := t }) = .ok p') :
    FInv P p' F Fut D X ∧ (ZInv p → ZInv p') := by
  obtain ⟨hb, hc, _, he, hf, _, _⟩ := modifyAllocPlan_acc hm
  refine ⟨h.fcongr hb hc hf ?_, fun hz => hz.zcongr hc hf⟩
  intro v; rw [he v]; split
  · rename_i hv; subst hv; rfl
  · rfl

/-- Settling one output keeps the additional invariants and makes the output defined. -/
theorem OutputDecision.invs {ss : SessionState} {ctx : ISequentialPlannerContext}
    {graph : Graph} {pnode : Node} {o : NodeArg} {j : Nat} {c : MLValueIndex}
    {p p' : PlannerImpl} {P F Fut D X : List MLValueIndex}
    (hd : OutputDecision ss ctx graph pnode o j c p p') (hr : RInv P p F (c :: Fut) D)
    (h : FInv P p F (c :: Fut) D X)
    (hreads : ∀ x ∈ pnode.Reads ss, x ∈ D) (hF : ∀ x ∈ pnode.Reads ss, x ∈ F)
    (hcX : c ∈ X) :
    FInv P p' F Fut (c :: D) X ∧ (ZInv p → ZInv p') := by
  cases hd with
  | graph_output p1 h1 hgo h2 =>
    have hr1 := hr.value_type h1
    obtain ⟨hf1, hz1⟩ := h.fvalue_type h1
    obtain ⟨hb, hc, _, he, hf, _, _⟩ := modifyAllocPlan_acc h2
    exact ⟨hf1.falloc hr1 hb hc hf he hcX, fun hz => (hz1 hz).zcongr hc hf⟩
  | non_tensor p1 h1 hgo hnt h2 =>
    have hr1 := hr.value_type h1
    obtain ⟨hf1, hz1⟩ := h.fvalue_type h1
    obtain ⟨hb, hc, _, he, hf, _, _⟩ := modifyAllocPlan_acc h2
    exact ⟨hf1.falloc hr1 hb hc hf he hcX, fun hz => (hz1 hz).zcongr hc hf⟩
  | reuse_input p1 reused h1 hgo hnt hfi h2 =>
    have hr1 := hr.value_type h1
    obtain ⟨hf1, hz1⟩ := h.fvalue_type h1
    have hrd : reused ∈ pnode.Reads ss := FindReusableInput_mem hfi
    obtain ⟨_, hb, hc, he, hf, _, _, _⟩ := Reuse_acc h2
    refine ⟨hf1.reuse hr1 (hf1.closed _ (hreads _ hrd)) (hr1.idem _ (hreads _ hrd)) hb hc he
      (fun e he' => hf ▸ he') (fun e he' _ => hf ▸ he') hcX, ?_⟩
    intro hz
    have hz1' := hz1 hz
    refine hz1'.change (fun v hv => by rw [hc, if_neg hv]) hf ?_
    exact hz1'.not_root hr1 (List.mem_append_left _ (hF _ hrd))
  | reuse_free p1 p2 reused h1 hgo hnt hfi hft h2 =>
    have hr1 := hr.value_type h1
    obtain ⟨hf1, hz1⟩ := h.fvalue_type h1
    obtain ⟨hinfo, hplan, hsub, _⟩ := FindReusableTensor_acc hft
    obtain ⟨_, herase⟩ := FindReusableTensor_erase hft
    obtain ⟨pre, e0, post, hfl, he0, hfl2⟩ := herase reused rfl
    have he0m : e0 ∈ p1.freelist_ := by rw [hfl]; simp
    obtain ⟨_, hself, _⟩ := hr1.free e0 he0m
    rw [he0] at hself
    have hrD : reused ∈ D := by
      have := hf1.free_def e0 he0m
      rwa [he0] at this
    have hb2 : ∀ v, buf p2 v = buf p1 v := fun v => by simp [buf, hinfo]
    have hc2 : ∀ v, cnt p2 v = cnt p1 v := fun v => by simp [cnt, hinfo]
    obtain ⟨_, hb, hc, he, hf, _, _, _⟩ := Reuse_acc h2
    have hroot2 : buf p2 reused = reused := by rw [hb2, hself]
    have hb' : ∀ v, buf p' v = if v = c then reused else buf p1 v := by
      intro v; rw [hb, hroot2, hb2]
    have hc' : ∀ v, cnt p' v = if v = reused then cnt p1 v + cnt p1 c else cnt p1 v := by
      intro v; rw [hc, hroot2, hc2, hc2]
    have he' : ∀ v, entry p'.plan_ v =
        if v = c then
          { entry p1.plan_ c with alloc_kind := AllocKind.kReuse, reused_buffer := reused }
        else entry p1.plan_ v := by
      intro v; rw [he, hroot2, hplan]
    refine ⟨hf1.reuse hr1 hrD hself hb' hc' he' ?_ ?_ hcX, ?_⟩
    · intro e hem
      rw [hf] at hem
      exact hsub.subset hem
    · intro e hem hne
      rw [hf, hfl2]
      rw [hfl] at hem
      rcases List.mem_append.mp hem with h3 | h3
      · exact List.mem_append_left _ h3
      · rcases List.mem_cons.mp h3 with h4 | h4
        · rw [h4, he0] at hne
          exact absurd rfl hne
        · exact List.mem_append_right _ h4
    · intro hz
      exact (hz1 hz).erase (fun v hv => by rw [hc', if_neg hv]) hfl he0 (by rw [hf, hfl2])
  | allocate p1 p2 h1 hgo hnt hfi hft h2 =>
    have hr1 := hr.value_type h1
    obtain ⟨hf1, hz1⟩ := h.fvalue_type h1
    obtain ⟨hnone, _⟩ := FindReusableTensor_erase hft
    have hp2 : p2 = p1 := hnone rfl
    subst hp2
    obtain ⟨hb, hc, _, he, hf, _, _⟩ := modifyAllocPlan_acc h2
    exact ⟨hf1.falloc hr1 hb hc hf he hcX, fun hz => (hz1 hz).zcongr hc hf⟩

theorem mem_congr_cons {c x : MLValueIndex} {A B : List MLValueIndex} :
    x ∈ A ++ c :: B ↔ x ∈ c :: A ++ B := by
  simp only [List.mem_append, List.mem_cons, List.cons_append]
  tauto

/-- The output loop of one step keeps the invariants; the outputs become defined. -/
theorem ReusePlanOutputs_invs {ss : SessionState} {ctx : ISequentialPlannerContext}
    {graph : Graph} {pnode : Node} {P F Fut X : List MLValueIndex} :
    ∀ (outs : List NodeArg) (j : Nat) (D : List MLValueIndex) (p p' : PlannerImpl),
      ReusePlanOutputs ss ctx graph pnode outs j p = .ok p' →
      RInv P p F (ArgIndices ss outs ++ Fut) D →
      FInv P p F (ArgIndices ss outs ++ Fut) D X →
      (∀ x ∈ pnode.Reads ss, x ∈ D) → (∀ x ∈ pnode.Reads ss, x ∈ F) →
      PinnedByName ss graph P outs → (∀ c ∈ ArgIndices ss outs, c ∈ X) →
      RInv P p' F Fut (ArgIndices ss outs ++ D) ∧
      FInv P p' F Fut (ArgIndices ss outs ++ D) X ∧ (ZInv p → ZInv p') := by
  intro outs
  induction outs with
  | nil =>
    intro j D p p' h hinv hfinv _ _ _ _
    simp only [ReusePlanOutputs, pure_ok] at h
    subst h
    simp only [ArgIndices_nil, List.nil_append] at hinv hfinv ⊢
    exact ⟨hinv, hfinv, fun hz => hz⟩
  | cons o rest ih =>
    intro j D p p' h hinv hfinv hreads hF hpin hX
    have hpin' : PinnedByName ss graph P rest :=
      fun o' ho' => hpin o' (List.mem_cons_of_mem _ ho')
    unfold ReusePlanOutputs at h
    by_cases he : o.Exists = true
    · simp only [he, Bool.not_true, Bool.false_eq_true, if_false, bind_ok] at h
      obtain ⟨p1, h1, h2⟩ := h
      obtain ⟨c, hc, hd⟩ := ReusePlanOutput_cases h1
      rw [ArgIndices_cons_exists he hc] at hinv hfinv hX ⊢
      obtain ⟨hin, hout⟩ := hpin o (List.mem_cons_self _ _) he c hc
      have hp1 := RInv.output hd hinv hreads hin hout
      obtain ⟨hf1, hz1⟩ := hd.invs hinv hfinv hreads hF (hX c (List.mem_cons_self _ _))
      obtain ⟨hr', hf', hz'⟩ := ih (j + 1) (c :: D) p1 p' h2 hp1 hf1
        (fun x hx => List.mem_cons_of_mem _ (hreads x hx)) hF hpin'
        (fun x hx => hX x (List.mem_cons_of_mem _ hx))
      refine ⟨hr'.mono ?_, hf'.congrD ?_, fun hz => hz' (hz1 hz)⟩
      · intro x hx
        exact mem_congr_cons.mpr hx
      · intro x
        exact mem_congr_cons.symm
    · have he' : o.Exists = false := by simpa using he
      simp only [he', Bool.not_false, if_true] at h
      rw [ArgIndices_cons_missing he] at hinv hfinv hX ⊢
      exact ih j D p p' h hinv hfinv hreads hF hpin' hX
/-- The input loop of one step keeps the invariants; the reads are consumed. -/
theorem FreeInputs_invs {ss : SessionState} {pc : Nat} {P F Fut D X : List MLValueIndex} :
    ∀ (ins : List NodeArg) (p p' : PlannerImpl),
      FreeInputs ss pc ins p = .ok p' →
      RInv P p (ArgIndices ss ins ++ F) Fut D →
      FInv P p (ArgIndices ss ins ++ F) Fut D X →
      (∀ x ∈ ArgIndices ss ins, x ∈ D) →
      RInv P p' F Fut D ∧ FInv P p' F Fut D X ∧ (ZInv p → ZInv p') := by
  intro ins
  induction ins with
  | nil =>
    intro p p' h hinv hfinv _
    simp only [FreeInputs, pure_ok] at h
    subst h
    simp only [ArgIndices_nil, List.nil_append] at hinv hfinv
    exact ⟨hinv, hfinv, fun hz => hz⟩
  | cons a rest ih =>
    intro p p' h hinv hfinv hD
    unfold FreeInputs at h
    by_cases he : a.Exists = true
    · simp only [he, if_true, bind_ok] at h
      obtain ⟨index, hi, original, ho, p1, h1, count, hc, h2⟩ := h
      have hi' := Index_ok hi
      obtain ⟨horig, _⟩ := Buffer_ok ho
      subst horig
      obtain ⟨hcount, _⟩ := UseCount_ok hc
      rw [ArgIndices_cons_exists he hi'] at hinv hfinv hD
      obtain ⟨c1, b1, _, pl1, f1⟩ := decUseCount_acc h1
      have hp1 : RInv P p1 (ArgIndices ss rest ++ F) Fut D := hinv.consume b1 c1 f1 pl1
      have hq1 : FInv P p1 (ArgIndices ss rest ++ F) Fut D (index :: X) :=
        hfinv.fconsume b1 c1 f1 pl1
      have hrest : ∀ x ∈ ArgIndices ss rest, x ∈ D := fun x hx => hD x (List.mem_cons_of_mem _ hx)
      have hidx : index ∈ D := hD index (List.mem_cons_self _ _)
      have hnot : ZInv p → ∀ e ∈ p.freelist_, e.ml_value ≠ buf p index := fun hz =>
        hz.not_root hinv (List.mem_append_left _ (List.mem_append_left _
          (List.mem_cons_self _ _)))
      have hz1 : ZInv p → ZInv p1 := fun hz =>
        hz.change (fun v hv => by rw [c1, if_neg hv]) f1 (hnot hz)
      by_cases hz : count = 0
      · simp only [hz, if_true] at h2
        have hz' : cnt p1 (buf p1 index) = 0 := by rw [b1, ← hcount]; exact hz
        have hr2 := hp1.push hidx hz' pc
        have hq2 := hq1.fpush hidx pc
        rw [b1] at hr2 hq2 hz'
        obtain ⟨hr', hf', hzz⟩ := ih _ p' h2 hr2 hq2 hrest
        refine ⟨hr', hf', fun hzp => hzz ((hz1 hzp).zpush hz' ?_ pc)⟩
        intro e hem
        rw [f1] at hem
        exact hnot hzp e hem
      · simp only [hz, if_false] at h2
        have hnz : cnt p1 (buf p1 index) ≠ 0 := by rw [b1, ← hcount]; exact hz
        obtain ⟨hr', hf', hzz⟩ := ih _ p' h2 hp1 (hq1.skip hnz) hrest
        exact ⟨hr', hf', fun hzp => hzz (hz1 hzp)⟩
    · simp only [he, if_false] at h
      rw [ArgIndices_cons_missing he] at hinv hfinv hD
      exact ih p p' h hinv hfinv hD

/-- The second output loop of one step keeps the invariants and looks at the root of every
output of the node; when each output has a use to come it pushes nothing. -/
theorem FreeUnusedOutputs_invs {ss : SessionState} {pc : Nat}
    {P F Fut D X : List MLValueIndex} :
    ∀ (outs : List NodeArg) (p p' : PlannerImpl),
      FreeUnusedOutputs ss pc outs p = .ok p' →
      RInv P p F Fut D →
      FInv P p F Fut D (ArgIndices ss outs ++ X) →
      (∀ x ∈ ArgIndices ss outs, x ∈ D) →
      RInv P p' F Fut D ∧ FInv P p' F Fut D X ∧
        ((∀ x ∈ ArgIndices ss outs, x ∈ F ++ P) → ZInv p → ZInv p') := by
  intro outs
  induction outs with
  | nil =>
    intro p p' h hinv hfinv _
    simp only [FreeUnusedOutputs, pure_ok] at h
    subst h
    simp only [ArgIndices_nil, List.nil_append] at hfinv
    exact ⟨hinv, hfinv, fun _ hz => hz⟩
  | cons a rest ih =>
    intro p p' h hinv hfinv hD
    unfold FreeUnusedOutputs at h
    by_cases he : a.Exists = true
    · simp only [he, if_true, bind_ok] at h
      obtain ⟨index, hi, original, ho, count, hc, h2⟩ := h
      have hi' := Index_ok hi
      obtain ⟨horig, _⟩ := Buffer_ok ho
      subst horig
      obtain ⟨hcount, _⟩ := UseCount_ok hc
      rw [ArgIndices_cons_exists he hi'] at hfinv hD ⊢
      rw [List.cons_append] at hfinv
      have hrest : ∀ x ∈ ArgIndices ss rest, x ∈ D := fun x hx => hD x (List.mem_cons_of_mem _ hx)
      have hidx : index ∈ D := hD index (List.mem_cons_self _ _)
      by_cases hz : count = 0
      · simp only [hz, if_true] at h2
        have hz' : cnt p (buf p index) = 0 := by rw [← hcount]; exact hz
        obtain ⟨hr', hf', hzz⟩ := ih _ p' h2 (hinv.push hidx hz' pc) (hfinv.fpush hidx pc) hrest
        refine ⟨hr', hf', fun hlive hzp => ?_⟩
        have hpos := hinv.count_pos (hlive index (List.mem_cons_self _ _))
        omega
      · simp only [hz, if_false] at h2
        have hnz : cnt p (buf p index) ≠ 0 := by rw [← hcount]; exact hz
        obtain ⟨hr', hf', hzz⟩ := ih _ p' h2 hinv (hfinv.skip hnz) hrest
        exact ⟨hr', hf', fun hlive hzp =>
          hzz (fun x hx => hlive x (List.mem_cons_of_mem _ hx)) hzp⟩
    · simp only [he, if_false] at h
      rw [ArgIndices_cons_missing he] at hfinv hD ⊢
      exact ih p p' h hinv hfinv hD
/-- One step of the program-counter loop keeps the invariants, at the end of each of its three
loops. -/
theorem ReusePlanStep_invs {ss : SessionState} {ctx : ISequentialPlannerContext}
    {graph : Graph} {step : NodeExecutionPlan} {pc : Nat} {pnode : Node} {p p' : PlannerImpl}
    {P F Fut D : List MLValueIndex}
    (hstep : ReusePlanStep ss ctx graph step pc p = .ok p')
    (hn : graph.GetNode step.node_index = some pnode)
    (hreads : ∀ x ∈ pnode.Reads ss, x ∈ D)
    (hpin : PinnedByName ss graph P pnode.OutputDefs)
    (hr : RInv P p (pnode.Reads ss ++ F) (pnode.Writes ss ++ Fut) D)
    (hf : FInv P p (pnode.Reads ss ++ F) (pnode.Writes ss ++ Fut) D []) :
    ∃ p1 p2, ReusePlanOutputs ss ctx graph pnode pnode.OutputDefs 0 p = .ok p1 ∧
      FreeInputs ss pc pnode.InputDefs p1 = .ok p2 ∧
      FreeUnusedOutputs ss pc pnode.OutputDefs p2 = .ok p' ∧
      RInv P p1 (pnode.Reads ss ++ F) Fut (pnode.Writes ss ++ D) ∧
      RInv P p2 F Fut (pnode.Writes ss ++ D) ∧
      RInv P p' F Fut (pnode.Writes ss ++ D) ∧
      FInv P p' F Fut (pnode.Writes ss ++ D) [] ∧
      (ZInv p → ZInv p1 ∧ ZInv p2) ∧
      ((∀ x ∈ pnode.Writes ss, x ∈ F ++ P) → ZInv p → ZInv p') := by
  obtain ⟨pnode', p1, p2, hn', h1, h2, h3⟩ := ReusePlanStep_split hstep
  rw [hn] at hn'
  cases hn'
  have hfX : FInv P p (pnode.Reads ss ++ F) (pnode.Writes ss ++ Fut) D (pnode.Writes ss) :=
    hf.fweaken (fun x hx => by simp at hx)
  obtain ⟨hr1, hf1, hz1⟩ := ReusePlanOutputs_invs _ _ _ _ _ h1 hr hfX hreads
    (fun x hx => List.mem_append_left _ hx) hpin (fun c hc => hc)
  obtain ⟨hr2, hf2, hz2⟩ := FreeInputs_invs _ _ _ h2 hr1 hf1
    (fun x hx => List.mem_append_right _ (hreads x hx))
  have hf2' : FInv P p2 F Fut (pnode.Writes ss ++ D) (ArgIndices ss pnode.OutputDefs ++ []) := by
    rw [List.append_nil]
    exact hf2
  obtain ⟨hr3, hf3, hz3⟩ := FreeUnusedOutputs_invs _ _ _ h3 hr2 hf2'
    (fun x hx => List.mem_append_left _ hx)
  exact ⟨p1, p2, h1, h2, h3, hr1, hr2, hr3, hf3, fun hz => ⟨hz1 hz, hz2 (hz1 hz)⟩,
    fun hlive hz => hz3 hlive (hz2 (hz1 hz))⟩

theorem StepNodes_append (graph : Graph) (pre post : List NodeExecutionPlan) :
    StepNodes graph (pre ++ post) = StepNodes graph pre ++ StepNodes graph post := by
  simp [StepNodes, List.filterMap_append]

/-- The program-counter loop from a planner state in two parts. -/
theorem ReusePlanSteps_append {ss : SessionState} {ctx : ISequentialPlannerContext}
    {graph : Graph} :
    ∀ (pre post : List NodeExecutionPlan) (pc : Nat) (p p' : PlannerImpl),
      ReusePlanSteps ss ctx graph (pre ++ post) pc p = .ok p' ↔
        ∃ q, ReusePlanSteps ss ctx graph pre pc p = .ok q ∧
          ReusePlanSteps ss ctx graph post (pc + pre.length) q = .ok p' := by
  intro pre
  induction pre with
  | nil =>
    intro post pc p p'
    simp [ReusePlanSteps, pure_ok]
  | cons s rest ih =>
    intro post pc p p'
    have hlen : pc + (s :: rest).length = pc + 1 + rest.length := by
      simp only [List.length_cons]; omega
    simp only [List.cons_append, ReusePlanSteps, bind_ok, hlen]
    constructor
    · rintro ⟨p1, h1, h2⟩
      obtain ⟨q, hq1, hq2⟩ := (ih post (pc + 1) p1 p').mp h2
      exact ⟨q, ⟨p1, h1, hq1⟩, hq2⟩
    · rintro ⟨q, ⟨p1, h1, hq1⟩, hq2⟩
      exact ⟨p1, h1, (ih post (pc + 1) p1 p').mpr ⟨q, hq1, hq2⟩⟩

/-- The invariants at the planner state that the program-counter loop reaches after the steps
`pre`, with the steps `post` still to run. -/
theorem ReusePlanSteps_invs {ss : SessionState} {ctx : ISequentialPlannerContext}
    {graph : Graph} {P : List MLValueIndex} (post : List NodeExecutionPlan) :
    ∀ (pre : List NodeExecutionPlan) (pc : Nat) (D : List MLValueIndex) (p q : PlannerImpl),
      ReusePlanSteps ss ctx graph pre pc p = .ok q →
      ValidOrder ss D (StepNodes graph (pre ++ post)) →
      (∀ n ∈ StepNodes graph (pre ++ post), PinnedByName ss graph P n.OutputDefs) →
      RInv P p (AllReads ss (StepNodes graph (pre ++ post)))
        (AllWrites ss (StepNodes graph (pre ++ post))) D →
      FInv P p (AllReads ss (StepNodes graph (pre ++ post)))
        (AllWrites ss (StepNodes graph (pre ++ post))) D [] →
      ∃ D', (∀ x, x ∈ D' ↔ x ∈ AllWrites ss (StepNodes graph pre) ∨ x ∈ D) ∧
        ValidOrder ss D' (StepNodes graph post) ∧
        RInv P q (AllReads ss (StepNodes graph post)) (AllWrites ss (StepNodes graph post)) D' ∧
        FInv P q (AllReads ss (StepNodes graph post)) (AllWrites ss (StepNodes graph post))
          D' [] ∧
        ((∀ c ∈ AllWrites ss (StepNodes graph (pre ++ post)),
            c ∈ AllReads ss (StepNodes graph (pre ++ post)) ++ P) →
          (∀ c ∈ AllWrites ss (StepNodes graph post),
            c ∈ AllReads ss (StepNodes graph post) ++ P) ∧ (ZInv p → ZInv q)) := by
  intro pre
  induction pre with
  | nil =>
    intro pc D p q h hvo _ hr hf
    simp only [ReusePlanSteps, pure_ok] at h
    subst h
    rw [List.nil_append] at hvo hr hf
    refine ⟨D, ?_, hvo, hr, hf, ?_⟩
    · intro x
      simp [StepNodes, AllWrites]
    · intro hlive
      rw [List.nil_append] at hlive
      exact ⟨hlive, fun hz => hz⟩
  | cons step rest ih =>
    intro pc D p q h hvo hpin hr hf
    simp only [ReusePlanSteps, bind_ok] at h
    obtain ⟨p3, hstep, hrest⟩ := h
    obtain ⟨pnode, _, _, hn, _, _, _⟩ := ReusePlanStep_split hstep
    rw [List.cons_append, StepNodes_cons hn] at hvo hpin hr hf
    rw [AllReads_cons, AllWrites_cons] at hr hf
    obtain ⟨hreads, _, hnew, hvo'⟩ := hvo
    obtain ⟨p1, p2, _, _, _, _, _, hr3, hf3, _, hz3⟩ :=
      ReusePlanStep_invs hstep hn hreads (hpin pnode (List.mem_cons_self _ _)) hr hf
    obtain ⟨D', hD', hvoD, hrq, hfq, hzq⟩ := ih (pc + 1) _ p3 q hrest hvo'
      (fun n hn' => hpin n (List.mem_cons_of_mem _ hn')) hr3 hf3
    refine ⟨D', ?_, hvoD, hrq, hfq, ?_⟩
    · intro x
      rw [hD' x, StepNodes_cons hn, AllWrites_cons]
      simp only [List.mem_append]
      tauto
    · intro hlive
      rw [List.cons_append, StepNodes_cons hn, AllReads_cons, AllWrites_cons] at hlive
      have hl1 : ∀ x ∈ pnode.Writes ss,
          x ∈ AllReads ss (StepNodes graph (rest ++ post)) ++ P := by
        intro x hx
        have := hlive x (List.mem_append_left _ hx)
        simp only [List.mem_append] at this ⊢
        rcases this with (h1 | h1) | h1
        · exact absurd (hreads x h1) (hnew x hx)
        · exact Or.inl h1
        · exact Or.inr h1
      have hl2 : ∀ c ∈ AllWrites ss (StepNodes graph (rest ++ post)),
          c ∈ AllReads ss (StepNodes graph (rest ++ post)) ++ P := by
        intro c hc
        have := hlive c (List.mem_append_right _ hc)
        simp only [List.mem_append] at this ⊢
        rcases this with (h1 | h1) | h1
        · exact absurd hc
            (ValidOrder_disjoint _ _ hvo' c (List.mem_append_right _ (hreads c h1)))
        · exact Or.inl h1
        · exact Or.inr h1
      obtain ⟨hlq, hzz⟩ := hzq hl2
      exact ⟨hlq, fun hz => hzz (hz3 hl1 hz)⟩
/-- The bookkeeping invariant holds on entry to the program-counter loop. -/
theorem FInv_initial {ss : SessionState} {graph : Graph} {p0 p1 p2 p3 : PlannerImpl}
    (hvo : ValidOrder ss (InitiallyDefined ss graph) (StepNodes graph p0.plan_.execution_plan))
    (hout : ∀ g ∈ OutputIndices ss graph, g ∈ InitiallyDefined ss graph ∨
      g ∈ AllWrites ss (StepNodes graph p0.plan_.execution_plan))
    (h0 : ∀ v, cnt p0 v = 0) (hf0 : p0.freelist_ = [])
    (h1 : ComputeUseCounts ss graph p0 = .ok p1)
    (h2 : ReusePlanGraphInputs ss graph.Inputs p1 = .ok p2)
    (h3 : GeneratePlanForWeights ss graph p2 = .ok p3) :
    FInv (Pinned ss graph) p3 (AllReads ss (StepNodes graph p0.plan_.execution_plan))
      (AllWrites ss (StepNodes graph p0.plan_.execution_plan)) (InitiallyDefined ss graph) [] ∧
    ZInv p3 := by
  obtain ⟨hcounts, hnonneg⟩ := ComputeUseCounts_counts h1 hvo h0
  obtain ⟨f1, _⟩ := ComputeUseCounts_frame h1
  obtain ⟨i2, fl2, _, _, in2, out2, _⟩ := ReusePlanGraphInputs_acc _ _ _ h2
  obtain ⟨i3, fl3, _, _, in3, out3, _⟩ := PlanWeightsOfNodes_acc _ _ _ h3
  have hb : ∀ v, buf p3 v = buf p1 v := fun v => by simp [buf, i3, i2]
  have hc : ∀ v, cnt p3 v = cnt p1 v := fun v => by simp [cnt, i3, i2]
  have hbf : buf p3 = buf p1 := funext hb
  have hfl : p3.freelist_ = [] := by rw [fl3, fl2, f1.freelist, hf0]
  have hself : ∀ x ∈ AllReads ss (StepNodes graph p0.plan_.execution_plan) ++ Pinned ss graph,
      x ∈ InitiallyDefined ss graph ∨
        x ∈ AllWrites ss (StepNodes graph p0.plan_.execution_plan) := by
    intro x hx
    rcases List.mem_append.mp hx with hx | hx
    · exact ValidOrder_reads _ _ hvo x hx
    · rcases mem_Pinned.mp hx with hx | hx
      · exact Or.inl hx
      · exact hout x hx
  refine ⟨⟨hself, ?_, ?_, ?_, ?_, ?_⟩, ⟨?_, ?_⟩⟩
  · intro x hx
    rw [hb, (hcounts x (Or.inl hx)).1]
    exact hx
  · intro r hr _
    rw [hbf, hc, countP_buf_eq_count _ r (fun x hx => (hcounts x (hself x hx)).1),
      (hcounts r hr).2]
  · intro v hv _
    rw [hb, (hcounts v (Or.inl hv)).1]
  · intro e he
    rw [hfl] at he
    simp at he
  · intro r hr _ hnp
    exact absurd (mem_Pinned.mpr (Or.inl hr)) hnp
  · intro e he
    rw [hfl] at he
    simp at he
  · rw [hfl]
    simp

/-- On a well-formed input the state that the program-counter loop reaches after the steps
`pre` of the schedule `pre ++ post` satisfies both invariants, over the reads of `post` and
with the values defined so far. -/
theorem CreatePlanImpl_invs_at {ss : SessionState} {graph : Graph}
    {ctx : ISequentialPlannerContext} {order : List NodeIndex} {p0 p1 p2 p3 q : PlannerImpl}
    {pre post : List NodeExecutionPlan}
    (hwf : WellFormed ss) (hg : ss.Graph = some graph)
    (ho : graph.NodesInTopologicalOrder = .ok order)
    (h0 : ∀ v, cnt p0 v = 0) (he0 : ∀ v, entry p0.plan_ v = {}) (hf0 : p0.freelist_ = [])
    (hx0 : p0.plan_.execution_plan = ScheduledNodes graph order)
    (h1 : ComputeUseCounts ss graph p0 = .ok p1)
    (h2 : ReusePlanGraphInputs ss graph.Inputs p1 = .ok p2)
    (h3 : GeneratePlanForWeights ss graph p2 = .ok p3)
    (hsplit : ScheduledNodes graph order = pre ++ post)
    (h4 : ReusePlanSteps ss ctx graph pre 0 p3 = .ok q) :
    ∃ D, (∀ x, x ∈ D ↔ x ∈ AllWrites ss (StepNodes graph pre) ∨ x ∈ InitiallyDefined ss graph) ∧
      ValidOrder ss D (StepNodes graph post) ∧
      (∀ n ∈ StepNodes graph post, PinnedByName ss graph (Pinned ss graph) n.OutputDefs) ∧
      RInv (Pinned ss graph) q (AllReads ss (StepNodes graph post))
        (AllWrites ss (StepNodes graph post)) D ∧
      FInv (Pinned ss graph) q (AllReads ss (StepNodes graph post))
        (AllWrites ss (StepNodes graph post)) D [] ∧
      (NoDeadOutputs ss graph →
        (∀ c ∈ AllWrites ss (StepNodes graph post),
          c ∈ AllReads ss (StepNodes graph post) ++ Pinned ss graph) ∧ ZInv q) := by
  unfold WellFormed at hwf
  rw [hg] at hwf
  obtain ⟨hvo, hout, hnames⟩ := hwf
  have hsched : graph.Scheduled = StepNodes graph p0.plan_.execution_plan := by
    simp only [Graph.Scheduled, ho, hx0]
  have hpin := PinnedByName_of_wf hvo hnames
  rw [hsched] at hvo hout hpin
  have hr3 := RInv_initial hvo hout h0 he0 hf0 h1 h2 h3
  obtain ⟨hf3, hz3⟩ := FInv_initial hvo hout h0 hf0 h1 h2 h3
  have hx : p0.plan_.execution_plan = pre ++ post := hx0.trans hsplit
  rw [hx] at hvo hpin hr3 hf3
  obtain ⟨D, hD, hvoD, hrq, hfq, hzq⟩ := ReusePlanSteps_invs post pre 0 _ p3 q h4 hvo hpin hr3 hf3
  refine ⟨D, hD, hvoD, ?_, hrq, hfq, ?_⟩
  · intro n hn
    apply hpin n
    rw [StepNodes_append]
    exact List.mem_append_right _ hn
  · intro hlive
    have hl : ∀ c ∈ AllWrites ss (StepNodes graph (pre ++ post)),
        c ∈ AllReads ss (StepNodes graph (pre ++ post)) ++ Pinned ss graph := by
      intro c hc
      rw [← hx, ← hsched] at hc ⊢
      rcases hlive c hc with h | h
      · exact List.mem_append_left _ h
      · exact List.mem_append_right _ (mem_Pinned.mpr (Or.inr h))
    obtain ⟨a, b⟩ := hzq hl
    exact ⟨a, b hz3⟩
/-- On a well-formed input a graph output that a scheduled node produces ends with the kind
`kAllocateOutput`. -/
theorem CreatePlanImpl_output_kind {ss : SessionState} {ctx : ISequentialPlannerContext}
    {plan : SequentialExecutionPlan} {p : PlannerImpl} {graph : Graph}
    (hwf : WellFormed ss) (hg : ss.Graph = some graph)
    (hp : CreatePlanImpl ss ctx plan = .ok p)
    (v : MLValueIndex) (hout : v ∈ OutputIndices ss graph)
    (hprod : v ∈ AllWrites ss graph.Scheduled) :
    (entry p.plan_ v).alloc_kind = AllocKind.kAllocateOutput := by
  have hwf' := hwf
  unfold WellFormed at hwf'
  rw [hg] at hwf'
  obtain ⟨_, _, hnames⟩ := hwf'
  simp only [AllWrites, List.mem_flatMap, Node.Writes, ArgIndices, List.mem_filterMap,
    List.mem_filter] at hprod
  obtain ⟨n, hn, o, ⟨ho, hex⟩, hc⟩ := hprod
  simp only [OutputIndices, List.mem_filterMap] at hout
  obtain ⟨g, hgm, hgv⟩ := hout
  have hname : g.Name = o.Name :=
    hnames n hn o ho g hgm (by rw [hc]; rfl) (by rw [hgv, hc])
  obtain ⟨pre, post, hdefs⟩ := List.append_of_mem ho
  have hany : graph.Outputs.any (fun g => g.Name == o.Name) = true := by
    rw [List.any_eq_true]
    exact ⟨g, hgm, by simp [hname]⟩
  have houtc := CreatePlanImpl_outcome hwf hg hp n hn pre o post v hdefs hex hc
  cases houtc with
  | graph_output hgo hk' => exact hk'
  | non_tensor hgo hnt hk' => exact absurd hany hgo
  | reuse_input pa reused hgo hnt hfi hfut hk' hr => exact absurd hany hgo
  | reuse_free pa pb reused hgo hnt hfi hft hfut hk' hr hloc => exact absurd hany hgo
  | allocate pa pb hgo hnt hfi hft hk' => exact absurd hany hgo

/-- The final freelist on a well-formed input: it lists exactly the values produced by a
scheduled node whose final kind is `kAllocate`, each of them its own root with use count 0. -/
theorem CreatePlanImpl_freed_iff {ss : SessionState} {ctx : ISequentialPlannerContext}
    {plan : SequentialExecutionPlan} {p : PlannerImpl} {graph : Graph}
    (hwf : WellFormed ss) (hg : ss.Graph = some graph)
    (h : CreatePlanImpl ss ctx plan = .ok p) (v : MLValueIndex) :
    (∃ e ∈ p.freelist_, e.ml_value = v) ↔
      (v ∈ AllWrites ss graph.Scheduled ∧ (entry p.plan_ v).alloc_kind = AllocKind.kAllocate) := by
  obtain ⟨graph', order, p0, p1, p2, p3, p4, hg', ho, hinit, h1, h2, h3, h4, hp⟩ :=
    CreatePlanImpl_split h
  rw [hg] at hg'
  cases hg'
  obtain ⟨h0, _, he0, hf0, hx0, _⟩ := hinit
  have hsched : graph.Scheduled = StepNodes graph (ScheduledNodes graph order) := by
    simp only [Graph.Scheduled, ho]
  obtain ⟨D, hD, _, _, hr, hf, _⟩ := @CreatePlanImpl_invs_at _ _ _ _ _ _ _ _ _ _ [] hwf hg ho h0 he0 hf0
    hx0 h1 h2 h3 (List.append_nil _).symm h4
  have hfl : p.freelist_ = p4.freelist_ := by rw [hp]
  have hen : ∀ x, entry p.plan_ x = entry p4.plan_ x := by
    intro x
    rw [hp]
    simp only [entry, (GenerateDeallocationPlan_acc p4.freelist_ p4.plan_).1]
  have hvo : ValidOrder ss (InitiallyDefined ss graph) graph.Scheduled := by
    unfold WellFormed at hwf
    rw [hg] at hwf
    exact hwf.1
  rw [hfl, hen, hsched]
  constructor
  · rintro ⟨e, he, rfl⟩
    obtain ⟨_, hroot, hnp⟩ := hr.free e he
    have hd := (hD _).mp (hf.free_def e he)
    have hw : e.ml_value ∈ AllWrites ss (StepNodes graph (ScheduledNodes graph order)) := by
      rcases hd with hd | hd
      · exact hd
      · exact absurd (mem_Pinned.mpr (Or.inl hd)) hnp
    refine ⟨hw, ?_⟩
    have hnr : (entry p4.plan_ e.ml_value).alloc_kind ≠ AllocKind.kReuse :=
      fun hk => (hr.reuse _ hk).2.1 hroot
    have hno : ¬ (entry p4.plan_ e.ml_value).alloc_kind.Owned := fun hk => hnp (hr.owned _ hk)
    unfold AllocKind.Owned at hno
    cases hk : (entry p4.plan_ e.ml_value).alloc_kind with
    | kAllocate => rfl
    | kReuse => exact absurd hk hnr
    | kPreExisting => exact absurd (Or.inl hk) hno
    | kAllocateStatically => exact absurd (Or.inr (Or.inl hk)) hno
    | kAllocateOutput => exact absurd (Or.inr (Or.inr hk)) hno
  · rintro ⟨hw, hk⟩
    have hvD : v ∈ D := (hD v).mpr (Or.inl hw)
    have hroot : buf p4 v = v := hf.kind_root v hvD (by rw [hk]; decide)
    have hnp : v ∉ Pinned ss graph := by
      intro hpin
      rcases mem_Pinned.mp hpin with hi | ho'
      · rw [hsched] at hvo
        exact ValidOrder_disjoint _ _ hvo v hi hw
      · have := CreatePlanImpl_output_kind hwf hg h v ho' (by rw [hsched]; exact hw)
        rw [hen, hk] at this
        exact absurd this (by decide)
    have hzero : cnt p4 v = 0 := by
      have hup := hf.upper v (Or.inl hvD) hroot
      have hlow := hr.count v
      have hc0 : (([] : List MLValueIndex) ++ Pinned ss graph).countP
          (fun x => decide (buf p4 x = v)) = 0 := by
        rw [List.countP_eq_zero]
        intro x hx
        simp only [List.nil_append] at hx
        simp only [decide_eq_true_eq]
        intro hbx
        rw [hr.pinned x hx] at hbx
        exact hnp (hbx ▸ hx)
      simp only [StepNodes, List.filterMap_nil, AllReads, List.flatMap_nil] at hup hlow
      rw [hc0] at hup hlow
      exact le_antisymm (by exact_mod_cast hup) (by exact_mod_cast hlow)
    exact hf.collected v hvD hroot hnp hzero (fun c hc => by simp at hc)
/-- A value on the final freelist lies in the free range of the step at its deallocation
point, for a plan object that starts with an empty `to_be_freed`. -/
theorem CreatePlanImpl_freed_step {ss : SessionState} {ctx : ISequentialPlannerContext}
    {plan : SequentialExecutionPlan} {p : PlannerImpl}
    (hfresh : plan.to_be_freed = []) (h : CreatePlanImpl ss ctx plan = .ok p)
    (e : FreeBufferInfo) (he : e ∈ p.freelist_) :
    ∃ step, p.plan_.execution_plan[e.deallocate_point]? = some step ∧
      e.ml_value ∈ FreeRange p.plan_.to_be_freed step.free_from_index step.free_to_index := by
  obtain ⟨graph, order, hg, ho, hord, htbf, hsteps⟩ := CreatePlanImpl_dealloc h
  rw [hfresh, List.nil_append] at htbf
  have hlt := hord.2 e he
  have hs := hsteps e.deallocate_point
  have he0 : (ScheduledNodes graph order)[e.deallocate_point]? =
      some ((ScheduledNodes graph order)[e.deallocate_point]) := List.getElem?_eq_getElem hlt
  have hex : ∃ x ∈ p.freelist_, x.deallocate_point = e.deallocate_point := ⟨e, he, rfl⟩
  rw [he0, Option.map_some', if_pos hex] at hs
  refine ⟨_, hs, ?_⟩
  simp only
  have hasc := List.pairwise_reverse.mpr hord.1
  have hrange := FreeRange_ascending p.freelist_.reverse hasc e.deallocate_point
  rw [List.countP_reverse, List.countP_reverse] at hrange
  rw [htbf, hrange]
  simp only [List.mem_map, List.mem_filter, List.mem_reverse]
  exact ⟨e, ⟨he, by simp⟩, rfl⟩

/-! ## Places in the program-counter loop -/

theorem ArgIndices_append (ss : SessionState) (a b : List NodeArg) :
    ArgIndices ss (a ++ b) = ArgIndices ss a ++ ArgIndices ss b := by
  simp [ArgIndices, List.filter_append, List.filterMap_append]

theorem OutputArgNum_append (a b : List NodeArg) :
    OutputArgNum (a ++ b) = OutputArgNum a + OutputArgNum b := by
  simp [OutputArgNum, List.filter_append]

/-- The output loop of a step in two parts. -/
theorem ReusePlanOutputs_append {ss : SessionState} {ctx : ISequentialPlannerContext}
    {graph : Graph} {pnode : Node} :
    ∀ (a b : List NodeArg) (j : Nat) (p p' : PlannerImpl),
      ReusePlanOutputs ss ctx graph pnode (a ++ b) j p = .ok p' ↔
        ∃ q, ReusePlanOutputs ss ctx graph pnode a j p = .ok q ∧
          ReusePlanOutputs ss ctx graph pnode b (j + OutputArgNum a) q = .ok p' := by
  intro a
  induction a with
  | nil =>
    intro b j p p'
    simp [ReusePlanOutputs, pure_ok, OutputArgNum]
  | cons o rest ih =>
    intro b j p p'
    by_cases he : o.Exists = true
    · have hnum : j + OutputArgNum (o :: rest) = j + 1 + OutputArgNum rest := by
        rw [OutputArgNum_cons_exists he]; omega
      rw [hnum]
      simp only [List.cons_append, ReusePlanOutputs, he, Bool.not_true, Bool.false_eq_true,
        if_false, bind_ok]
      constructor
      · rintro ⟨p1, h1, h2⟩
        obtain ⟨q, hq1, hq2⟩ := (ih b (j + 1) p1 p').mp h2
        exact ⟨q, ⟨p1, h1, hq1⟩, hq2⟩
      · rintro ⟨q, ⟨p1, h1, hq1⟩, hq2⟩
        exact ⟨p1, h1, (ih b (j + 1) p1 p').mpr ⟨q, hq1, hq2⟩⟩
    · have he' : o.Exists = false := by simpa using he
      have hnum : j + OutputArgNum (o :: rest) = j + OutputArgNum rest := by
        rw [OutputArgNum_cons_missing he]
      rw [hnum]
      simp only [List.cons_append, ReusePlanOutputs, he', Bool.not_false, if_true]
      exact ih b j p p'

/-- The loop that frees the inputs in two parts. -/
theorem FreeInputs_append {ss : SessionState} {pc : Nat} :
    ∀ (a b : List NodeArg) (p p' : PlannerImpl),
      FreeInputs ss pc (a ++ b) p = .ok p' ↔
        ∃ q, FreeInputs ss pc a p = .ok q ∧ FreeInputs ss pc b q = .ok p' := by
  intro a
  induction a with
  | nil =>
    intro b p p'
    simp [FreeInputs, pure_ok]
  | cons o rest ih =>
    intro b p p'
    by_cases he : o.Exists = true
    · simp only [List.cons_append, FreeInputs, he, if_true, bind_ok]
      constructor
      · rintro ⟨index, hi, original, ho, p1, h1, count, hc, h2⟩
        obtain ⟨q, hq1, hq2⟩ := (ih b _ p').mp h2
        exact ⟨q, ⟨index, hi, original, ho, p1, h1, count, hc, hq1⟩, hq2⟩
      · rintro ⟨q, ⟨index, hi, original, ho, p1, h1, count, hc, hq1⟩, hq2⟩
        exact ⟨index, hi, original, ho, p1, h1, count, hc, (ih b _ p').mpr ⟨q, hq1, hq2⟩⟩
    · simp only [List.cons_append, FreeInputs, he, if_false, Bool.false_eq_true]
      exact ih b p p'

/-- The loop that frees the unused outputs in two parts. -/
theorem FreeUnusedOutputs_append {ss : SessionState} {pc : Nat} :
    ∀ (a b : List NodeArg) (p p' : PlannerImpl),
      FreeUnusedOutputs ss pc (a ++ b) p = .ok p' ↔
        ∃ q, FreeUnusedOutputs ss pc a p = .ok q ∧ FreeUnusedOutputs ss pc b q = .ok p' := by
  intro a
  induction a with
  | nil =>
    intro b p p'
    simp [FreeUnusedOutputs, pure_ok]
  | cons o rest ih =>
    intro b p p'
    by_cases he : o.Exists = true
    · simp only [List.cons_append, FreeUnusedOutputs, he, if_true, bind_ok]
      constructor
      · rintro ⟨index, hi, original, ho, count, hc, h2⟩
        obtain ⟨q, hq1, hq2⟩ := (ih b _ p').mp h2
        exact ⟨q, ⟨index, hi, original, ho, count, hc, hq1⟩, hq2⟩
      · rintro ⟨q, ⟨index, hi, original, ho, count, hc, hq1⟩, hq2⟩
        exact ⟨index, hi, original, ho, count, hc, (ih b _ p').mpr ⟨q, hq1, hq2⟩⟩
    · simp only [List.cons_append, FreeUnusedOutputs, he, if_false, Bool.false_eq_true]
      exact ih b p p'

/-- The three forms of a place within a step, in terms of the loops of the step. -/
theorem ReusePlanStepAt_cases {ss : SessionState} {ctx : ISequentialPlannerContext}
    {graph : Graph} {step : NodeExecutionPlan} {pc phase k : Nat} {p q : PlannerImpl}
    (h : ReusePlanStepAt ss ctx graph step pc phase k p = .ok q) :
    ∃ pnode, graph.GetNode step.node_index = some pnode ∧
      ((phase = 0 ∧ ReusePlanOutputs ss ctx graph pnode (pnode.OutputDefs.take k) 0 p = .ok q) ∨
       (phase = 1 ∧ ∃ p1, ReusePlanOutputs ss ctx graph pnode pnode.OutputDefs 0 p = .ok p1 ∧
          FreeInputs ss pc (pnode.InputDefs.take k) p1 = .ok q) ∨
       (2 ≤ phase ∧ ∃ p1 p2, ReusePlanOutputs ss ctx graph pnode pnode.OutputDefs 0 p = .ok p1 ∧
          FreeInputs ss pc pnode.InputDefs p1 = .ok p2 ∧
          FreeUnusedOutputs ss pc (pnode.OutputDefs.take k) p2 = .ok q)) := by
  unfold ReusePlanStepAt at h
  split at h
  · simp only [throw_ok] at h
  · rename_i pnode hn
    refine ⟨pnode, hn, ?_⟩
    match phase, h with
    | 0, h => exact Or.inl ⟨rfl, h⟩
    | 1, h =>
      simp only [bind_ok] at h
      exact Or.inr (Or.inl ⟨rfl, h⟩)
    | n + 2, h =>
      simp only [bind_ok] at h
      obtain ⟨p1, h1, p2, h2, h3⟩ := h
      exact Or.inr (Or.inr ⟨by omega, p1, p2, h1, h2, h3⟩)

/-- Every place within a step that runs to its end is reached. -/
theorem ReusePlanStepAt_ok {ss : SessionState} {ctx : ISequentialPlannerContext}
    {graph : Graph} {step : NodeExecutionPlan} {pc : Nat} {p p' : PlannerImpl}
    (h : ReusePlanStep ss ctx graph step pc p = .ok p') (phase k : Nat) :
    ∃ q, ReusePlanStepAt ss ctx graph step pc phase k p = .ok q := by
  obtain ⟨pnode, p1, p2, hn, h1, h2, h3⟩ := ReusePlanStep_split h
  unfold ReusePlanStepAt
  rw [hn]
  match phase with
  | 0 =>
    rw [← List.take_append_drop k pnode.OutputDefs] at h1
    obtain ⟨q, hq, _⟩ := (ReusePlanOutputs_append _ _ _ _ _).mp h1
    exact ⟨q, hq⟩
  | 1 =>
    rw [← List.take_append_drop k pnode.InputDefs] at h2
    obtain ⟨q, hq, _⟩ := (FreeInputs_append _ _ _ _).mp h2
    exact ⟨q, by simp only [bind_ok]; exact ⟨p1, h1, hq⟩⟩
  | n + 2 =>
    rw [← List.take_append_drop k pnode.OutputDefs] at h3
    obtain ⟨q, hq, _⟩ := (FreeUnusedOutputs_append _ _ _ _).mp h3
    exact ⟨q, by simp only [bind_ok]; exact ⟨p1, h1, p2, h2, hq⟩⟩

/-- A place of the program-counter loop, in terms of the loop on the steps before it. -/
theorem ReusePlanStepsAt_cases {ss : SessionState} {ctx : ISequentialPlannerContext}
    {graph : Graph} {steps : List NodeExecutionPlan} {c : LoopPoint} {p q : PlannerImpl}
    (h : ReusePlanStepsAt ss ctx graph steps c p = .ok q) :
    ∃ q0, ReusePlanSteps ss ctx graph (steps.take c.pc) 0 p = .ok q0 ∧
      ((steps.length ≤ c.pc ∧ q = q0) ∨
       ∃ step, steps.drop c.pc = step :: steps.drop (c.pc + 1) ∧ c.pc < steps.length ∧
         ReusePlanStepAt ss ctx graph step c.pc c.phase c.k q0 = .ok q) := by
  simp only [ReusePlanStepsAt, bind_ok] at h
  obtain ⟨q0, h0, h1⟩ := h
  refine ⟨q0, h0, ?_⟩
  cases hs : steps[c.pc]? with
  | none =>
    rw [hs] at h1
    simp only [pure_ok] at h1
    exact Or.inl ⟨List.getElem?_eq_none_iff.mp hs, h1.symm⟩
  | some step =>
    rw [hs] at h1
    obtain ⟨hlt, hget⟩ := List.getElem?_eq_some_iff.mp hs
    refine Or.inr ⟨step, ?_, hlt, h1⟩
    rw [← hget]
    exact List.drop_eq_getElem_cons hlt

/-- Every place of a program-counter loop that runs to its end is reached. -/
theorem ReusePlanStepsAt_ok {ss : SessionState} {ctx : ISequentialPlannerContext}
    {graph : Graph} {steps : List NodeExecutionPlan} {p p' : PlannerImpl}
    (h : ReusePlanSteps ss ctx graph steps 0 p = .ok p') (c : LoopPoint) :
    ∃ q, ReusePlanStepsAt ss ctx graph steps c p = .ok q := by
  rw [← List.take_append_drop c.pc steps] at h
  obtain ⟨q0, h0, hrest⟩ := (ReusePlanSteps_append _ _ _ _ _).mp h
  unfold ReusePlanStepsAt
  cases hs : steps[c.pc]? with
  | none => exact ⟨q0, by simp only [bind_ok, pure_ok]; exact ⟨q0, h0, rfl⟩⟩
  | some step =>
    obtain ⟨hlt, hget⟩ := List.getElem?_eq_some_iff.mp hs
    have hd : steps.drop c.pc = step :: steps.drop (c.pc + 1) := by
      rw [← hget]
      exact List.drop_eq_getElem_cons hlt
    have hlen : (steps.take c.pc).length = c.pc := by
      rw [List.length_take]; omega
    rw [hd, hlen, Nat.zero_add] at hrest
    simp only [ReusePlanSteps, bind_ok] at hrest
    obtain ⟨p1, hstep, _⟩ := hrest
    obtain ⟨q, hq⟩ := ReusePlanStepAt_ok hstep c.phase c.k
    exact ⟨q, by simp only [bind_ok]; exact ⟨q0, h0, hq⟩⟩

/-- The phases of `CreatePlan` that lead to a place of the program-counter loop, and from the
same state `p3` on entry to the loop to the final planner object. -/
theorem CreatePlanImplAt_split {ss : SessionState} {ctx : ISequentialPlannerContext}
    {plan : SequentialExecutionPlan} {c : LoopPoint} {q : PlannerImpl}
    (h : CreatePlanImplAt ss ctx plan c = .ok q) :
    ∃ graph order p0 p1 p2 p3, ss.Graph = some graph ∧
      graph.NodesInTopologicalOrder = .ok order ∧
      ((∀ v, cnt p0 v = 0) ∧ (∀ v, defsite p0 v = none) ∧ (∀ v, entry p0.plan_ v = {}) ∧
        p0.freelist_ = [] ∧ p0.plan_.execution_plan = ScheduledNodes graph order ∧
        p0.plan_.to_be_freed = plan.to_be_freed) ∧
      ComputeUseCounts ss graph p0 = .ok p1 ∧
      ReusePlanGraphInputs ss graph.Inputs p1 = .ok p2 ∧
      GeneratePlanForWeights ss graph p2 = .ok p3 ∧
      ReusePlanStepsAt ss ctx graph (ScheduledNodes graph order) c p3 = .ok q ∧
      (∀ c' q', CreatePlanImplAt ss ctx plan c' = .ok q' ↔
        ReusePlanStepsAt ss ctx graph (ScheduledNodes graph order) c' p3 = .ok q') ∧
      ∀ p, CreatePlanImpl ss ctx plan = .ok p →
        ∃ p4, ReusePlanSteps ss ctx graph (ScheduledNodes graph order) 0 p3 = .ok p4 ∧
          p = { p4 with plan_ := GenerateDeallocationPlan p4.freelist_ p4.plan_ } := by
  unfold CreatePlanImplAt at h
  cases hg : ss.Graph with
  | none =>
    rw [hg] at h
    simp only [throw_ok] at h
  | some graph =>
    rw [hg] at h
    cases ho : graph.NodesInTopologicalOrder with
    | error msg =>
      simp only [ho, throw_ok] at h
    | ok order =>
      by_cases hneg : ss.GetMaxMLValueIdx + 1 < 0
      · simp only [ho, hneg, if_true, throw_ok] at h
      simp only [ho, hneg, if_false, bind_ok, ComputeReusePlanAt] at h
      obtain ⟨p1, h1, p2, h2, p3, h3, h4⟩ := h
      have hinit := Initialize_acc plan (ss.GetMaxMLValueIdx + 1).toNat
        (ScheduledNodes graph order) _ rfl
      obtain ⟨f1, _⟩ := ComputeUseCounts_frame h1
      obtain ⟨_, _, x2, _⟩ := ReusePlanGraphInputs_acc _ _ _ h2
      obtain ⟨_, _, x3, _⟩ := PlanWeightsOfNodes_acc _ _ _ h3
      have hx : p3.plan_.execution_plan = ScheduledNodes graph order := by
        rw [x3, x2, f1.execution_plan, hinit.2.2.2.2.1]
      rw [hx] at h4
      refine ⟨graph, order, _, p1, p2, p3, rfl, ho, hinit, h1, h2, h3, h4, ?_, ?_⟩
      · intro c' q'
        unfold CreatePlanImplAt
        rw [hg]
        simp only [ho, hneg, if_false, bind_ok, ComputeReusePlanAt]
        constructor
        · rintro ⟨p1', h1', p2', h2', p3', h3', h4'⟩
          rw [h1] at h1'
          cases h1'
          rw [h2] at h2'
          cases h2'
          rw [h3] at h3'
          cases h3'
          rw [hx] at h4'
          exact h4'
        · intro h4'
          exact ⟨p1, h1, p2, h2, p3, h3, by rw [hx]; exact h4'⟩
      intro p hp
      unfold CreatePlanImpl at hp
      rw [hg] at hp
      simp only [ho, hneg, if_false, bind_ok, pure_ok, ComputeReusePlan] at hp
      obtain ⟨p1', h1', p4, ⟨p2', h2', p3', h3', h4'⟩, hpe⟩ := hp
      rw [h1] at h1'
      cases h1'
      rw [h2] at h2'
      cases h2'
      rw [h3] at h3'
      cases h3'
      rw [hx] at h4'
      exact ⟨p4, h4', hpe.symm⟩

/-- When `CreatePlan` succeeds, the planner reaches every place of the program-counter
loop. -/
theorem CreatePlanImplAt_ok {ss : SessionState} {ctx : ISequentialPlannerContext}
    {plan : SequentialExecutionPlan} {p : PlannerImpl}
    (h : CreatePlanImpl ss ctx plan = .ok p) (c : LoopPoint) :
    ∃ q, CreatePlanImplAt ss ctx plan c = .ok q := by
  unfold CreatePlanImpl at h
  unfold CreatePlanImplAt
  cases hg : ss.Graph with
  | none =>
    rw [hg] at h
    simp only [throw_ok] at h
  | some graph =>
    rw [hg] at h
    cases ho : graph.NodesInTopologicalOrder with
    | error msg =>
      simp only [ho, throw_ok] at h
    | ok order =>
      by_cases hneg : ss.GetMaxMLValueIdx + 1 < 0
      · simp only [ho, hneg, if_true, throw_ok] at h
      simp only [ho, hneg, if_false, bind_ok, pure_ok, ComputeReusePlan] at h
      obtain ⟨p1, h1, p4, ⟨p2, h2, p3, h3, h4⟩, _⟩ := h
      obtain ⟨q, hq⟩ := ReusePlanStepsAt_ok h4 c
      refine ⟨q, ?_⟩
      simp only [ho, hneg, if_false, bind_ok, ComputeReusePlanAt]
      exact ⟨p1, h1, p2, h2, p3, h3, hq⟩

/-! ### The order of the freelist at every place -/

theorem ReusePlanStepAt_freelist {ss : SessionState} {ctx : ISequentialPlannerContext}
    {graph : Graph} {step : NodeExecutionPlan} {pc phase k : Nat} {p q : PlannerImpl}
    (h : ReusePlanStepAt ss ctx graph step pc phase k p = .ok q)
    (ho : FreelistOrdered p.freelist_ pc) :
    q.freelist_.Pairwise (fun a b => b.deallocate_point ≤ a.deallocate_point) ∧
      ∀ e ∈ q.freelist_, e.deallocate_point ≤ pc := by
  have hsub : ∀ {p1 : PlannerImpl}, p1.freelist_.Sublist p.freelist_ →
      p1.freelist_.Pairwise (fun a b => b.deallocate_point ≤ a.deallocate_point) ∧
        ∀ e ∈ p1.freelist_, e.deallocate_point ≤ pc :=
    fun s1 => ⟨List.Pairwise.sublist s1 ho.1, fun e he => Nat.le_of_lt (ho.2 e (s1.subset he))⟩
  obtain ⟨pnode, _, h0 | ⟨_, p1, h1, h2⟩ | ⟨_, p1, p2, h1, h2, h3⟩⟩ := ReusePlanStepAt_cases h
  · exact hsub (ReusePlanOutputs_freelist _ _ _ _ h0.2)
  · obtain ⟨o1, b1⟩ := hsub (ReusePlanOutputs_freelist _ _ _ _ h1)
    obtain ⟨pushed2, e2, a2⟩ := FreeInputs_freelist _ _ _ h2
    have := pushed_ordered o1 b1 a2
    rwa [← e2] at this
  · obtain ⟨o1, b1⟩ := hsub (ReusePlanOutputs_freelist _ _ _ _ h1)
    obtain ⟨pushed2, e2, a2⟩ := FreeInputs_freelist _ _ _ h2
    obtain ⟨pushed3, e3, a3⟩ := FreeUnusedOutputs_freelist _ _ _ h3
    obtain ⟨o2, b2⟩ := pushed_ordered o1 b1 a2
    rw [← e2] at o2 b2
    have := pushed_ordered o2 b2 a3
    rwa [← e3] at this

theorem ReusePlanStepsAt_freelist {ss : SessionState} {ctx : ISequentialPlannerContext}
    {graph : Graph} {steps : List NodeExecutionPlan} {c : LoopPoint} {p q : PlannerImpl}
    (h : ReusePlanStepsAt ss ctx graph steps c p = .ok q) (hf : p.freelist_ = []) :
    q.freelist_.Pairwise (fun a b => b.deallocate_point ≤ a.deallocate_point) ∧
      ∀ e ∈ q.freelist_, e.deallocate_point ≤ c.pc := by
  obtain ⟨q0, h0, hcase⟩ := ReusePlanStepsAt_cases h
  have hord0 : FreelistOrdered p.freelist_ 0 := by
    rw [hf]
    exact ⟨List.Pairwise.nil, fun e he => by simp at he⟩
  have hord := ReusePlanSteps_freelist _ _ _ _ h0 hord0
  rw [Nat.zero_add] at hord
  have hlen : (steps.take c.pc).length ≤ c.pc := by
    rw [List.length_take]; omega
  rcases hcase with ⟨_, rfl⟩ | ⟨step, _, hlt, hstep⟩
  · exact ⟨hord.1, fun e he => by have := hord.2 e he; omega⟩
  · have hlen' : (steps.take c.pc).length = c.pc := by
      rw [List.length_take]; omega
    rw [hlen'] at hord
    exact ReusePlanStepAt_freelist hstep hord

/-- At every place of the program-counter loop the freelist is ordered, newest entry first,
and no entry is newer than the current program counter. -/
theorem CreatePlanImplAt_freelist {ss : SessionState} {ctx : ISequentialPlannerContext}
    {plan : SequentialExecutionPlan} {c : LoopPoint} {q : PlannerImpl}
    (h : CreatePlanImplAt ss ctx plan c = .ok q) :
    q.freelist_.Pairwise (fun a b => b.deallocate_point ≤ a.deallocate_point) ∧
      ∀ e ∈ q.freelist_, e.deallocate_point ≤ c.pc := by
  obtain ⟨graph, order, p0, p1, p2, p3, _, _, hinit, h1, h2, h3, h4, _, _⟩ :=
    CreatePlanImplAt_split h
  obtain ⟨f1, _⟩ := ComputeUseCounts_frame h1
  obtain ⟨_, fl2, _⟩ := ReusePlanGraphInputs_acc _ _ _ h2
  obtain ⟨_, fl3, _⟩ := PlanWeightsOfNodes_acc _ _ _ h3
  exact ReusePlanStepsAt_freelist h4 (by rw [fl3, fl2, f1.freelist, hinit.2.2.2.1])

/-! ### The invariants at every place -/

theorem PinnedByName.sub {ss : SessionState} {graph : Graph} {P : List MLValueIndex}
    {outs outs' : List NodeArg} (h : PinnedByName ss graph P outs)
    (hs : ∀ o ∈ outs', o ∈ outs) : PinnedByName ss graph P outs' :=
  fun o ho => h o (hs o ho)

/-- The invariants after the outputs `opre` of a step have been planned, the outputs `opost`
still to come. -/
theorem ReusePlanOutputs_point {ss : SessionState} {ctx : ISequentialPlannerContext}
    {graph : Graph} {pnode : Node} {P F Fut D : List MLValueIndex} {opre opost : List NodeArg}
    {p q : PlannerImpl}
    (hdefs : pnode.OutputDefs = opre ++ opost)
    (h : ReusePlanOutputs ss ctx graph pnode opre 0 p = .ok q)
    (hreads : ∀ x ∈ pnode.Reads ss, x ∈ D)
    (hpin : PinnedByName ss graph P pnode.OutputDefs)
    (hr : RInv P p (pnode.Reads ss ++ F) (pnode.Writes ss ++ Fut) D)
    (hf : FInv P p (pnode.Reads ss ++ F) (pnode.Writes ss ++ Fut) D []) :
    RInv P q (pnode.Reads ss ++ F) (ArgIndices ss opost ++ Fut) (ArgIndices ss opre ++ D) ∧
    FInv P q (pnode.Reads ss ++ F) (ArgIndices ss opost ++ Fut) (ArgIndices ss opre ++ D)
      (pnode.Writes ss) ∧
    (ZInv p → ZInv q) := by
  have hw : pnode.Writes ss = ArgIndices ss opre ++ ArgIndices ss opost := by
    rw [Node.Writes, hdefs, ArgIndices_append]
  have hfX : FInv P p (pnode.Reads ss ++ F) (pnode.Writes ss ++ Fut) D (pnode.Writes ss) :=
    hf.fweaken (fun x hx => by simp at hx)
  rw [hw, List.append_assoc] at hr hfX
  have hpin' : PinnedByName ss graph P opre :=
    hpin.sub (fun o ho => by rw [hdefs]; exact List.mem_append_left _ ho)
  have := ReusePlanOutputs_invs (X := ArgIndices ss opre ++ ArgIndices ss opost) _ _ _ _ _ h hr hfX
    hreads (fun x hx => List.mem_append_left _ hx) hpin' (fun c hc => List.mem_append_left _ hc)
  rw [hw]
  exact this

/-- The invariants hold, for suitable lists of pending reads, future and defined values, at
every place within a step; the freelist keeps holding roots without uses, each once, when
every output of the step has a use to come. -/
theorem ReusePlanStepAt_invs {ss : SessionState} {ctx : ISequentialPlannerContext}
    {graph : Graph} {step : NodeExecutionPlan} {pc phase k : Nat} {pnode : Node}
    {p q : PlannerImpl} {P F Fut D : List MLValueIndex}
    (h : ReusePlanStepAt ss ctx graph step pc phase k p = .ok q)
    (hn : graph.GetNode step.node_index = some pnode)
    (hreads : ∀ x ∈ pnode.Reads ss, x ∈ D)
    (hpin : PinnedByName ss graph P pnode.OutputDefs)
    (hr : RInv P p (pnode.Reads ss ++ F) (pnode.Writes ss ++ Fut) D)
    (hf : FInv P p (pnode.Reads ss ++ F) (pnode.Writes ss ++ Fut) D []) :
    (∃ F' Fut' D', RInv P q F' Fut' D') ∧
    ((∀ x ∈ pnode.Writes ss, x ∈ F ++ P) → ZInv p → ZInv q) := by
  obtain ⟨pnode', hn', h0 | ⟨_, p1, h1, h2⟩ | ⟨_, p1, p2, h1, h2, h3⟩⟩ := ReusePlanStepAt_cases h
  · rw [hn] at hn'
    cases hn'
    obtain ⟨a, _, c⟩ := ReusePlanOutputs_point (List.take_append_drop k pnode.OutputDefs).symm
      h0.2 hreads hpin hr hf
    exact ⟨⟨_, _, _, a⟩, fun _ => c⟩
  · rw [hn] at hn'
    cases hn'
    obtain ⟨a1, b1, c1⟩ := @ReusePlanOutputs_point _ _ _ _ _ _ _ _ _ [] _ _ (List.append_nil _).symm
      h1 hreads hpin hr hf
    simp only [ArgIndices_nil, List.nil_append] at a1 b1
    have hi : pnode.Reads ss = ArgIndices ss (pnode.InputDefs.take k) ++
        ArgIndices ss (pnode.InputDefs.drop k) := by
      rw [Node.Reads, ← ArgIndices_append, List.take_append_drop]
    rw [hi, List.append_assoc] at a1 b1
    obtain ⟨a2, _, c2⟩ := FreeInputs_invs _ _ _ h2 a1 b1
      (fun x hx => List.mem_append_right _ (hreads x (by rw [hi]; exact List.mem_append_left _ hx)))
    exact ⟨⟨_, _, _, a2⟩, fun _ hz => c2 (c1 hz)⟩
  · rw [hn] at hn'
    cases hn'
    obtain ⟨a1, b1, c1⟩ := @ReusePlanOutputs_point _ _ _ _ _ _ _ _ _ [] _ _ (List.append_nil _).symm
      h1 hreads hpin hr hf
    simp only [ArgIndices_nil, List.nil_append] at a1 b1
    obtain ⟨a2, b2, c2⟩ := FreeInputs_invs _ _ _ h2 a1 b1
      (fun x hx => List.mem_append_right _ (hreads x hx))
    have hw : pnode.Writes ss = ArgIndices ss (pnode.OutputDefs.take k) ++
        ArgIndices ss (pnode.OutputDefs.drop k) := by
      rw [Node.Writes, ← ArgIndices_append, List.take_append_drop]
    have b2' : FInv P p2 F Fut (ArgIndices ss pnode.OutputDefs ++ D)
        (ArgIndices ss (pnode.OutputDefs.take k) ++ ArgIndices ss (pnode.OutputDefs.drop k)) := by
      rw [← hw]
      exact b2
    obtain ⟨a3, _, c3⟩ := FreeUnusedOutputs_invs _ _ _ h3 a2 b2'
      (fun x hx => List.mem_append_left _ (by
        show x ∈ pnode.Writes ss
        rw [hw]
        exact List.mem_append_left _ hx))
    refine ⟨⟨_, _, _, a3⟩, fun hlive hz => c3 (fun x hx => hlive x ?_) (c2 (c1 hz))⟩
    rw [hw]
    exact List.mem_append_left _ hx

/-- The state `q0` at the start of the step of a place, with the invariants that hold there on
a well-formed input, and the way from there to the place. -/
theorem CreatePlanImplAt_start {ss : SessionState} {ctx : ISequentialPlannerContext}
    {plan : SequentialExecutionPlan} {c : LoopPoint} {q : PlannerImpl} {graph : Graph}
    {order : List NodeIndex}
    (hwf : WellFormed ss) (hg : ss.Graph = some graph)
    (ho : graph.NodesInTopologicalOrder = .ok order)
    (h : CreatePlanImplAt ss ctx plan c = .ok q) :
    ∃ p3 q0 D, p3.freelist_ = [] ∧
      (∀ c' q', CreatePlanImplAt ss ctx plan c' = .ok q' ↔
        ReusePlanStepsAt ss ctx graph (ScheduledNodes graph order) c' p3 = .ok q') ∧
      (∀ p, CreatePlanImpl ss ctx plan = .ok p →
        ∃ p4, ReusePlanSteps ss ctx graph (ScheduledNodes graph order) 0 p3 = .ok p4 ∧
          p = { p4 with plan_ := GenerateDeallocationPlan p4.freelist_ p4.plan_ }) ∧
      ReusePlanSteps ss ctx graph ((ScheduledNodes graph order).take c.pc) 0 p3 = .ok q0 ∧
      ReusePlanStepsAt ss ctx graph (ScheduledNodes graph order) c p3 = .ok q ∧
      (∀ x, x ∈ D ↔ x ∈ AllWrites ss (StepNodes graph ((ScheduledNodes graph order).take c.pc)) ∨
        x ∈ InitiallyDefined ss graph) ∧
      ValidOrder ss D (StepNodes graph ((ScheduledNodes graph order).drop c.pc)) ∧
      (∀ n ∈ StepNodes graph ((ScheduledNodes graph order).drop c.pc),
        PinnedByName ss graph (Pinned ss graph) n.OutputDefs) ∧
      RInv (Pinned ss graph) q0
        (AllReads ss (StepNodes graph ((ScheduledNodes graph order).drop c.pc)))
        (AllWrites ss (StepNodes graph ((ScheduledNodes graph order).drop c.pc))) D ∧
      FInv (Pinned ss graph) q0
        (AllReads ss (StepNodes graph ((ScheduledNodes graph order).drop c.pc)))
        (AllWrites ss (StepNodes graph ((ScheduledNodes graph order).drop c.pc))) D [] ∧
      (NoDeadOutputs ss graph →
        (∀ x ∈ AllWrites ss (StepNodes graph ((ScheduledNodes graph order).drop c.pc)),
          x ∈ AllReads ss (StepNodes graph ((ScheduledNodes graph order).drop c.pc)) ++
            Pinned ss graph) ∧ ZInv q0) ∧
      (((ScheduledNodes graph order).length ≤ c.pc ∧ q = q0) ∨
       ∃ step, (ScheduledNodes graph order).drop c.pc =
           step :: (ScheduledNodes graph order).drop (c.pc + 1) ∧
         c.pc < (ScheduledNodes graph order).length ∧
         ReusePlanStepAt ss ctx graph step c.pc c.phase c.k q0 = .ok q) := by
  obtain ⟨graph', order', p0, p1, p2, p3, hg', ho', hinit, h1, h2, h3, h4, hiff, hfin⟩ :=
    CreatePlanImplAt_split h
  rw [hg] at hg'
  cases hg'
  rw [ho] at ho'
  cases ho'
  obtain ⟨h0, _, he0, hf0, hx0, _⟩ := hinit
  obtain ⟨q0, hq0, hcase⟩ := ReusePlanStepsAt_cases h4
  obtain ⟨D, hD, hvo, hpin, hr, hf, hz⟩ := CreatePlanImpl_invs_at hwf hg ho h0 he0 hf0 hx0 h1 h2 h3
    (List.take_append_drop c.pc (ScheduledNodes graph order)).symm hq0
  obtain ⟨f1, _⟩ := ComputeUseCounts_frame h1
  obtain ⟨_, fl2, _⟩ := ReusePlanGraphInputs_acc _ _ _ h2
  obtain ⟨_, fl3, _⟩ := PlanWeightsOfNodes_acc _ _ _ h3
  exact ⟨p3, q0, D, by rw [fl3, fl2, f1.freelist, hf0], hiff, hfin, hq0, h4, hD, hvo, hpin, hr, hf, hz,
    hcase⟩

/-- On a well-formed input the reuse invariant holds at every place of the program-counter
loop; when no output is dead, the freelist holds roots without uses, each once. -/
theorem CreatePlanImplAt_invs {ss : SessionState} {ctx : ISequentialPlannerContext}
    {plan : SequentialExecutionPlan} {c : LoopPoint} {q : PlannerImpl} {graph : Graph}
    (hwf : WellFormed ss) (hg : ss.Graph = some graph)
    (h : CreatePlanImplAt ss ctx plan c = .ok q) :
    (∃ F Fut D, RInv (Pinned ss graph) q F Fut D) ∧ (NoDeadOutputs ss graph → ZInv q) := by
  obtain ⟨graph', order, _, _, _, _, hg', ho, _⟩ := CreatePlanImplAt_split h
  rw [hg] at hg'
  cases hg'
  obtain ⟨p3, q0, D, _, _, _, hq0, _, hD, hvo, hpin, hr, hf, hz, hcase⟩ :=
    CreatePlanImplAt_start hwf hg ho h
  rcases hcase with ⟨_, rfl⟩ | ⟨step, hd, _, hstep⟩
  · exact ⟨⟨_, _, _, hr⟩, fun hl => (hz hl).2⟩
  · obtain ⟨pnode, hn, _⟩ := ReusePlanStepAt_cases hstep
    rw [hd, StepNodes_cons hn] at hvo hpin hr hf hz
    rw [AllReads_cons, AllWrites_cons] at hr hf hz
    obtain ⟨hreads, _, hnew, _⟩ := hvo
    obtain ⟨a, b⟩ := ReusePlanStepAt_invs hstep hn hreads (hpin pnode (List.mem_cons_self _ _))
      hr hf
    refine ⟨a, fun hl => ?_⟩
    obtain ⟨hlive, hz0⟩ := hz hl
    apply b _ hz0
    intro x hx
    have := hlive x (List.mem_append_left _ hx)
    simp only [List.mem_append] at this ⊢
    rcases this with (h1 | h1) | h1
    · exact absurd (hreads x h1) (hnew x hx)
    · exact Or.inl h1
    · exact Or.inr h1

/-- The state at the start of a step is the state after the steps before it. -/
theorem ReusePlanStepsAt_start {ss : SessionState} {ctx : ISequentialPlannerContext}
    {graph : Graph} {steps : List NodeExecutionPlan} {pc : Nat} {p q q0 : PlannerImpl}
    (h : ReusePlanStepsAt ss ctx graph steps ⟨pc, 0, 0⟩ p = .ok q)
    (h0 : ReusePlanSteps ss ctx graph (steps.take pc) 0 p = .ok q0) : q = q0 := by
  obtain ⟨q0', h0', hcase⟩ := ReusePlanStepsAt_cases h
  simp only at h0' hcase
  rw [h0] at h0'
  cases h0'
  rcases hcase with ⟨_, rfl⟩ | ⟨step, _, _, hstep⟩
  · rfl
  · obtain ⟨pnode, _, h1 | ⟨h1, _⟩ | ⟨h1, _⟩⟩ := ReusePlanStepAt_cases hstep
    · have := h1.2
      simp only [List.take_zero, ReusePlanOutputs, pure_ok] at this
      exact this.symm
    · exact absurd h1 (by decide)
    · exact absurd h1 (by decide)

/-- Use counts at the start of a step on a well-formed input: the count of a root is the
number of pending uses of the values that share it, and every count is non-negative at every
place. -/
theorem CreatePlanImplAt_counts {ss : SessionState} {ctx : ISequentialPlannerContext}
    {plan : SequentialExecutionPlan} {pc : Nat} {q : PlannerImpl} {graph : Graph}
    {order : List NodeIndex}
    (hwf : WellFormed ss) (hg : ss.Graph = some graph)
    (ho : graph.NodesInTopologicalOrder = .ok order)
    (h : CreatePlanImplAt ss ctx plan ⟨pc, 0, 0⟩ = .ok q) (r : MLValueIndex)
    (hr : r ∈ InitiallyDefined ss graph ∨ r ∈ AllWrites ss graph.Scheduled)
    (hroot : buf q r = r) :
    cnt q r = (PendingUses q
      (AllReads ss (StepNodes graph ((ScheduledNodes graph order).drop pc)))
      (Pinned ss graph) r : Nat) := by
  obtain ⟨p3, q0, D, _, _, _, hq0, hq, hD, _, _, hri, hfi, _, _⟩ :=
    CreatePlanImplAt_start hwf hg ho h
  simp only at hq0 hD hri hfi
  have := ReusePlanStepsAt_start hq hq0
  subst this
  have hmem : r ∈ D ∨
      r ∈ AllWrites ss (StepNodes graph ((ScheduledNodes graph order).drop pc)) := by
    rcases hr with hr | hr
    · exact Or.inl ((hD r).mpr (Or.inr hr))
    · have hs : graph.Scheduled = StepNodes graph ((ScheduledNodes graph order).take pc ++
          (ScheduledNodes graph order).drop pc) := by
        rw [List.take_append_drop]
        simp only [Graph.Scheduled, ho]
      rw [hs, StepNodes_append] at hr
      simp only [AllWrites, List.flatMap_append, List.mem_append] at hr
      rcases hr with hr | hr
      · exact Or.inl ((hD r).mpr (Or.inl hr))
      · exact Or.inr hr
  unfold PendingUses
  exact le_antisymm (hfi.upper r hmem hroot) (hri.count r)

/-! ### The place where an output is planned -/

/-- The planner state `q` after `k` outputs of step `pc` have been planned, on a well-formed
input without dead outputs and within a run of `CreatePlan` that ends in `p`: the freelist
holds roots without uses, at the start `q0` of the step as well; no pending read is of a
value whose root is on the freelist; the root of a value that is no longer to be produced is
final; and an output that takes its buffer `r` from the freelist has the root `r` in the
end. -/
theorem CreatePlanImplAt_decision {ss : SessionState} {ctx : ISequentialPlannerContext}
    {plan : SequentialExecutionPlan} {pc k : Nat} {p q : PlannerImpl} {graph : Graph}
    {order : List NodeIndex} {step : NodeExecutionPlan} {n : Node}
    (hwf : WellFormed ss) (hg : ss.Graph = some graph)
    (ho : graph.NodesInTopologicalOrder = .ok order) (hlive : NoDeadOutputs ss graph)
    (hp : CreatePlanImpl ss ctx plan = .ok p)
    (hq : CreatePlanImplAt ss ctx plan ⟨pc, 0, k⟩ = .ok q)
    (hstep : (ScheduledNodes graph order)[pc]? = some step)
    (hn : graph.GetNode step.node_index = some n) :
    ∃ q0, CreatePlanImplAt ss ctx plan ⟨pc, 0, 0⟩ = .ok q0 ∧
      q.freelist_.Sublist q0.freelist_ ∧ ZInv q0 ∧ ZInv q ∧
      (∀ e ∈ q.freelist_, buf q e.ml_value = e.ml_value) ∧
      (∀ x ∈ AllReads ss (StepNodes graph ((ScheduledNodes graph order).drop pc)),
        0 < cnt q0 (buf q0 x) ∧ 0 < cnt q (buf q x)) ∧
      (∀ x, x ∉ ArgIndices ss (n.OutputDefs.drop k) →
        x ∉ AllWrites ss (StepNodes graph ((ScheduledNodes graph order).drop (pc + 1))) →
        buf p x = buf q x) ∧
      (∀ x, (x ∈ InitiallyDefined ss graph ∨
          x ∈ AllWrites ss (StepNodes graph ((ScheduledNodes graph order).take pc)) ∨
          x ∈ ArgIndices ss (n.OutputDefs.take k)) →
        x ∉ ArgIndices ss (n.OutputDefs.drop k) ∧
        x ∉ AllWrites ss (StepNodes graph ((ScheduledNodes graph order).drop (pc + 1)))) ∧
      (∀ (o : NodeArg) (cur r : MLValueIndex) (p1 p2 : PlannerImpl),
        n.OutputDefs[k]? = some o → o.Exists = true → ss.GetMLValueIdx o.Name = some cur →
        q.modifyAllocPlan cur (fun a => { a with value_type := some o.Type_ }) = .ok p1 →
        ¬ graph.Outputs.any (fun g => g.Name == o.Name) = true →
        ¬ IsNonTensor o = true →
        FindReusableInput ss ctx p1 n (OutputArgNum (n.OutputDefs.take k)) = .ok none →
        FindReusableTensor ss ctx p1 o = .ok (some r, p2) →
        buf p cur = r) := by
  obtain ⟨p3, q0, D, _, hiff, hfin, hq0, hqs, hD, hvo, hpin, hr, hf, hz, hcase⟩ :=
    CreatePlanImplAt_start hwf hg ho hq
  simp only at hq0 hqs hD hvo hpin hr hf hz hcase
  obtain ⟨hlt, hget⟩ := List.getElem?_eq_some_iff.mp hstep
  have hd : (ScheduledNodes graph order).drop pc =
      step :: (ScheduledNodes graph order).drop (pc + 1) := by
    rw [← hget]
    exact List.drop_eq_getElem_cons hlt
  -- the state at the start of the step
  have hq0at : CreatePlanImplAt ss ctx plan ⟨pc, 0, 0⟩ = .ok q0 := by
    rw [hiff]
    simp only [ReusePlanStepsAt, bind_ok]
    refine ⟨q0, hq0, ?_⟩
    rw [hstep]
    simp only [ReusePlanStepAt, hn, List.take_zero, ReusePlanOutputs]
    rfl
  -- the way from `q0` to `q`
  have hqk : ReusePlanOutputs ss ctx graph n (n.OutputDefs.take k) 0 q0 = .ok q := by
    rcases hcase with ⟨hle, _⟩ | ⟨step', hd', _, hst⟩
    · omega
    · rw [hd] at hd'
      cases hd'
      obtain ⟨n', hn', h0 | ⟨h1, _⟩ | ⟨h1, _⟩⟩ := ReusePlanStepAt_cases hst
      · rw [hn] at hn'
        cases hn'
        exact h0.2
      · exact absurd h1 (by decide)
      · exact absurd h1 (by decide)
  rw [hd, StepNodes_cons hn] at hvo hpin hr hf hz
  rw [AllReads_cons, AllWrites_cons] at hr hf hz
  obtain ⟨hreads, hnd, hnew, hvo'⟩ := hvo
  obtain ⟨hlv, hz0⟩ := hz hlive
  obtain ⟨hrq, hfq, hzq⟩ := ReusePlanOutputs_point
    (List.take_append_drop k n.OutputDefs).symm hqk hreads (hpin n (List.mem_cons_self _ _)) hr hf
  have hzq' := hzq hz0
  -- the way from `q` to the end
  obtain ⟨p4, h4, hpe⟩ := hfin p hp
  have h4' := h4
  rw [← List.take_append_drop pc (ScheduledNodes graph order), hd] at h4'
  obtain ⟨q0', hq0', hrest⟩ := (ReusePlanSteps_append _ _ _ _ _).mp h4'
  rw [hq0] at hq0'
  cases hq0'
  simp only [ReusePlanSteps, bind_ok] at hrest
  obtain ⟨p5, hst5, hrest5⟩ := hrest
  obtain ⟨n', p1f, p2f, hn', hf1, hf2, hf3⟩ := ReusePlanStep_split hst5
  rw [hn] at hn'
  cases hn'
  have hf1' := hf1
  rw [← List.take_append_drop k n.OutputDefs] at hf1'
  obtain ⟨q', hq', hcont⟩ := (ReusePlanOutputs_append _ _ _ _ _).mp hf1'
  rw [hqk] at hq'
  cases hq'
  rw [Nat.zero_add] at hcont
  have hbp : ∀ x, buf p x = buf p4 x := by
    intro x
    rw [hpe]
    rfl
  have hstable : ∀ x,
      x ∉ AllWrites ss (StepNodes graph ((ScheduledNodes graph order).drop (pc + 1))) →
      buf p x = buf p1f x := by
    intro x hx
    rw [hbp, (ReusePlanSteps_untouched _ _ _ _ hrest5 x hx).2,
      (FreeUnusedOutputs_plan _ _ _ hf3).2, (FreeInputs_plan _ _ _ hf2).2]
  have hroots : ∀ e ∈ q.freelist_, buf q e.ml_value = e.ml_value :=
    fun e he => (hrq.free e he).2.1
  refine ⟨q0, hq0at, ReusePlanOutputs_freelist _ _ _ _ hqk, hz0, hzq', hroots, ?_, ?_, ?_, ?_⟩
  · intro x hx
    rw [hd, StepNodes_cons hn, AllReads_cons] at hx
    exact ⟨hr.count_pos (List.mem_append_left _ hx), hrq.count_pos (List.mem_append_left _ hx)⟩
  · intro x hx1 hx2
    rw [hstable x hx2]
    exact (ReusePlanOutputs_untouched _ _ _ _ hcont x hx1).2
  · intro x hx
    have hxD : x ∈ ArgIndices ss (n.OutputDefs.take k) ++ D := by
      rcases hx with hx | hx | hx
      · exact List.mem_append_right _ ((hD x).mpr (Or.inr hx))
      · exact List.mem_append_right _ ((hD x).mpr (Or.inl hx))
      · exact List.mem_append_left _ hx
    have := hrq.disj x hxD
    simp only [List.mem_append, not_or] at this
    exact this
  · intro o cur r p1 p2 hk hoe hcur h1 hgo hnt hfi hft
    obtain ⟨hklt, hkget⟩ := List.getElem?_eq_some_iff.mp hk
    have hdk : n.OutputDefs.drop k = o :: n.OutputDefs.drop (k + 1) := by
      rw [← hkget]
      exact List.drop_eq_getElem_cons hklt
    rw [hdk] at hcont
    unfold ReusePlanOutputs at hcont
    simp only [hoe, Bool.not_true, Bool.false_eq_true, if_false, bind_ok] at hcont
    obtain ⟨pa, hdec, hrestk⟩ := hcont
    obtain ⟨cur', hc', hdc⟩ := ReusePlanOutput_cases hdec
    rw [hcur] at hc'
    cases hc'
    have hnodup := hrq.fut_nodup
    rw [hdk, ArgIndices_cons_exists hoe hcur, List.cons_append, List.nodup_cons,
      List.mem_append, not_or] at hnodup
    have hfinal : buf p cur = buf pa cur := by
      rw [hstable cur hnodup.1.2]
      exact (ReusePlanOutputs_untouched _ _ _ _ hrestk cur hnodup.1.1).2
    rw [hfinal]
    cases hdc with
    | graph_output p1' h1' hgo' h2 => exact absurd hgo' hgo
    | non_tensor p1' h1' hgo' hnt' h2 => exact absurd hnt' hnt
    | reuse_input p1' reused h1' hgo' hnt' hfi' h2 =>
      rw [h1] at h1'
      cases h1'
      rw [hfi] at hfi'
      cases hfi'
    | reuse_free p1' p2' reused h1' hgo' hnt' hfi' hft' h2 =>
      rw [h1] at h1'
      cases h1'
      rw [hft] at hft'
      cases hft'
      obtain ⟨_, hb, _⟩ := Reuse_acc h2
      obtain ⟨hinfo, _, _, hres⟩ := FindReusableTensor_acc hft
      obtain ⟨hb1, _, _, _, hfl1, _⟩ := modifyAllocPlan_acc h1
      obtain ⟨⟨e, he, hev⟩, _⟩ := hres _ rfl
      rw [hfl1] at he
      have hroot := hroots e he
      rw [hev] at hroot
      rw [hb cur, if_pos rfl]
      have : buf p2 r = buf p1 r := by simp [buf, hinfo]
      rw [this, hb1, hroot]
    | allocate p1' p2' h1' hgo' hnt' hfi' hft' h2 =>
      rw [h1] at h1'
      cases h1'
      rw [hft] at hft'
      cases hft'

theorem CreatePlan_ok {ss : SessionState} {ctx : ISequentialPlannerContext}
    {plan plan' : SequentialExecutionPlan} (h : CreatePlan ss ctx plan = .ok plan') :
    ∃ p, CreatePlanImpl ss ctx plan = .ok p ∧ p.plan_ = plan' := by
  unfold CreatePlan at h
  cases hp : CreatePlanImpl ss ctx plan with
  | error e => simp [hp, Except.map] at h
  | ok p =>
    simp only [hp, Except.map, Except.ok.injEq] at h
    exact ⟨p, rfl, h⟩

/-- C1 (code defect): on the well-formed input `deadAliasSession` the produced plan frees the
root buffer of value 3 (`C`) at step 1, although the node at step 3 still reads `C`. -/
theorem C1_freed_before_use :
    WellFormed deadAliasSession ∧
    CreatePlanImpl deadAliasSession shapeContext freshPlan = .ok deadAliasFinal ∧
    FreedBeforeUse deadAliasSession deadAliasGraph deadAliasFinal 3 1 3 := by
  refine ⟨by decide, rfl, by decide, ⟨⟨4, 1, 1⟩, ⟨4, "Abs", "n4", [arg "C"], [arg "Y"],
    kCpuExecutionProvider⟩, rfl, rfl, by decide⟩, ⟨⟨2, 0, 0⟩, 0, rfl, by decide, by decide, rfl⟩⟩

/-- C2 (code defect): the plan produced for `deadAliasSession` lists value 1 twice in
`to_be_freed`. -/
theorem C2_freed_twice :
    CreatePlan deadAliasSession shapeContext freshPlan = .ok deadAliasPlan ∧
    ¬ deadAliasPlan.to_be_freed.Nodup := by
  refine ⟨rfl, by decide⟩

/-- C3: on a well-formed input and a freshly constructed plan object, every value listed in
`to_be_freed` of the produced plan is neither a graph input nor a graph output, and its final
allocation kind is none of `kPreExisting`, `kAllocateStatically`, `kAllocateOutput`. -/
theorem C3_owned_values_never_freed (ss : SessionState) (ctx : ISequentialPlannerContext)
    {graph : Graph} {plan plan' : SequentialExecutionPlan}
    (hwf : WellFormed ss) (hg : ss.Graph = some graph) (hfresh : plan.to_be_freed = [])
    (h : CreatePlan ss ctx plan = .ok plan') (v : MLValueIndex) (hv : v ∈ plan'.to_be_freed) :
    v ∉ InputIndices ss graph ∧ v ∉ OutputIndices ss graph ∧
      (entry plan' v).alloc_kind ≠ AllocKind.kPreExisting ∧
      (entry plan' v).alloc_kind ≠ AllocKind.kAllocateStatically ∧
      (entry plan' v).alloc_kind ≠ AllocKind.kAllocateOutput := by
  obtain ⟨p, hp, hplan⟩ := CreatePlan_ok h
  obtain ⟨graph', p4, hg', hinv, hp4, htbf⟩ := CreatePlanImpl_inv hwf hp
  rw [hg] at hg'
  cases hg'
  subst hplan
  subst hp4
  have hmem : ∃ e ∈ p4.freelist_, e.ml_value = v := by
    simp only [(GenerateDeallocationPlan_acc _ _).2, htbf, hfresh, List.nil_append,
      List.mem_map, List.mem_reverse] at hv
    exact hv
  obtain ⟨e, he, hev⟩ := hmem
  obtain ⟨_, _, hnp⟩ := hinv.free e he
  rw [hev] at hnp
  have hentry : entry (GenerateDeallocationPlan p4.freelist_ p4.plan_) v = entry p4.plan_ v :=
    entry_GenerateDeallocationPlan _ _ v
  refine ⟨?_, ?_, ?_, ?_, ?_⟩
  · exact fun hi => hnp (mem_Pinned.mpr (Or.inl (List.mem_append_left _ hi)))
  · exact fun ho => hnp (mem_Pinned.mpr (Or.inr ho))
  · exact fun hk => hnp (hinv.owned v (Or.inl (hentry ▸ hk)))
  · exact fun hk => hnp (hinv.owned v (Or.inr (Or.inl (hentry ▸ hk))))
  · exact fun hk => hnp (hinv.owned v (Or.inr (Or.inr (hentry ▸ hk))))

/-- Witness for C3 on `reluChainSession`, whose plan frees value 1. -/
theorem C3_owned_values_never_freed_witness :
    WellFormed reluChainSession ∧ 1 ∈ reluChainPlan.to_be_freed ∧
    (1 ∉ InputIndices reluChainSession reluChainGraph ∧
      1 ∉ OutputIndices reluChainSession reluChainGraph ∧
      (entry reluChainPlan 1).alloc_kind ≠ AllocKind.kPreExisting ∧
      (entry reluChainPlan 1).alloc_kind ≠ AllocKind.kAllocateStatically ∧
      (entry reluChainPlan 1).alloc_kind ≠ AllocKind.kAllocateOutput) :=
  ⟨by decide, by decide,
    C3_owned_values_never_freed reluChainSession shapeContext (by decide) rfl
      (rfl : freshPlan.to_be_freed = []) rfl 1 (by decide)⟩

/-- Flat reuse chains in the final planner state, shared by the claims on donors. -/
theorem reuse_is_flat {ss : SessionState} {ctx : ISequentialPlannerContext}
    {plan : SequentialExecutionPlan} {p : PlannerImpl}
    (hwf : WellFormed ss) (h : CreatePlanImpl ss ctx plan = .ok p) (v : MLValueIndex)
    (hv : (entry p.plan_ v).alloc_kind = AllocKind.kReuse) :
    (entry p.plan_ v).reused_buffer ≠ v ∧
      buf p v = (entry p.plan_ v).reused_buffer ∧
      buf p (entry p.plan_ v).reused_buffer = (entry p.plan_ v).reused_buffer ∧
      (entry p.plan_ (entry p.plan_ v).reused_buffer).alloc_kind ≠ AllocKind.kReuse := by
  obtain ⟨graph, p4, hg, hinv, hp4, _⟩ := CreatePlanImpl_inv hwf h
  subst hp4
  have hentry : ∀ w, entry (GenerateDeallocationPlan p4.freelist_ p4.plan_) w = entry p4.plan_ w :=
    entry_GenerateDeallocationPlan _ _
  simp only [hentry] at hv ⊢
  have hb : ∀ w, buf { p4 with plan_ := GenerateDeallocationPlan p4.freelist_ p4.plan_ } w =
      buf p4 w := fun _ => rfl
  simp only [hb]
  obtain ⟨h1, h2, h3, _⟩ := hinv.reuse v hv
  rw [h1]
  refine ⟨h2, rfl, h3, ?_⟩
  intro hk
  obtain ⟨_, h2', _, _⟩ := hinv.reuse _ hk
  exact h2' h3

/-- C4: on a well-formed input, every value `v` whose final allocation kind is `kReuse` has a
donor `w = reused_buffer` with `w ≠ v`, `w` is the root buffer of `v` (the final
`reused_buffer_index` of `v` is `w` and that of `w` is `w` itself), and the kind of `w` is not
`kReuse`. -/
theorem C4_reuse_chains_flat (ss : SessionState) (ctx : ISequentialPlannerContext)
    {plan : SequentialExecutionPlan} {p : PlannerImpl}
    (hwf : WellFormed ss) (h : CreatePlanImpl ss ctx plan = .ok p) (v : MLValueIndex)
    (hv : (entry p.plan_ v).alloc_kind = AllocKind.kReuse) :
    (entry p.plan_ v).reused_buffer ≠ v ∧
      buf p v = (entry p.plan_ v).reused_buffer ∧
      buf p (entry p.plan_ v).reused_buffer = (entry p.plan_ v).reused_buffer ∧
      (entry p.plan_ (entry p.plan_ v).reused_buffer).alloc_kind ≠ AllocKind.kReuse :=
  reuse_is_flat hwf h v hv

/-- Witness for C4 on `reluChainSession`, where value 2 reuses value 1. -/
theorem C4_reuse_chains_flat_witness :
    WellFormed reluChainSession ∧
    (entry reluChainFinal.plan_ 2).alloc_kind = AllocKind.kReuse ∧
    ((entry reluChainFinal.plan_ 2).reused_buffer ≠ 2 ∧
      buf reluChainFinal 2 = (entry reluChainFinal.plan_ 2).reused_buffer ∧
      buf reluChainFinal (entry reluChainFinal.plan_ 2).reused_buffer =
        (entry reluChainFinal.plan_ 2).reused_buffer ∧
      (entry reluChainFinal.plan_ (entry reluChainFinal.plan_ 2).reused_buffer).alloc_kind ≠
        AllocKind.kReuse) :=
  ⟨by decide, by decide,
    C4_reuse_chains_flat reluChainSession shapeContext (by decide)
      (rfl : CreatePlanImpl reluChainSession shapeContext freshPlan = .ok reluChainFinal) 2
      (by decide)⟩

/-- C5 (counterexample): in the plan for `aliasInputSession` value 1 (`Z`) has kind `kReuse`
and its donor, the graph input `X`, has kind `kPreExisting`, which is neither `kAllocate` nor
`kAllocateOutput`. -/
theorem C5_donor_kind_counterexample :
    WellFormed aliasInputSession ∧
    CreatePlan aliasInputSession shapeContext freshPlan = .ok aliasInputPlan ∧
    (entry aliasInputPlan 1).alloc_kind = AllocKind.kReuse ∧
    ¬ ((entry aliasInputPlan (entry aliasInputPlan 1).reused_buffer).alloc_kind =
        AllocKind.kAllocate ∨
      (entry aliasInputPlan (entry aliasInputPlan 1).reused_buffer).alloc_kind =
        AllocKind.kAllocateOutput) :=
  ⟨by decide, rfl, by decide, by decide⟩

/-- C5 (amended): on a well-formed input, the donor of every value whose final kind is `kReuse`
has a kind among `kAllocate`, `kAllocateOutput`, `kPreExisting`, `kAllocateStatically`; it is
never `kReuse`. -/
theorem C5_donor_kind (ss : SessionState) (ctx : ISequentialPlannerContext)
    {plan plan' : SequentialExecutionPlan}
    (hwf : WellFormed ss) (h : CreatePlan ss ctx plan = .ok plan') (v : MLValueIndex)
    (hv : (entry plan' v).alloc_kind = AllocKind.kReuse) :
    (entry plan' (entry plan' v).reused_buffer).alloc_kind = AllocKind.kAllocate ∨
    (entry plan' (entry plan' v).reused_buffer).alloc_kind = AllocKind.kAllocateOutput ∨
    (entry plan' (entry plan' v).reused_buffer).alloc_kind = AllocKind.kPreExisting ∨
    (entry plan' (entry plan' v).reused_buffer).alloc_kind = AllocKind.kAllocateStatically := by
  obtain ⟨p, hp, hplan⟩ := CreatePlan_ok h
  subst hplan
  have := (reuse_is_flat hwf hp v hv).2.2.2
  cases hk : (entry p.plan_ (entry p.plan_ v).reused_buffer).alloc_kind <;> simp_all

/-- Witness for the amended C5 on `aliasInputSession`. -/
theorem C5_donor_kind_witness :
    WellFormed aliasInputSession ∧ (entry aliasInputPlan 1).alloc_kind = AllocKind.kReuse ∧
    ((entry aliasInputPlan (entry aliasInputPlan 1).reused_buffer).alloc_kind =
        AllocKind.kAllocate ∨
      (entry aliasInputPlan (entry aliasInputPlan 1).reused_buffer).alloc_kind =
        AllocKind.kAllocateOutput ∨
      (entry aliasInputPlan (entry aliasInputPlan 1).reused_buffer).alloc_kind =
        AllocKind.kPreExisting ∨
      (entry aliasInputPlan (entry aliasInputPlan 1).reused_buffer).alloc_kind =
        AllocKind.kAllocateStatically) :=
  ⟨by decide, by decide,
    C5_donor_kind aliasInputSession shapeContext (by decide)
      (rfl : CreatePlan aliasInputSession shapeContext freshPlan = .ok aliasInputPlan) 1
      (by decide)⟩

/-- The final plan entry of a graph input or initializer is the one the weight pass left. -/
theorem entry_of_initially_defined {ss : SessionState} {ctx : ISequentialPlannerContext}
    {plan : SequentialExecutionPlan} {p : PlannerImpl} {graph : Graph}
    (hwf : WellFormed ss) (hg : ss.Graph = some graph) (h : CreatePlanImpl ss ctx plan = .ok p) :
    ∃ p1 p2 p3, ReusePlanGraphInputs ss graph.Inputs p1 = .ok p2 ∧
      GeneratePlanForWeights ss graph p2 = .ok p3 ∧
      ∀ v ∈ InitiallyDefined ss graph, entry p.plan_ v = entry p3.plan_ v := by
  obtain ⟨graph', order, p0, p1, p2, p3, p4, hg', ho, hinit, h1, h2, h3, h4, hp⟩ :=
    CreatePlanImpl_split h
  rw [hg] at hg'
  cases hg'
  unfold WellFormed at hwf
  rw [hg] at hwf
  obtain ⟨hvo, _, _⟩ := hwf
  have hsched : graph.Scheduled = StepNodes graph (ScheduledNodes graph order) := by
    simp only [Graph.Scheduled, ho]
  rw [hsched] at hvo
  refine ⟨p1, p2, p3, h2, h3, ?_⟩
  intro v hv
  subst hp
  have hnw := ValidOrder_disjoint _ _ hvo v hv
  show entry (GenerateDeallocationPlan p4.freelist_ p4.plan_) v = _
  rw [entry_GenerateDeallocationPlan]
  exact (ReusePlanSteps_untouched _ _ _ _ h4 v hnw).1

/-- C9 (counterexample): in the plan for `weightInputSession` the graph input `W` (value 1),
which is also an initializer read by the node, ends with kind `kAllocateStatically`. -/
theorem C9_graph_input_counterexample :
    WellFormed weightInputSession ∧
    CreatePlan weightInputSession shapeContext freshPlan = .ok weightInputPlan ∧
    1 ∈ InputIndices weightInputSession weightInputGraph ∧
    (entry weightInputPlan 1).alloc_kind ≠ AllocKind.kPreExisting :=
  ⟨by decide, rfl, by decide, by decide⟩

/-- C9 (amended): on a well-formed input, every graph input that the weight pass does not plan
(it is not an initializer read by a node) has final kind `kPreExisting`. -/
theorem C9_graph_input_preexisting (ss : SessionState) (ctx : ISequentialPlannerContext)
    {plan plan' : SequentialExecutionPlan} {graph : Graph}
    (hwf : WellFormed ss) (hg : ss.Graph = some graph)
    (h : CreatePlan ss ctx plan = .ok plan') (v : MLValueIndex)
    (hv : v ∈ InputIndices ss graph) (hnw : v ∉ PlannedWeights ss graph) :
    (entry plan' v).alloc_kind = AllocKind.kPreExisting := by
  obtain ⟨p, hp, hplan⟩ := CreatePlan_ok h
  subst hplan
  obtain ⟨p1, p2, p3, h2, h3, hfin⟩ := entry_of_initially_defined hwf hg hp
  rw [hfin v (List.mem_append_left _ hv)]
  obtain ⟨_, _, _, _, in2, _, _⟩ := ReusePlanGraphInputs_acc _ _ _ h2
  obtain ⟨_, _, _, _, _, out3, _⟩ := PlanWeightsOfNodes_acc _ _ _ h3
  rw [out3 v hnw]
  exact in2 v hv

/-- Witness for the amended C9 on `weightInputSession`, whose graph input `X` is value 0. -/
theorem C9_graph_input_preexisting_witness :
    WellFormed weightInputSession ∧ 0 ∈ InputIndices weightInputSession weightInputGraph ∧
    0 ∉ PlannedWeights weightInputSession weightInputGraph ∧
    (entry weightInputPlan 0).alloc_kind = AllocKind.kPreExisting :=
  ⟨by decide, by decide, by decide,
    C9_graph_input_preexisting weightInputSession shapeContext (by decide) rfl
      (rfl : CreatePlan weightInputSession shapeContext freshPlan = .ok weightInputPlan) 0
      (by decide) (by decide)⟩

/-- What `FindReusableInput` checks on the may-inplace path: when it succeeds although no alias
pair matched, it succeeded through a may-inplace pair for `output_arg_num` whose input exists,
is the returned value, has a root buffer with use count exactly one, and satisfies `SameSize`
with the def at position `output_arg_num` of the output defs. That def is the output being
planned only when no output def before it is missing. -/
theorem FindReusableInput_inplace_gated (ss : SessionState) (ctx : ISequentialPlannerContext)
    {p : PlannerImpl} {node : Node} {output_arg_num : Nat} {k : KernelDef}
    {reusable_input : MLValueIndex}
    (hk : ss.GetKernelDef node.Index = some k)
    (halias : FindAliasInput ss node.InputDefs output_arg_num k.Alias = .ok none)
    (h : FindReusableInput ss ctx p node output_arg_num = .ok (some reusable_input)) :
    ∃ pair ∈ k.MayInplace, ∃ p_input_arg p_output_arg,
      pair.2 = (output_arg_num : Int) ∧ 0 ≤ pair.1 ∧
      node.InputDefs[pair.1.toNat]? = some p_input_arg ∧
      node.OutputDefs[output_arg_num]? = some p_output_arg ∧
      p_input_arg.Exists = true ∧
      ss.GetMLValueIdx p_input_arg.Name = some reusable_input ∧
      cnt p (buf p reusable_input) = 1 ∧
      SameSize ctx p_input_arg p_output_arg = .ok true := by
  unfold FindReusableInput at h
  split at h
  · rename_i out k' ho hk'
    rw [hk] at hk'
    cases hk'
    simp only [halias, bind_ok] at h
    obtain ⟨res, hres, h⟩ := h
    simp only [Except.ok.injEq] at hres
    subst hres
    simp only at h
    obtain ⟨pair, hp, a, h1, h2, h3, h4, h5, h6, h7⟩ := FindInplaceInput_some _ _ h
    exact ⟨pair, hp, a, out, h1, h2, h3, ho, h4, h5, h6, h7⟩
  · simp at h

/-- The Sigmoid step of `reluChainSession` takes `R1` (value 1) in place. -/
theorem FindReusableInput_inplace_gated_sigmoid :
    FindReusableInput reluChainSession shapeContext reluChainMid sigmoidNode 0 = .ok (some 1) ∧
    ∃ pair ∈ inplaceKernel.MayInplace, ∃ p_input_arg p_output_arg,
      pair.2 = ((0 : Nat) : Int) ∧ 0 ≤ pair.1 ∧
      sigmoidNode.InputDefs[pair.1.toNat]? = some p_input_arg ∧
      sigmoidNode.OutputDefs[0]? = some p_output_arg ∧
      p_input_arg.Exists = true ∧
      reluChainSession.GetMLValueIdx p_input_arg.Name = some 1 ∧
      cnt reluChainMid (buf reluChainMid 1) = 1 ∧
      SameSize shapeContext p_input_arg p_output_arg = .ok true :=
  ⟨rfl, FindReusableInput_inplace_gated reluChainSession shapeContext
    (rfl : reluChainSession.GetKernelDef sigmoidNode.Index = some inplaceKernel) rfl
    (rfl : FindReusableInput reluChainSession shapeContext reluChainMid sigmoidNode 0 =
      .ok (some 1))⟩

/-- C8 (code defect): in `shiftedInplaceSession` the node `Op` leaves out its output 0 and
produces `Z1` (shape `[2]`) at position 1 and `Z2` (shape `[3]`) at position 2; its kernel
declares no alias pair and the may-inplace pair (0, 1). When `Z2` is planned the output loop of
`ComputeReusePlan` queries `FindReusableInput` with 1, the number of existing outputs before
`Z2`; the pair (0, 1) matches, and `SameSize` is computed for the input `M` and the def at
position 1, which is `Z1`. The search returns `M` (value 1) and `Z2` ends with kind `kReuse`
of the buffer of `M`, although `SameSize` of `M` and `Z2` is false. -/
theorem C8_inplace_wrong_output :
    WellFormed shiftedInplaceSession ∧
    shiftedInplaceNode.InputDefs = [arg "M"] ∧
    shiftedInplaceNode.OutputDefs = [missingArg, arg "Z1", arg3 "Z2"] ∧
    missingArg.Exists = false ∧
    shiftedInplaceSession.GetKernelDef shiftedInplaceNode.Index =
      some secondOutputInplaceKernel ∧
    secondOutputInplaceKernel.Alias = [] ∧ secondOutputInplaceKernel.MayInplace = [(0, 1)] ∧
    CreatePlanImplAt shiftedInplaceSession shapeContext freshPlan ⟨1, 0, 2⟩ =
      .ok shiftedInplaceMid ∧
    shiftedInplaceMid.modifyAllocPlan 3
      (fun a => { a with value_type := some (arg3 "Z2").Type_ }) = .ok shiftedInplaceTyped ∧
    OutputArgNum [missingArg, arg "Z1"] = 1 ∧
    FindReusableInput shiftedInplaceSession shapeContext shiftedInplaceTyped
      shiftedInplaceNode 1 = .ok (some 1) ∧
    shiftedInplaceSession.GetMLValueIdx "M" = some 1 ∧
    shiftedInplaceSession.GetMLValueIdx "Z2" = some 3 ∧
    cnt shiftedInplaceTyped (buf shiftedInplaceTyped 1) = 1 ∧
    SameSize shapeContext (arg "M") (arg "Z1") = .ok true ∧
    SameSize shapeContext (arg "M") (arg3 "Z2") = .ok false ∧
    CreatePlan shiftedInplaceSession shapeContext freshPlan = .ok shiftedInplacePlan ∧
    (entry shiftedInplacePlan 3).alloc_kind = AllocKind.kReuse ∧
    (entry shiftedInplacePlan 3).reused_buffer = 1 :=
  ⟨by decide, rfl, rfl, rfl, rfl, rfl, rfl, rfl, rfl, rfl, rfl, rfl, rfl, rfl, rfl, rfl, rfl,
    rfl, rfl⟩

/-- C7 (counterexample): in `aliasOutputSession` the kernel of the scheduled node 1 declares
the alias pair (0, 0), input 0 (`X`) and output 0 (`Y`, value 1) both exist, yet `Y`, being a
graph output, has kind `kAllocateOutput` and not `kReuse` in the produced plan. -/
theorem C7_alias_counterexample :
    WellFormed aliasOutputSession ∧
    CreatePlan aliasOutputSession shapeContext freshPlan = .ok aliasOutputPlan ∧
    aliasOutputGraph.GetNode 1 =
      some ⟨1, "Reshape", "reshape", [arg "X"], [arg "Y"], kCpuExecutionProvider⟩ ∧
    aliasOutputSession.GetKernelDef 1 = some aliasKernel ∧
    ((0 : Int), (0 : Int)) ∈ aliasKernel.Alias ∧
    (arg "X").Exists = true ∧ (arg "Y").Exists = true ∧
    aliasOutputSession.GetMLValueIdx (arg "Y").Name = some 1 ∧
    (entry aliasOutputPlan 1).alloc_kind ≠ AllocKind.kReuse :=
  ⟨by decide, rfl, rfl, rfl, by decide, rfl, rfl, rfl, by decide⟩

/-- C7 (amended): on a well-formed input, let `o` be an existing tensor output of a scheduled
node that is not a graph output, at position `j` of the output defs of the node, with no
missing def among the output defs before it, and let the kernel declare an alias pair `(i, j)`
such that every alias pair for `j` names input `i`, where input `i` exists and has value `x`.
Then the final kind of the output is `kReuse` and its donor is the root buffer of `x`. -/
theorem C7_alias_respected (ss : SessionState) (ctx : ISequentialPlannerContext)
    {plan : SequentialExecutionPlan} {p : PlannerImpl} {graph : Graph}
    (hwf : WellFormed ss) (hg : ss.Graph = some graph)
    (h : CreatePlanImpl ss ctx plan = .ok p)
    (n : Node) (hn : n ∈ graph.Scheduled) (k : KernelDef)
    (hk : ss.GetKernelDef n.Index = some k)
    (pre : List NodeArg) (o : NodeArg) (post : List NodeArg) (c : MLValueIndex)
    (hdefs : n.OutputDefs = pre ++ o :: post) (hpre : ∀ d ∈ pre, d.Exists = true)
    (hex : o.Exists = true)
    (hc : ss.GetMLValueIdx o.Name = some c)
    (hngo : graph.Outputs.any (fun g => g.Name == o.Name) = false)
    (hten : IsNonTensor o = false)
    (i : Int) (a : NodeArg) (x : MLValueIndex)
    (hpair : (i, (pre.length : Int)) ∈ k.Alias)
    (hsame : ∀ q ∈ k.Alias, q.2 = (pre.length : Int) → q.1 = i)
    (hi : 0 ≤ i) (ha : n.InputDefs[i.toNat]? = some a) (hae : a.Exists = true)
    (hx : ss.GetMLValueIdx a.Name = some x) :
    (entry p.plan_ c).alloc_kind = AllocKind.kReuse ∧
      (entry p.plan_ c).reused_buffer = buf p x := by
  have hnum : OutputArgNum pre = pre.length := by
    unfold OutputArgNum
    rw [List.filter_eq_self.mpr (fun d hd => hpre d hd)]
  rw [← hnum] at hpair hsame
  have halias : FindAliasInput ss n.InputDefs (OutputArgNum pre) k.Alias = .ok (some x) :=
    FindAliasInput_of_pair hi ha hae hx k.Alias ⟨_, hpair, rfl⟩ hsame
  have hout := CreatePlanImpl_outcome hwf hg h n hn pre o post c hdefs hex hc
  cases hout with
  | graph_output hgo hk' => rw [hngo] at hgo; simp at hgo
  | non_tensor hgo hnt hk' => rw [hten] at hnt; simp at hnt
  | reuse_input pa reused hgo hnt hfi hfut hk' hr =>
    have := FindReusableInput_of_alias hk halias hfi
    simp only [Option.some.injEq] at this
    subst this
    exact ⟨hk', hr⟩
  | reuse_free pa pb reused hgo hnt hfi hft hfut hk' hr hloc =>
    have := FindReusableInput_of_alias hk halias hfi
    simp at this
  | allocate pa pb hgo hnt hfi hft hk' =>
    have := FindReusableInput_of_alias hk halias hfi
    simp at this

/-- Witness for the amended C7 on `aliasInputSession`, where the Reshape output `Z` (value 1)
aliases the graph input `X` (value 0). -/
theorem C7_alias_respected_witness :
    WellFormed aliasInputSession ∧
    (entry aliasInputFinal.plan_ 1).alloc_kind = AllocKind.kReuse ∧
    (entry aliasInputFinal.plan_ 1).reused_buffer = buf aliasInputFinal 0 :=
  ⟨by decide,
    C7_alias_respected aliasInputSession shapeContext (by decide) rfl
      (rfl : CreatePlanImpl aliasInputSession shapeContext freshPlan = .ok aliasInputFinal)
      ⟨1, "Reshape", "reshape", [arg "X"], [arg "Z"], kCpuExecutionProvider⟩ (by decide)
      aliasKernel rfl [] (arg "Z") [] 1 rfl (by simp) rfl rfl rfl rfl 0 (arg "X") 0 (by decide)
      (by decide) (by decide) rfl rfl rfl⟩

/-- C11 (counterexample): in `passThroughSession` the graph output `X` (value 0) is also a graph
input and no node produces it; its final kind is `kPreExisting`, not `kAllocateOutput`. -/
theorem C11_graph_output_counterexample :
    WellFormed passThroughSession ∧
    CreatePlan passThroughSession shapeContext freshPlan = .ok passThroughPlan ∧
    arg "X" ∈ passThroughGraph.Outputs ∧
    passThroughSession.GetMLValueIdx (arg "X").Name = some 0 ∧
    (entry passThroughPlan 0).alloc_kind = AllocKind.kPreExisting ∧
    (entry passThroughPlan 0).alloc_kind ≠ AllocKind.kAllocateOutput :=
  ⟨by decide, rfl, by decide, rfl, rfl, by decide⟩

/-- C11 (amended): on a well-formed input, every graph output that is produced by a scheduled
node has the final kind `kAllocateOutput`, whatever alias or may-inplace pairs the kernel of
the producing node declares. -/
theorem C11_graph_output_kind (ss : SessionState) (ctx : ISequentialPlannerContext)
    {plan plan' : SequentialExecutionPlan} {graph : Graph}
    (hwf : WellFormed ss) (hg : ss.Graph = some graph)
    (h : CreatePlan ss ctx plan = .ok plan')
    (v : MLValueIndex) (hout : v ∈ OutputIndices ss graph)
    (hprod : v ∈ AllWrites ss graph.Scheduled) :
    (entry plan' v).alloc_kind = AllocKind.kAllocateOutput := by
  obtain ⟨p, hp, hplan⟩ := CreatePlan_ok h
  subst hplan
  have hwf' := hwf
  unfold WellFormed at hwf'
  rw [hg] at hwf'
  obtain ⟨_, _, hnames⟩ := hwf'
  simp only [AllWrites, List.mem_flatMap, Node.Writes, ArgIndices, List.mem_filterMap,
    List.mem_filter] at hprod
  obtain ⟨n, hn, o, ⟨ho, hex⟩, hc⟩ := hprod
  simp only [OutputIndices, List.mem_filterMap] at hout
  obtain ⟨g, hgm, hgv⟩ := hout
  have hname : g.Name = o.Name :=
    hnames n hn o ho g hgm (by rw [hc]; rfl) (by rw [hgv, hc])
  obtain ⟨pre, post, hdefs⟩ := List.append_of_mem ho
  have hany : graph.Outputs.any (fun g => g.Name == o.Name) = true := by
    rw [List.any_eq_true]
    exact ⟨g, hgm, by simp [hname]⟩
  have houtc := CreatePlanImpl_outcome hwf hg hp n hn pre o post v hdefs hex hc
  cases houtc with
  | graph_output hgo hk' => exact hk'
  | non_tensor hgo hnt hk' => exact absurd hany hgo
  | reuse_input pa reused hgo hnt hfi hfut hk' hr => exact absurd hany hgo
  | reuse_free pa pb reused hgo hnt hfi hft hfut hk' hr hloc => exact absurd hany hgo
  | allocate pa pb hgo hnt hfi hft hk' => exact absurd hany hgo

/-- Witness for the amended C11 on `aliasOutputSession`: the graph output `Y` (value 1) is
produced by a node whose kernel declares the alias pair (0, 0). -/
theorem C11_graph_output_kind_witness :
    WellFormed aliasOutputSession ∧ 1 ∈ OutputIndices aliasOutputSession aliasOutputGraph ∧
    1 ∈ AllWrites aliasOutputSession aliasOutputGraph.Scheduled ∧
    (entry aliasOutputPlan 1).alloc_kind = AllocKind.kAllocateOutput :=
  ⟨by decide, by decide, by decide,
    C11_graph_output_kind aliasOutputSession shapeContext (by decide) rfl
      (rfl : CreatePlan aliasOutputSession shapeContext freshPlan = .ok aliasOutputPlan)
      1 (by decide) (by decide)⟩
/-- C12: for a freshly constructed plan object and every step `s` of the produced plan, if
`free_from_index ≤ free_to_index` then that range of `to_be_freed` is exactly the list of the
final freelist entries with deallocation point `s` (oldest first); the range is non-empty
precisely when such an entry exists, so a step without entries keeps
`free_from_index > free_to_index`. -/
theorem C12_free_ranges_exact (ss : SessionState) (ctx : ISequentialPlannerContext)
    {plan : SequentialExecutionPlan} {p : PlannerImpl}
    (hfresh : plan.to_be_freed = []) (h : CreatePlanImpl ss ctx plan = .ok p)
    (s : Nat) (step : NodeExecutionPlan) (hs : p.plan_.execution_plan[s]? = some step) :
    (step.free_from_index ≤ step.free_to_index →
      FreeRange p.plan_.to_be_freed step.free_from_index step.free_to_index =
        FreedAt p.freelist_ s) ∧
    (step.free_from_index ≤ step.free_to_index ↔ ∃ e ∈ p.freelist_, e.deallocate_point = s) ∧
    ((∀ e ∈ p.freelist_, e.deallocate_point ≠ s) →
      step.free_to_index < step.free_from_index) := by
  obtain ⟨graph, order, hg, ho, hord, htbf, hsteps⟩ := CreatePlanImpl_dealloc h
  rw [hfresh, List.nil_append] at htbf
  rw [hsteps s] at hs
  cases he0 : (ScheduledNodes graph order)[s]? with
  | none => simp [he0] at hs
  | some e0 =>
    obtain ⟨hd1, hd2⟩ := ScheduledNodes_default graph order s e0 he0
    simp only [he0, Option.map_some', Option.some.injEq] at hs
    by_cases hex : ∃ x ∈ p.freelist_, x.deallocate_point = s
    · rw [if_pos hex] at hs
      subst hs
      simp only
      have hasc := List.pairwise_reverse.mpr hord.1
      have hrange := FreeRange_ascending p.freelist_.reverse hasc s
      rw [List.countP_reverse, List.countP_reverse] at hrange
      have hpos : 0 < p.freelist_.countP (fun x => decide (x.deallocate_point = s)) := by
        rw [List.countP_pos_iff]
        obtain ⟨x, hx, hxs⟩ := hex
        exact ⟨x, hx, by simpa using hxs⟩
      have hsplit := countP_le_split p.freelist_ s
      refine ⟨fun _ => ?_, ⟨fun _ => hex, fun _ => by omega⟩, ?_⟩
      · rw [htbf, hrange]; rfl
      · intro hno
        obtain ⟨x, hx, hxs⟩ := hex
        exact absurd hxs (hno x hx)
    · rw [if_neg hex] at hs
      subst hs
      rw [hd1, hd2]
      refine ⟨fun hle => absurd hle (by decide), ⟨fun hle => absurd hle (by decide),
        fun hex' => absurd hex' hex⟩, fun _ => by decide⟩

/-- Witness for C12 on `twoFreedSession`: step 2 frees the values 1 and 2. -/
theorem C12_free_ranges_exact_witness :
    FreeRange twoFreedFinal.plan_.to_be_freed 0 1 = FreedAt twoFreedFinal.freelist_ 2 ∧
    FreedAt twoFreedFinal.freelist_ 2 = [1, 2] :=
  ⟨(C12_free_ranges_exact twoFreedSession shapeContext (rfl : freshPlan.to_be_freed = [])
      (rfl : CreatePlanImpl twoFreedSession shapeContext freshPlan = .ok twoFreedFinal)
      2 ⟨3, 0, 1⟩ rfl).1 (by decide), by decide⟩

/-- C13: for a freshly constructed plan object, the free ranges of the steps that free
something lie within `to_be_freed`, the range of an earlier step ends before the range of a
later step begins, and every index of `to_be_freed` lies in the range of exactly one step. -/
theorem C13_ranges_partition (ss : SessionState) (ctx : ISequentialPlannerContext)
    {plan plan' : SequentialExecutionPlan}
    (hfresh : plan.to_be_freed = []) (h : CreatePlan ss ctx plan = .ok plan') :
    (∀ (s t : Nat) (es et : NodeExecutionPlan), s < t →
      plan'.execution_plan[s]? = some es → plan'.execution_plan[t]? = some et →
      es.free_from_index ≤ es.free_to_index → et.free_from_index ≤ et.free_to_index →
      es.free_to_index < et.free_from_index) ∧
    (∀ (s : Nat) (es : NodeExecutionPlan), plan'.execution_plan[s]? = some es →
      es.free_from_index ≤ es.free_to_index →
      0 ≤ es.free_from_index ∧ es.free_to_index < (plan'.to_be_freed.length : Int)) ∧
    (∀ k : Nat, k < plan'.to_be_freed.length →
      ∃! s : Nat, ∃ es : NodeExecutionPlan, plan'.execution_plan[s]? = some es ∧
        es.free_from_index ≤ (k : Int) ∧ (k : Int) ≤ es.free_to_index) := by
  obtain ⟨p, hp, hplan⟩ := CreatePlan_ok h
  subst hplan
  obtain ⟨graph, order, hg, ho, hord, htbf, hsteps⟩ := CreatePlanImpl_dealloc hp
  rw [hfresh, List.nil_append] at htbf
  have hlen : p.plan_.to_be_freed.length = p.freelist_.length := by simp [htbf]
  -- a step with a non-empty range carries the counts of the freelist
  have hrange : ∀ (s : Nat) (es : NodeExecutionPlan), p.plan_.execution_plan[s]? = some es →
      es.free_from_index ≤ es.free_to_index →
      es.free_from_index =
        (p.freelist_.countP (fun x => decide (x.deallocate_point < s)) : Int) ∧
      es.free_to_index =
        (p.freelist_.countP (fun x => decide (x.deallocate_point ≤ s)) : Int) - 1 := by
    intro s es hs hle
    rw [hsteps s] at hs
    cases he0 : (ScheduledNodes graph order)[s]? with
    | none => simp [he0] at hs
    | some e0 =>
      obtain ⟨hd1, hd2⟩ := ScheduledNodes_default graph order s e0 he0
      simp only [he0, Option.map_some', Option.some.injEq] at hs
      by_cases hex : ∃ x ∈ p.freelist_, x.deallocate_point = s
      · rw [if_pos hex] at hs
        subst hs
        exact ⟨rfl, rfl⟩
      · rw [if_neg hex] at hs
        subst hs
        rw [hd1, hd2] at hle
        exact absurd hle (by decide)
  have hdisj : ∀ (s t : Nat) (es et : NodeExecutionPlan), s < t →
      p.plan_.execution_plan[s]? = some es → p.plan_.execution_plan[t]? = some et →
      es.free_from_index ≤ es.free_to_index → et.free_from_index ≤ et.free_to_index →
      es.free_to_index < et.free_from_index := by
    intro s t es et hst hs ht hes het
    obtain ⟨_, h2⟩ := hrange s es hs hes
    obtain ⟨h3, _⟩ := hrange t et ht het
    have hmono : p.freelist_.countP (fun x => decide (x.deallocate_point ≤ s)) ≤
        p.freelist_.countP (fun x => decide (x.deallocate_point < t)) :=
      List.countP_mono_left (fun x _ hx => by
        simp only [decide_eq_true_eq] at hx ⊢; omega)
    omega
  refine ⟨hdisj, ?_, ?_⟩
  · intro s es hs hle
    obtain ⟨h1, h2⟩ := hrange s es hs hle
    have := List.countP_le_length (fun x => decide (x.deallocate_point ≤ s)) (l := p.freelist_)
    omega
  · intro k hk
    rw [hlen] at hk
    have hk' : k < p.freelist_.reverse.length := by simpa using hk
    obtain ⟨e, he⟩ : ∃ e, p.freelist_.reverse[k]? = some e :=
      ⟨_, List.getElem?_eq_getElem hk'⟩
    have hmem : e ∈ p.freelist_ := List.mem_reverse.mp (List.getElem?_mem he)
    have hasc := List.pairwise_reverse.mpr hord.1
    obtain ⟨i1, i2⟩ := ascending_index p.freelist_.reverse k e hasc he
    rw [List.countP_reverse] at i1 i2
    have hs := hsteps e.deallocate_point
    obtain ⟨e0, he0⟩ : ∃ e0, (ScheduledNodes graph order)[e.deallocate_point]? = some e0 :=
      ⟨_, List.getElem?_eq_getElem (hord.2 e hmem)⟩
    rw [he0, Option.map_some', if_pos ⟨e, hmem, rfl⟩] at hs
    refine ⟨e.deallocate_point, ⟨_, hs, ?_, ?_⟩, ?_⟩
    · simp only; omega
    · simp only; omega
    · rintro t ⟨et, ht, ht1, ht2⟩
      by_contra hne
      have hle_t : et.free_from_index ≤ et.free_to_index := by omega
      rcases Nat.lt_or_gt_of_ne hne with hlt | hgt
      · have := hdisj t e.deallocate_point et _ hlt ht hs hle_t (by simp only; omega)
        simp only at this
        omega
      · have := hdisj e.deallocate_point t _ et hgt hs ht (by simp only; omega) hle_t
        simp only at this
        omega

/-- Witness for C13 on `twoFreedSession`, whose plan frees two values at its last step. -/
theorem C13_ranges_partition_witness :
    twoFreedFinal.plan_.to_be_freed.length = 2 ∧
    ∀ k : Nat, k < twoFreedFinal.plan_.to_be_freed.length →
      ∃! s : Nat, ∃ es : NodeExecutionPlan,
        twoFreedFinal.plan_.execution_plan[s]? = some es ∧
        es.free_from_index ≤ (k : Int) ∧ (k : Int) ≤ es.free_to_index :=
  ⟨rfl, (C13_ranges_partition twoFreedSession shapeContext (rfl : freshPlan.to_be_freed = [])
    (rfl : CreatePlan twoFreedSession shapeContext freshPlan = .ok twoFreedFinal.plan_)).2.2⟩
/-- C14 (counterexample): in the last step of `twoFreedSession` (program counter 2) the input
`M` (value 1) is pushed onto the freelist before the input `N` (value 2), and the produced plan
lists both in the range of step 2 with the earlier push `M` first: `to_be_freed = [1, 2]`. -/
theorem C14_order_counterexample :
    FreeInputs twoFreedSession 2 [arg "M"] twoFreedMid = .ok twoFreedMid1 ∧
    twoFreedMid1.freelist_ = [⟨1, 2⟩] ∧
    FreeInputs twoFreedSession 2 [arg "N"] twoFreedMid1 = .ok twoFreedMid2 ∧
    twoFreedMid2.freelist_ = [⟨2, 2⟩, ⟨1, 2⟩] ∧
    CreatePlanImpl twoFreedSession shapeContext freshPlan = .ok twoFreedFinal ∧
    twoFreedFinal.freelist_ = [⟨2, 2⟩, ⟨1, 2⟩] ∧
    twoFreedFinal.plan_.execution_plan[2]? = some ⟨3, 0, 1⟩ ∧
    twoFreedFinal.plan_.to_be_freed = [1, 2] ∧
    ¬ (twoFreedFinal.plan_.to_be_freed.indexOf 2 < twoFreedFinal.plan_.to_be_freed.indexOf 1) :=
  ⟨rfl, rfl, rfl, rfl, rfl, rfl, rfl, rfl, by decide⟩

/-- C14 (amended): for a freshly constructed plan object, within the range of one step the
values appear in the order of their push onto the freelist, the earlier push first. The
freelist holds the later push nearer its front (`push_front`), so for two final freelist
entries at positions `i < j` with the same deallocation point, entry `j` (pushed earlier) is
listed in `to_be_freed` before entry `i` (pushed later), both within the range of their
step. -/
theorem C14_push_order (ss : SessionState) (ctx : ISequentialPlannerContext)
    {plan : SequentialExecutionPlan} {p : PlannerImpl}
    (hfresh : plan.to_be_freed = []) (h : CreatePlanImpl ss ctx plan = .ok p)
    (i j : Nat) (ei ej : FreeBufferInfo) (hij : i < j)
    (hi : p.freelist_[i]? = some ei) (hj : p.freelist_[j]? = some ej)
    (hsame : ei.deallocate_point = ej.deallocate_point) :
    ∃ step : NodeExecutionPlan, p.plan_.execution_plan[ei.deallocate_point]? = some step ∧
      step.free_from_index ≤ ((p.freelist_.length - 1 - j : Nat) : Int) ∧
      p.freelist_.length - 1 - j < p.freelist_.length - 1 - i ∧
      ((p.freelist_.length - 1 - i : Nat) : Int) ≤ step.free_to_index ∧
      p.plan_.to_be_freed[p.freelist_.length - 1 - j]? = some ej.ml_value ∧
      p.plan_.to_be_freed[p.freelist_.length - 1 - i]? = some ei.ml_value := by
  obtain ⟨graph, order, hg, ho, hord, htbf, hsteps⟩ := CreatePlanImpl_dealloc h
  rw [hfresh, List.nil_append] at htbf
  have hil := (List.getElem?_eq_some_iff.mp hi).1
  have hjl := (List.getElem?_eq_some_iff.mp hj).1
  have hri : p.freelist_.reverse[p.freelist_.length - 1 - i]? = some ei := by
    rw [List.getElem?_reverse (by omega)]
    have : p.freelist_.length - 1 - (p.freelist_.length - 1 - i) = i := by omega
    rw [this]; exact hi
  have hrj : p.freelist_.reverse[p.freelist_.length - 1 - j]? = some ej := by
    rw [List.getElem?_reverse (by omega)]
    have : p.freelist_.length - 1 - (p.freelist_.length - 1 - j) = j := by omega
    rw [this]; exact hj
  have hasc := List.pairwise_reverse.mpr hord.1
  obtain ⟨_, i2⟩ := ascending_index p.freelist_.reverse _ ei hasc hri
  obtain ⟨j1, _⟩ := ascending_index p.freelist_.reverse _ ej hasc hrj
  rw [List.countP_reverse] at i2 j1
  rw [← hsame] at j1
  have hmem : ei ∈ p.freelist_ := List.getElem?_mem hi
  have hs := hsteps ei.deallocate_point
  obtain ⟨e0, he0⟩ : ∃ e0, (ScheduledNodes graph order)[ei.deallocate_point]? = some e0 :=
    ⟨_, List.getElem?_eq_getElem (hord.2 ei hmem)⟩
  rw [he0, Option.map_some', if_pos ⟨ei, hmem, rfl⟩] at hs
  refine ⟨_, hs, ?_, by omega, ?_, ?_, ?_⟩
  · simp only; omega
  · simp only; omega
  · rw [htbf, List.getElem?_map, hrj]; rfl
  · rw [htbf, List.getElem?_map, hri]; rfl

/-- Witness for the amended C14 on `twoFreedSession`: the freelist ends as `[N, M]` and
`to_be_freed` lists `M` (pushed first) at index 0 and `N` at index 1. -/
theorem C14_push_order_witness :
    twoFreedFinal.freelist_ = [⟨2, 2⟩, ⟨1, 2⟩] ∧
    ∃ step : NodeExecutionPlan, twoFreedFinal.plan_.execution_plan[2]? = some step ∧
      step.free_from_index ≤ ((2 - 1 - 1 : Nat) : Int) ∧ 2 - 1 - 1 < 2 - 1 - 0 ∧
      ((2 - 1 - 0 : Nat) : Int) ≤ step.free_to_index ∧
      twoFreedFinal.plan_.to_be_freed[2 - 1 - 1]? = some 1 ∧
      twoFreedFinal.plan_.to_be_freed[2 - 1 - 0]? = some 2 :=
  ⟨rfl, C14_push_order twoFreedSession shapeContext (rfl : freshPlan.to_be_freed = [])
    (rfl : CreatePlanImpl twoFreedSession shapeContext freshPlan = .ok twoFreedFinal)
    0 1 ⟨2, 2⟩ ⟨1, 2⟩ (by decide) rfl rfl rfl⟩

/-- C15: `GenerateDeallocationPlan`, started on an empty `to_be_freed`, sets `to_be_freed` to
the ml-values of the freelist read from back to front: it has the length of the freelist, and
its entry `k` is the ml-value of the `k`-th freelist entry from the back. -/
theorem C15_to_be_freed_reversed (freelist : List FreeBufferInfo)
    (plan : SequentialExecutionPlan) (hempty : plan.to_be_freed = []) :
    (GenerateDeallocationPlan freelist plan).to_be_freed =
      freelist.reverse.map (fun e => e.ml_value) ∧
    (GenerateDeallocationPlan freelist plan).to_be_freed.length = freelist.length ∧
    ∀ k : Nat, k < freelist.length →
      (GenerateDeallocationPlan freelist plan).to_be_freed[k]? =
        (freelist[freelist.length - 1 - k]?).map (fun e => e.ml_value) := by
  have h := (GenerateDeallocationPlan_acc freelist plan).2
  rw [hempty, List.nil_append] at h
  refine ⟨h, by simp [h], ?_⟩
  intro k hk
  rw [h, List.getElem?_map, List.getElem?_reverse hk]

/-- Witness for C15 on the freelist `[N, M]` that the planner builds for `twoFreedSession`. -/
theorem C15_to_be_freed_reversed_witness :
    (GenerateDeallocationPlan [⟨2, 2⟩, ⟨1, 2⟩] twoFreedMid.plan_).to_be_freed =
      ([⟨2, 2⟩, ⟨1, 2⟩] : List FreeBufferInfo).reverse.map (fun e => e.ml_value) ∧
    ([⟨2, 2⟩, ⟨1, 2⟩] : List FreeBufferInfo).reverse.map (fun e => e.ml_value) = [1, 2] :=
  ⟨(C15_to_be_freed_reversed [⟨2, 2⟩, ⟨1, 2⟩] twoFreedMid.plan_ rfl).1, rfl⟩

/-- C17: the node indices of `execution_plan` are the supplied topological order with the
source and sink node filtered out, in the same relative order; so the plan has as many steps
as there are other nodes in that order. -/
theorem C17_execution_order (ss : SessionState) (ctx : ISequentialPlannerContext)
    {plan plan' : SequentialExecutionPlan} {graph : Graph} {order : List NodeIndex}
    (hg : ss.Graph = some graph) (ho : graph.NodesInTopologicalOrder = .ok order)
    (h : CreatePlan ss ctx plan = .ok plan') :
    plan'.execution_plan.map (fun e => e.node_index) =
      order.filter (fun n => !(graph.IsSourceNode n || graph.IsSinkNode n)) ∧
    plan'.execution_plan.length =
      (order.filter (fun n => !(graph.IsSourceNode n || graph.IsSinkNode n))).length := by
  obtain ⟨p, hp, hplan⟩ := CreatePlan_ok h
  subst hplan
  obtain ⟨graph', order', hg', ho', _, _, hsteps⟩ := CreatePlanImpl_dealloc hp
  rw [hg] at hg'
  cases hg'
  rw [ho] at ho'
  cases ho'
  have hmap : p.plan_.execution_plan.map (fun e => e.node_index) =
      order.filter (fun n => !(graph.IsSourceNode n || graph.IsSinkNode n)) := by
    apply List.ext_getElem?
    intro s
    rw [List.getElem?_map, hsteps s]
    have : ((ScheduledNodes graph order)[s]?).map (fun e => e.node_index) =
        (order.filter (fun n => !(graph.IsSourceNode n || graph.IsSinkNode n)))[s]? := by
      rw [← List.getElem?_map]
      simp only [ScheduledNodes, List.map_map]
      have hid : ((fun e : NodeExecutionPlan => e.node_index) ∘
          fun n => ({ node_index := n } : NodeExecutionPlan)) = id := rfl
      rw [hid, List.map_id]
    rw [← this]
    cases (ScheduledNodes graph order)[s]? with
    | none => rfl
    | some e =>
      simp only [Option.map_some', Option.some.injEq]
      split <;> rfl
  refine ⟨hmap, ?_⟩
  rw [← hmap, List.length_map]

/-- Witness for C17 on `reluChainSession`, whose order `[0, 1, 2, 3, 4]` has source 0 and
sink 4. -/
theorem C17_execution_order_witness :
    reluChainPlan.execution_plan.map (fun e => e.node_index) = [1, 2, 3] ∧
    reluChainPlan.execution_plan.length = 3 :=
  C17_execution_order reluChainSession shapeContext rfl rfl
    (rfl : CreatePlan reluChainSession shapeContext freshPlan = .ok reluChainPlan)
/-- C16: for a step whose free range, when non-empty, lies within `to_be_freed`,
`ReleaseNodeMLValues` returns the frame obtained by releasing the values
`to_be_freed[free_from_index], ..., to_be_freed[free_to_index]`, each once and in ascending
index order; when `free_from_index > free_to_index` it returns the frame unchanged. -/
theorem C16_release_exact {Frame : Type} (ReleaseMLValue : MLValueIndex → Frame → Frame)
    (plan : SequentialExecutionPlan) (step : NodeExecutionPlan) (frame : Frame)
    (hrange : step.free_from_index ≤ step.free_to_index →
      0 ≤ step.free_from_index ∧ step.free_to_index < (plan.to_be_freed.length : Int)) :
    ReleaseNodeMLValues ReleaseMLValue plan step frame =
      .ok ((FreeRange plan.to_be_freed step.free_from_index step.free_to_index).foldl
        (fun f v => ReleaseMLValue v f) frame) ∧
    (step.free_from_index ≤ step.free_to_index →
      (FreeRange plan.to_be_freed step.free_from_index step.free_to_index).length =
        (step.free_to_index - step.free_from_index + 1).toNat ∧
      ∀ k : Nat, k < (step.free_to_index - step.free_from_index + 1).toNat →
        (FreeRange plan.to_be_freed step.free_from_index step.free_to_index)[k]? =
          plan.to_be_freed[step.free_from_index.toNat + k]?) ∧
    (step.free_to_index < step.free_from_index →
      ReleaseNodeMLValues ReleaseMLValue plan step frame = .ok frame) := by
  by_cases hle : step.free_from_index ≤ step.free_to_index
  · obtain ⟨h0, hlt⟩ := hrange hle
    have hrun := ReleaseLoop_ok ReleaseMLValue plan.to_be_freed step.free_to_index
      (step.free_to_index - step.free_from_index + 1).toNat step.free_from_index frame h0
      (by omega) (by omega)
    refine ⟨hrun, fun _ => ⟨?_, fun k hk => FreeRange_getElem? _ _ _ k hk⟩,
      fun hgt => absurd hle (by omega)⟩
    unfold FreeRange
    rw [List.length_take, List.length_drop]
    omega
  · have hzero : (step.free_to_index - step.free_from_index + 1).toNat = 0 := by omega
    have hrun : ReleaseNodeMLValues ReleaseMLValue plan step frame = .ok frame := by
      unfold ReleaseNodeMLValues
      rw [hzero]
      rfl
    refine ⟨?_, fun h => absurd h hle, fun _ => hrun⟩
    rw [hrun]
    unfold FreeRange
    rw [hzero]
    rfl

/-- Witness for C16 on the plan of `reluChainSession`: after its last step the executor
releases `to_be_freed[0]`, value 1; the frame is taken to be the log of released values. -/
theorem C16_release_exact_witness :
    ReleaseNodeMLValues (fun v (log : List MLValueIndex) => log ++ [v]) reluChainPlan ⟨3, 0, 0⟩ []
      = .ok ((FreeRange reluChainPlan.to_be_freed 0 0).foldl (fun f v => f ++ [v]) []) ∧
    (FreeRange reluChainPlan.to_be_freed 0 0).foldl (fun f v => f ++ [v]) [] = [1] :=
  ⟨(C16_release_exact (fun v (log : List MLValueIndex) => log ++ [v]) reluChainPlan ⟨3, 0, 0⟩ []
    (fun _ => by decide)).1, by decide⟩

/-- C18 (code defect): `Initialize` clears `execution_plan` and `allocation_plan` of the plan
object but not `to_be_freed`. Running `CreatePlan` on `reluChainSession` into the plan that a
first run produced appends to the old list: the second plan differs from the first, its
`to_be_freed` is `[1, 1]` while the range of the last step still is `[0, 0]`. -/
theorem C18_rerun_differs :
    CreatePlan reluChainSession shapeContext freshPlan = .ok reluChainPlan ∧
    CreatePlan reluChainSession shapeContext reluChainPlan = .ok reluChainRerun ∧
    reluChainRerun ≠ reluChainPlan ∧
    reluChainPlan.to_be_freed = [1] ∧ reluChainRerun.to_be_freed = [1, 1] ∧
    reluChainRerun.execution_plan = reluChainPlan.execution_plan ∧
    reluChainRerun.allocation_plan = reluChainPlan.allocation_plan := by
  refine ⟨rfl, rfl, ?_, rfl, rfl, rfl, rfl⟩
  intro h
  have := congrArg SequentialExecutionPlan.to_be_freed h
  exact absurd this (by decide)

/-- C19: given a bound graph, an available topological order, a count of values
`GetMaxMLValueIdx + 1` that is not negative (a negative one makes `Initialize` throw) and
resolvable value names, `CreatePlan` returns a failure status if and only if some scheduled
node has no kernel definition; the message then names the op type of the first such node in
execution order and, when its name is not empty, the node name. -/
theorem C19_missing_kernel_status (ss : SessionState) (ctx : ISequentialPlannerContext)
    (plan : SequentialExecutionPlan) {graph : Graph} {order : List NodeIndex}
    (hg : ss.Graph = some graph) (ho : graph.NodesInTopologicalOrder = .ok order)
    (hmax : -1 ≤ ss.GetMaxMLValueIdx)
    (hres : NamesResolvable ss graph (ScheduledNodes graph order)) :
    ((∃ msg, CreatePlan ss ctx plan = .error (PlanError.status msg)) ↔
      ∃ s ∈ ScheduledNodes graph order, ss.GetKernelDef s.node_index = none) ∧
    (∀ (pre : List NodeExecutionPlan) (s : NodeExecutionPlan) (post : List NodeExecutionPlan)
      (node : Node), ScheduledNodes graph order = pre ++ s :: post →
      (∀ t ∈ pre, ss.GetKernelDef t.node_index ≠ none) →
      ss.GetKernelDef s.node_index = none → graph.GetNode s.node_index = some node →
      CreatePlan ss ctx plan = .error (PlanError.status
        ("No suitable kernel definition found for op " ++ node.OpType ++
          (if node.Name ≠ "" then " (node " ++ node.Name ++ ")" else "")))) := by
  have hB : ∀ (pre : List NodeExecutionPlan) (s : NodeExecutionPlan)
      (post : List NodeExecutionPlan) (node : Node),
      ScheduledNodes graph order = pre ++ s :: post →
      (∀ t ∈ pre, ss.GetKernelDef t.node_index ≠ none) →
      ss.GetKernelDef s.node_index = none → graph.GetNode s.node_index = some node →
      CreatePlan ss ctx plan = .error (PlanError.status (MissingKernelMessage node)) := by
    intro pre s post node hsched hpre hs hnode
    exact CreatePlan_status_error.mpr
      (CreatePlanStatus_missing ctx plan hg ho hmax hres pre s post node hsched hpre hs hnode)
  refine ⟨⟨?_, ?_⟩, hB⟩
  · rintro ⟨msg, h⟩
    obtain ⟨plan', h'⟩ := CreatePlan_status_error.mp h
    obtain ⟨graph', hg', hcase⟩ := CreatePlanStatus_fail h'
    rw [hg] at hg'
    cases hg'
    rcases hcase with ⟨herr, _⟩ | ⟨order', ho', _, _, _, pre, s, post, node, hsched, _, hs, _⟩
    · rw [ho] at herr; cases herr
    · rw [ho] at ho'
      cases ho'
      exact ⟨s, by rw [hsched]; simp, hs⟩
  · intro hex
    obtain ⟨pre, s, post, hsched, hpre, hs⟩ := first_without_kernel ss _ hex
    obtain ⟨node, hnode⟩ := Option.isSome_iff_exists.mp
      (hres.1 s (by rw [hsched]; simp))
    exact ⟨_, hB pre s post node hsched hpre hs hnode⟩

/-- Witness for C19 on `missingKernelSession`, where the Sigmoid node (second in execution
order) is the first one without kernel definition. -/
theorem C19_missing_kernel_status_witness :
    -1 ≤ missingKernelSession.GetMaxMLValueIdx ∧
    NamesResolvable missingKernelSession reluChainGraph
      (ScheduledNodes reluChainGraph [0, 1, 2, 3, 4]) ∧
    CreatePlan missingKernelSession shapeContext freshPlan =
      .error (PlanError.status
        "No suitable kernel definition found for op Sigmoid (node sigmoid)") :=
  ⟨by decide, by decide,
    (C19_missing_kernel_status missingKernelSession shapeContext freshPlan
      (rfl : missingKernelSession.Graph = some reluChainGraph)
      (rfl : reluChainGraph.NodesInTopologicalOrder = .ok [0, 1, 2, 3, 4]) (by decide)
      (by decide)).2
      [⟨1, 1, 0⟩] ⟨2, 1, 0⟩ [⟨3, 1, 0⟩] sigmoidNode rfl (by decide) rfl rfl⟩

/-- C20 (counterexample): `CreatePlan` fails on `missingKernelSession` with the status for the
missing Sigmoid kernel; started on the empty plan object `freshPlan` it leaves there a plan
object with the three scheduled steps and four allocation-plan entries. -/
theorem C20_failure_counterexample :
    CreatePlan missingKernelSession shapeContext freshPlan =
      .error (PlanError.status
        "No suitable kernel definition found for op Sigmoid (node sigmoid)") ∧
    CreatePlanStatus missingKernelSession shapeContext freshPlan =
      .ok (Status.FAIL "No suitable kernel definition found for op Sigmoid (node sigmoid)",
        missingKernelPlan) ∧
    missingKernelPlan ≠ freshPlan ∧
    freshPlan.execution_plan = [] ∧
    missingKernelPlan.execution_plan = [⟨1, 1, 0⟩, ⟨2, 1, 0⟩, ⟨3, 1, 0⟩] ∧
    freshPlan.allocation_plan = [] ∧ missingKernelPlan.allocation_plan.length = 4 := by
  refine ⟨rfl, rfl, ?_, rfl, rfl, rfl, rfl⟩
  intro h
  have := congrArg (fun q : SequentialExecutionPlan => q.execution_plan.length) h
  exact absurd this (by decide)

/-- C20 (amended): when `CreatePlan` returns a failure status, the status is all the caller
gets as a result, and the plan object has been written in place. If the topological order is
unavailable the object is untouched. On a missing kernel definition `execution_plan` holds the
whole schedule, no entry of `allocation_plan` carries an allocation kind other than the
default `kAllocate` or a donor, and `to_be_freed` is as it was before the call. -/
theorem C20_failure_plan_object (ss : SessionState) (ctx : ISequentialPlannerContext)
    {plan plan' : SequentialExecutionPlan} {msg : String}
    (h : CreatePlanStatus ss ctx plan = .ok (Status.FAIL msg, plan')) :
    CreatePlan ss ctx plan = .error (PlanError.status msg) ∧
    plan'.to_be_freed = plan.to_be_freed ∧
    ∃ graph, ss.Graph = some graph ∧
      ((graph.NodesInTopologicalOrder = .error msg ∧ plan' = plan) ∨
       (∃ order, graph.NodesInTopologicalOrder = .ok order ∧
          plan'.execution_plan = ScheduledNodes graph order ∧
          ∀ v, (entry plan' v).alloc_kind = AllocKind.kAllocate ∧
            (entry plan' v).reused_buffer = 0)) := by
  refine ⟨CreatePlan_status_error.mpr ⟨plan', h⟩, ?_⟩
  obtain ⟨graph, hg, hcase⟩ := CreatePlanStatus_fail h
  rcases hcase with ⟨herr, hp⟩ | ⟨order, ho, hx, ht, hall, _⟩
  · exact ⟨by rw [hp], graph, hg, Or.inl ⟨herr, hp⟩⟩
  · exact ⟨ht, graph, hg, Or.inr ⟨order, ho, hx, hall⟩⟩

/-- Witness for the amended C20 on `missingKernelSession`. -/
theorem C20_failure_plan_object_witness :
    CreatePlan missingKernelSession shapeContext freshPlan =
      .error (PlanError.status
        "No suitable kernel definition found for op Sigmoid (node sigmoid)") ∧
    missingKernelPlan.to_be_freed = freshPlan.to_be_freed :=
  ⟨(C20_failure_plan_object missingKernelSession shapeContext
      (rfl : CreatePlanStatus missingKernelSession shapeContext freshPlan =
        .ok (Status.FAIL "No suitable kernel definition found for op Sigmoid (node sigmoid)",
          missingKernelPlan))).1,
    (C20_failure_plan_object missingKernelSession shapeContext
      (rfl : CreatePlanStatus missingKernelSession shapeContext freshPlan =
        .ok (Status.FAIL "No suitable kernel definition found for op Sigmoid (node sigmoid)",
          missingKernelPlan))).2.1⟩

/-- C21: on a well-formed input, an existing output of a scheduled node whose type is not a
tensor type never ends with kind `kReuse`, whatever the kernel declares and whatever the
freelist holds; if it is not a graph output its final kind is `kAllocate`. -/
theorem C21_non_tensor_allocate (ss : SessionState) (ctx : ISequentialPlannerContext)
    {plan plan' : SequentialExecutionPlan} {graph : Graph}
    (hwf : WellFormed ss) (hg : ss.Graph = some graph)
    (h : CreatePlan ss ctx plan = .ok plan')
    (n : Node) (hn : n ∈ graph.Scheduled)
    (pre : List NodeArg) (o : NodeArg) (post : List NodeArg) (c : MLValueIndex)
    (hdefs : n.OutputDefs = pre ++ o :: post) (hex : o.Exists = true)
    (hc : ss.GetMLValueIdx o.Name = some c) (hnt : IsNonTensor o = true) :
    (entry plan' c).alloc_kind ≠ AllocKind.kReuse ∧
    (graph.Outputs.any (fun g => g.Name == o.Name) = false →
      (entry plan' c).alloc_kind = AllocKind.kAllocate) := by
  obtain ⟨p, hp, hplan⟩ := CreatePlan_ok h
  subst hplan
  have hout := CreatePlanImpl_outcome hwf hg hp n hn pre o post c hdefs hex hc
  cases hout with
  | graph_output hgo hk' =>
    refine ⟨by rw [hk']; simp, fun hno => ?_⟩
    rw [hgo] at hno
    cases hno
  | non_tensor hgo hnt' hk' => exact ⟨by rw [hk']; simp, fun _ => hk'⟩
  | reuse_input pa reused hgo hnt' hfi hfut hk' hr => exact absurd hnt hnt'
  | reuse_free pa pb reused hgo hnt' hfi hft hfut hk' hr hloc => exact absurd hnt hnt'
  | allocate pa pb hgo hnt' hfi hft hk' => exact absurd hnt hnt'

/-- Witness for C21 on `mapSession`: the map `S` (value 2) is the output of a node whose kernel
declares an alias pair and an in-place pair for it. -/
theorem C21_non_tensor_allocate_witness :
    WellFormed mapSession ∧ IsNonTensor (mapArg "S") = true ∧
    mapSession.GetKernelDef 2 = some aliasInplaceKernel ∧
    (entry mapPlan 2).alloc_kind ≠ AllocKind.kReuse ∧
    (mapGraph.Outputs.any (fun g => g.Name == (mapArg "S").Name) = false →
      (entry mapPlan 2).alloc_kind = AllocKind.kAllocate) :=
  ⟨by decide, rfl, rfl,
    C21_non_tensor_allocate mapSession shapeContext (by decide) rfl
      (rfl : CreatePlan mapSession shapeContext freshPlan = .ok mapPlan)
      ⟨2, "ZipMap", "zipmap", [arg "X"], [mapArg "S"], kCpuExecutionProvider⟩ (by decide)
      [] (mapArg "S") [] 2 rfl rfl rfl rfl⟩

/-- C23: `SameShape` is true if and only if the two shapes have the same rank and agree on
every axis, where two axes agree when both carry the same known value or both carry the same
symbolic parameter; so a known dimension against a symbolic or unset one, two different
symbols, and two unset dimensions make it false. -/
theorem C23_SameShape_spec (shape1 shape2 : TensorShapeProto) :
    (SameShape shape1 shape2 = true ↔
      shape1.length = shape2.length ∧
      ∀ (i : Nat) (d1 d2 : Dimension), shape1[i]? = some d1 → shape2[i]? = some d2 →
        ((∃ a, d1 = Dimension.dim_value a ∧ d2 = Dimension.dim_value a) ∨
         (∃ q, d1 = Dimension.dim_param q ∧ d2 = Dimension.dim_param q))) ∧
    (∀ (a : Int) (q : String),
      SameShape [Dimension.dim_value a] [Dimension.dim_param q] = false ∧
      SameShape [Dimension.dim_param q] [Dimension.dim_value a] = false ∧
      SameShape [Dimension.dim_value a] [Dimension.unset] = false ∧
      SameShape [Dimension.unset] [Dimension.dim_value a] = false) ∧
    (∀ q r : String, q ≠ r →
      SameShape [Dimension.dim_param q] [Dimension.dim_param r] = false) := by
  refine ⟨SameShape_iff shape1 shape2, ?_, ?_⟩
  · intro a q
    simp [SameShape, SameShapeLoop, SameDim, Dimension.has_dim_value,
      Dimension.has_dim_param]
  · intro q r hqr
    simp [SameShape, SameShapeLoop, SameDim, Dimension.has_dim_value,
      Dimension.has_dim_param, hqr]

/-- Witness for C23: a shape with a known and a symbolic axis is the same as itself and
differs from the shape whose symbol is another one. -/
theorem C23_SameShape_spec_witness :
    SameShape [Dimension.dim_value 2, Dimension.dim_param "N"]
      [Dimension.dim_value 2, Dimension.dim_param "N"] = true ∧
    SameShape [Dimension.dim_param "N"] [Dimension.dim_param "M"] = false :=
  ⟨(C23_SameShape_spec [Dimension.dim_value 2, Dimension.dim_param "N"]
      [Dimension.dim_value 2, Dimension.dim_param "N"]).1.mpr
      ⟨rfl, by
        intro i d1 d2 h1 h2
        match i, h1, h2 with
        | 0, h1, h2 =>
          simp only [List.getElem?_cons_zero, Option.some.injEq] at h1 h2
          exact Or.inl ⟨2, h1.symm, h2.symm⟩
        | 1, h1, h2 =>
          simp only [List.getElem?_cons_succ, List.getElem?_cons_zero, Option.some.injEq] at h1 h2
          exact Or.inr ⟨"N", h1.symm, h2.symm⟩
        | i + 2, h1, _ => simp at h1⟩,
    (C23_SameShape_spec [] []).2.2 "N" "M" (by decide)⟩

/-- C24: `SameSize` on two node args is false whenever one of them does not exist or one of
the two shapes is unknown; for two existing tensors of known shapes it is the conjunction of
equal element sizes and `SameShape`. Hence it is true only for equal element sizes and same
shapes, never merely for equal byte sizes. -/
theorem C24_SameSize_conservative (ctx : ISequentialPlannerContext) (arg1 arg2 : NodeArg) :
    ((arg1.Exists = false ∨ arg2.Exists = false) → SameSize ctx arg1 arg2 = .ok false) ∧
    ((ctx.GetShape arg1 = none ∨ ctx.GetShape arg2 = none) →
      SameSize ctx arg1 arg2 = .ok false) ∧
    (∀ (shape1 shape2 : TensorShapeProto) (t1 z1 t2 z2 : Nat),
      arg1.Exists = true → arg2.Exists = true →
      ctx.GetShape arg1 = some shape1 → ctx.GetShape arg2 = some shape2 →
      arg1.Type_ = DataType.tensor t1 z1 → arg2.Type_ = DataType.tensor t2 z2 →
      SameSize ctx arg1 arg2 = .ok (z1 == z2 && SameShape shape1 shape2)) ∧
    (SameSize ctx arg1 arg2 = .ok true →
      arg1.Exists = true ∧ arg2.Exists = true ∧
      ∃ shape1 shape2, ctx.GetShape arg1 = some shape1 ∧ ctx.GetShape arg2 = some shape2 ∧
        SameShape shape1 shape2 = true ∧
        ∃ z, GetElementSize arg1.Type_ = .ok z ∧ GetElementSize arg2.Type_ = .ok z) := by
  refine ⟨?_, ?_, ?_, ?_⟩
  · intro h
    unfold SameSize
    rcases h with h | h <;> simp [h] <;> rfl
  · intro h
    unfold SameSize
    split
    · rfl
    · rcases h with h | h <;> simp [h] <;> rfl
  · intro shape1 shape2 t1 z1 t2 z2 he1 he2 hs1 hs2 ht1 ht2
    exact SameSize_known he1 he2 hs1 hs2 ht1 ht2
  · intro h
    unfold SameSize at h
    split at h
    · simp [pure_ok] at h
    · rename_i hex
      simp only [Bool.or_eq_true, Bool.not_eq_true', not_or, Bool.not_eq_false] at hex
      split at h
      · rename_i shape1 shape2 hs1 hs2
        unfold SameSizeShapes at h
        simp only [bind_ok, pure_ok, Bool.and_eq_true, beq_iff_eq] at h
        obtain ⟨z1, hz1, z2, hz2, hz, hsame⟩ := h
        subst hz
        exact ⟨hex.1, hex.2, shape1, shape2, hs1, hs2, hsame, z1, hz1, hz2⟩
      · simp [pure_ok] at h

/-- Witness for C24: a float tensor of shape `[4]` and a double tensor of shape `[2]` occupy
16 bytes each, and `SameSize` is false on them. -/
theorem C24_SameSize_conservative_witness :
    SameSize shapeContext ⟨"a", true, DataType.tensor 1 4, some [Dimension.dim_value 4]⟩
      ⟨"b", true, DataType.tensor 11 8, some [Dimension.dim_value 2]⟩ =
      .ok ((4 : Nat) == 8 && SameShape [Dimension.dim_value 4] [Dimension.dim_value 2]) ∧
    ((4 : Nat) == 8 && SameShape [Dimension.dim_value 4] [Dimension.dim_value 2]) = false :=
  ⟨(C24_SameSize_conservative shapeContext
      ⟨"a", true, DataType.tensor 1 4, some [Dimension.dim_value 4]⟩
      ⟨"b", true, DataType.tensor 11 8, some [Dimension.dim_value 2]⟩).2.2.1
      [Dimension.dim_value 4] [Dimension.dim_value 2] 1 4 11 8 rfl rfl rfl rfl rfl rfl, rfl⟩

/-- C22: on a readable freelist `FindReusableTensor` is a first-fit search from the front of
the freelist. It fails, leaving the planner unchanged, when the shape of the output is unknown
or no entry suits the output (equal location, known shape, same size); otherwise it returns
the ml-value of the first entry that suits and erases exactly that entry. So it succeeds if
and only if the shape is known and some entry suits. -/
theorem C22_first_fit (ss : SessionState) (ctx : ISequentialPlannerContext) (p : PlannerImpl)
    (output_arg : NodeArg) (hread : FreelistReadable ss ctx p output_arg) :
    (ctx.GetShape output_arg = none →
      FindReusableTensor ss ctx p output_arg = .ok (none, p)) ∧
    (∀ shape, ctx.GetShape output_arg = some shape →
      ((∀ e ∈ p.freelist_, ¬ FitsOutput ss ctx p output_arg shape e) →
        FindReusableTensor ss ctx p output_arg = .ok (none, p)) ∧
      (∀ (pre : List FreeBufferInfo) (e : FreeBufferInfo) (post : List FreeBufferInfo),
        p.freelist_ = pre ++ e :: post →
        (∀ x ∈ pre, ¬ FitsOutput ss ctx p output_arg shape x) →
        FitsOutput ss ctx p output_arg shape e →
        FindReusableTensor ss ctx p output_arg =
          .ok (some e.ml_value, { p with freelist_ := pre ++ post }))) ∧
    ((∃ r p', FindReusableTensor ss ctx p output_arg = .ok (some r, p')) ↔
      ∃ shape, ctx.GetShape output_arg = some shape ∧
        ∃ e ∈ p.freelist_, FitsOutput ss ctx p output_arg shape e) := by
  obtain ⟨⟨c, hc, hclt⟩, ⟨t0, z0, hty⟩, hall⟩ := hread
  have hidx : Index ss output_arg.Name = .ok c := by simp [Index, hc]
  have hnone : ctx.GetShape output_arg = none →
      FindReusableTensor ss ctx p output_arg = .ok (none, p) := by
    intro hs
    unfold FindReusableTensor
    rw [hs]
    rfl
  have hmiss : ∀ shape, ctx.GetShape output_arg = some shape →
      (∀ e ∈ p.freelist_, ¬ FitsOutput ss ctx p output_arg shape e) →
      FindReusableTensor ss ctx p output_arg = .ok (none, p) := by
    intro shape hs hno
    have hwalk : FindInFreelist ss ctx p shape output_arg.Type_ (entry p.plan_ c).location
        p.freelist_ = .ok none := by
      rw [hty]
      apply FindInFreelist_none
      intro e he
      have := not_fits_of_readable hc (hall e he) (hno e he)
      rw [hty] at this
      exact this
    unfold FindReusableTensor
    simp only [hs, hidx, AllocPlan_of_lt hclt, bind, Except.bind, hwalk]
    try rfl
  have hhit : ∀ shape, ctx.GetShape output_arg = some shape →
      ∀ (pre : List FreeBufferInfo) (e : FreeBufferInfo) (post : List FreeBufferInfo),
      p.freelist_ = pre ++ e :: post →
      (∀ x ∈ pre, ¬ FitsOutput ss ctx p output_arg shape x) →
      FitsOutput ss ctx p output_arg shape e →
      FindReusableTensor ss ctx p output_arg =
        .ok (some e.ml_value, { p with freelist_ := pre ++ post }) := by
    intro shape hs pre e post hfl hpre hfit
    have hwalk : FindInFreelist ss ctx p shape output_arg.Type_ (entry p.plan_ c).location
        p.freelist_ = .ok (some (e.ml_value, pre ++ post)) := by
      rw [hty, hfl]
      apply FindInFreelist_first
      · obtain ⟨a, i, c', sh, hds, hi, hc', hloc, hsh, hsame⟩ := hfit
        rw [hc] at hc'
        cases hc'
        obtain ⟨a', i', hds', hi', hlt', _⟩ := hall e (by rw [hfl]; simp)
        rw [hds] at hds'
        cases hds'
        rw [hi] at hi'
        cases hi'
        rw [hty] at hsame
        exact ⟨a, i, sh, hds, hi, hlt', hloc, hsh, hsame⟩
      · intro x hx
        have := not_fits_of_readable hc (hall x (by rw [hfl]; simp [hx])) (hpre x hx)
        rw [hty] at this
        exact this
    unfold FindReusableTensor
    simp only [hs, hidx, AllocPlan_of_lt hclt, bind, Except.bind, hwalk]
    try rfl
  refine ⟨hnone, fun shape hs => ⟨hmiss shape hs, hhit shape hs⟩, ?_⟩
  constructor
  · rintro ⟨r, p', hres⟩
    cases hs : ctx.GetShape output_arg with
    | none =>
      rw [hnone hs] at hres
      simp at hres
    | some shape =>
      refine ⟨shape, rfl, ?_⟩
      by_contra hno
      rw [hmiss shape hs (fun e he hfit => hno ⟨e, he, hfit⟩)] at hres
      simp at hres
  · rintro ⟨shape, hs, hex⟩
    obtain ⟨pre, e, post, hfl, hpre, hfit⟩ := first_such _ p.freelist_ hex
    exact ⟨e.ml_value, _, hhit shape hs pre e post hfl hpre hfit⟩

/-- Witness for C22 on the state `twoFreedMid2`, whose freelist `[N, M]` holds two entries
that suit the output `Y`: the search returns `N` (value 2), the one freed last. -/
theorem C22_first_fit_witness :
    twoFreedMid2.freelist_ = [⟨2, 2⟩, ⟨1, 2⟩] ∧
    FitsOutput twoFreedSession shapeContext twoFreedMid2 (arg "Y") [Dimension.dim_value 2]
      ⟨1, 2⟩ ∧
    FindReusableTensor twoFreedSession shapeContext twoFreedMid2 (arg "Y") =
      .ok (some 2, { twoFreedMid2 with freelist_ := [] ++ [⟨1, 2⟩] }) :=
  ⟨rfl, ⟨arg "M", 1, 3, [Dimension.dim_value 2], rfl, rfl, rfl, rfl, rfl, rfl⟩,
    ((C22_first_fit twoFreedSession shapeContext twoFreedMid2 (arg "Y")
      twoFreedMid2_readable).2.1 [Dimension.dim_value 2] rfl).2 [] ⟨2, 2⟩ [⟨1, 2⟩] rfl
      (fun x hx => by simp at hx)
      ⟨arg "N", 2, 3, [Dimension.dim_value 2], rfl, rfl, rfl, rfl, rfl, rfl⟩⟩
/-- C28: in the plan that `CreatePlan` produces, `create_fence` of a value `v` is true if and
only if some scheduled node whose kernel has a non-zero `ExecQueueId` has `v` among its
existing input or output defs. In particular, a scheduled node whose kernel has
`ExecQueueId = 2`, with two existing inputs and one existing output, marks all three values. -/
theorem C28_fence_propagation (ss : SessionState) (ctx : ISequentialPlannerContext)
    (plan plan' : SequentialExecutionPlan) (graph : Graph) (order : List NodeIndex)
    (h : CreatePlan ss ctx plan = .ok plan') (hg : ss.Graph = some graph)
    (ho : graph.NodesInTopologicalOrder = .ok order) :
    (∀ v, (entry plan' v).create_fence = true ↔
      FencedBy ss graph (ScheduledNodes graph order) v) ∧
    (∀ s ∈ ScheduledNodes graph order, ∀ (n : Node) (k : KernelDef) (a b o : NodeArg)
      (va vb vo : MLValueIndex), graph.GetNode s.node_index = some n →
      ss.GetKernelDef s.node_index = some k → k.ExecQueueId = 2 →
      n.InputDefs = [a, b] → n.OutputDefs = [o] →
      a.Exists = true → b.Exists = true → o.Exists = true →
      ss.GetMLValueIdx a.Name = some va → ss.GetMLValueIdx b.Name = some vb →
      ss.GetMLValueIdx o.Name = some vo →
      (entry plan' va).create_fence = true ∧ (entry plan' vb).create_fence = true ∧
        (entry plan' vo).create_fence = true) := by
  obtain ⟨p, hp, rfl⟩ := CreatePlan_ok h
  have key := fun v => CreatePlanImpl_fence hp hg ho v
  refine ⟨key, ?_⟩
  intro s hs n k a b o va vb vo hn hk hq hin hout hae hbe hoe hva hvb hvo
  have hq0 : k.ExecQueueId ≠ 0 := by rw [hq]; decide
  refine ⟨(key va).mpr ?_, (key vb).mpr ?_, (key vo).mpr ?_⟩
  · exact ⟨s, hs, n, k, hn, hk, hq0, a, by simp [hin], hae, hva⟩
  · exact ⟨s, hs, n, k, hn, hk, hq0, b, by simp [hin], hbe, hvb⟩
  · exact ⟨s, hs, n, k, hn, hk, hq0, o, by simp [hout], hoe, hvo⟩

theorem C28_fence_propagation_witness :
    CreatePlan fenceSession shapeContext freshPlan = .ok fencePlan ∧
    ((entry fencePlan 0).create_fence = true ∧ (entry fencePlan 1).create_fence = true ∧
      (entry fencePlan 2).create_fence = true) ∧
    ¬ FencedBy fenceSession fenceGraph (ScheduledNodes fenceGraph [0, 1, 2, 3]) 3 :=
  have c := C28_fence_propagation fenceSession shapeContext freshPlan fencePlan fenceGraph
    [0, 1, 2, 3] rfl rfl rfl
  ⟨rfl, c.2 ⟨1, 1, 0⟩ (by decide) _ queuedKernel (arg "A") (arg "B") (arg "C") 0 1 2 rfl rfl rfl
    rfl rfl rfl rfl rfl rfl rfl rfl, fun hf => absurd ((c.1 3).mpr hf) (by decide)⟩

/-- C30: output location assignment in `ComputeUseCounts`, when every value is produced by at
most one output of one scheduled node. For the existing output `o` at position `pre.length`
of the node `n` of a scheduled step: if the node's default allocator is the CPU allocator, the
location of the output's value is what it was before the call, also when the kernel's
`OutputMemoryType` has an entry for the position; otherwise it is the allocator of the
overriding memory type when `OutputMemoryType` has an entry for the position, and the node's
default allocator when it has none. -/
theorem C30_output_location (ss : SessionState) (graph : Graph) (p p' : PlannerImpl)
    (spre : List NodeExecutionPlan) (s : NodeExecutionPlan) (spost : List NodeExecutionPlan)
    (n : Node) (k : KernelDef) (pre : List NodeArg) (o : NodeArg) (post : List NodeArg)
    (c : MLValueIndex)
    (h : ComputeUseCounts ss graph p = .ok p')
    (hnd : (AllWrites ss (StepNodes graph p.plan_.execution_plan)).Nodup)
    (hs : p.plan_.execution_plan = spre ++ s :: spost)
    (hn : graph.GetNode s.node_index = some n) (hk : ss.GetKernelDef s.node_index = some k)
    (hdefs : n.OutputDefs = pre ++ o :: post) (hoe : o.Exists = true)
    (hoc : ss.GetMLValueIdx o.Name = some c) :
    ((ss.GetAllocatorInfo s.node_index MemType.kMemTypeDefault).name = CPU →
      (entry p'.plan_ c).location = (entry p.plan_ c).location) ∧
    ((ss.GetAllocatorInfo s.node_index MemType.kMemTypeDefault).name ≠ CPU →
      (∀ mem_type, k.OutputMemoryType.lookup pre.length = some mem_type →
        (entry p'.plan_ c).location = ss.GetAllocatorInfo s.node_index mem_type) ∧
      (k.OutputMemoryType.lookup pre.length = none →
        (entry p'.plan_ c).location =
          ss.GetAllocatorInfo s.node_index MemType.kMemTypeDefault)) := by
  have key := ComputeUseCounts_location h hnd hs hn hk hdefs hoe hoc
  refine ⟨fun hcpu => ?_, fun hcpu => ⟨fun mem_type hm => ?_, fun hm => ?_⟩⟩
  · rw [key, OutputLocation, if_pos hcpu]
  · rw [key, OutputLocation, if_neg hcpu, hm]
  · rw [key, OutputLocation, if_neg hcpu, hm]

theorem C30_output_location_witness :
    ComputeUseCounts pinnedAliasSession pinnedAliasGraph pinnedAliasStart =
      .ok pinnedAliasCounted ∧
    (entry pinnedAliasCounted.plan_ 1).location = cudaPinnedInfo ∧
    (entry pinnedAliasCounted.plan_ 2).location = cudaInfo :=
  ⟨rfl,
    ((C30_output_location pinnedAliasSession pinnedAliasGraph pinnedAliasStart
      pinnedAliasCounted [] ⟨1, 1, 0⟩ [⟨2, 1, 0⟩, ⟨3, 1, 0⟩] _ cpuOutputKernel [] (arg "X") [] 1
      rfl (by decide) rfl rfl rfl rfl rfl rfl).2 (by decide)).1 MemType.kMemTypeCPUOutput rfl,
    ((C30_output_location pinnedAliasSession pinnedAliasGraph pinnedAliasStart
      pinnedAliasCounted [⟨1, 1, 0⟩] ⟨2, 1, 0⟩ [⟨3, 1, 0⟩] _ aliasKernel [] (arg "Z") [] 2
      rfl (by decide) rfl rfl rfl rfl rfl rfl).2 (by decide)).2 rfl⟩
/-- C29 (counterexample): `weightInputSession` is well formed, and its value 1 (`W`) is a graph
input and an initializer that node `Add` reads once. `ComputeUseCounts` leaves it the use
count 2, where the count in the words of the specification is 3: the initializer loop calls
`ProcessDef`, which sets the count back to 0 before the increment. -/
theorem C29_use_count_counterexample :
    WellFormed weightInputSession ∧
    ComputeUseCounts weightInputSession weightInputGraph weightInputStart =
      .ok weightInputCounted ∧
    (∀ v, cnt weightInputStart v = 0) ∧
    (1 : MLValueIndex) ∈ InputIndices weightInputSession weightInputGraph ∧
    (1 : MLValueIndex) ∈ InitializerIndices weightInputSession weightInputGraph ∧
    cnt weightInputCounted 1 = 2 ∧
    SpecUseCount weightInputSession weightInputGraph weightInputStart.plan_.execution_plan 1 =
      3 := by
  exact ⟨by decide, rfl, cnt_zero_of_all (by decide), by decide, by decide, rfl, by decide⟩

/-- C29 (amended): after `ComputeUseCounts` on an execution order that is a valid topological
order, started with all use counts zero, the use count of every value `v` is the number of
occurrences of `v` as an existing input of scheduled nodes, plus one if `v` is a graph input
or an initializer (one phantom use also when it is both), plus one for each occurrence of `v`
among the graph outputs. A graph input has its phantom use next to one use per occurrence
among the graph outputs, and for a value that is not both graph input and initializer the
count is the one in the words of the specification. -/
theorem C29_use_counts (ss : SessionState) (graph : Graph) (p p' : PlannerImpl)
    (h : ComputeUseCounts ss graph p = .ok p')
    (hvo : ValidOrder ss (InitiallyDefined ss graph) (StepNodes graph p.plan_.execution_plan))
    (h0 : ∀ v, cnt p v = 0) (v : MLValueIndex) :
    cnt p' v = ((AllReads ss (StepNodes graph p.plan_.execution_plan)).count v : Nat) +
      (if v ∈ InputIndices ss graph ∨ v ∈ InitializerIndices ss graph then 1 else 0) +
      ((OutputIndices ss graph).count v : Nat) ∧
    (v ∈ InputIndices ss graph →
      cnt p' v = ((AllReads ss (StepNodes graph p.plan_.execution_plan)).count v : Nat) + 1 +
        ((OutputIndices ss graph).count v : Nat)) ∧
    (¬ (v ∈ InputIndices ss graph ∧ v ∈ InitializerIndices ss graph) →
      cnt p' v = SpecUseCount ss graph p.plan_.execution_plan v) := by
  have key := ComputeUseCounts_counts_all h hvo h0 v
  simp only [InitiallyDefined, List.mem_append] at key
  refine ⟨key, fun hi => ?_, fun hno => ?_⟩
  · rw [key, if_pos (Or.inl hi)]
  · rw [key, SpecUseCount]
    by_cases h1 : v ∈ InputIndices ss graph <;> by_cases h2 : v ∈ InitializerIndices ss graph
    · exact absurd ⟨h1, h2⟩ hno
    · simp [h1, h2]
    · simp [h1, h2]
    · simp [h1, h2]

theorem C29_use_counts_witness :
    cnt weightInputCounted 1 = 2 ∧ cnt weightInputCounted 0 = 2 ∧
    cnt weightInputCounted 2 = 1 :=
  have hz : ∀ v, cnt weightInputStart v = 0 := cnt_zero_of_all (by decide)
  ⟨(C29_use_counts weightInputSession weightInputGraph weightInputStart weightInputCounted
      rfl (by decide) hz 1).1.trans (by decide),
    (C29_use_counts weightInputSession weightInputGraph weightInputStart weightInputCounted
      rfl (by decide) hz 0).1.trans (by decide),
    (C29_use_counts weightInputSession weightInputGraph weightInputStart weightInputCounted
      rfl (by decide) hz 2).1.trans (by decide)⟩
/-- C25: weight placement. Let `GeneratePlanForWeights` succeed, and let def `d` at input
position `dpre.length` of node `n` be an existing def that names an initializer, with value
index `w`. Then `n` has an execution provider and a kernel definition `k`, and the call of the
lambda for this occurrence leads from a state `q0` (reached by the pass over the earlier nodes
and the earlier input defs of `n`) to a state `q1` (from which the pass goes on to its final
state) such that in `q1` the entry of `w` has `alloc_kind = kAllocateStatically`, and its
location is the default allocator of the CPU execution provider when `k` declares the input
position as on CPU explicitly, and the default allocator of the provider of `n` otherwise;
the other entries are as in `q0`. In the final state `alloc_kind` of `w` is
`kAllocateStatically`. -/
theorem C25_weight_placement (ss : SessionState) (graph : Graph) (p p' : PlannerImpl)
    (npre : List Node) (n : Node) (npost : List Node) (dpre : List NodeArg) (d : NodeArg)
    (dpost : List NodeArg) (w : MLValueIndex)
    (h : GeneratePlanForWeights ss graph p = .ok p')
    (hn : graph.Nodes = npre ++ n :: npost) (hd : n.InputDefs = dpre ++ d :: dpost)
    (hde : d.Exists = true) (hdi : graph.AllInitializedTensors.contains d.Name = true)
    (hw : ss.GetMLValueIdx d.Name = some w) :
    ∃ p_provider k q0 q1,
      ss.GetExecutionProvider n.ExecutionProviderType = some p_provider ∧
      ss.GetKernelDef n.Index = some k ∧
      (PlanWeightsOfNodes ss graph npre p >>= PlanWeightsOfNode ss graph n dpre 0) = .ok q0 ∧
      (PlanWeightsOfNode ss graph n dpost (dpre.length + 1) q1 >>=
        PlanWeightsOfNodes ss graph npost) = .ok p' ∧
      (∀ v, v ≠ w → entry q1.plan_ v = entry q0.plan_ v) ∧
      (entry q1.plan_ w).alloc_kind = AllocKind.kAllocateStatically ∧
      (MemTypeOnCpuExplicitly k.InputMemoryType dpre.length = true →
        ∃ cpu_provider, ss.GetExecutionProvider kCpuExecutionProvider = some cpu_provider ∧
          (entry q1.plan_ w).location = cpu_provider MemType.kMemTypeDefault) ∧
      (MemTypeOnCpuExplicitly k.InputMemoryType dpre.length = false →
        (entry q1.plan_ w).location = p_provider MemType.kMemTypeDefault) ∧
      (entry p'.plan_ w).alloc_kind = AllocKind.kAllocateStatically := by
  unfold GeneratePlanForWeights at h
  have hfin : (entry p'.plan_ w).alloc_kind = AllocKind.kAllocateStatically := by
    obtain ⟨_, _, _, _, inw, _, _⟩ := PlanWeightsOfNodes_acc _ _ _ h
    apply inw
    rw [hn]
    simp only [List.flatMap_append, List.flatMap_cons, List.mem_append, hd, WeightIndicesOf,
      List.filter_append, List.filter_cons, hde, hdi, Bool.and_self, if_true,
      List.filterMap_append, List.filterMap_cons, hw, List.mem_cons, true_or, or_true]
  rw [hn] at h
  obtain ⟨w', p_provider, k, location, qn, q0, q1, q2, hw', hp, hk, hl, hqn, hq0, h1, h2, h3⟩ :=
    PlanWeightsOfNodes_occurrence h hd hde hdi
  rw [hw] at hw'
  cases hw'
  obtain ⟨_, he, _⟩ := modifyAllocPlan_ok h1
  obtain ⟨hcpu, hown⟩ := WeightLocation_ok hl
  refine ⟨p_provider, k, q0, q1, hp, hk, bind_ok.mpr ⟨qn, hqn, hq0⟩,
    bind_ok.mpr ⟨q2, h2, h3⟩, ?_, ?_, ?_, ?_, hfin⟩
  · intro v hv
    rw [he v, if_neg hv]
  · rw [he w, if_pos rfl]
  · intro hc
    obtain ⟨cpu_provider, hcp, hlc⟩ := hcpu hc
    exact ⟨cpu_provider, hcp, by rw [he w, if_pos rfl]; exact hlc⟩
  · intro hc
    rw [he w, if_pos rfl]
    exact hown hc

theorem C25_weight_placement_witness :
    (∃ p_provider k q0 q1,
      cpuWeightSession.GetExecutionProvider kCudaExecutionProvider = some p_provider ∧
      cpuWeightSession.GetKernelDef 2 = some k ∧
      (PlanWeightsOfNodes cpuWeightSession sharedWeightGraph
          [⟨0, "_Source", "", [], [], ""⟩,
           ⟨1, "Add", "add", [arg "X", arg "W"], [arg "M"], kCpuExecutionProvider⟩]
          sharedWeightStart >>=
        PlanWeightsOfNode cpuWeightSession sharedWeightGraph
          ⟨2, "Mul", "mul", [arg "M", arg "W"], [arg "Y"], kCudaExecutionProvider⟩
          [arg "M"] 0) = .ok q0 ∧
      (PlanWeightsOfNode cpuWeightSession sharedWeightGraph
          ⟨2, "Mul", "mul", [arg "M", arg "W"], [arg "Y"], kCudaExecutionProvider⟩ []
          ([arg "M"].length + 1) q1 >>=
        PlanWeightsOfNodes cpuWeightSession sharedWeightGraph
          [⟨3, "_Sink", "", [], [], ""⟩]) = .ok cpuWeightPlaced ∧
      (∀ v, v ≠ 1 → entry q1.plan_ v = entry q0.plan_ v) ∧
      (entry q1.plan_ 1).alloc_kind = AllocKind.kAllocateStatically ∧
      (MemTypeOnCpuExplicitly k.InputMemoryType [arg "M"].length = true →
        ∃ cpu_provider,
          cpuWeightSession.GetExecutionProvider kCpuExecutionProvider = some cpu_provider ∧
          (entry q1.plan_ 1).location = cpu_provider MemType.kMemTypeDefault) ∧
      (MemTypeOnCpuExplicitly k.InputMemoryType [arg "M"].length = false →
        (entry q1.plan_ 1).location = p_provider MemType.kMemTypeDefault) ∧
      (entry cpuWeightPlaced.plan_ 1).alloc_kind = AllocKind.kAllocateStatically) ∧
    MemTypeOnCpuExplicitly cpuInputKernel.InputMemoryType 1 = true ∧
    (entry cpuWeightPlaced.plan_ 1).location = cpuInfo :=
  ⟨C25_weight_placement cpuWeightSession sharedWeightGraph sharedWeightStart cpuWeightPlaced
      [⟨0, "_Source", "", [], [], ""⟩,
       ⟨1, "Add", "add", [arg "X", arg "W"], [arg "M"], kCpuExecutionProvider⟩]
      ⟨2, "Mul", "mul", [arg "M", arg "W"], [arg "Y"], kCudaExecutionProvider⟩
      [⟨3, "_Sink", "", [], [], ""⟩] [arg "M"] (arg "W") [] 1 rfl rfl rfl rfl rfl rfl,
    rfl, rfl⟩

/-- C26 (counterexample): in `sharedWeightSession` the initializer `W` (value 1) is read first
by node 1 on the CPU provider, at input position 1, which asks for the CPU allocator, and then
by node 2 on the CUDA provider. The plan `CreatePlan` produces records the CUDA allocator for
`W`: the later consuming node has overwritten the location. -/
theorem C26_first_reference_counterexample :
    WellFormed sharedWeightSession ∧
    CreatePlan sharedWeightSession shapeContext freshPlan = .ok sharedWeightPlan ∧
    FirstWeightUse sharedWeightSession sharedWeightGraph [⟨0, "_Source", "", [], [], ""⟩]
      ⟨1, "Add", "add", [arg "X", arg "W"], [arg "M"], kCpuExecutionProvider⟩
      [⟨2, "Mul", "mul", [arg "M", arg "W"], [arg "Y"], kCudaExecutionProvider⟩,
       ⟨3, "_Sink", "", [], [], ""⟩] [arg "X"] (arg "W") [] 1 ∧
    (∃ p_provider k,
      sharedWeightSession.GetExecutionProvider kCpuExecutionProvider = some p_provider ∧
      sharedWeightSession.GetKernelDef 1 = some k ∧
      WeightLocation sharedWeightSession p_provider k 1 = .ok cpuInfo) ∧
    (entry sharedWeightPlan 1).location = cudaInfo ∧ cudaInfo ≠ cpuInfo :=
  ⟨by decide, rfl, by decide, ⟨fun _ => cpuInfo, plainKernel, rfl, rfl, rfl⟩, rfl, by decide⟩

/-- C26 (amended): when the same initializer is consumed at several places, the location in
its entry of the plan that `CreatePlan` produces is the one determined by the last consuming
occurrence in graph node order (the last consuming input def of the last consuming node):
every consuming occurrence overwrites the location. -/
theorem C26_last_reference_wins (ss : SessionState) (ctx : ISequentialPlannerContext)
    (plan plan' : SequentialExecutionPlan) (graph : Graph)
    (npre : List Node) (n : Node) (npost : List Node) (dpre : List NodeArg) (d : NodeArg)
    (dpost : List NodeArg) (w : MLValueIndex)
    (h : CreatePlan ss ctx plan = .ok plan') (hg : ss.Graph = some graph)
    (hl : LastWeightUse ss graph npre n npost dpre d dpost w) :
    ∃ p_provider k, ss.GetExecutionProvider n.ExecutionProviderType = some p_provider ∧
      ss.GetKernelDef n.Index = some k ∧
      WeightLocation ss p_provider k dpre.length = .ok (entry plan' w).location := by
  obtain ⟨p, hp, rfl⟩ := CreatePlan_ok h
  exact CreatePlanImpl_weight_location hp hg hl

theorem C26_last_reference_wins_witness :
    ∃ p_provider k,
      sharedWeightSession.GetExecutionProvider kCudaExecutionProvider = some p_provider ∧
      sharedWeightSession.GetKernelDef 2 = some k ∧
      WeightLocation sharedWeightSession p_provider k [arg "M"].length =
        .ok (entry sharedWeightPlan 1).location :=
  C26_last_reference_wins sharedWeightSession shapeContext freshPlan sharedWeightPlan
    sharedWeightGraph
    [⟨0, "_Source", "", [], [], ""⟩,
     ⟨1, "Add", "add", [arg "X", arg "W"], [arg "M"], kCpuExecutionProvider⟩]
    ⟨2, "Mul", "mul", [arg "M", arg "W"], [arg "Y"], kCudaExecutionProvider⟩
    [⟨3, "_Sink", "", [], [], ""⟩] [arg "M"] (arg "W") [] 1 rfl rfl (by decide)

/-- C27: the weight pass is idempotent on the result of `CreatePlan`. On a well-formed input,
`GeneratePlanForWeights` (same graph and session state) applied to a planner object that holds
the plan `CreatePlan` produced succeeds and returns the object as it was: every entry of the
allocation plan is unchanged. -/
theorem C27_weight_pass_idempotent (ss : SessionState) (ctx : ISequentialPlannerContext)
    (plan plan' : SequentialExecutionPlan) (graph : Graph) (q : PlannerImpl)
    (hwf : WellFormed ss) (hg : ss.Graph = some graph)
    (h : CreatePlan ss ctx plan = .ok plan') (hq : q.plan_ = plan') :
    GeneratePlanForWeights ss graph q = .ok q ∧
    ∀ q', GeneratePlanForWeights ss graph q = .ok q' →
      ∀ v, entry q'.plan_ v = entry plan' v := by
  obtain ⟨p, hp, hpp⟩ := CreatePlan_ok h
  have key := CreatePlanImpl_rerun_weights hwf hg hp q (hq.trans hpp.symm)
  refine ⟨key, ?_⟩
  intro q' hq' v
  rw [key] at hq'
  cases hq'
  rw [hq]

theorem C27_weight_pass_idempotent_witness :
    GeneratePlanForWeights sharedWeightSession sharedWeightGraph sharedWeightFinal =
      .ok sharedWeightFinal :=
  (C27_weight_pass_idempotent sharedWeightSession shapeContext freshPlan sharedWeightPlan
    sharedWeightGraph sharedWeightFinal (by decide) rfl rfl rfl).1

/-- C35 (code defect): `find` matches the dimensions of `shape` at axis 0 for the shapes
`[2][3]`, `[2][3]` and for `[4][5][6]`, `[4][5]`, and at no other axis; `FindShapeSubsetAxis`
throws "Tensors have no common shape subset" on both, because its loop `for (...; i > 0; i--)`
stops before axis 0. -/
theorem C35_axis_zero_not_found :
    MatchesAt [2, 3] [2, 3] 0 ∧
    FindShapeSubsetAxis [2, 3] [2, 3] =
      .error (OpError.thrown "Tensors have no common shape subset") ∧
    MatchesAt [4, 5, 6] [4, 5] 0 ∧
    FindShapeSubsetAxis [4, 5, 6] [4, 5] =
      .error (OpError.thrown "Tensors have no common shape subset") :=
  ⟨by decide, rfl, by decide, rfl⟩

/-- C34 (code defect): for `input1` of shape `[2][3]` and `input2` of shape `[3]` the matching
axis is 1, so the element at row-major coordinates `(c_0, c_1)` is to be paired with
`input2[c_1]`. `Broadcast` steps through `input2` once every `incrementPitch = 2` elements
(the product of the dimensions before the axis) and so pairs the flat indices 0 to 5 with
`input2[0], [0], [1], [1], [2], [2]` instead of `input2[0], [1], [2], [0], [1], [2]`. -/
theorem C34_broadcast_pairing_diverges :
    FindShapeSubsetAxis rowsTensor.shape rowTensor.shape = .ok 1 ∧
    Broadcast rowsTensor rowTensor rowsTensor (-1) (fun a b => a + b) =
      .ok [11, 21, 32, 42, 53, 63] ∧
    SpecBroadcast (fun a b => a + b) rowsTensor rowTensor 1 =
      [some 11, some 22, some 33, some 41, some 52, some 63] ∧
    (List.range 6).map (SpecPairedIndex rowsTensor.shape rowTensor.shape 1) =
      [0, 1, 2, 0, 1, 2] :=
  ⟨rfl, rfl, by decide, by decide⟩
/-- C31 (counterexample): `reluChainSession` is scenario A (the chain
`X -> Relu -> R1 -> Sigmoid -> R2 -> Tanh -> Y` of float tensors of shape `[2]`, every kernel
declaring the in-place pair (0, 0)). In the plan `CreatePlan` produces, the output `R1` of Relu
has kind `kAllocate`, not `kReuse`; the output `R2` of Sigmoid reuses value 1 (`R1`), not
value 0 (`X`); and `to_be_freed` is `[1]`, not empty. -/
theorem C31_scenario_counterexample :
    WellFormed reluChainSession ∧
    (∀ n ∈ reluChainGraph.Scheduled,
      reluChainSession.GetKernelDef n.Index = some inplaceKernel) ∧
    inplaceKernel.MayInplace = [(0, 0)] ∧
    CreatePlan reluChainSession shapeContext freshPlan = .ok reluChainPlan ∧
    (entry reluChainPlan 1).alloc_kind = AllocKind.kAllocate ∧
    (entry reluChainPlan 2).alloc_kind = AllocKind.kReuse ∧
    (entry reluChainPlan 2).reused_buffer = 1 ∧
    reluChainSession.GetMLValueIdx "X" = some 0 ∧
    reluChainPlan.to_be_freed = [1] :=
  ⟨by decide, by decide, rfl, rfl, rfl, rfl, rfl, rfl, rfl⟩

/-- C31 (amended): scenario A for every element type and every known shape (each axis has a
value). Planned into a plan object whose `to_be_freed` is empty, the graph input `X` is
`kPreExisting`; the output `R1` of Relu is `kAllocate` (when Relu is planned the use count of
`X` is 2, the read and the use of the caller, so the in-place pair is not taken); the output
`R2` of Sigmoid is `kReuse` with `reused_buffer` the index of `R1`; `Y` is `kAllocateOutput`;
and `to_be_freed` is `[R1]`, freed by the last step. -/
theorem C31_scenario_plan (elem_type elem_size : Nat) (shape : TensorShapeProto)
    (hshape : ∀ d ∈ shape, ∃ v, d = Dimension.dim_value v)
    (plan : SequentialExecutionPlan) (h : plan.to_be_freed = []) :
    CreatePlan (chainSession (DataType.tensor elem_type elem_size) shape) shapeContext plan =
      .ok (chainPlan (DataType.tensor elem_type elem_size)) ∧
    (chainSession (DataType.tensor elem_type elem_size) shape).GetMLValueIdx "X" = some 0 ∧
    (chainSession (DataType.tensor elem_type elem_size) shape).GetMLValueIdx "R1" = some 1 ∧
    (chainSession (DataType.tensor elem_type elem_size) shape).GetMLValueIdx "R2" = some 2 ∧
    (chainSession (DataType.tensor elem_type elem_size) shape).GetMLValueIdx "Y" = some 3 ∧
    (entry (chainPlan (DataType.tensor elem_type elem_size)) 0).alloc_kind =
      AllocKind.kPreExisting ∧
    (entry (chainPlan (DataType.tensor elem_type elem_size)) 1).alloc_kind =
      AllocKind.kAllocate ∧
    (entry (chainPlan (DataType.tensor elem_type elem_size)) 2).alloc_kind = AllocKind.kReuse ∧
    (entry (chainPlan (DataType.tensor elem_type elem_size)) 2).reused_buffer = 1 ∧
    (entry (chainPlan (DataType.tensor elem_type elem_size)) 3).alloc_kind =
      AllocKind.kAllocateOutput ∧
    (chainPlan (DataType.tensor elem_type elem_size)).to_be_freed = [1] ∧
    (chainPlan (DataType.tensor elem_type elem_size)).execution_plan =
      [⟨1, 1, 0⟩, ⟨2, 1, 0⟩, ⟨3, 0, 0⟩] := by
  refine ⟨?_, rfl, rfl, rfl, rfl, rfl, rfl, rfl, rfl, rfl, rfl, rfl⟩
  rw [CreatePlan_of_to_be_freed _ shapeContext (h.trans rfl : _ = freshPlan.to_be_freed)]
  unfold CreatePlan
  rw [chain_plan elem_type elem_size shape (SameShape_self_of_known shape hshape)]
  rfl

/-- Witness for the amended C31: float tensors of shape `[2]`, which is `reluChainSession`. -/
theorem C31_scenario_plan_witness :
    chainSession (DataType.tensor 1 4) [Dimension.dim_value 2] = reluChainSession ∧
    chainPlan (DataType.tensor 1 4) = reluChainPlan ∧
    CreatePlan (chainSession (DataType.tensor 1 4) [Dimension.dim_value 2]) shapeContext
      freshPlan = .ok (chainPlan (DataType.tensor 1 4)) ∧
    (entry (chainPlan (DataType.tensor 1 4)) 1).alloc_kind = AllocKind.kAllocate :=
  have c := C31_scenario_plan 1 4 [Dimension.dim_value 2]
    (fun d hd => ⟨2, by simpa using hd⟩) freshPlan rfl
  ⟨rfl, rfl, c.1, c.2.2.2.2.2.2.1⟩

/-- C32 (code defect): in `skippedOutputSession` the node `Op` leaves out its output 0 and
produces `Z` at position 1 of its output defs, and its kernel declares output 1 an alias of
input 0. Queried with position 1, `FindReusableInput` returns input `X` (value 0); the output
loop of `ComputeReusePlan` queries it with 0, the number of existing outputs before `Z`, finds
no pair, and `Z` ends with kind `kAllocate` instead of reusing `X`. -/
theorem C32_output_position_skips_missing :
    WellFormed skippedOutputSession ∧
    skippedOutputNode.OutputDefs = [missingArg, arg "Z"] ∧ missingArg.Exists = false ∧
    skippedOutputSession.GetKernelDef skippedOutputNode.Index = some secondOutputAliasKernel ∧
    secondOutputAliasKernel.Alias = [(0, 1)] ∧
    OutputArgNum [missingArg] = 0 ∧
    (∀ p, FindReusableInput skippedOutputSession shapeContext p skippedOutputNode 1 =
      .ok (some 0)) ∧
    (∀ p, FindReusableInput skippedOutputSession shapeContext p skippedOutputNode 0 =
      .ok none) ∧
    CreatePlan skippedOutputSession shapeContext freshPlan = .ok skippedOutputPlan ∧
    (entry skippedOutputPlan 1).alloc_kind = AllocKind.kAllocate :=
  ⟨by decide, rfl, rfl, rfl, rfl, rfl, fun _ => rfl, fun _ => rfl, rfl, rfl⟩
/-- C38: no leak and nothing else freed. On a well-formed input and for a plan object that
starts with an empty `to_be_freed`, a value occurs in the `to_be_freed` of the produced plan if
and only if it is an existing output of a scheduled node whose final `alloc_kind` is
`kAllocate`; every such value lies in the free range of some step of the execution plan; and
no value of kind `kReuse` is listed. -/
theorem C38_freed_iff_allocated (ss : SessionState) (ctx : ISequentialPlannerContext)
    {plan plan' : SequentialExecutionPlan} {graph : Graph}
    (hwf : WellFormed ss) (hg : ss.Graph = some graph) (hfresh : plan.to_be_freed = [])
    (h : CreatePlan ss ctx plan = .ok plan') :
    (∀ v, v ∈ plan'.to_be_freed ↔
      (v ∈ AllWrites ss graph.Scheduled ∧
        (entry plan' v).alloc_kind = AllocKind.kAllocate)) ∧
    (∀ v, v ∈ AllWrites ss graph.Scheduled →
      (entry plan' v).alloc_kind = AllocKind.kAllocate →
      ∃ (s : Nat) (step : NodeExecutionPlan), plan'.execution_plan[s]? = some step ∧
        v ∈ FreeRange plan'.to_be_freed step.free_from_index step.free_to_index) ∧
    (∀ v ∈ plan'.to_be_freed, (entry plan' v).alloc_kind ≠ AllocKind.kReuse) := by
  obtain ⟨p, hp, hplan⟩ := CreatePlan_ok h
  subst hplan
  obtain ⟨_, _, _, _, _, htbf, _⟩ := CreatePlanImpl_dealloc hp
  rw [hfresh, List.nil_append] at htbf
  have hmem : ∀ v, v ∈ p.plan_.to_be_freed ↔ ∃ e ∈ p.freelist_, e.ml_value = v := by
    intro v
    rw [htbf]
    simp only [List.mem_map, List.mem_reverse]
  have hiff := CreatePlanImpl_freed_iff hwf hg hp
  refine ⟨fun v => (hmem v).trans (hiff v), ?_, ?_⟩
  · intro v hw hk
    obtain ⟨e, he, hev⟩ := (hiff v).mpr ⟨hw, hk⟩
    obtain ⟨step, hs, hr⟩ := CreatePlanImpl_freed_step hfresh hp e he
    exact ⟨e.deallocate_point, step, hs, hev ▸ hr⟩
  · intro v hv hk
    have := ((hmem v).trans (hiff v)).mp hv
    rw [hk] at this
    exact absurd this.2 (by decide)

/-- Witness for C38 on `freelistSession`, whose plan lists `N` and `M` (values 2 and 1) and
gives `Q` (value 3) the kind `kReuse`. -/
theorem C38_freed_iff_allocated_witness :
    WellFormed freelistSession ∧ freelistPlan.to_be_freed = [2, 1] ∧
    (entry freelistPlan 3).alloc_kind = AllocKind.kReuse ∧
    (∀ v, v ∈ freelistPlan.to_be_freed ↔
      (v ∈ AllWrites freelistSession freelistGraph.Scheduled ∧
        (entry freelistPlan v).alloc_kind = AllocKind.kAllocate)) ∧
    (∃ (s : Nat) (step : NodeExecutionPlan), freelistPlan.execution_plan[s]? = some step ∧
        1 ∈ FreeRange freelistPlan.to_be_freed step.free_from_index step.free_to_index) :=
  have c := C38_freed_iff_allocated freelistSession shapeContext
    (by decide : WellFormed freelistSession) (rfl : freelistSession.Graph = some freelistGraph)
    (rfl : freshPlan.to_be_freed = [])
    (rfl : CreatePlan freelistSession shapeContext freshPlan = .ok freelistPlan)
  ⟨by decide, rfl, rfl, c.1, c.2.1 1 (by decide) rfl⟩
/-- C33: the freelist stays ordered by freeing time. At every place of the program-counter loop
of `ComputeReusePlan` the deallocation points of the freelist entries do not increase from the
front to the back, and none is later than the current program counter; so `push_front` for the
current program counter keeps the order, and so does the removal by `FindReusableTensor`,
which leaves a sublist. -/
theorem C33_freelist_ordered (ss : SessionState) (ctx : ISequentialPlannerContext)
    {plan : SequentialExecutionPlan} {c : LoopPoint} {q : PlannerImpl}
    (hq : CreatePlanImplAt ss ctx plan c = .ok q) :
    q.freelist_.Pairwise (fun a b => b.deallocate_point ≤ a.deallocate_point) ∧
    (∀ e ∈ q.freelist_, e.deallocate_point ≤ c.pc) ∧
    (∀ v, (q.push_front v c.pc).freelist_.Pairwise
      (fun a b => b.deallocate_point ≤ a.deallocate_point)) ∧
    (∀ (q1 q2 : PlannerImpl) (o : NodeArg) (res : Option MLValueIndex),
      q1.freelist_ = q.freelist_ → FindReusableTensor ss ctx q1 o = .ok (res, q2) →
      q2.freelist_.Sublist q.freelist_ ∧
      q2.freelist_.Pairwise (fun a b => b.deallocate_point ≤ a.deallocate_point)) := by
  obtain ⟨hord, hle⟩ := CreatePlanImplAt_freelist hq
  refine ⟨hord, hle, ?_, ?_⟩
  · intro v
    simp only [PlannerImpl.push_front, List.pairwise_cons]
    exact ⟨fun e he => hle e he, hord⟩
  · intro q1 q2 o res hfl hft
    obtain ⟨_, _, hsub, _⟩ := FindReusableTensor_acc hft
    rw [hfl] at hsub
    exact ⟨hsub, List.Pairwise.sublist hsub hord⟩

/-- Witness for C33 on `freelistSession`: after the last step the freelist holds `M` (freed by
step 3, where `Q` that reuses it is read last) in front of `N` (freed by step 2). -/
theorem C33_freelist_ordered_witness :
    CreatePlanImplAt freelistSession shapeContext freshPlan ⟨4, 0, 0⟩ = .ok freelistEnd ∧
    freelistEnd.freelist_ = [⟨1, 3⟩, ⟨2, 2⟩] ∧
    freelistEnd.freelist_.Pairwise (fun a b => b.deallocate_point ≤ a.deallocate_point) :=
  ⟨rfl, rfl, (C33_freelist_ordered freelistSession shapeContext
    (rfl : CreatePlanImplAt freelistSession shapeContext freshPlan ⟨4, 0, 0⟩ =
      .ok freelistEnd)).1⟩

/-- C36: reference-count conservation. On a well-formed input, at the start of every step `pc`
of the program-counter loop of `ComputeReusePlan` and for every value `r` of the graph (an
initially defined value or an output of a scheduled node, so every value defined by then) that
is its own root, the use count of `r` equals the number of pending uses of the values whose
root is `r`: their occurrences among the existing inputs of the steps from `pc` on, plus their
occurrences in the list of the increments of `ComputeUseCounts` that stand for no read (graph
inputs, initializers, graph outputs). At every place of the loop every use count is
non-negative. -/
theorem C36_use_count_conservation (ss : SessionState) (ctx : ISequentialPlannerContext)
    {plan : SequentialExecutionPlan} {graph : Graph} {order : List NodeIndex}
    {c : LoopPoint} {q : PlannerImpl}
    (hwf : WellFormed ss) (hg : ss.Graph = some graph)
    (ho : graph.NodesInTopologicalOrder = .ok order)
    (hq : CreatePlanImplAt ss ctx plan c = .ok q) :
    (∀ v, 0 ≤ cnt q v) ∧
    (c.phase = 0 → c.k = 0 →
      ∀ r, (r ∈ InitiallyDefined ss graph ∨ r ∈ AllWrites ss graph.Scheduled) → buf q r = r →
        cnt q r = (PendingUses q
          (AllReads ss (StepNodes graph ((ScheduledNodes graph order).drop c.pc)))
          (Pinned ss graph) r : Nat)) := by
  constructor
  · intro v
    obtain ⟨⟨F, Fut, D, hr⟩, _⟩ := CreatePlanImplAt_invs hwf hg hq
    have := hr.count v
    omega
  · intro hph hk r hr hroot
    obtain ⟨pc, phase, k⟩ := c
    simp only at hph hk
    subst hph
    subst hk
    exact CreatePlanImplAt_counts hwf hg ho hq r hr hroot

/-- Witness for C36 on `freelistSession` at the start of step 2: `N` (value 2) has the use
count 1, for its read by step 2, and the graph input `A` (value 0) has the use count 1, for
the increment that stands for no read. -/
theorem C36_use_count_conservation_witness :
    CreatePlanImplAt freelistSession shapeContext freshPlan ⟨2, 0, 0⟩ = .ok freelistStep2 ∧
    cnt freelistStep2 2 = (PendingUses freelistStep2
      (AllReads freelistSession (StepNodes freelistGraph
        ((ScheduledNodes freelistGraph [0, 1, 2, 3, 4, 5]).drop 2)))
      (Pinned freelistSession freelistGraph) 2 : Nat) ∧
    cnt freelistStep2 2 = 1 ∧ ∀ v, 0 ≤ cnt freelistStep2 v :=
  have c := C36_use_count_conservation freelistSession shapeContext
    (by decide : WellFormed freelistSession) (rfl : freelistSession.Graph = some freelistGraph)
    (rfl : freelistGraph.NodesInTopologicalOrder = .ok [0, 1, 2, 3, 4, 5])
    (rfl : CreatePlanImplAt freelistSession shapeContext freshPlan ⟨2, 0, 0⟩ = .ok freelistStep2)
  ⟨rfl, c.2 rfl rfl 2 (by decide) rfl, rfl, c.1⟩

/-- C37: no double free on graphs without dead outputs. On a well-formed input in which every
existing output of a scheduled node is a graph output or read by a scheduled node, and for a
successful `CreatePlan` on a plan object that starts with an empty `to_be_freed`: the planner
reaches every place of the program-counter loop of `ComputeReusePlan`, no value occurs twice
in the freelist there, and `to_be_freed` of the final plan has no duplicates. -/
theorem C37_no_double_free (ss : SessionState) (ctx : ISequentialPlannerContext)
    {plan : SequentialExecutionPlan} {p : PlannerImpl} {graph : Graph}
    (hwf : WellFormed ss) (hg : ss.Graph = some graph) (hlive : NoDeadOutputs ss graph)
    (hfresh : plan.to_be_freed = []) (hp : CreatePlanImpl ss ctx plan = .ok p) :
    (∀ c, ∃ q, CreatePlanImplAt ss ctx plan c = .ok q ∧
      (q.freelist_.map (fun e => e.ml_value)).Nodup) ∧
    p.plan_.to_be_freed.Nodup := by
  have hall : ∀ c, ∃ q, CreatePlanImplAt ss ctx plan c = .ok q ∧
      (q.freelist_.map (fun e => e.ml_value)).Nodup := by
    intro c
    obtain ⟨q, hq⟩ := CreatePlanImplAt_ok hp c
    exact ⟨q, hq, ((CreatePlanImplAt_invs hwf hg hq).2 hlive).nodup⟩
  refine ⟨hall, ?_⟩
  obtain ⟨graph', order, _, _, _, _, p4, hg', ho, _, _, _, _, h4, hpe⟩ := CreatePlanImpl_split hp
  rw [hg] at hg'
  cases hg'
  obtain ⟨q, hq, hnd⟩ := hall ⟨(ScheduledNodes graph order).length, 0, 0⟩
  obtain ⟨p3, q0, D, _, _, hfin, hq0, _, _, _, _, _, _, _, hcase⟩ :=
    CreatePlanImplAt_start hwf hg ho hq
  simp only [List.take_length] at hq0 hcase
  obtain ⟨p4', h4', hpe'⟩ := hfin p hp
  rw [hq0] at h4'
  cases h4'
  have hqq : q = q0 := by
    rcases hcase with ⟨_, h⟩ | ⟨_, _, hlt, _⟩
    · exact h
    · omega
  subst hqq
  obtain ⟨_, _, _, _, _, htbf, _⟩ := CreatePlanImpl_dealloc hp
  rw [hfresh, List.nil_append] at htbf
  rw [htbf, List.map_reverse, List.nodup_reverse, hpe']
  exact hnd

/-- Witness for C37 on `freelistSession`, which has no dead output: `to_be_freed` is
`[2, 1]`. -/
theorem C37_no_double_free_witness :
    NoDeadOutputs freelistSession freelistGraph ∧
    freelistFinal.plan_.to_be_freed = [2, 1] ∧ freelistFinal.plan_.to_be_freed.Nodup ∧
    ∃ q, CreatePlanImplAt freelistSession shapeContext freshPlan ⟨2, 1, 1⟩ = .ok q ∧
      (q.freelist_.map (fun e => e.ml_value)).Nodup :=
  have c := C37_no_double_free freelistSession shapeContext
    (by decide : WellFormed freelistSession) (rfl : freelistSession.Graph = some freelistGraph)
    (by decide : NoDeadOutputs freelistSession freelistGraph)
    (rfl : freshPlan.to_be_freed = [])
    (rfl : CreatePlanImpl freelistSession shapeContext freshPlan = .ok freelistFinal)
  ⟨by decide, rfl, c.2, c.1 ⟨2, 1, 1⟩⟩

/-- C39: live ranges of values that share a freed buffer do not overlap. On a well-formed input
without dead outputs, in a successful run of `CreatePlan` that ends in `p`, let the output `o`
(value `cur`) at position `k` of the node of step `pc` take its buffer from the freelist:
in the state `q` after `k` iterations of the output loop, the output is no graph output and a
tensor, no input can be reused, and `FindReusableTensor` returns the root `r`. Then `r` is on
the freelist at the start `q0` of the step and is erased by the call; no value whose root is
`r`, at the start of the step or when `o` is planned, is read by the node of step `pc` or of a
later step; the root of `cur` in the final state is `r`; and the roots of the values defined
by then are final, so that no value defined by then whose final root is `r` is read at step
`pc` or later. Hence when a later output takes `r` from the freelist, neither `cur` nor a
value that shares its root is still to be read. -/
theorem C39_no_overlap (ss : SessionState) (ctx : ISequentialPlannerContext)
    {plan : SequentialExecutionPlan} {p q p1 p2 : PlannerImpl} {graph : Graph}
    {order : List NodeIndex} {pc k : Nat} {step : NodeExecutionPlan} {n : Node} {o : NodeArg}
    {cur r : MLValueIndex}
    (hwf : WellFormed ss) (hg : ss.Graph = some graph)
    (ho : graph.NodesInTopologicalOrder = .ok order) (hlive : NoDeadOutputs ss graph)
    (hp : CreatePlanImpl ss ctx plan = .ok p)
    (hstep : (ScheduledNodes graph order)[pc]? = some step)
    (hn : graph.GetNode step.node_index = some n)
    (hk : n.OutputDefs[k]? = some o) (hoe : o.Exists = true)
    (hcur : ss.GetMLValueIdx o.Name = some cur)
    (hq : CreatePlanImplAt ss ctx plan ⟨pc, 0, k⟩ = .ok q)
    (h1 : q.modifyAllocPlan cur (fun a => { a with value_type := some o.Type_ }) = .ok p1)
    (hgo : ¬ graph.Outputs.any (fun g => g.Name == o.Name) = true)
    (hnt : ¬ IsNonTensor o = true)
    (hfi : FindReusableInput ss ctx p1 n (OutputArgNum (n.OutputDefs.take k)) = .ok none)
    (hft : FindReusableTensor ss ctx p1 o = .ok (some r, p2)) :
    ∃ q0, CreatePlanImplAt ss ctx plan ⟨pc, 0, 0⟩ = .ok q0 ∧
      (∃ e ∈ q0.freelist_, e.ml_value = r) ∧ (∃ e ∈ p1.freelist_, e.ml_value = r) ∧
      (∀ e ∈ p2.freelist_, e.ml_value ≠ r) ∧
      (∀ x, buf q0 x = r →
        x ∉ AllReads ss (StepNodes graph ((ScheduledNodes graph order).drop pc))) ∧
      (∀ x, buf q x = r →
        x ∉ AllReads ss (StepNodes graph ((ScheduledNodes graph order).drop pc))) ∧
      buf p cur = r ∧
      (∀ x, (x ∈ InitiallyDefined ss graph ∨
          x ∈ AllWrites ss (StepNodes graph ((ScheduledNodes graph order).take pc)) ∨
          x ∈ ArgIndices ss (n.OutputDefs.take k)) →
        buf p x = buf q x ∧
        (buf p x = r →
          x ∉ AllReads ss (StepNodes graph ((ScheduledNodes graph order).drop pc)))) := by
  obtain ⟨q0, hq0, hsub, hz0, hzq, hroots, hpos, hstable, hdef, hfinal⟩ :=
    CreatePlanImplAt_decision hwf hg ho hlive hp hq hstep hn
  obtain ⟨_, _, _, _, hfl1, _⟩ := modifyAllocPlan_acc h1
  obtain ⟨_, _, _, hres⟩ := FindReusableTensor_acc hft
  obtain ⟨⟨e, he, hev⟩, _⟩ := hres r rfl
  have heq : e ∈ q.freelist_ := hfl1 ▸ he
  have hnotq : ∀ x, buf q x = r →
      x ∉ AllReads ss (StepNodes graph ((ScheduledNodes graph order).drop pc)) := by
    intro x hx hmem
    have := (hpos x hmem).2
    rw [hx, ← hev, hzq.zero e heq] at this
    exact absurd this (by decide)
  refine ⟨q0, hq0, ⟨e, hsub.subset heq, hev⟩, ⟨e, he, hev⟩, ?_, ?_, hnotq,
    hfinal o cur r p1 p2 hk hoe hcur h1 hgo hnt hfi hft, ?_⟩
  · obtain ⟨_, herase⟩ := FindReusableTensor_erase hft
    obtain ⟨pre, e', post, hsplit, hev', hfl2⟩ := herase r rfl
    have hnd := hzq.nodup
    rw [← hfl1, hsplit, List.map_append, List.map_cons, hev'] at hnd
    intro x hx hxr
    rw [hfl2] at hx
    have hmem : r ∈ List.map (fun e => e.ml_value) pre ++ List.map (fun e => e.ml_value) post := by
      rw [← List.map_append]
      exact List.mem_map.mpr ⟨x, hx, hxr⟩
    rcases List.mem_append.mp hmem with hm | hm
    · exact (List.disjoint_of_nodup_append hnd) hm (List.mem_cons_self _ _)
    · exact (List.nodup_cons.mp (List.nodup_append.mp hnd).2.1).1 hm
  · intro x hx hmem
    have := (hpos x hmem).1
    rw [hx, ← hev, hz0.zero e (hsub.subset heq)] at this
    exact absurd this (by decide)
  · intro x hx
    obtain ⟨a, b⟩ := hdef x hx
    have hs := hstable x a b
    exact ⟨hs, fun hxr => hnotq x (hs ▸ hxr)⟩

/-- Witness for C39 on `freelistSession`: in step 2 the output `Q` (value 3) takes the buffer of
`M` (value 1) from the freelist; `M`, read last by step 1, is read by neither step 2 nor step 3,
and `Q` has the root 1 in the end. -/
theorem C39_no_overlap_witness :
    FindReusableTensor freelistSession shapeContext freelistStep2Typed (arg "Q") =
      .ok (some 1, { freelistStep2Typed with freelist_ := [] }) ∧
    buf freelistFinal 3 = 1 ∧
    1 ∉ AllReads freelistSession (StepNodes freelistGraph
      ((ScheduledNodes freelistGraph [0, 1, 2, 3, 4, 5]).drop 2)) ∧
    ∃ q0, CreatePlanImplAt freelistSession shapeContext freshPlan ⟨2, 0, 0⟩ = .ok q0 ∧
      (∃ e ∈ q0.freelist_, e.ml_value = 1) :=
  have c := C39_no_overlap freelistSession shapeContext
    (by decide : WellFormed freelistSession) (rfl : freelistSession.Graph = some freelistGraph)
    (rfl : freelistGraph.NodesInTopologicalOrder = .ok [0, 1, 2, 3, 4, 5])
    (by decide : NoDeadOutputs freelistSession freelistGraph)
    (rfl : CreatePlanImpl freelistSession shapeContext freshPlan = .ok freelistFinal)
    (rfl : (ScheduledNodes freelistGraph [0, 1, 2, 3, 4, 5])[2]? = some ⟨3, 1, 0⟩)
    (rfl : freelistGraph.GetNode 3 =
      some ⟨3, "Abs", "n3", [arg "N"], [arg "Q"], kCpuExecutionProvider⟩)
    (rfl : [arg "Q"][0]? = some (arg "Q")) (rfl : (arg "Q").Exists = true)
    (rfl : freelistSession.GetMLValueIdx (arg "Q").Name = some 3)
    (rfl : CreatePlanImplAt freelistSession shapeContext freshPlan ⟨2, 0, 0⟩ = .ok freelistStep2)
    (rfl : freelistStep2.modifyAllocPlan 3
      (fun a => { a with value_type := some (arg "Q").Type_ }) = .ok freelistStep2Typed)
    (by decide) (by decide)
    (rfl : FindReusableInput freelistSession shapeContext freelistStep2Typed
      ⟨3, "Abs", "n3", [arg "N"], [arg "Q"], kCpuExecutionProvider⟩ 0 = .ok none)
    (rfl : FindReusableTensor freelistSession shapeContext freelistStep2Typed (arg "Q") =
      .ok (some 1, { freelistStep2Typed with freelist_ := [] }))
  c.elim (fun q0 h => ⟨rfl, h.2.2.2.2.2.2.1, h.2.2.2.2.2.1 1 rfl, q0, h.1, h.2.1⟩)

end Lotus
